import Mathlib

/-!
Shallow embedding of the Fibonacci heap implemented in `fib-heap.h` /
`fib-heap.cpp` (class `FibHeap`), together with proofs checking the
specification's claims against it.

Modelling conventions:
* Heap nodes live in a per-heap arena `nodes : List (Nat × Node)`: an
  association list keyed by the allocation id, which plays the role of the
  `Node *` address.  A `FibHeap_ElemAddr` handle is an `Option Nat`
  (`none` = null pointer).
* The circular doubly linked root ring is represented by the list of its
  entries in `right`-order starting at `front`; an empty list is the
  `front == nullptr` state.  Each `RingNode` carries its own allocation id
  `rid` (its address) and the id of the tree root it wraps.
* `FibHeap_ElemType` is C++ `int`; it is modelled as `Int` (the claims are
  about the order structure, not about machine-word overflow).
* `cerr` + `exit(EXIT_FAILURE)` is modelled as an `Except.error` result;
  undefined behaviour (null dereference, dangling pointer dereference,
  out-of-bounds vector indexing) is the distinguished error `Err.ub`.
  Loops that follow pointers take explicit fuel; exhausted fuel is the
  distinguished error `Err.outOfFuel` (never reached from well-formed
  states with the fuel amounts used below).
-/

namespace FibSpec

/-- C++ `FibHeap_ElemType` (= `int`), modelled as an integer. -/
abbrev ElemType := Int

/-- Errors: the three fatal-usage conditions reported by the source with
`cerr` + `exit`, plus markers for undefined behaviour and fuel exhaustion. -/
inductive Err where
  | emptyHeap
  | invalidHandle
  | invalidKeyOrder
  | ub
  | outOfFuel
deriving Repr, DecidableEq

/-- struct `Node` from `fib-heap.h`: child pointers are allocation ids,
`none` being a null slot (hole left by a cut). -/
structure Node where
  value : ElemType
  loser : Bool
  parent : Option Nat
  childIndex : Int
  children : List (Option Nat)
  numChildren : Int
deriving Repr, DecidableEq

/-- struct `RingNode`: `rid` is its own address; `root` the wrapped tree
root.  The `left`/`right` pointers are implicit in the position within the
heap's `ring` list. -/
structure RingNode where
  rid : Nat
  root : Nat
deriving Repr, DecidableEq

/-- The `FibHeap` object.  `ring` lists the root ring in `right` order
starting at `front` (empty list = `front == nullptr`); `minRid` is the
address of the `min` ring node (`none` = null); `roots` models the
`unordered_map<Node *, RingNode *>` (a mapped value of `none` models a
null `RingNode *` produced by `operator[]` default-insertion). -/
structure FibHeap where
  nodes : List (Nat × Node)
  nextId : Nat
  ring : List RingNode
  nextRid : Nat
  minRid : Option Nat
  numElems : Int
  maxDegree : Nat
  roots : List (Nat × Option Nat)
deriving Repr, DecidableEq

/-- Association-list lookup (pointer dereference in the arena). -/
def alook {α : Type} (l : List (Nat × α)) (k : Nat) : Option α :=
  (l.find? (fun p => p.1 == k)).map (fun p => p.2)

/-- Association-list in-place update; touches only the entry at `k`. -/
def aset {α : Type} (l : List (Nat × α)) (k : Nat) (v : α) : List (Nat × α) :=
  l.map (fun p => if p.1 == k then (k, v) else p)

/-- `unordered_map::insert`: no effect when the key is already present. -/
def mapInsert {α : Type} (l : List (Nat × α)) (k : Nat) (v : α) : List (Nat × α) :=
  if (l.find? (fun p => p.1 == k)).isSome then l else l ++ [(k, v)]

/-- `unordered_map::erase`. -/
def mapErase {α : Type} (l : List (Nat × α)) (k : Nat) : List (Nat × α) :=
  l.filter (fun p => p.1 != k)

namespace FibHeap

/-- Dereference a `Node *` that the source assumes to be valid; a dangling
id is undefined behaviour. -/
def getNode (h : FibHeap) (n : Nat) : Except Err Node :=
  match alook h.nodes n with
  | some nd => .ok nd
  | none => .error .ub

/-- Write through a `Node *` (update the node stored at id `n`). -/
def setNode (h : FibHeap) (n : Nat) (nd : Node) : FibHeap :=
  { h with nodes := aset h.nodes n nd }

/-- Dereference a `RingNode *` by its id; dangling id is undefined
behaviour. -/
def getRing (h : FibHeap) (r : Nat) : Except Err RingNode :=
  match h.ring.find? (fun e => e.rid == r) with
  | some e => .ok e
  | none => .error .ub

/-- The ring entry after `rid` (its `right` pointer), in the circular
order that starts at `front`. -/
def cyclicNextRid (ring : List RingNode) (rid : Nat) : Except Err Nat :=
  match ring.findIdx? (fun e => e.rid == rid) with
  | none => .error .ub
  | some i =>
    match ring.get? ((i + 1) % ring.length) with
    | some e => .ok e.rid
    | none => .error .ub

/-- Default constructor `FibHeap::FibHeap()`.  The two `base` arguments
model where the allocator hands out addresses for this instance: C++ `new`
returns globally fresh addresses, so distinct live instances draw from
disjoint ranges. -/
def mkAt (baseNode baseRing : Nat) : FibHeap :=
  { nodes := [], nextId := baseNode, ring := [], nextRid := baseRing,
    minRid := none, numElems := 0, maxDegree := 1, roots := [] }

/-- Default constructor with the allocator starting at address 0. -/
def mk0 : FibHeap := mkAt 0 0

/-- `FibHeap::isEmpty()`: `front == nullptr`. -/
def isEmpty (h : FibHeap) : Bool := h.ring.isEmpty

/-- `FibHeap::size()`. -/
def size (h : FibHeap) : Int := h.numElems

/-- `FibHeap::get_min()`: fails with EmptyHeap on an empty heap, else
reads `min->root->value`. -/
def get_min (h : FibHeap) : Except Err ElemType :=
  if h.isEmpty then .error .emptyHeap
  else
    match h.minRid with
    | none => .error .ub
    | some r => do
      let e ← h.getRing r
      let nd ← h.getNode e.root
      pure nd.value

/-- `FibHeap::get_value(addr)`: fails with InvalidHandle on a null
handle, else dereferences. -/
def get_value (h : FibHeap) (addr : Option Nat) : Except Err ElemType :=
  match addr with
  | none => .error .invalidHandle
  | some n => do
    let nd ← h.getNode n
    pure nd.value

/-- `FibHeap::newNode(value)`: allocate and initialise a fresh node,
returning its address. -/
def newNode (h : FibHeap) (value : ElemType) : FibHeap × Nat :=
  let nd : Node :=
    { value := value, loser := false, parent := none, childIndex := -1,
      children := [], numChildren := 0 }
  ({ h with nodes := h.nodes ++ [(h.nextId, nd)], nextId := h.nextId + 1 }, h.nextId)

/-- `FibHeap::add_root(root)`: reset the node's root bookkeeping, wrap it
in a fresh ring node spliced immediately before `min` (self-loop if the
ring was empty), update `min` when the new root's value is smaller, and
register the pair in `roots`. -/
def add_root (h : FibHeap) (root : Nat) : Except Err FibHeap := do
  let nd ← h.getNode root
  let nd := { nd with loser := false, parent := none, childIndex := -1 }
  let h := h.setNode root nd
  let rid := h.nextRid
  let entry : RingNode := { rid := rid, root := root }
  let h ←
    if h.isEmpty then
      pure { h with ring := [entry], nextRid := rid + 1, minRid := some rid }
    else
      match h.minRid with
      | none => throw Err.ub
      | some m =>
        match h.ring.findIdx? (fun e => e.rid == m) with
        | none => throw Err.ub
        | some i => do
          let ring2 :=
            if i == 0 then h.ring ++ [entry]
            else h.ring.take i ++ entry :: h.ring.drop i
          let h := { h with ring := ring2, nextRid := rid + 1 }
          let mv ← h.get_min
          if nd.value < mv then pure { h with minRid := some rid } else pure h
  pure { h with roots := mapInsert h.roots root (some rid) }

/-- `FibHeap::remove_ringnode(ringNode)`: unlink a ring node, handling the
singleton-ring transition to the empty heap, and erase its root from
`roots`; the tree itself is not freed. -/
def remove_ringnode (h : FibHeap) (r : Option Nat) : Except Err FibHeap := do
  match r with
  | none => pure h
  | some rid =>
    match h.ring.find? (fun e => e.rid == rid) with
    | none => throw Err.ub
    | some e =>
      let h := { h with roots := mapErase h.roots e.root }
      if h.ring.length == 1 then
        pure { h with ring := [], minRid := none }
      else
        match h.ring.findIdx? (fun en => en.rid == rid) with
        | none => throw Err.ub
        | some i => pure { h with ring := h.ring.take i ++ h.ring.drop (i + 1) }

/-- `FibHeap::insert(value)`: new singleton tree added as a root; returns
the handle. -/
def insert (h : FibHeap) (value : ElemType) : Except Err (FibHeap × Nat) := do
  let (h, root) := h.newNode value
  let h ← h.add_root root
  pure ({ h with numElems := h.numElems + 1 }, root)

/-- Body of `FibHeap::merge_trees` once the roles are fixed: the tree at
`rSmall` (root value ≤ the other root's value) adopts the tree at `rBig`
as a new child, `maxDegree` grows if needed, and the absorbed root's ring
node is unlinked.  Returns the surviving ring node's id. -/
def adopt (h : FibHeap) (rSmall rBig : Nat) : Except Err (FibHeap × Nat) := do
  let eS ← h.getRing rSmall
  let eB ← h.getRing rBig
  let t1 ← h.getNode eS.root
  let t2 ← h.getNode eB.root
  let t1 := { t1 with children := t1.children ++ [some eB.root],
                      numChildren := t1.numChildren + 1 }
  let h := h.setNode eS.root t1
  let t2 := { t2 with childIndex := (t1.children.length : Int) - 1,
                      parent := some eS.root }
  let h := h.setNode eB.root t2
  let h := if t1.children.length > h.maxDegree
           then { h with maxDegree := t1.children.length } else h
  let h ← h.remove_ringnode (some rBig)
  pure (h, rSmall)

/-- `FibHeap::merge_trees(r_tree1, r_tree2)`: the root with the smaller
value adopts the other (the source's `else` branch is a tail call with the
arguments swapped, which then takes the adopting branch). -/
def merge_trees (h : FibHeap) (rTree1 rTree2 : Nat) : Except Err (FibHeap × Nat) := do
  let e1 ← h.getRing rTree1
  let e2 ← h.getRing rTree2
  let t1 ← h.getNode e1.root
  let t2 ← h.getNode e2.root
  if t1.value ≤ t2.value then h.adopt rTree1 rTree2
  else h.adopt rTree2 rTree1

/-- Read `trees_by_degree[i]`; indexing a `vector` out of bounds is
undefined behaviour. -/
def bucketGet (b : List (Option Nat)) (i : Nat) : Except Err (Option Nat) :=
  match b.get? i with
  | some v => .ok v
  | none => .error .ub

/-- Write `trees_by_degree[i]`. -/
def bucketSet (b : List (Option Nat)) (i : Nat) (v : Option Nat) :
    Except Err (List (Option Nat)) :=
  if i < b.length then .ok (b.set i v) else .error .ub

/-- Convert the `int degree` to a vector index; a negative degree would
index out of bounds (undefined behaviour). -/
def degreeIdx (d : Int) : Except Err Nat :=
  if d < 0 then .error .ub else .ok d.toNat

/-- Inner `while` loop of the consolidation phase of
`FibHeap::remove_min`: while the bucket for the current degree holds a
different ring node, merge with it, grow the bucket vector if `maxDegree`
grew past it, clear the bucket, and retry one degree higher. -/
def consolidate_while (h : FibHeap) (buckets : List (Option Nat)) (curr : Nat)
    (degree : Nat) : Nat → Except Err (FibHeap × List (Option Nat) × Nat × Nat)
  | 0 => .error .outOfFuel
  | fuel + 1 => do
    let slot ← bucketGet buckets degree
    match slot with
    | none => pure (h, buckets, curr, degree)
    | some b =>
      if b == curr then pure (h, buckets, curr, degree)
      else do
        let (h, curr) ← h.merge_trees curr b
        let buckets := if h.maxDegree ≥ buckets.length then buckets ++ [none] else buckets
        let buckets ← bucketSet buckets degree none
        h.consolidate_while buckets curr (degree + 1) fuel

/-- Outer `for` loop of the consolidation phase: process the ring node
`curr` (which is not `front`), place the survivor in its degree bucket,
then advance to `curr->right` and stop when it is `front`. -/
def consolidate_for (h : FibHeap) (buckets : List (Option Nat)) (curr : Nat) :
    Nat → Except Err FibHeap
  | 0 => .error .outOfFuel
  | fuel + 1 => do
    let e ← h.getRing curr
    let nd ← h.getNode e.root
    let degree ← degreeIdx nd.numChildren
    let (h, buckets, curr, degree) ←
      h.consolidate_while buckets curr degree (h.ring.length + 1)
    let buckets ← bucketSet buckets degree (some curr)
    let next ← cyclicNextRid h.ring curr
    match h.ring.head? with
    | none => throw Err.ub
    | some fr =>
      if next == fr.rid then pure h
      else h.consolidate_for buckets next fuel

/-- Promotion loop of `FibHeap::remove_min`: `add_root` every non-null
child of the extracted minimum. -/
def promote_children (h : FibHeap) : List (Option Nat) → Except Err FibHeap
  | [] => pure h
  | none :: rest => h.promote_children rest
  | some c :: rest => do
    let h ← h.add_root c
    h.promote_children rest

/-- Final scan of `FibHeap::remove_min`: walk the ring from `front->right`
back to `front`, keeping the entry with the smallest root value. -/
def min_scan_go (h : FibHeap) (cur : RingNode) : List RingNode → Except Err Nat
  | [] => pure cur.rid
  | e :: rest => do
    let nd ← h.getNode e.root
    let curNd ← h.getNode cur.root
    if nd.value < curNd.value then h.min_scan_go e rest
    else h.min_scan_go cur rest

/-- `FibHeap::remove_min()`: record the minimum, promote its children,
unlink and free its node, then (unless the heap emptied) consolidate
equal-degree roots and relocate `min`. -/
def remove_min (h : FibHeap) : Except Err (FibHeap × ElemType) := do
  if h.isEmpty then throw Err.emptyHeap
  else
    let oldMin ← h.get_min
    let mrid ←
      match h.minRid with
      | some r => pure r
      | none => throw Err.ub
    let me ← h.getRing mrid
    let minNode ← h.getNode me.root
    let h ← h.promote_children minNode.children
    let h := { h with numElems := h.numElems - 1 }
    let h ← h.remove_ringnode (some mrid)
    let h := { h with nodes := mapErase h.nodes me.root }
    if h.numElems == 0 then
      pure ({ h with ring := [], minRid := none }, oldMin)
    else do
      let fr ←
        match h.ring.head? with
        | some e => pure e
        | none => throw Err.ub
      let frNode ← h.getNode fr.root
      let d0 ← degreeIdx frNode.numChildren
      let buckets ← bucketSet (List.replicate (h.maxDegree + 1) none) d0 (some fr.rid)
      let first ← cyclicNextRid h.ring fr.rid
      let h ←
        if first == fr.rid then pure h
        else h.consolidate_for buckets first ((h.ring.length + 1) * (h.ring.length + 2))
      let fr2 ←
        match h.ring.head? with
        | some e => pure e
        | none => throw Err.ub
      let newMin ← h.min_scan_go fr2 h.ring.tail
      pure ({ h with minRid := some newMin }, oldMin)

/-- The `roots[node]` read in `FibHeap::decrease_val`:
`unordered_map::operator[]` default-inserts a null mapped value when the
key is absent. -/
def rootsIndex (h : FibHeap) (n : Nat) : FibHeap × Option Nat :=
  match alook h.roots n with
  | some v => (h, v)
  | none => ({ h with roots := h.roots ++ [(n, none)] }, none)

/-- Cut / cascading-cut loop of `FibHeap::decrease_val`: detach `curr`
from `parent` (clear the slot, decrement the child count), promote `curr`
to a root, then continue upward while the parent was already a loser;
otherwise mark a non-root parent as loser and stop. -/
def cut_loop (h : FibHeap) (curr : Nat) (parent : Option Nat) :
    Nat → Except Err FibHeap
  | 0 => throw Err.outOfFuel
  | fuel + 1 => do
    match parent with
    | none => pure h
    | some p => do
      let pn ← h.getNode p
      let cn ← h.getNode curr
      let ci ← degreeIdx cn.childIndex
      let slots ← bucketSet pn.children ci none
      let pn := { pn with children := slots, numChildren := pn.numChildren - 1 }
      let h := h.setNode p pn
      let h ← h.add_root curr
      let pn2 ← h.getNode p
      if pn2.loser then h.cut_loop p pn2.parent fuel
      else
        match pn2.parent with
        | some _ => pure (h.setNode p { pn2 with loser := true })
        | none => pure h

/-- `FibHeap::decrease_val(addr, value)`: null handle and non-decreasing
new value are fatal; otherwise overwrite in place, and either just update
`min` (heap order intact) or cut the subtree out with cascading cuts. -/
def decrease_val (h : FibHeap) (addr : Option Nat) (value : ElemType) :
    Except Err FibHeap := do
  match addr with
  | none => throw Err.invalidHandle
  | some n => do
    let nd ← h.getNode n
    if value ≥ nd.value then throw Err.invalidKeyOrder
    else do
      let nd := { nd with value := value }
      let h := h.setNode n nd
      let intact ←
        match nd.parent with
        | none => pure true
        | some p => do
          let pn ← h.getNode p
          pure (decide (pn.value ≤ value))
      if intact then do
        let mv ← h.get_min
        if value < mv then
          let (h, r?) := h.rootsIndex n
          pure { h with minRid := r? }
        else pure h
      else
        h.cut_loop n nd.parent (h.nodes.length + 1)

/-- `FibHeap::delete_elem(addr)`: decrease the value to one below the
current minimum, then extract the minimum.  (`get_min()` is evaluated
before `decrease_val` runs, so an empty heap fails with EmptyHeap before
any handle check.) -/
def delete_elem (h : FibHeap) (addr : Option Nat) : Except Err FibHeap := do
  let mv ← h.get_min
  let h ← h.decrease_val addr (mv - 1)
  let (h, _) ← h.remove_min
  pure h

/-- `FibHeap::change_val(addr_p, value)`: reads `node->value` with no
null-handle check, then delegates to `decrease_val`, or to `delete_elem`
plus a fresh `insert` (returning the new handle), or does nothing on an
equal value. -/
def change_val (h : FibHeap) (addr : Option Nat) (value : ElemType) :
    Except Err (FibHeap × Option Nat) := do
  let n ←
    match addr with
    | some n => pure n
    | none => throw Err.ub
  let nd ← h.getNode n
  if value < nd.value then do
    let h ← h.decrease_val (some n) value
    pure (h, addr)
  else if value > nd.value then do
    let h ← h.delete_elem (some n)
    let (h, newAddr) ← h.insert value
    pure (h, some newAddr)
  else pure (h, addr)

/-- `FibHeap::merge(other)`: destructive ownership transfer.  If `other`
is empty nothing happens; if the receiver is empty it adopts `other`'s
fields; otherwise the rings are stitched end to end, the `roots` maps are
unioned, the counts added and the max degree taken.  `other` is then reset
to the empty state — but its `roots` map is left as is (the source resets
only `front`, `min`, `numElems`, `maxDegree`).  The node arena moves to
the receiver, which also inherits the larger allocator bases. -/
def merge (h other : FibHeap) : FibHeap × FibHeap :=
  if other.isEmpty then (h, other)
  else
    let h2 :=
      if h.isEmpty then
        { h with nodes := h.nodes ++ other.nodes,
                 nextId := max h.nextId other.nextId,
                 nextRid := max h.nextRid other.nextRid,
                 ring := other.ring, minRid := other.minRid,
                 numElems := other.numElems, maxDegree := other.maxDegree,
                 roots := other.roots }
      else
        { h with nodes := h.nodes ++ other.nodes,
                 nextId := max h.nextId other.nextId,
                 nextRid := max h.nextRid other.nextRid,
                 ring := h.ring ++ other.ring,
                 roots := other.roots.foldl (fun acc p => mapInsert acc p.1 p.2) h.roots,
                 numElems := h.numElems + other.numElems,
                 maxDegree := if other.maxDegree > h.maxDegree
                              then other.maxDegree else h.maxDegree }
    let other2 := { other with nodes := [], ring := [], minRid := none,
                               numElems := 0, maxDegree := 2 }
    (h2, other2)

/-- `FibHeap::delete_subtree(root)` together with its loop over the
`children` vector, defunctionalised into a single recursion on a worklist
(the head is the subtree currently being freed, the tail the pending
sibling slots): each subtree's children are freed recursively, then the
node itself, then the remaining siblings — the source's deletion order.
Fuel bounds the total number of recursion steps. -/
def delete_walk (h : FibHeap) (todo : List (Option Nat)) (fuel : Nat) :
    Except Err FibHeap :=
  match fuel with
  | 0 => throw Err.outOfFuel
  | fuel + 1 =>
    match todo with
    | [] => pure h
    | none :: rest => h.delete_walk rest fuel
    | some r :: rest => do
      let nd ← h.getNode r
      let h ← h.delete_walk nd.children fuel
      let h := { h with nodes := mapErase h.nodes r }
      h.delete_walk rest fuel

/-- `FibHeap::delete_subtree(root)`: free a node and all its
descendants. -/
def delete_subtree (h : FibHeap) (root : Option Nat) (fuel : Nat) :
    Except Err FibHeap :=
  h.delete_walk [root] fuel

/-- `FibHeap::clear()`: on a non-empty heap, free every tree walking the
ring leftwards from `front->left` back to `front`, free the ring nodes,
and reset `front`/`min`/`numElems`/`maxDegree` (the latter to 2; `roots`
is left untouched by the source). -/
def clear (h : FibHeap) : Except Err FibHeap := do
  if h.isEmpty then pure h
  else do
    let order := h.ring.tail.reverse ++ h.ring.take 1
    let h ← order.foldlM
      (fun acc e =>
        acc.delete_subtree (some e.root) ((acc.nodes.length + 1) * (acc.maxDegree + 2))) h
    pure { h with ring := [], minRid := none, numElems := 0, maxDegree := 2 }

/-- `FibHeap::find_in_subtree(node, value)` together with its loop over
the `children` vector, defunctionalised into a single recursion on a
worklist (head = subtree currently searched, tail = pending sibling
slots).  The search order and the pruning rule (skip a subtree whose root
exceeds the target) are exactly the source's: pre-order, first match
wins.  Fuel bounds the total number of recursion steps. -/
def find_walk (h : FibHeap) (todo : List (Option Nat)) (value : ElemType)
    (fuel : Nat) : Except Err (Option Nat) :=
  match fuel with
  | 0 => throw Err.outOfFuel
  | fuel + 1 =>
    match todo with
    | [] => pure none
    | none :: rest => h.find_walk rest value fuel
    | some n :: rest => do
      let nd ← h.getNode n
      if nd.value ≤ value then
        if nd.value == value then pure (some n)
        else
          match ← h.find_walk nd.children value fuel with
          | some x => pure (some x)
          | none => h.find_walk rest value fuel
      else h.find_walk rest value fuel

/-- `FibHeap::find_in_subtree(node, value)`: pre-order search that prunes
a subtree as soon as its root's value exceeds the target. -/
def find_in_subtree (h : FibHeap) (node : Option Nat) (value : ElemType)
    (fuel : Nat) : Except Err (Option Nat) :=
  h.find_walk [node] value fuel

/-- Tree-by-tree loop of `FibHeap::get_address`. -/
def get_address_go (h : FibHeap) (value : ElemType) :
    List RingNode → Except Err (Option Nat)
  | [] => pure none
  | e :: rest => do
    let r ← h.find_in_subtree (some e.root) value ((h.nodes.length + 1) * (h.maxDegree + 2))
    match r with
    | some x => pure (some x)
    | none => h.get_address_go value rest

/-- `FibHeap::get_address(value)`: search the first tree, then the
remaining trees in ring order; `none` when the value is absent. -/
def get_address (h : FibHeap) (value : ElemType) : Except Err (Option Nat) :=
  match h.ring with
  | [] => pure none
  | _ => h.get_address_go value h.ring

/-- Secondary constructor `FibHeap(arr, size)`: bulk build by repeated
insertion. -/
def fromList (l : List ElemType) : Except Err FibHeap :=
  l.foldlM (fun h v => do
    let (h, _) ← h.insert v
    pure h) mk0

/-!
### Specification-level predicates

These are not part of the source translation: they capture, as decidable
checks over the model state, the structural invariants that the source's
own validator (`FibHeap::valid`) demands, and are used as hypotheses and
conclusions of the theorems below.
-/

/-- Number of parent-pointer steps from node `k` up to its tree root
(`none` when a dangling pointer is hit or the fuel runs out, which under
`Inv` never happens with fuel `nodes.length + 1`). -/
def chainDepth (h : FibHeap) : Nat → Nat → Option Nat
  | 0, _ => none
  | fuel + 1, k =>
    match alook h.nodes k with
    | none => none
    | some nd =>
      match nd.parent with
      | none => some 0
      | some p => (h.chainDepth fuel p).map (· + 1)

/-- The list of nodes on the parent chain from `k` up to its root
(`chainDepth` is its length minus one). -/
def chainList (h : FibHeap) : Nat → Nat → Option (List Nat)
  | 0, _ => none
  | fuel + 1, k =>
    match alook h.nodes k with
    | none => none
    | some nd =>
      match nd.parent with
      | none => some [k]
      | some p => (h.chainList fuel p).map (k :: ·)

/-- Allocator consistency: live node ids are distinct and below
`nextId`. -/
def allocOk (h : FibHeap) : Bool :=
  (h.nodes.map (fun p => p.1)).Nodup && h.nodes.all (fun p => p.1 < h.nextId)

/-- Ring consistency: ring ids are distinct and below `nextRid`, every
ring entry wraps a live parentless node, and `roots` maps that node to
this entry (spec invariant 5, receiver side). -/
def ringOk (h : FibHeap) : Bool :=
  (h.ring.map (fun e => e.rid)).Nodup &&
  h.ring.all (fun e => e.rid < h.nextRid) &&
  h.ring.all (fun e =>
    match alook h.nodes e.root with
    | none => false
    | some nd => nd.parent == none) &&
  h.ring.all (fun e => alook h.roots e.root == some (some e.rid))

/-- `front`/`min` nullity: both absent on an empty ring, and `min` names
a live ring entry otherwise. -/
def minPresentOk (h : FibHeap) : Bool :=
  match h.ring, h.minRid with
  | [], none => true
  | [], some _ => false
  | _ :: _, some m => h.ring.any (fun e => e.rid == m)
  | _ :: _, none => false

/-- Local per-node consistency: child slots point to live nodes that
point back (parent and childIndex), heap order holds on every edge,
`numChildren` counts the non-null slots, the slot vector never exceeds
`maxDegree`, and a parentless node is exactly a ring root (with
childIndex −1) while a non-root occupies the slot its childIndex names. -/
def nodeLocalOk (h : FibHeap) (k : Nat) (nd : Node) : Bool :=
  nd.children.enum.all (fun ic =>
    match ic.2 with
    | none => true
    | some c =>
      match alook h.nodes c with
      | none => false
      | some cnd =>
        cnd.parent == some k && cnd.childIndex == (ic.1 : Int) &&
        decide (nd.value ≤ cnd.value)) &&
  nd.numChildren == ((nd.children.filter (fun c => c.isSome)).length : Int) &&
  decide (nd.children.length ≤ h.maxDegree) &&
  (match nd.parent with
   | none => nd.childIndex == (-1 : Int) && h.ring.any (fun e => e.root == k)
   | some p =>
     match alook h.nodes p with
     | none => false
     | some pn =>
       decide (0 ≤ nd.childIndex) &&
       pn.children.get? nd.childIndex.toNat == some (some k))

/-- Bookkeeping of the `roots` map beyond the ring clauses: a live
non-root node has no `roots` entry (the source erases the entry whenever a
node stops being a root of a live heap), and all keys — including entries
left stale by `merge` — are below `nextId`. -/
def rootsOk (h : FibHeap) : Bool :=
  h.nodes.all (fun q =>
    match q.2.parent with
    | some _ => (alook h.roots q.1).isNone
    | none => true) &&
  h.roots.all (fun q => q.1 < h.nextId)

/-- The structural invariant: allocator, ring, min presence, size
bookkeeping, roots-map bookkeeping, local consistency of every node, and
termination of every parent chain. -/
def Inv (h : FibHeap) : Bool :=
  h.allocOk && h.ringOk && h.minPresentOk && h.rootsOk &&
  h.numElems == (h.nodes.length : Int) &&
  h.nodes.all (fun p => h.nodeLocalOk p.1 p.2) &&
  h.nodes.all (fun p => (h.chainDepth (h.nodes.length + 1) p.1).isSome)

/-- Minimum correctness: `get_min` succeeds on a non-empty heap and its
result is a lower bound of every live value (spec invariant 2).  This is
the one clause `merge` fails to maintain. -/
def minValOk (h : FibHeap) : Bool :=
  match h.ring with
  | [] => true
  | _ :: _ =>
    match h.get_min with
    | .ok mv => h.nodes.all (fun p => decide (mv ≤ p.2.value))
    | .error _ => false

/-- The full invariant checked by the source's validator. -/
def MInv (h : FibHeap) : Bool := h.Inv && h.minValOk

/-- The multiset of live values (the arena holds exactly the live
nodes). -/
def vals (h : FibHeap) : Multiset ElemType :=
  (h.nodes.map (fun p => p.2.value) : List ElemType)

/-- The association of live node ids to the values they hold; operations
that only restructure the heap leave it unchanged. -/
def valueMap (h : FibHeap) : List (Nat × ElemType) :=
  h.nodes.map (fun p => (p.1, p.2.value))

/-- Heap order (spec invariant 1): every live node with a parent has a
live parent whose value is no larger. -/
def heapOrderOk (h : FibHeap) : Bool :=
  h.nodes.all (fun q =>
    match q.2.parent with
    | none => true
    | some p =>
      match alook h.nodes p with
      | none => false
      | some pn => decide (pn.value ≤ q.2.value))

/-- The degrees (child counts) of the trees in the root ring, in ring
order; `none` marks a dangling root pointer. -/
def ringDegrees (h : FibHeap) : List (Option Int) :=
  h.ring.map (fun e => (alook h.nodes e.root).map (fun nd => nd.numChildren))

/-- Driver: insert the values of a list one by one (the build loop of the
claims' scenarios). -/
def insertAll (h : FibHeap) : List ElemType → Except Err (FibHeap)
  | [] => pure h
  | v :: rest => do
    let (h, _) ← h.insert v
    h.insertAll rest

/-- Driver: repeatedly `remove_min` until the heap is empty, collecting
the extracted values in call order. -/
def extractAll (h : FibHeap) : Nat → Except Err (List ElemType)
  | 0 => throw Err.outOfFuel
  | fuel + 1 =>
    if h.isEmpty then pure []
    else do
      let (h, v) ← h.remove_min
      let rest ← h.extractAll fuel
      pure (v :: rest)

end FibHeap

/-- The structural core of `Inv` without the `front`/`min` clauses: the
intermediate states of `remove_min` (between unlinking the old minimum
and relocating `min`) satisfy exactly this. -/
def CoreInv (h : FibHeap) : Prop :=
  h.allocOk = true ∧ h.ringOk = true ∧ h.rootsOk = true ∧
  h.numElems = (h.nodes.length : Int) ∧
  (∀ p ∈ h.nodes, h.nodeLocalOk p.1 p.2 = true) ∧
  (∀ p ∈ h.nodes, (h.chainDepth (h.nodes.length + 1) p.1).isSome = true)

/-- The core invariant weakened at one node `m` (the minimum being
extracted): during the child-promotion phase of `remove_min`, `m`'s own
child-slot bookkeeping is stale while everything else stays intact. -/
def PromCore (h : FibHeap) (m : Nat) : Prop :=
  h.allocOk = true ∧ h.ringOk = true ∧ h.rootsOk = true ∧
  h.numElems = (h.nodes.length : Int) ∧
  (∀ p ∈ h.nodes, p.1 ≠ m → h.nodeLocalOk p.1 p.2 = true) ∧
  (∀ p ∈ h.nodes, (h.chainDepth (h.nodes.length + 1) p.1).isSome = true)

/-- Validity of the consolidation buckets: the vector tracks `maxDegree`,
and an occupied slot holds a live ring entry whose tree's degree is the
slot index. -/
def BInv (h : FibHeap) (buckets : List (Option Nat)) : Prop :=
  buckets.length = h.maxDegree + 1 ∧
  ∀ d r, buckets.get? d = some (some r) →
    ∃ e nd, e ∈ h.ring ∧ e.rid = r ∧ alook h.nodes e.root = some nd ∧
      nd.numChildren = (d : Int)

/-- A ring entry is registered in the consolidation buckets: the slot at
its tree's degree holds its id. -/
def Bucketed (h : FibHeap) (buckets : List (Option Nat)) (e : RingNode) : Prop :=
  ∃ nd, alook h.nodes e.root = some nd ∧ 0 ≤ nd.numChildren ∧
    buckets.get? nd.numChildren.toNat = some (some e.rid)

/-- A ring id that appears in no consolidation bucket. -/
def Unbucketed (buckets : List (Option Nat)) (r : Nat) : Prop :=
  ∀ d, buckets.get? d ≠ some (some r)

/-- Descendant relation: `InSub h n k` holds when `k` lies in the subtree
rooted at `n` (following child slots). -/
inductive InSub (h : FibHeap) : Nat → Nat → Prop
  | refl (n : Nat) : InSub h n n
  | step (n : Nat) (nd : Node) (i : Nat) (c k : Nat) :
      alook h.nodes n = some nd → nd.children.get? i = some (some c) →
      InSub h c k → InSub h n k

/-- Fuel sufficient for `find_walk` on a worklist: `NeedW h todo w` means
`w` recursion steps let the walk finish without running out of fuel. -/
inductive NeedW (h : FibHeap) : List (Option Nat) → Nat → Prop
  | nil : NeedW h [] 1
  | cons_none (rest : List (Option Nat)) (w : Nat) :
      NeedW h rest w → NeedW h (none :: rest) (w + 1)
  | cons_some (n : Nat) (nd : Node) (rest : List (Option Nat)) (w1 w2 : Nat) :
      alook h.nodes n = some nd → NeedW h nd.children w1 → NeedW h rest w2 →
      NeedW h (some n :: rest) (max w1 w2 + 1)

/-! ### Small helpers for computing with `Except` -/

instance {ε α : Type} [DecidableEq ε] [DecidableEq α] : DecidableEq (Except ε α) :=
  fun a b =>
    match a, b with
    | .ok x, .ok y =>
      if h : x = y then .isTrue (by rw [h])
      else .isFalse (by intro hh; cases hh; exact h rfl)
    | .error e, .error e2 =>
      if h : e = e2 then .isTrue (by rw [h])
      else .isFalse (by intro hh; cases hh; exact h rfl)
    | .ok _, .error _ => .isFalse (by intro hh; cases hh)
    | .error _, .ok _ => .isFalse (by intro hh; cases hh)

@[simp] theorem eok_bind {ε α β : Type} (a : α) (f : α → Except ε β) :
    (Except.ok a >>= f) = f a := rfl

@[simp] theorem eerr_bind {ε α β : Type} (e : ε) (f : α → Except ε β) :
    ((Except.error e : Except ε α) >>= f) = Except.error e := rfl

@[simp] theorem epure_def {ε α : Type} (a : α) :
    (pure a : Except ε α) = Except.ok a := rfl

@[simp] theorem ethrow_def {ε α : Type} (e : ε) :
    (throw e : Except ε α) = Except.error e := rfl

/-! ### Association-list lemmas -/

theorem alook_nil {α : Type} (k : Nat) : alook ([] : List (Nat × α)) k = none := rfl

theorem alook_cons {α : Type} (p : Nat × α) (l : List (Nat × α)) (k : Nat) :
    alook (p :: l) k = if p.1 = k then some p.2 else alook l k := by
  simp only [alook, List.find?]
  by_cases hk : p.1 = k
  · simp [hk]
  · have hb : (p.1 == k) = false := by simp [hk]
    simp [hb, hk]

theorem alook_append {α : Type} (l l2 : List (Nat × α)) (k : Nat) :
    alook (l ++ l2) k =
      match alook l k with
      | some v => some v
      | none => alook l2 k := by
  induction l with
  | nil => simp [alook_nil]
  | cons p rest ih =>
    rw [List.cons_append, alook_cons, alook_cons]
    by_cases hk : p.1 = k
    · simp [hk]
    · simp only [hk, if_false]
      exact ih

theorem alook_eq_none {α : Type} (l : List (Nat × α)) (k : Nat)
    (h : ∀ p ∈ l, p.1 ≠ k) : alook l k = none := by
  induction l with
  | nil => rfl
  | cons p rest ih =>
    rw [alook_cons, if_neg (h p (List.mem_cons_self p rest))]
    exact ih (fun q hq => h q (List.mem_cons_of_mem p hq))

theorem alook_aset_ne {α : Type} (l : List (Nat × α)) (k k' : Nat) (v : α)
    (h : k ≠ k') : alook (aset l k v) k' = alook l k' := by
  induction l with
  | nil => rfl
  | cons p rest ih =>
    simp only [aset, List.map_cons]
    by_cases hp : p.1 = k
    · rw [if_pos (by simpa using hp), alook_cons, alook_cons]
      simp only [hp]
      rw [if_neg h, if_neg h]
      exact ih
    · rw [if_neg (by simpa using hp), alook_cons, alook_cons]
      by_cases hp' : p.1 = k'
      · simp [hp']
      · rw [if_neg hp', if_neg hp']
        exact ih

theorem alook_aset_self {α : Type} (l : List (Nat × α)) (k : Nat) (v : α)
    (h : (alook l k).isSome) : alook (aset l k v) k = some v := by
  induction l with
  | nil => simp [alook_nil] at h
  | cons p rest ih =>
    simp only [aset, List.map_cons]
    by_cases hp : p.1 = k
    · rw [if_pos (by simpa using hp), alook_cons]
      simp
    · rw [if_neg (by simpa using hp), alook_cons, if_neg hp]
      rw [alook_cons, if_neg hp] at h
      exact ih h

theorem alook_aset_of_absent {α : Type} (l : List (Nat × α)) (k k' : Nat) (v : α)
    (h : alook l k = none) : alook (aset l k v) k' = alook l k' := by
  induction l with
  | nil => rfl
  | cons p rest ih =>
    rw [alook_cons] at h
    by_cases hp : p.1 = k
    · rw [if_pos hp] at h; cases h
    · rw [if_neg hp] at h
      simp only [aset, List.map_cons]
      rw [if_neg (by simpa using hp)]
      rw [alook_cons, alook_cons]
      by_cases hp' : p.1 = k'
      · simp [hp']
      · rw [if_neg hp', if_neg hp']
        exact ih h

theorem alook_mapInsert_ne {α : Type} (l : List (Nat × α)) (k k' : Nat) (v : α)
    (h : k ≠ k') : alook (mapInsert l k v) k' = alook l k' := by
  unfold mapInsert
  by_cases hp : (l.find? (fun p => p.1 == k)).isSome
  · rw [if_pos hp]
  · rw [if_neg hp, alook_append]
    cases hl : alook l k' with
    | some w => rfl
    | none =>
      simp only [alook_cons, alook_nil]
      rw [if_neg h]

theorem alook_length_aset {α : Type} (l : List (Nat × α)) (k : Nat) (v : α) :
    (aset l k v).length = l.length := by
  simp [aset]

/-! ### Ring and index lemmas -/

theorem findIdx?_of_find? {α : Type} (p : α → Bool) (l : List α) (e : α)
    (s : Nat) (h : l.find? p = some e) :
    ∃ j, l.findIdx? p s = some (s + j) ∧ l.get? j = some e ∧ p e = true := by
  induction l generalizing s with
  | nil => cases h
  | cons a rest ih =>
    by_cases hp : p a
    · rw [List.find?_cons_of_pos _ hp] at h
      cases h
      exact ⟨0, by simp [List.findIdx?_cons, hp], rfl, hp⟩
    · rw [List.find?_cons_of_neg _ hp] at h
      obtain ⟨j, hidx, hget, hpe⟩ := ih (s + 1) h
      refine ⟨j + 1, ?_, hget, hpe⟩
      rw [List.findIdx?_cons, if_neg hp, hidx]
      congr 1
      omega

/-! ### Projection lemmas for the primitive state updates -/

theorem getNode_eq_ok (h : FibHeap) (n : Nat) (nd : Node)
    (hl : alook h.nodes n = some nd) : h.getNode n = .ok nd := by
  simp [FibHeap.getNode, hl]

@[simp] theorem setNode_ring (h : FibHeap) (n : Nat) (nd : Node) :
    (h.setNode n nd).ring = h.ring := rfl

@[simp] theorem setNode_minRid (h : FibHeap) (n : Nat) (nd : Node) :
    (h.setNode n nd).minRid = h.minRid := rfl

@[simp] theorem setNode_roots (h : FibHeap) (n : Nat) (nd : Node) :
    (h.setNode n nd).roots = h.roots := rfl

@[simp] theorem setNode_nextId (h : FibHeap) (n : Nat) (nd : Node) :
    (h.setNode n nd).nextId = h.nextId := rfl

@[simp] theorem setNode_nextRid (h : FibHeap) (n : Nat) (nd : Node) :
    (h.setNode n nd).nextRid = h.nextRid := rfl

@[simp] theorem setNode_numElems (h : FibHeap) (n : Nat) (nd : Node) :
    (h.setNode n nd).numElems = h.numElems := rfl

@[simp] theorem setNode_maxDegree (h : FibHeap) (n : Nat) (nd : Node) :
    (h.setNode n nd).maxDegree = h.maxDegree := rfl

@[simp] theorem setNode_nodes (h : FibHeap) (n : Nat) (nd : Node) :
    (h.setNode n nd).nodes = aset h.nodes n nd := rfl

/-- Characterization of a successful `get_min`. -/
theorem get_min_ok_iff (h : FibHeap) (mv : ElemType) :
    h.get_min = .ok mv ↔
      h.ring ≠ [] ∧ ∃ m e ndm, h.minRid = some m ∧
        h.ring.find? (fun en => en.rid == m) = some e ∧
        alook h.nodes e.root = some ndm ∧ ndm.value = mv := by
  constructor
  · intro hg
    unfold FibHeap.get_min at hg
    by_cases he : h.isEmpty
    · rw [if_pos he] at hg; cases hg
    · rw [if_neg he] at hg
      have hne : h.ring ≠ [] := by
        simpa [FibHeap.isEmpty, List.isEmpty_iff] using he
      cases hm : h.minRid with
      | none => rw [hm] at hg; cases hg
      | some m =>
        rw [hm] at hg
        dsimp only at hg
        cases hf : h.ring.find? (fun en => en.rid == m) with
        | none =>
          rw [show h.getRing m = .error .ub by simp [FibHeap.getRing, hf]] at hg
          cases hg
        | some e =>
          rw [show h.getRing m = .ok e by simp [FibHeap.getRing, hf]] at hg
          simp only [eok_bind] at hg
          cases hn : alook h.nodes e.root with
          | none =>
            rw [show h.getNode e.root = .error .ub by simp [FibHeap.getNode, hn]] at hg
            cases hg
          | some ndm =>
            rw [getNode_eq_ok h e.root ndm hn] at hg
            simp only [eok_bind, epure_def, Except.ok.injEq] at hg
            exact ⟨hne, m, e, ndm, rfl, hf, hn, hg⟩
  · rintro ⟨hne, m, e, ndm, hm, hf, hn, hv⟩
    unfold FibHeap.get_min
    rw [if_neg (by simpa [FibHeap.isEmpty, List.isEmpty_iff] using hne), hm]
    dsimp only
    rw [show h.getRing m = .ok e by simp [FibHeap.getRing, hf]]
    simp only [eok_bind]
    rw [getNode_eq_ok h e.root ndm hn]
    simp [hv]

/-- Inserting an entry whose predicate is false does not change a
`find?` over the spliced list. -/
theorem find?_splice {α : Type} (p : α → Bool) (l : List α) (x : α) (j : Nat)
    (hx : p x = false) :
    (l.take j ++ x :: l.drop j).find? p = l.find? p := by
  rw [List.find?_append, List.find?_cons_of_neg _ (by simp [hx])]
  rw [← List.find?_append, List.take_append_drop]

/-- Stability of `get_min` under an in-place node field update that keeps
the value, plus a ring change that does not disturb the `find?` for the
minimum's ring id. -/
theorem get_min_stable (h g : FibHeap) (root : Nat) (nd ndX : Node)
    (mv : ElemType) (hgm : h.get_min = .ok mv)
    (hnd : alook h.nodes root = some nd)
    (hvx : ndX.value = nd.value)
    (hgn : g.nodes = aset h.nodes root ndX)
    (hgmr : g.minRid = h.minRid)
    (hfind : ∀ m, h.minRid = some m →
      g.ring.find? (fun en => en.rid == m) = h.ring.find? (fun en => en.rid == m))
    (hgne : g.ring ≠ []) :
    g.get_min = .ok mv := by
  obtain ⟨-, m, e, ndm, hm, hf, hn, hv⟩ := (get_min_ok_iff h mv).1 hgm
  rw [get_min_ok_iff]
  refine ⟨hgne, m, e, ?_⟩
  by_cases her : e.root = root
  · have hndm : ndm = nd := by
      rw [her, hnd] at hn
      exact (Option.some_inj.1 hn).symm
    refine ⟨ndX, by rw [hgmr, hm], by rw [hfind m hm]; exact hf, ?_, ?_⟩
    · rw [hgn, her]
      exact alook_aset_self _ _ _ (by simp [hnd])
    · rw [hvx, ← hv, hndm]
  · refine ⟨ndm, by rw [hgmr, hm], by rw [hfind m hm]; exact hf, ?_, hv⟩
    rw [hgn, alook_aset_ne _ _ _ _ (fun hc => her hc.symm)]
    exact hn

/-- Full characterization of a successful `add_root`: the node's root
bookkeeping is reset in place, a fresh ring entry appears strictly after
the front (self-loop when the ring was empty), `min` is updated exactly
when the new root's value beats the old minimum, and the `roots` map
gains the pair.  Nothing else changes. -/
theorem add_root_spec (h : FibHeap) (root : Nat) (nd : Node)
    (hnd : alook h.nodes root = some nd)
    (hrid : ∀ en ∈ h.ring, en.rid ≠ h.nextRid)
    (hmin : h.ring = [] ∨ ∃ mv, h.get_min = .ok mv) :
    ∃ h', h.add_root root = .ok h' ∧
      h'.nodes = aset h.nodes root
        { nd with loser := false, parent := none, childIndex := -1 } ∧
      h'.nextId = h.nextId ∧
      h'.numElems = h.numElems ∧
      h'.maxDegree = h.maxDegree ∧
      h'.nextRid = h.nextRid + 1 ∧
      h'.roots = mapInsert h.roots root (some h.nextRid) ∧
      ((h.ring = [] ∧ h'.ring = [{ rid := h.nextRid, root := root }] ∧
          h'.minRid = some h.nextRid) ∨
       (∃ j mv, 1 ≤ j ∧ j ≤ h.ring.length ∧
          h'.ring = h.ring.take j ++ { rid := h.nextRid, root := root } :: h.ring.drop j ∧
          h.get_min = .ok mv ∧
          h'.minRid = if nd.value < mv then some h.nextRid else h.minRid)) := by
  unfold FibHeap.add_root
  rw [getNode_eq_ok h root nd hnd]
  simp only [eok_bind, setNode_nextRid]
  by_cases hE : h.ring = []
  · have hEmpty : (h.setNode root
        { nd with loser := false, parent := none, childIndex := -1 }).isEmpty = true := by
      simp [FibHeap.isEmpty, hE]
    rw [if_pos hEmpty]
    simp only [eok_bind, epure_def]
    exact ⟨_, rfl, rfl, rfl, rfl, rfl, rfl, rfl, Or.inl ⟨hE, rfl, rfl⟩⟩
  · obtain ⟨mv, hgm⟩ := hmin.resolve_left hE
    obtain ⟨-, m, e, ndm, hm, hf, hn, hv⟩ := (get_min_ok_iff h mv).1 hgm
    have hNE : (h.setNode root
        { nd with loser := false, parent := none, childIndex := -1 }).isEmpty = false := by
      simp [FibHeap.isEmpty, List.isEmpty_iff, hE]
    rw [if_neg (by simp [hNE]), show (h.setNode root
        { nd with loser := false, parent := none, childIndex := -1 }).minRid
        = some m from hm]
    dsimp only
    obtain ⟨j0, hidx, hget, hpe⟩ :=
      findIdx?_of_find? (fun en => en.rid == m) h.ring e 0 hf
    rw [Nat.zero_add] at hidx
    rw [show (h.setNode root
        { nd with loser := false, parent := none, childIndex := -1 }).ring
        = h.ring from rfl, hidx]
    dsimp only
    have hjlen : j0 < h.ring.length := (List.get?_eq_some.1 hget).1
    have hpentry :
        ((fun en => en.rid == m) ({ rid := h.nextRid, root := root } : RingNode)) = false := by
      have hmne : m ≠ h.nextRid := by
        intro hc
        refine hrid e (List.mem_of_find?_eq_some hf) ?_
        have := List.find?_some hf
        simp only [beq_iff_eq] at this
        rw [this, hc]
      simp only [beq_iff_eq]
      simpa using fun hc => hmne hc.symm
    by_cases hj0 : j0 = 0
    · rw [if_pos (by simp [hj0])]
      have hsplice : h.ring ++ [({ rid := h.nextRid, root := root } : RingNode)] =
          h.ring.take h.ring.length ++
            ({ rid := h.nextRid, root := root } : RingNode) :: h.ring.drop h.ring.length := by
        simp
      rw [hsplice]
      have hg2 : (FibHeap.mk
          (aset h.nodes root { nd with loser := false, parent := none, childIndex := -1 })
          h.nextId
          (h.ring.take h.ring.length ++
            ({ rid := h.nextRid, root := root } : RingNode) :: h.ring.drop h.ring.length)
          (h.nextRid + 1) (some m) h.numElems h.maxDegree h.roots).get_min = .ok mv := by
        refine get_min_stable h _ root nd ({ nd with loser := false, parent := none, childIndex := -1 }) mv hgm hnd rfl rfl hm.symm
          (fun m' hm' => find?_splice _ _ _ _ (by
            rw [hm] at hm'
            cases hm'
            exact hpentry))
          (by simp)
      rw [show (h.setNode root
          { nd with loser := false, parent := none, childIndex := -1 }) =
          FibHeap.mk
            (aset h.nodes root { nd with loser := false, parent := none, childIndex := -1 })
            h.nextId h.ring h.nextRid h.minRid h.numElems h.maxDegree h.roots from rfl]
      dsimp only
      rw [hg2]
      simp only [eok_bind]
      by_cases hlt : nd.value < mv
      · rw [if_pos (by simpa using hlt)]
        simp only [epure_def, eok_bind]
        exact ⟨_, rfl, rfl, rfl, rfl, rfl, rfl, rfl,
          Or.inr ⟨h.ring.length, mv,
            by have := List.length_pos.2 hE; omega, le_refl _, rfl, hgm,
            by rw [if_pos hlt]⟩⟩
      · rw [if_neg (by simpa using hlt)]
        simp only [epure_def, eok_bind]
        exact ⟨_, rfl, rfl, rfl, rfl, rfl, rfl, rfl,
          Or.inr ⟨h.ring.length, mv,
            by have := List.length_pos.2 hE; omega, le_refl _, rfl, hgm,
            by rw [if_neg hlt]; exact hm.symm⟩⟩
    · rw [if_neg (by simp [hj0])]
      have hg2 : (FibHeap.mk
          (aset h.nodes root { nd with loser := false, parent := none, childIndex := -1 })
          h.nextId
          (h.ring.take j0 ++
            ({ rid := h.nextRid, root := root } : RingNode) :: h.ring.drop j0)
          (h.nextRid + 1) (some m) h.numElems h.maxDegree h.roots).get_min = .ok mv := by
        refine get_min_stable h _ root nd ({ nd with loser := false, parent := none, childIndex := -1 }) mv hgm hnd rfl rfl hm.symm
          (fun m' hm' => find?_splice _ _ _ _ (by
            rw [hm] at hm'
            cases hm'
            exact hpentry))
          (by simp)
      rw [show (h.setNode root
          { nd with loser := false, parent := none, childIndex := -1 }) =
          FibHeap.mk
            (aset h.nodes root { nd with loser := false, parent := none, childIndex := -1 })
            h.nextId h.ring h.nextRid h.minRid h.numElems h.maxDegree h.roots from rfl]
      dsimp only
      rw [hg2]
      simp only [eok_bind]
      by_cases hlt : nd.value < mv
      · rw [if_pos (by simpa using hlt)]
        simp only [epure_def, eok_bind]
        exact ⟨_, rfl, rfl, rfl, rfl, rfl, rfl, rfl,
          Or.inr ⟨j0, mv, by omega, le_of_lt hjlen, rfl, hgm, by rw [if_pos hlt]⟩⟩
      · rw [if_neg (by simpa using hlt)]
        simp only [epure_def, eok_bind]
        exact ⟨_, rfl, rfl, rfl, rfl, rfl, rfl, rfl,
          Or.inr ⟨j0, mv, by omega, le_of_lt hjlen, rfl, hgm, by rw [if_neg hlt]; exact hm.symm⟩⟩

theorem alook_isSome_of_mem {α : Type} (l : List (Nat × α)) (p : Nat × α)
    (hp : p ∈ l) : (alook l p.1).isSome := by
  induction l with
  | nil => cases hp
  | cons q rest ih =>
    rw [alook_cons]
    by_cases hq : q.1 = p.1
    · simp [hq]
    · rw [if_neg hq]
      cases List.mem_cons.1 hp with
      | inl he => exact absurd (he ▸ rfl) hq
      | inr hm => exact ih hm

theorem alook_append_of_isSome {α : Type} (l l2 : List (Nat × α)) (k : Nat)
    (hs : (alook l k).isSome) : alook (l ++ l2) k = alook l k := by
  rw [alook_append]
  cases hl : alook l k with
  | some v => rfl
  | none => rw [hl] at hs; cases hs

/-! ### Concrete heaps used as evaluation points -/

/-- The heap obtained by inserting 5 into a fresh empty heap. -/
def heap5 : FibHeap :=
  match FibHeap.fromList [5] with
  | .ok hh => hh
  | .error _ => FibHeap.mk0

/-- A second single-element heap whose allocator range is disjoint from
`heap5`'s (models a separate C++ instance). -/
def heap7B : FibHeap :=
  match (FibHeap.mkAt 100 100).insert 7 with
  | .ok (hh, _) => hh
  | .error _ => FibHeap.mk0

/-! ### C4: decrease-key with a non-decreased value -/

/-- Claim C4: `decrease_val` invoked through a valid (non-null, live)
handle with a new value that is not strictly below the node's current
value fails with InvalidKeyOrder; the error is raised before any state is
touched, so no mutated heap is produced. -/
theorem C4_decrease_val_key_order (h : FibHeap) (addr : Option Nat) (n : Nat)
    (nd : Node) (v : ElemType) (haddr : addr = some n)
    (hnd : h.getNode n = .ok nd) (hge : nd.value ≤ v) :
    h.decrease_val addr v = .error .invalidKeyOrder := by
  subst haddr
  simp only [FibHeap.decrease_val, hnd, ge_iff_le, eok_bind]
  rw [if_pos hge]
  rfl

/-- Witness for C4 at a concrete input: on the one-element heap holding 5,
decreasing the value 5 "to" 7 fails with InvalidKeyOrder. -/
theorem C4_witness :
    heap5.getNode 0 = .ok { value := 5, loser := false, parent := none,
                            childIndex := -1, children := [], numChildren := 0 } ∧
    (5 : Int) ≤ 7 ∧
    heap5.decrease_val (some 0) 7 = .error .invalidKeyOrder :=
  ⟨by decide, by decide,
    C4_decrease_val_key_order heap5 (some 0) 0
      { value := 5, loser := false, parent := none, childIndex := -1,
        children := [], numChildren := 0 } 7 rfl (by decide) (by decide)⟩

/-! ### C5: null handles -/

/-- Counterexample to claim C5 as stated: `change_val` is a handle-taking
operation, but called with a null handle on the one-element heap it
dereferences the null pointer (undefined behaviour) instead of failing
with InvalidHandle. -/
theorem C5_counterexample_change_val_null :
    heap5.change_val none 3 = .error .ub ∧
    heap5.change_val none 3 ≠ .error .invalidHandle := by
  constructor
  · decide
  · decide

/-- Amended claim C5: `get_value` and `decrease_val` fail with
InvalidHandle on a null handle for every heap, and `delete_elem` does so
whenever the heap is non-empty (its `get_min()` argument evaluation fails
with EmptyHeap first on an empty heap); in each case the error is raised
before any mutation.  `change_val`, however, dereferences the null handle
with no check (undefined behaviour) and never reports InvalidHandle. -/
theorem C5_null_handle_behaviour :
    (∀ h : FibHeap, h.get_value none = .error .invalidHandle) ∧
    (∀ (h : FibHeap) (v : ElemType), h.decrease_val none v = .error .invalidHandle) ∧
    (∀ (h : FibHeap) (mv : ElemType), h.get_min = .ok mv →
      h.delete_elem none = .error .invalidHandle) ∧
    (∀ (h : FibHeap) (v : ElemType), h.change_val none v = .error .ub) := by
  refine ⟨fun h => rfl, fun h v => rfl, ?_, fun h v => rfl⟩
  intro h mv hmv
  simp only [FibHeap.delete_elem, hmv, eok_bind]
  rfl

/-- Witness for the hypothesis-bearing conjunct of the amended C5: the
one-element heap has minimum 5, and deleting through a null handle on it
fails with InvalidHandle. -/
theorem C5_witness :
    heap5.get_min = .ok 5 ∧ heap5.delete_elem none = .error .invalidHandle :=
  ⟨by decide, C5_null_handle_behaviour.2.2.1 heap5 5 (by decide)⟩

/-! ### C7: the rootIndex invariant across merge -/

/-- Claim C7 is falsified by the code at a concrete input: merging the
single-element heap `heap7B` (its `roots` maps node 100 to ring node 100)
into an empty heap leaves the donor with an empty ring, no minimum and
zero elements — yet its `roots` mapping still holds the stale entry for
node 100, which is no longer a root of the donor.  The source resets only
`front`, `min`, `numElems` and `maxDegree` of the donor. -/
theorem C7_merge_donor_roots_stale :
    (FibHeap.mk0.merge heap7B).2.ring = [] ∧
    (FibHeap.mk0.merge heap7B).2.numElems = 0 ∧
    (FibHeap.mk0.merge heap7B).2.minRid = none ∧
    (FibHeap.mk0.merge heap7B).2.roots = [(100, some 100)] := by
  refine ⟨?_, ?_, ?_, ?_⟩ <;> decide

/-! ### C8: what clear() resets -/

/-- Counterexample to claim C8 as stated: clearing the (non-empty)
one-element heap leaves `maxDegree = 2`, while the baseline value of a
freshly default-constructed heap is 1. -/
theorem C8_counterexample_maxDegree :
    (heap5.clear).map (fun g => g.maxDegree) = .ok 2 ∧
    FibHeap.mk0.maxDegree = 1 := by
  constructor
  · decide
  · decide

/-- Amended claim C8: `clear()` on a non-empty heap resets `front` and
`min` to absent and the element count to 0, but sets `maxDegree` to 2 —
not to the freshly-constructed baseline, which is 1; on an already-empty
heap `clear()` changes nothing at all. -/
theorem C8_clear_resets (h h' : FibHeap) (hne : h.isEmpty = false)
    (hc : h.clear = .ok h') :
    h'.ring = [] ∧ h'.minRid = none ∧ h'.numElems = 0 ∧ h'.maxDegree = 2 ∧
    FibHeap.mk0.maxDegree = 1 ∧
    (∀ g : FibHeap, g.isEmpty = true → g.clear = .ok g) := by
  have hstep : ∀ g : FibHeap, g.isEmpty = true → g.clear = .ok g := by
    intro g hg
    simp only [FibHeap.clear, hg]
    rfl
  simp only [FibHeap.clear, hne, Bool.false_eq_true, if_false] at hc
  cases hfold :
      (h.ring.tail.reverse ++ h.ring.take 1).foldlM
        (fun acc e =>
          acc.delete_subtree (some e.root) ((acc.nodes.length + 1) * (acc.maxDegree + 2))) h with
  | error e => rw [hfold] at hc; cases hc
  | ok hm =>
    rw [hfold] at hc
    simp only [eok_bind, epure_def, Except.ok.injEq] at hc
    subst hc
    exact ⟨rfl, rfl, rfl, rfl, rfl, hstep⟩

/-- The result of clearing `heap5`, used as the witness evaluation
point. -/
def heap5cleared : FibHeap :=
  match heap5.clear with
  | .ok g => g
  | .error _ => FibHeap.mk0

/-- Witness for the amended C8 at a concrete input. -/
theorem C8_witness :
    heap5.isEmpty = false ∧ heap5.clear = .ok heap5cleared ∧
    heap5cleared.maxDegree = 2 :=
  ⟨by decide, by decide,
    (C8_clear_resets heap5 heap5cleared (by decide) (by decide)).2.2.2.1⟩

/-! ### C10: insert -/

/-- Claim C10: from any heap whose allocator state is consistent (live
node ids below `nextId`, live ring ids different from `nextRid`) and whose
minimum is readable when the heap is non-empty, `insert v` succeeds, the
returned handle immediately dereferences (via `get_value`) to `v`, the
size grows by exactly one, and every pre-existing node — its value and its
parent/childIndex/children structure — is unchanged. -/
theorem C10_insert_spec (h : FibHeap) (v : ElemType)
    (hfresh : ∀ p ∈ h.nodes, p.1 < h.nextId)
    (hrid : ∀ en ∈ h.ring, en.rid ≠ h.nextRid)
    (hmin : h.ring = [] ∨ ∃ mv, h.get_min = .ok mv) :
    ∃ h', h.insert v = .ok (h', h.nextId) ∧
      h'.get_value (some h.nextId) = .ok v ∧
      h'.numElems = h.numElems + 1 ∧
      (∀ p ∈ h.nodes, alook h'.nodes p.1 = alook h.nodes p.1) := by
  have hab : alook h.nodes h.nextId = none :=
    alook_eq_none _ _ (fun p hp => Nat.ne_of_lt (hfresh p hp))
  set nd0 : Node := ({ value := v, loser := false, parent := none, childIndex := -1, children := [], numChildren := 0 } : Node) with hnd0
  set h1 : FibHeap := ({ h with nodes := h.nodes ++ [(h.nextId, nd0)], nextId := h.nextId + 1 } : FibHeap) with hh1
  have hnd1 : alook h1.nodes h.nextId = some nd0 := by
    rw [show h1.nodes = h.nodes ++ [(h.nextId, nd0)] from rfl, alook_append, hab]
    simp [alook_cons]
  have hmin1 : h1.ring = [] ∨ ∃ mv, h1.get_min = .ok mv := by
    cases hmin with
    | inl he => exact Or.inl he
    | inr hex =>
      obtain ⟨mv, hgm⟩ := hex
      obtain ⟨hne, m, e, ndm, hm, hf, hn, hv⟩ := (get_min_ok_iff h mv).1 hgm
      refine Or.inr ⟨mv, (get_min_ok_iff h1 mv).2 ⟨hne, m, e, ndm, hm, hf, ?_, hv⟩⟩
      rw [show h1.nodes = h.nodes ++ [(h.nextId, nd0)] from rfl,
        alook_append_of_isSome _ _ _ (by simp [hn])]
      exact hn
  obtain ⟨h2, hrun, hn2, hid2, hnum2, hmax2, hnr2, hroots2, hring2⟩ :=
    add_root_spec h1 h.nextId nd0 hnd1 hrid hmin1
  have hndX : ({ nd0 with loser := false, parent := none, childIndex := -1 } : Node)
      = nd0 := rfl
  rw [hndX] at hn2
  refine ⟨{ h2 with numElems := h2.numElems + 1 }, ?_, ?_, ?_, ?_⟩
  · show (do
      let (hh, root) := h.newNode v
      let hh ← hh.add_root root
      pure ({ hh with numElems := hh.numElems + 1 }, root)) = _
    rw [show h.newNode v = (h1, h.nextId) from rfl]
    dsimp only
    rw [hrun]
    rfl
  · show FibHeap.get_value _ (some h.nextId) = .ok v
    unfold FibHeap.get_value
    dsimp only
    rw [getNode_eq_ok _ _ nd0 (by
      show alook h2.nodes h.nextId = some nd0
      rw [hn2]
      exact alook_aset_self _ _ _ (by simp [hnd1]))]
    rfl
  · show h2.numElems + 1 = h.numElems + 1
    rw [hnum2]
  · intro p hp
    show alook h2.nodes p.1 = alook h.nodes p.1
    rw [hn2, alook_aset_ne _ _ _ _ (Nat.ne_of_gt (hfresh p hp))]
    rw [show h1.nodes = h.nodes ++ [(h.nextId, nd0)] from rfl,
      alook_append_of_isSome _ _ _ (alook_isSome_of_mem _ _ hp)]

/-! ### Parent-chain theory -/

theorem chainDepth_succ_none (h : FibHeap) (f k : Nat)
    (ha : alook h.nodes k = none) : h.chainDepth (f + 1) k = none := by
  unfold FibHeap.chainDepth
  rw [ha]

theorem chainDepth_succ_root (h : FibHeap) (f k : Nat) (nd : Node)
    (ha : alook h.nodes k = some nd) (hp : nd.parent = none) :
    h.chainDepth (f + 1) k = some 0 := by
  unfold FibHeap.chainDepth
  rw [ha]
  dsimp only
  rw [hp]

theorem chainDepth_succ_parent (h : FibHeap) (f k : Nat) (nd : Node) (p : Nat)
    (ha : alook h.nodes k = some nd) (hp : nd.parent = some p) :
    h.chainDepth (f + 1) k = (h.chainDepth f p).map (· + 1) := by
  conv_lhs => unfold FibHeap.chainDepth
  rw [ha]
  dsimp only
  rw [hp]

theorem chainList_succ_root (h : FibHeap) (f k : Nat) (nd : Node)
    (ha : alook h.nodes k = some nd) (hp : nd.parent = none) :
    h.chainList (f + 1) k = some [k] := by
  unfold FibHeap.chainList
  rw [ha]
  dsimp only
  rw [hp]

theorem chainList_succ_parent (h : FibHeap) (f k : Nat) (nd : Node) (p : Nat)
    (ha : alook h.nodes k = some nd) (hp : nd.parent = some p) :
    h.chainList (f + 1) k = (h.chainList f p).map (k :: ·) := by
  conv_lhs => unfold FibHeap.chainList
  rw [ha]
  dsimp only
  rw [hp]

theorem chainDepth_mono (h : FibHeap) (f f' k d : Nat)
    (hf : h.chainDepth f k = some d) (hle : f ≤ f') :
    h.chainDepth f' k = some d := by
  induction f generalizing f' k d with
  | zero => cases hf
  | succ f ih =>
    obtain ⟨f2, rfl⟩ : ∃ f2, f' = f2 + 1 := ⟨f' - 1, by omega⟩
    cases ha : alook h.nodes k with
    | none => rw [chainDepth_succ_none h f k ha] at hf; cases hf
    | some nd =>
      cases hp : nd.parent with
      | none =>
        rw [chainDepth_succ_root h f k nd ha hp] at hf
        rw [chainDepth_succ_root h f2 k nd ha hp]
        exact hf
      | some p =>
        rw [chainDepth_succ_parent h f k nd p ha hp] at hf
        rw [chainDepth_succ_parent h f2 k nd p ha hp]
        cases hc : h.chainDepth f p with
        | none => rw [hc] at hf; cases hf
        | some d2 =>
          rw [hc] at hf
          rw [ih f2 p d2 hc (by omega)]
          exact hf

theorem chainDepth_unique (h : FibHeap) (f f' k d d' : Nat)
    (hf : h.chainDepth f k = some d) (hf' : h.chainDepth f' k = some d') :
    d = d' := by
  have h1 := chainDepth_mono h f (max f f') k d hf (le_max_left _ _)
  have h2 := chainDepth_mono h f' (max f f') k d' hf' (le_max_right _ _)
  rw [h1] at h2
  exact Option.some_inj.1 h2

theorem chainList_of_chainDepth (h : FibHeap) (f k d : Nat)
    (hf : h.chainDepth f k = some d) :
    ∃ l, h.chainList f k = some l ∧ l.length = d + 1 ∧ l.head? = some k := by
  induction f generalizing k d with
  | zero => cases hf
  | succ f ih =>
    cases ha : alook h.nodes k with
    | none => rw [chainDepth_succ_none h f k ha] at hf; cases hf
    | some nd =>
      cases hp : nd.parent with
      | none =>
        rw [chainDepth_succ_root h f k nd ha hp] at hf
        exact ⟨[k], chainList_succ_root h f k nd ha hp, by
          cases hf; simp, rfl⟩
      | some p =>
        rw [chainDepth_succ_parent h f k nd p ha hp] at hf
        cases hc : h.chainDepth f p with
        | none => rw [hc] at hf; cases hf
        | some d2 =>
          rw [hc] at hf
          obtain ⟨l2, hl2, hlen2, hd2⟩ := ih p d2 hc
          refine ⟨k :: l2, ?_, ?_, rfl⟩
          · rw [chainList_succ_parent h f k nd p ha hp, hl2]
            rfl
          · have hdd : d2 + 1 = d := by simpa using hf
            simp only [List.length_cons, hlen2]
            omega

theorem mem_chainList_depth (h : FibHeap) (f k d : Nat) (l : List Nat)
    (hl : h.chainList f k = some l) (hd : h.chainDepth f k = some d) :
    ∀ x ∈ l, ∃ dx ≤ d, h.chainDepth f x = some dx ∧ (alook h.nodes x).isSome := by
  induction f generalizing k d l with
  | zero => cases hl
  | succ f ih =>
    cases ha : alook h.nodes k with
    | none => rw [chainDepth_succ_none h f k ha] at hd; cases hd
    | some nd =>
      cases hp : nd.parent with
      | none =>
        rw [chainDepth_succ_root h f k nd ha hp] at hd
        rw [chainList_succ_root h f k nd ha hp] at hl
        cases hl
        cases hd
        intro x hx
        rw [List.mem_singleton] at hx
        subst hx
        exact ⟨0, le_refl 0, chainDepth_succ_root h f x nd ha hp, by simp [ha]⟩
      | some p =>
        rw [chainDepth_succ_parent h f k nd p ha hp] at hd
        rw [chainList_succ_parent h f k nd p ha hp] at hl
        cases hc : h.chainDepth f p with
        | none => rw [hc] at hd; cases hd
        | some d2 =>
          rw [hc] at hd
          have hdd : d = d2 + 1 := by simpa using hd.symm
          subst hdd
          cases hl2 : h.chainList f p with
          | none => rw [hl2] at hl; cases hl
          | some l2 =>
            rw [hl2] at hl
            cases hl
            intro x hx
            cases List.mem_cons.1 hx with
            | inl he =>
              subst he
              exact ⟨d2 + 1, le_refl _,
                by rw [chainDepth_succ_parent h f x nd p ha hp, hc]; rfl,
                by simp [ha]⟩
            | inr hm =>
              obtain ⟨dx, hdx, hcx, hsx⟩ := ih p d2 l2 hl2 hc x hm
              exact ⟨dx, by omega,
                chainDepth_mono h f (f + 1) x dx hcx (by omega), hsx⟩

theorem chainList_nodup (h : FibHeap) (f k d : Nat) (l : List Nat)
    (hl : h.chainList f k = some l) (hd : h.chainDepth f k = some d) :
    l.Nodup := by
  induction f generalizing k d l with
  | zero => cases hl
  | succ f ih =>
    cases ha : alook h.nodes k with
    | none => rw [chainDepth_succ_none h f k ha] at hd; cases hd
    | some nd =>
      cases hp : nd.parent with
      | none =>
        rw [chainList_succ_root h f k nd ha hp] at hl
        cases hl
        simp
      | some p =>
        rw [chainDepth_succ_parent h f k nd p ha hp] at hd
        rw [chainList_succ_parent h f k nd p ha hp] at hl
        cases hc : h.chainDepth f p with
        | none => rw [hc] at hd; cases hd
        | some d2 =>
          rw [hc] at hd
          cases hd
          cases hl2 : h.chainList f p with
          | none => rw [hl2] at hl; cases hl
          | some l2 =>
            rw [hl2] at hl
            cases hl
            refine List.nodup_cons.2 ⟨?_, ih p d2 l2 hl2 hc⟩
            intro hk
            obtain ⟨dx, hdx, hcx, -⟩ := mem_chainList_depth h f p d2 l2 hl2 hc k hk
            have := chainDepth_unique h f (f + 1) k dx (d2 + 1) hcx
              (by rw [chainDepth_succ_parent h f k nd p ha hp, hc]; rfl)
            omega

theorem nodup_length_le (l1 l2 : List Nat) (hn : l1.Nodup) (hs : ∀ x ∈ l1, x ∈ l2) :
    l1.length ≤ l2.length := by
  calc l1.length = l1.toFinset.card := (List.toFinset_card_of_nodup hn).symm
    _ ≤ l2.toFinset.card := Finset.card_le_card (by
        intro x hx
        rw [List.mem_toFinset] at hx ⊢
        exact hs x hx)
    _ ≤ l2.length := l2.toFinset_card_le

theorem alook_mem {α : Type} (l : List (Nat × α)) (k : Nat) (v : α)
    (hl : alook l k = some v) : (k, v) ∈ l := by
  induction l with
  | nil => cases hl
  | cons p rest ih =>
    rw [alook_cons] at hl
    by_cases hp : p.1 = k
    · rw [if_pos hp] at hl
      cases hl
      have hpp : (k, p.2) = p := by rw [← hp]
      rw [hpp]
      exact List.mem_cons_self p rest
    · rw [if_neg hp] at hl
      exact List.mem_cons_of_mem p (ih hl)

/-- Under the invariant, every parent chain has depth below the number of
live nodes, so the fuel `nodes.length + 1` used everywhere suffices. -/
theorem chainDepth_lt_length (h : FibHeap) (f k d : Nat)
    (hd : h.chainDepth f k = some d)
    (hnodup : (h.nodes.map (fun p => p.1)).Nodup) :
    d < h.nodes.length := by
  obtain ⟨l, hl, hlen, -⟩ := chainList_of_chainDepth h f k d hd
  have hnd := chainList_nodup h f k d l hl hd
  have hmem : ∀ x ∈ l, x ∈ h.nodes.map (fun p => p.1) := by
    intro x hx
    obtain ⟨dx, -, -, hsx⟩ := mem_chainList_depth h f k d l hl hd x hx
    cases hax : alook h.nodes x with
    | none => rw [hax] at hsx; cases hsx
    | some nd =>
      exact List.mem_map.2 ⟨(x, nd), alook_mem _ _ _ hax, rfl⟩
  have := nodup_length_le l (h.nodes.map (fun p => p.1)) hnd hmem
  rw [hlen, List.length_map] at this
  omega

/-! ### Unpacking the invariant -/

theorem inv_parts (h : FibHeap) (hI : h.Inv = true) :
    h.allocOk = true ∧ h.ringOk = true ∧ h.minPresentOk = true ∧
    h.numElems = (h.nodes.length : Int) ∧
    (∀ p ∈ h.nodes, h.nodeLocalOk p.1 p.2 = true) ∧
    (∀ p ∈ h.nodes, (h.chainDepth (h.nodes.length + 1) p.1).isSome) := by
  simp only [FibHeap.Inv, Bool.and_eq_true, List.all_eq_true, beq_iff_eq] at hI
  exact ⟨hI.1.1.1.1.1.1, hI.1.1.1.1.1.2, hI.1.1.1.1.2, hI.1.1.2, hI.1.2, hI.2⟩

theorem inv_rootsOk (h : FibHeap) (hI : h.Inv = true) :
    (∀ q ∈ h.nodes, ∀ p, q.2.parent = some p → alook h.roots q.1 = none) ∧
    (∀ q ∈ h.roots, q.1 < h.nextId) := by
  simp only [FibHeap.Inv, Bool.and_eq_true] at hI
  have hR := hI.1.1.1.2
  simp only [FibHeap.rootsOk, Bool.and_eq_true, List.all_eq_true,
    decide_eq_true_eq] at hR
  refine ⟨?_, hR.2⟩
  intro q hq p hp
  have := hR.1 q hq
  rw [hp] at this
  dsimp only at this
  simpa using this

theorem inv_localOk (h : FibHeap) (hI : h.Inv = true) (k : Nat) (nd : Node)
    (ha : alook h.nodes k = some nd) : h.nodeLocalOk k nd = true :=
  (inv_parts h hI).2.2.2.2.1 (k, nd) (alook_mem _ _ _ ha)

theorem inv_chain_lt (h : FibHeap) (hI : h.Inv = true) (k : Nat) (nd : Node)
    (ha : alook h.nodes k = some nd) :
    ∃ d, h.chainDepth (h.nodes.length + 1) k = some d ∧ d < h.nodes.length := by
  have hs := (inv_parts h hI).2.2.2.2.2 (k, nd) (alook_mem _ _ _ ha)
  cases hc : h.chainDepth (h.nodes.length + 1) k with
  | none => rw [hc] at hs; cases hs
  | some d =>
    refine ⟨d, rfl, chainDepth_lt_length h _ k d hc ?_⟩
    have := (inv_parts h hI).1
    simp only [FibHeap.allocOk, Bool.and_eq_true, decide_eq_true_eq] at this
    exact this.1

theorem localOk_child (h : FibHeap) (k : Nat) (nd : Node)
    (hL : h.nodeLocalOk k nd = true) (i : Nat) (c : Nat)
    (hc : nd.children.get? i = some (some c)) :
    ∃ cnd, alook h.nodes c = some cnd ∧ cnd.parent = some k ∧
      cnd.childIndex = (i : Int) ∧ nd.value ≤ cnd.value := by
  simp only [FibHeap.nodeLocalOk, Bool.and_eq_true, List.all_eq_true] at hL
  have hmem : ((i, some c) : Nat × Option Nat) ∈ nd.children.enum :=
    List.mk_mem_enum_iff_get?.mpr hc
  have := hL.1.1.1 (i, some c) hmem
  dsimp only at this
  cases hal : alook h.nodes c with
  | none => rw [hal] at this; cases this
  | some cnd =>
    rw [hal] at this
    simp only [Bool.and_eq_true, beq_iff_eq, decide_eq_true_eq] at this
    exact ⟨cnd, rfl, this.1.1, this.1.2, this.2⟩

theorem localOk_numChildren (h : FibHeap) (k : Nat) (nd : Node)
    (hL : h.nodeLocalOk k nd = true) :
    nd.numChildren = ((nd.children.filter (fun c => c.isSome)).length : Int) := by
  simp only [FibHeap.nodeLocalOk, Bool.and_eq_true] at hL
  simpa using hL.1.1.2

theorem localOk_degree_le (h : FibHeap) (k : Nat) (nd : Node)
    (hL : h.nodeLocalOk k nd = true) : nd.children.length ≤ h.maxDegree := by
  simp only [FibHeap.nodeLocalOk, Bool.and_eq_true] at hL
  simpa using hL.1.2

theorem localOk_root (h : FibHeap) (k : Nat) (nd : Node)
    (hL : h.nodeLocalOk k nd = true) (hp : nd.parent = none) :
    nd.childIndex = -1 ∧ ∃ e ∈ h.ring, e.root = k := by
  simp only [FibHeap.nodeLocalOk, Bool.and_eq_true] at hL
  have := hL.2
  rw [hp] at this
  dsimp only at this
  simp only [Bool.and_eq_true, beq_iff_eq, List.any_eq_true] at this
  obtain ⟨hci, e, he, heq⟩ := this
  exact ⟨hci, e, he, by simpa using heq⟩

theorem localOk_parent (h : FibHeap) (k : Nat) (nd : Node) (p : Nat)
    (hL : h.nodeLocalOk k nd = true) (hp : nd.parent = some p) :
    ∃ pn, alook h.nodes p = some pn ∧ 0 ≤ nd.childIndex ∧
      pn.children.get? nd.childIndex.toNat = some (some k) := by
  simp only [FibHeap.nodeLocalOk, Bool.and_eq_true] at hL
  have := hL.2
  rw [hp] at this
  dsimp only at this
  cases hal : alook h.nodes p with
  | none => rw [hal] at this; cases this
  | some pn =>
    rw [hal] at this
    simp only [Bool.and_eq_true, beq_iff_eq, decide_eq_true_eq] at this
    exact ⟨pn, rfl, this.1, this.2⟩

theorem ringOk_parts (h : FibHeap) (hR : h.ringOk = true) :
    (h.ring.map (fun e => e.rid)).Nodup ∧
    (∀ e ∈ h.ring, e.rid < h.nextRid) ∧
    (∀ e ∈ h.ring, ∃ nd, alook h.nodes e.root = some nd ∧ nd.parent = none) ∧
    (∀ e ∈ h.ring, alook h.roots e.root = some (some e.rid)) := by
  simp only [FibHeap.ringOk, Bool.and_eq_true, List.all_eq_true,
    decide_eq_true_eq, beq_iff_eq] at hR
  refine ⟨by simpa using hR.1.1.1, hR.1.1.2, ?_, ?_⟩
  · intro e he
    have := hR.1.2 e he
    cases hal : alook h.nodes e.root with
    | none => rw [hal] at this; cases this
    | some nd =>
      rw [hal] at this
      simp only [beq_iff_eq] at this
      exact ⟨nd, rfl, this⟩
  · intro e he
    have := hR.2 e he
    simpa using this

theorem InSub_trans (h : FibHeap) (a b c : Nat)
    (h1 : InSub h a b) (h2 : InSub h b c) : InSub h a c := by
  induction h1 with
  | refl => exact h2
  | step n nd i c2 k ha hc _ ih => exact InSub.step n nd i c2 c ha hc (ih h2)

theorem InSub_le (h : FibHeap) (hI : h.Inv = true) (n k : Nat)
    (hs : InSub h n k) :
    ∀ ndn ndk, alook h.nodes n = some ndn → alook h.nodes k = some ndk →
      ndn.value ≤ ndk.value := by
  induction hs with
  | refl m =>
    intro ndn ndk h1 h2
    rw [h1] at h2
    cases h2
    exact le_refl _
  | step n nd i c k ha hc _ ih =>
    intro ndn ndk h1 h2
    rw [ha] at h1
    cases h1
    obtain ⟨cnd, hcn, -, -, hle⟩ :=
      localOk_child h n nd (inv_localOk h hI n nd ha) i c hc
    exact le_trans hle (ih cnd ndk hcn h2)

/-- Every live node lies in the subtree of some ring root whose value is a
lower bound for it. -/
theorem chain_to_root (h : FibHeap) (hI : h.Inv = true) (k : Nat) (nd : Node)
    (ha : alook h.nodes k = some nd) :
    ∃ e ∈ h.ring, ∃ rnd, alook h.nodes e.root = some rnd ∧
      rnd.value ≤ nd.value ∧ InSub h e.root k := by
  obtain ⟨d, hd, hdlt⟩ := inv_chain_lt h hI k nd ha
  clear hdlt
  induction d using Nat.strong_induction_on generalizing k nd with
  | _ d ih =>
    have hL := inv_localOk h hI k nd ha
    cases hp : nd.parent with
    | none =>
      obtain ⟨-, e, he, herk⟩ := localOk_root h k nd hL hp
      subst herk
      exact ⟨e, he, nd, ha, le_refl _, InSub.refl _⟩
    | some p =>
      obtain ⟨pn, hpn, -, hslot⟩ := localOk_parent h k nd p hL hp
      obtain ⟨d2, hd2, -⟩ := inv_chain_lt h hI p pn hpn
      have hdd : d = d2 + 1 := by
        have hstep := chainDepth_succ_parent h h.nodes.length k nd p ha hp
        rw [hd] at hstep
        cases hcp : h.chainDepth h.nodes.length p with
        | none => rw [hcp] at hstep; cases hstep
        | some dp =>
          rw [hcp] at hstep
          have h1 : d = dp + 1 := by simpa using hstep
          have h2 : dp = d2 := chainDepth_unique h h.nodes.length
            (h.nodes.length + 1) p dp d2 hcp hd2
          omega
      obtain ⟨cpn, hcpn, hple⟩ :=
        localOk_child h p pn (inv_localOk h hI p pn hpn) nd.childIndex.toNat k hslot
      obtain ⟨e, he, rnd, hrnd, hrle, hins⟩ := ih d2 (by omega) p pn hpn hd2
      refine ⟨e, he, rnd, hrnd, ?_, ?_⟩
      · rw [hcpn] at ha
        cases ha
        exact le_trans hrle hple.2.2
      · exact InSub_trans h e.root p k hins
          (InSub.step p pn nd.childIndex.toNat k k hpn hslot (InSub.refl k))

/-! ### Correctness of the pruned pre-order search -/

theorem chainDepth_min_fuel (h : FibHeap) (f k d : Nat)
    (hd : h.chainDepth f k = some d) : h.chainDepth (d + 1) k = some d := by
  induction f generalizing k d with
  | zero => cases hd
  | succ f ih =>
    cases ha : alook h.nodes k with
    | none => rw [chainDepth_succ_none h f k ha] at hd; cases hd
    | some nd =>
      cases hp : nd.parent with
      | none =>
        rw [chainDepth_succ_root h f k nd ha hp] at hd
        cases hd
        exact chainDepth_succ_root h 0 k nd ha hp
      | some p =>
        rw [chainDepth_succ_parent h f k nd p ha hp] at hd
        cases hc : h.chainDepth f p with
        | none => rw [hc] at hd; cases hd
        | some d2 =>
          rw [hc] at hd
          have hdd : d = d2 + 1 := by simpa using hd.symm
          subst hdd
          rw [chainDepth_succ_parent h (d2 + 1) k nd p ha hp, ih p d2 hc]
          rfl

/-- Composition bound: `NeedW` for a child-slot list, given a uniform
bound for each child subtree. -/
theorem needW_list (h : FibHeap) (L : List (Option Nat)) (Wc : Nat)
    (hall : ∀ c, some c ∈ L → ∃ ndc, alook h.nodes c = some ndc ∧
      ∃ wc ≤ Wc, NeedW h ndc.children wc) :
    ∃ w ≤ L.length + Wc + 1, NeedW h L w := by
  induction L with
  | nil => exact ⟨1, by omega, NeedW.nil⟩
  | cons c rest ih =>
    obtain ⟨w2, hw2, hN2⟩ := ih (fun c hc => hall c (List.mem_cons_of_mem _ hc))
    cases c with
    | none => exact ⟨w2 + 1, by simp only [List.length_cons]; omega,
        NeedW.cons_none rest w2 hN2⟩
    | some c =>
      obtain ⟨ndc, hndc, w1, hw1, hN1⟩ := hall c (List.mem_cons_self _ _)
      refine ⟨max w1 w2 + 1, ?_, NeedW.cons_some c ndc rest w1 w2 hndc hN1 hN2⟩
      simp only [List.length_cons]
      omega

/-- Fuel bound for the children of a node, by induction on the remaining
depth budget. -/
theorem needW_children (h : FibHeap) (hI : h.Inv = true) (r : Nat) :
    ∀ k nd d, alook h.nodes k = some nd →
      h.chainDepth (h.nodes.length + 1) k = some d →
      h.nodes.length ≤ d + r →
      ∃ w ≤ r * (h.maxDegree + 2), NeedW h nd.children w := by
  induction r with
  | zero =>
    intro k nd d ha hd hle
    obtain ⟨d2, hd2, hlt⟩ := inv_chain_lt h hI k nd ha
    rw [hd] at hd2
    cases hd2
    omega
  | succ r ih =>
    intro k nd d ha hd hle
    have hL := inv_localOk h hI k nd ha
    obtain ⟨w, hw, hN⟩ := needW_list h nd.children (r * (h.maxDegree + 2))
      (by
        intro c hc
        obtain ⟨i, hi⟩ := List.get?_of_mem hc
        obtain ⟨cnd, hcnd, hcp, -, -⟩ := localOk_child h k nd hL i c hi
        obtain ⟨dc, hdc, hdclt⟩ := inv_chain_lt h hI c cnd hcnd
        have hstep : h.chainDepth (d + 2) c = some (d + 1) := by
          rw [chainDepth_succ_parent h (d + 1) c cnd k hcnd hcp,
            chainDepth_min_fuel h _ k d hd]
          rfl
        have hdc1 : dc = d + 1 :=
          chainDepth_unique h _ (d + 2) c dc (d + 1) hdc hstep
        obtain ⟨wc, hwc, hNc⟩ := ih c cnd dc hcnd hdc (by omega)
        exact ⟨cnd, hcnd, wc, hwc, hNc⟩)
    refine ⟨w, le_trans hw ?_, hN⟩
    have hdeg := localOk_degree_le h k nd hL
    calc nd.children.length + r * (h.maxDegree + 2) + 1
        ≤ h.maxDegree + r * (h.maxDegree + 2) + 1 := by omega
      _ ≤ (r + 1) * (h.maxDegree + 2) := by ring_nf; omega

/-- With sufficient fuel the walk never fails. -/
theorem find_walk_ok (h : FibHeap) (v : ElemType) (todo : List (Option Nat))
    (w : Nat) (hN : NeedW h todo w) :
    ∀ fuel, w ≤ fuel → ∃ r, h.find_walk todo v fuel = .ok r := by
  induction hN with
  | nil =>
    intro fuel hf
    obtain ⟨f2, rfl⟩ : ∃ f2, fuel = f2 + 1 := ⟨fuel - 1, by omega⟩
    exact ⟨none, rfl⟩
  | cons_none rest w hNr ih =>
    intro fuel hf
    obtain ⟨f2, rfl⟩ : ∃ f2, fuel = f2 + 1 := ⟨fuel - 1, by omega⟩
    obtain ⟨r, hr⟩ := ih f2 (by omega)
    exact ⟨r, hr⟩
  | cons_some n nd rest w1 w2 ha hN1 hN2 ih1 ih2 =>
    intro fuel hf
    obtain ⟨f2, rfl⟩ : ∃ f2, fuel = f2 + 1 := ⟨fuel - 1, by omega⟩
    obtain ⟨r1, hr1⟩ := ih1 f2 (by omega)
    obtain ⟨r2, hr2⟩ := ih2 f2 (by omega)
    show ∃ r, (do
      let nd ← h.getNode n
      if nd.value ≤ v then
        if nd.value == v then pure (some n)
        else
          match ← h.find_walk nd.children v f2 with
          | some x => pure (some x)
          | none => h.find_walk rest v f2
      else h.find_walk rest v f2) = .ok r
    rw [getNode_eq_ok h n nd ha]
    simp only [eok_bind]
    by_cases hle : nd.value ≤ v
    · rw [if_pos hle]
      by_cases heq : nd.value = v
      · rw [if_pos (by simpa using heq)]
        exact ⟨some n, rfl⟩
      · rw [if_neg (by simpa using heq), hr1]
        simp only [eok_bind]
        cases r1 with
        | some x => exact ⟨some x, rfl⟩
        | none => exact ⟨r2, hr2⟩
    · rw [if_neg hle]
      exact ⟨r2, hr2⟩

/-- Whatever the walk returns points at a live node holding the searched
value. -/
theorem find_walk_sound (h : FibHeap) (v : ElemType) :
    ∀ fuel todo x, h.find_walk todo v fuel = .ok (some x) →
      ∃ nd, alook h.nodes x = some nd ∧ nd.value = v := by
  intro fuel
  induction fuel with
  | zero => intro todo x hr; cases hr
  | succ fuel ih =>
    intro todo x hr
    cases todo with
    | nil => cases hr
    | cons c rest =>
      cases c with
      | none => exact ih rest x hr
      | some n =>
        unfold FibHeap.find_walk at hr
        dsimp only at hr
        cases ha : alook h.nodes n with
        | none =>
          rw [show h.getNode n = .error .ub by simp [FibHeap.getNode, ha]] at hr
          cases hr
        | some nd =>
          rw [getNode_eq_ok h n nd ha] at hr
          simp only [eok_bind] at hr
          by_cases hle : nd.value ≤ v
          · rw [if_pos hle] at hr
            by_cases heq : nd.value = v
            · rw [if_pos (by simpa using heq)] at hr
              simp only [epure_def, Except.ok.injEq, Option.some.injEq] at hr
              subst hr
              exact ⟨nd, ha, heq⟩
            · rw [if_neg (by simpa using heq)] at hr
              cases hsub : h.find_walk nd.children v fuel with
              | error e => rw [hsub] at hr; cases hr
              | ok r1 =>
                rw [hsub] at hr
                simp only [eok_bind] at hr
                cases r1 with
                | some y =>
                  simp only [epure_def, Except.ok.injEq, Option.some.injEq] at hr
                  subst hr
                  exact ih _ _ hsub
                | none => exact ih rest x hr
          · rw [if_neg hle] at hr
            exact ih rest x hr

/-- The walk cannot miss: if some worklist slot's subtree holds the value,
the result is not `none`.  (Pruning is sound because of heap order.) -/
theorem find_walk_complete (h : FibHeap) (hI : h.Inv = true) (v : ElemType) :
    ∀ fuel todo r, h.find_walk todo v fuel = .ok r →
      (∃ n k ndk, some n ∈ todo ∧ InSub h n k ∧
        alook h.nodes k = some ndk ∧ ndk.value = v) →
      r ≠ none := by
  intro fuel
  induction fuel with
  | zero => intro todo r hr; cases hr
  | succ fuel ih =>
    intro todo r hr hw
    obtain ⟨n, k, ndk, hmem, hins, hak, hvk⟩ := hw
    cases todo with
    | nil => cases hmem
    | cons c rest =>
      cases c with
      | none =>
        cases List.mem_cons.1 hmem with
        | inl he => cases he
        | inr hm => exact ih rest r hr ⟨n, k, ndk, hm, hins, hak, hvk⟩
      | some m =>
        unfold FibHeap.find_walk at hr
        dsimp only at hr
        cases ha : alook h.nodes m with
        | none =>
          rw [show h.getNode m = .error .ub by simp [FibHeap.getNode, ha]] at hr
          cases hr
        | some nd =>
          rw [getNode_eq_ok h m nd ha] at hr
          simp only [eok_bind] at hr
          by_cases hhead : m = n
          · subst hhead
            have hmle : nd.value ≤ ndk.value := InSub_le h hI m k hins nd ndk ha hak
            by_cases hle : nd.value ≤ v
            · rw [if_pos hle] at hr
              by_cases heq : nd.value = v
              · rw [if_pos (by simpa using heq)] at hr
                simp only [epure_def, Except.ok.injEq] at hr
                subst hr
                simp
              · rw [if_neg (by simpa using heq)] at hr
                have hkm : k ≠ m := by
                  intro hc
                  subst hc
                  rw [hak] at ha
                  cases ha
                  exact heq hvk
                cases hins with
                | refl => exact absurd rfl hkm
                | step n2 nd2 i c2 k2 ha2 hc2 hins2 =>
                  rw [ha2] at ha
                  cases ha
                  cases hsub : h.find_walk nd.children v fuel with
                  | error e => rw [hsub] at hr; cases hr
                  | ok r1 =>
                    rw [hsub] at hr
                    simp only [eok_bind] at hr
                    cases r1 with
                    | some y =>
                      simp only [epure_def, Except.ok.injEq] at hr
                      subst hr
                      simp
                    | none =>
                      exact absurd rfl (ih nd.children none hsub
                        ⟨c2, k, ndk, List.get?_mem hc2, hins2, hak, hvk⟩)
            · exfalso
              rw [hvk] at hmle
              exact hle hmle
          · have hm : some n ∈ rest := by
              cases List.mem_cons.1 hmem with
              | inl he =>
                cases he
                exact absurd rfl hhead
              | inr hmm => exact hmm
            by_cases hle : nd.value ≤ v
            · rw [if_pos hle] at hr
              by_cases heq : nd.value = v
              · rw [if_pos (by simpa using heq)] at hr
                simp only [epure_def, Except.ok.injEq] at hr
                subst hr
                simp
              · rw [if_neg (by simpa using heq)] at hr
                cases hsub : h.find_walk nd.children v fuel with
                | error e => rw [hsub] at hr; cases hr
                | ok r1 =>
                  rw [hsub] at hr
                  simp only [eok_bind] at hr
                  cases r1 with
                  | some y =>
                    simp only [epure_def, Except.ok.injEq] at hr
                    subst hr
                    simp
                  | none => exact ih rest r hr ⟨n, k, ndk, hm, hins, hak, hvk⟩
            · rw [if_neg hle] at hr
              exact ih rest r hr ⟨n, k, ndk, hm, hins, hak, hvk⟩

theorem alook_of_mem_nodup {α : Type} (l : List (Nat × α)) (k : Nat) (v : α)
    (hnd : (l.map (fun p => p.1)).Nodup) (hm : (k, v) ∈ l) :
    alook l k = some v := by
  induction l with
  | nil => cases hm
  | cons p rest ih =>
    rw [List.map_cons, List.nodup_cons] at hnd
    rw [alook_cons]
    cases List.mem_cons.1 hm with
    | inl he =>
      cases he
      rw [if_pos rfl]
    | inr hmm =>
      by_cases hp : p.1 = k
      · exfalso
        exact hnd.1 (hp ▸ List.mem_map.2 ⟨(k, v), hmm, rfl⟩)
      · rw [if_neg hp]
        exact ih hnd.2 hmm

/-- Totality of `find_in_subtree` on a live ring root, with the source's
fuel. -/
theorem find_in_subtree_ok (h : FibHeap) (hI : h.Inv = true) (v : ElemType)
    (n : Nat) (nd : Node) (ha : alook h.nodes n = some nd) :
    ∃ r, h.find_in_subtree (some n) v ((h.nodes.length + 1) * (h.maxDegree + 2)) = .ok r := by
  obtain ⟨d, hd, hlt⟩ := inv_chain_lt h hI n nd ha
  obtain ⟨wc, hwc, hNc⟩ := needW_children h hI h.nodes.length n nd d ha hd (by omega)
  have hN : NeedW h [some n] (max wc 1 + 1) :=
    NeedW.cons_some n nd [] wc 1 ha hNc NeedW.nil
  exact find_walk_ok h v [some n] (max wc 1 + 1) hN _
    (by
      have h2 : 2 ≤ h.maxDegree + 2 := by omega
      have : max wc 1 + 1 ≤ h.nodes.length * (h.maxDegree + 2) + 2 := by omega
      calc max wc 1 + 1 ≤ h.nodes.length * (h.maxDegree + 2) + 2 := this
        _ ≤ (h.nodes.length + 1) * (h.maxDegree + 2) := by ring_nf; omega)

/-- Full specification of the tree-by-tree loop of `get_address`. -/
theorem get_address_go_spec (h : FibHeap) (hI : h.Inv = true) (v : ElemType) :
    ∀ rs : List RingNode, (∀ e ∈ rs, e ∈ h.ring) →
      ∃ r, h.get_address_go v rs = .ok r ∧
        (∀ x, r = some x → ∃ nd, alook h.nodes x = some nd ∧ nd.value = v) ∧
        (r = none → ∀ e ∈ rs, ∀ k ndk, InSub h e.root k →
          alook h.nodes k = some ndk → ndk.value ≠ v) := by
  intro rs
  induction rs with
  | nil =>
    intro _
    refine ⟨none, rfl, ?_, ?_⟩
    · intro x hx
      cases hx
    · intro _ e he
      cases he
  | cons e rest ih =>
    intro hmem
    obtain ⟨rnd, hrnd, -⟩ := (ringOk_parts h (inv_parts h hI).2.1).2.2.1 e
      (hmem e (List.mem_cons_self _ _))
    obtain ⟨r1, hr1⟩ := find_in_subtree_ok h hI v e.root rnd hrnd
    obtain ⟨r2, hr2, hs2, hc2⟩ := ih (fun e2 he2 => hmem e2 (List.mem_cons_of_mem _ he2))
    show ∃ r, (do
      let r ← h.find_in_subtree (some e.root) v ((h.nodes.length + 1) * (h.maxDegree + 2))
      match r with
      | some x => pure (some x)
      | none => h.get_address_go v rest) = .ok r ∧ _
    rw [hr1]
    simp only [eok_bind]
    cases r1 with
    | some x =>
      refine ⟨some x, rfl, ?_, by intro hc; cases hc⟩
      intro y hy
      cases hy
      exact find_walk_sound h v _ [some e.root] x hr1
    | none =>
      refine ⟨r2, hr2, hs2, ?_⟩
      intro hr0 e2 he2 k ndk hins hak hvk
      cases List.mem_cons.1 he2 with
      | inl he =>
        subst he
        exact find_walk_complete h hI v _ [some e2.root] none hr1
          ⟨e2.root, k, ndk, List.mem_singleton.2 rfl, hins, hak, hvk⟩ rfl
      | inr hm => exact hc2 hr0 e2 hm k ndk hins hak hvk

/-- Full specification of `get_address` (`find`): it always succeeds on an
invariant-satisfying heap, a hit holds the searched value, and a miss
means the value is live nowhere in the heap. -/
theorem get_address_spec (h : FibHeap) (hI : h.Inv = true) (v : ElemType) :
    ∃ r, h.get_address v = .ok r ∧
      (∀ x, r = some x → ∃ nd, alook h.nodes x = some nd ∧ nd.value = v) ∧
      (r = none → ∀ p ∈ h.nodes, p.2.value ≠ v) := by
  have hnodup : (h.nodes.map (fun p => p.1)).Nodup := by
    have := (inv_parts h hI).1
    simp only [FibHeap.allocOk, Bool.and_eq_true, decide_eq_true_eq] at this
    exact this.1
  cases hring : h.ring with
  | nil =>
    refine ⟨none, by unfold FibHeap.get_address; rw [hring]; rfl, ?_, ?_⟩
    · intro x hx
      cases hx
    intro _ p hp
    obtain ⟨e, he, -⟩ := chain_to_root h hI p.1 p.2
      (alook_of_mem_nodup _ _ _ hnodup hp)
    rw [hring] at he
    cases he
  | cons e0 rest0 =>
    obtain ⟨r, hr, hs, hc⟩ := get_address_go_spec h hI v h.ring (fun e he => he)
    refine ⟨r, ?_, hs, ?_⟩
    · unfold FibHeap.get_address
      rw [hring]
      dsimp only
      rw [← hring]
      exact hr
    · intro hr0 p hp hv
      have hap : alook h.nodes p.1 = some p.2 := alook_of_mem_nodup _ _ _ hnodup hp
      obtain ⟨e, he, rnd, hrnd, -, hins⟩ := chain_to_root h hI p.1 p.2 hap
      exact hc hr0 e he p.1 p.2 hins hap hv

/-! ### Merge -/

theorem nodes_nil_of_ring_nil (h : FibHeap) (hI : h.Inv = true)
    (hr : h.ring = []) : h.nodes = [] := by
  have hnodup : (h.nodes.map (fun p => p.1)).Nodup := by
    have := (inv_parts h hI).1
    simp only [FibHeap.allocOk, Bool.and_eq_true, decide_eq_true_eq] at this
    exact this.1
  cases hn : h.nodes with
  | nil => rfl
  | cons p rest =>
    exfalso
    obtain ⟨e, he, -⟩ := chain_to_root h hI p.1 p.2
      (alook_of_mem_nodup _ _ _ hnodup (by rw [hn]; exact List.mem_cons_self _ _))
    rw [hr] at he
    cases he

theorem mapInsert_of_present {α : Type} (l : List (Nat × α)) (k : Nat) (v : α)
    (hs : (alook l k).isSome) : mapInsert l k v = l := by
  unfold mapInsert
  rw [if_pos]
  simpa [alook] using hs

theorem alook_foldl_mapInsert_of_isSome {α : Type} (entries l : List (Nat × α))
    (k : Nat) (hs : (alook l k).isSome) :
    alook (entries.foldl (fun acc p => mapInsert acc p.1 p.2) l) k = alook l k := by
  induction entries generalizing l with
  | nil => rfl
  | cons q rest ih =>
    rw [List.foldl_cons]
    by_cases hq : q.1 = k
    · rw [hq, mapInsert_of_present l k q.2 hs]
      exact ih l hs
    · rw [ih (mapInsert l q.1 q.2) (by rw [alook_mapInsert_ne _ _ _ _ hq]; exact hs)]
      exact alook_mapInsert_ne _ _ _ _ hq

theorem alook_foldl_mapInsert_of_none {α : Type} (entries l : List (Nat × α))
    (k : Nat) (hn : alook l k = none) :
    alook (entries.foldl (fun acc p => mapInsert acc p.1 p.2) l) k = alook entries k := by
  induction entries generalizing l with
  | nil => exact hn
  | cons q rest ih =>
    rw [List.foldl_cons, alook_cons]
    by_cases hq : q.1 = k
    · rw [if_pos hq]
      have hins : alook (mapInsert l q.1 q.2) k = some q.2 := by
        unfold mapInsert
        rw [if_neg, alook_append, hn, hq, alook_cons]
        · simp
        · subst hq
          simp only [alook] at hn
          intro hc
          obtain ⟨pp, hpp⟩ := Option.isSome_iff_exists.1 hc
          rw [hpp] at hn
          cases hn
      rw [alook_foldl_mapInsert_of_isSome rest _ k (by rw [hins]; rfl), hins]
    · rw [if_neg hq]
      exact ih (mapInsert l q.1 q.2) (by rw [alook_mapInsert_ne _ _ _ _ hq]; exact hn)

theorem mem_foldl_mapInsert {α : Type} (entries l : List (Nat × α))
    (q : Nat × α)
    (hq : q ∈ entries.foldl (fun acc p => mapInsert acc p.1 p.2) l) :
    q ∈ l ∨ q ∈ entries := by
  induction entries generalizing l with
  | nil => exact Or.inl hq
  | cons e rest ih =>
    rw [List.foldl_cons] at hq
    cases ih (mapInsert l e.1 e.2) hq with
    | inl hm =>
      unfold mapInsert at hm
      by_cases hpres : (l.find? (fun p => p.1 == e.1)).isSome
      · rw [if_pos hpres] at hm
        exact Or.inl hm
      · rw [if_neg hpres] at hm
        cases List.mem_append.1 hm with
        | inl h1 => exact Or.inl h1
        | inr h2 =>
          right
          rw [List.mem_singleton] at h2
          subst h2
          exact List.mem_cons_self _ _
    | inr hm => exact Or.inr (List.mem_cons_of_mem _ hm)

theorem chainDepth_congr (h1 h2 : FibHeap)
    (hext : ∀ k nd, alook h1.nodes k = some nd → alook h2.nodes k = some nd) :
    ∀ f k d, h1.chainDepth f k = some d → h2.chainDepth f k = some d := by
  intro f
  induction f with
  | zero => intro k d hd; cases hd
  | succ f ih =>
    intro k d hd
    cases ha : alook h1.nodes k with
    | none => rw [chainDepth_succ_none h1 f k ha] at hd; cases hd
    | some nd =>
      cases hp : nd.parent with
      | none =>
        rw [chainDepth_succ_root h1 f k nd ha hp] at hd
        rw [chainDepth_succ_root h2 f k nd (hext k nd ha) hp]
        exact hd
      | some p =>
        rw [chainDepth_succ_parent h1 f k nd p ha hp] at hd
        rw [chainDepth_succ_parent h2 f k nd p (hext k nd ha) hp]
        cases hc : h1.chainDepth f p with
        | none => rw [hc] at hd; cases hd
        | some d2 =>
          rw [hc] at hd
          rw [ih p d2 hc]
          exact hd

theorem nodeLocalOk_intro (h : FibHeap) (k : Nat) (nd : Node)
    (hch : ∀ i c, nd.children.get? i = some (some c) →
      ∃ cnd, alook h.nodes c = some cnd ∧ cnd.parent = some k ∧
        cnd.childIndex = (i : Int) ∧ nd.value ≤ cnd.value)
    (hnum : nd.numChildren = ((nd.children.filter (fun c => c.isSome)).length : Int))
    (hdeg : nd.children.length ≤ h.maxDegree)
    (hroot : nd.parent = none → nd.childIndex = -1 ∧ ∃ e ∈ h.ring, e.root = k)
    (hpar : ∀ p, nd.parent = some p →
      ∃ pn, alook h.nodes p = some pn ∧ 0 ≤ nd.childIndex ∧
        pn.children.get? nd.childIndex.toNat = some (some k)) :
    h.nodeLocalOk k nd = true := by
  simp only [FibHeap.nodeLocalOk, Bool.and_eq_true]
  refine ⟨⟨⟨?_, ?_⟩, ?_⟩, ?_⟩
  · rw [List.all_eq_true]
    rintro ⟨i, c?⟩ hmem
    have hget : nd.children.get? i = some c? := List.mk_mem_enum_iff_get?.mp hmem
    cases c? with
    | none => rfl
    | some c =>
      obtain ⟨cnd, hcnd, hp, hci, hle⟩ := hch i c hget
      dsimp only
      rw [hcnd]
      simp [hp, hci, hle]
  · simpa using hnum
  · simpa using hdeg
  · cases hp : nd.parent with
    | none =>
      obtain ⟨hci, e, he, herk⟩ := hroot hp
      dsimp only
      simp only [Bool.and_eq_true, beq_iff_eq, List.any_eq_true]
      exact ⟨hci, e, he, by simpa using herk⟩
    | some p =>
      obtain ⟨pn, hpn, hci, hslot⟩ := hpar p hp
      dsimp only
      rw [hpn]
      simp [hci, ← List.get?_eq_getElem?, hslot]

theorem nodeLocalOk_mono (h1 h2 : FibHeap) (k : Nat) (nd : Node)
    (hext : ∀ k' nd', alook h1.nodes k' = some nd' → alook h2.nodes k' = some nd')
    (hring : ∀ e ∈ h1.ring, e ∈ h2.ring)
    (hdeg : h1.maxDegree ≤ h2.maxDegree)
    (hL : h1.nodeLocalOk k nd = true) : h2.nodeLocalOk k nd = true := by
  refine nodeLocalOk_intro h2 k nd ?_ (localOk_numChildren h1 k nd hL)
    (le_trans (localOk_degree_le h1 k nd hL) hdeg) ?_ ?_
  · intro i c hc
    obtain ⟨cnd, hcnd, hp, hci, hle⟩ := localOk_child h1 k nd hL i c hc
    exact ⟨cnd, hext c cnd hcnd, hp, hci, hle⟩
  · intro hp
    obtain ⟨hci, e, he, herk⟩ := localOk_root h1 k nd hL hp
    exact ⟨hci, e, hring e he, herk⟩
  · intro p hp
    obtain ⟨pn, hpn, hci, hslot⟩ := localOk_parent h1 k nd p hL hp
    exact ⟨pn, hext p pn hpn, hci, hslot⟩

theorem rootsOk_intro (h : FibHeap)
    (h1 : ∀ q ∈ h.nodes, ∀ p, q.2.parent = some p → alook h.roots q.1 = none)
    (h2 : ∀ q ∈ h.roots, q.1 < h.nextId) : h.rootsOk = true := by
  simp only [FibHeap.rootsOk, Bool.and_eq_true, List.all_eq_true,
    decide_eq_true_eq]
  refine ⟨?_, h2⟩
  intro q hq
  cases hp : q.2.parent with
  | none => rfl
  | some p =>
    dsimp only
    simp [h1 q hq p hp]

theorem inv_intro (h : FibHeap)
    (hA : h.allocOk = true) (hR : h.ringOk = true) (hM : h.minPresentOk = true)
    (hO : h.rootsOk = true)
    (hS : h.numElems = (h.nodes.length : Int))
    (hL : ∀ p ∈ h.nodes, h.nodeLocalOk p.1 p.2 = true)
    (hC : ∀ p ∈ h.nodes, (h.chainDepth (h.nodes.length + 1) p.1).isSome) :
    h.Inv = true := by
  simp only [FibHeap.Inv, Bool.and_eq_true, List.all_eq_true, beq_iff_eq]
  exact ⟨⟨⟨⟨⟨⟨hA, hR⟩, hM⟩, hO⟩, hS⟩, hL⟩, hC⟩

theorem allocOk_parts (h : FibHeap) (hA : h.allocOk = true) :
    (h.nodes.map (fun p => p.1)).Nodup ∧ ∀ p ∈ h.nodes, p.1 < h.nextId := by
  simp only [FibHeap.allocOk, Bool.and_eq_true, List.all_eq_true,
    decide_eq_true_eq] at hA
  exact hA

theorem allocOk_intro (h : FibHeap)
    (h1 : (h.nodes.map (fun p => p.1)).Nodup)
    (h2 : ∀ p ∈ h.nodes, p.1 < h.nextId) : h.allocOk = true := by
  simp only [FibHeap.allocOk, Bool.and_eq_true, List.all_eq_true,
    decide_eq_true_eq]
  exact ⟨h1, h2⟩

theorem ringOk_intro (h : FibHeap)
    (h1 : (h.ring.map (fun e => e.rid)).Nodup)
    (h2 : ∀ e ∈ h.ring, e.rid < h.nextRid)
    (h3 : ∀ e ∈ h.ring, ∃ nd, alook h.nodes e.root = some nd ∧ nd.parent = none)
    (h4 : ∀ e ∈ h.ring, alook h.roots e.root = some (some e.rid)) :
    h.ringOk = true := by
  simp only [FibHeap.ringOk, Bool.and_eq_true, List.all_eq_true,
    decide_eq_true_eq, beq_iff_eq]
  refine ⟨⟨⟨by simpa using h1, h2⟩, ?_⟩, ?_⟩
  · intro e he
    obtain ⟨nd, hnd, hp⟩ := h3 e he
    rw [hnd]
    simpa using hp
  · intro e he
    simpa using h4 e he

/-- Specification of `merge`: both resulting heaps keep the structural
invariant (given the two instances' allocator ranges are disjoint, as C++
`new` guarantees for distinct live objects), the donor is emptied, the
receiver's count is the sum, and the receiver's arena is the concatenation
of the two arenas — so all trees survive unchanged. -/
theorem merge_spec (A B : FibHeap) (hIA : A.Inv = true) (hIB : B.Inv = true)
    (hdN : ∀ k, (k ∈ A.nodes.map (fun p => p.1) ∨ k ∈ A.roots.map (fun p => p.1)) →
      k ∉ B.nodes.map (fun p => p.1))
    (hdN2 : ∀ k ∈ A.nodes.map (fun p => p.1), k ∉ B.roots.map (fun p => p.1))
    (hdR : ∀ r ∈ A.ring.map (fun e => e.rid), r ∉ B.ring.map (fun e => e.rid)) :
    (A.merge B).1.Inv = true ∧ (A.merge B).2.Inv = true ∧
    (A.merge B).2.ring = [] ∧ (A.merge B).2.numElems = 0 ∧
    (A.merge B).1.numElems = A.numElems + B.numElems ∧
    (A.merge B).1.nodes = A.nodes ++ B.nodes := by
  by_cases hBE : B.ring = []
  · have hBnil := nodes_nil_of_ring_nil B hIB hBE
    have hmm : A.merge B = (A, B) := by
      unfold FibHeap.merge
      rw [if_pos (by simp [FibHeap.isEmpty, hBE])]
    rw [hmm]
    have hBnum : B.numElems = 0 := by
      rw [(inv_parts B hIB).2.2.2.1, hBnil]
      rfl
    exact ⟨hIA, hIB, hBE, hBnum, by rw [hBnum]; ring, by rw [hBnil, List.append_nil]⟩
  · -- B non-empty
    have hBor : ¬B.isEmpty = true := by simp [FibHeap.isEmpty, List.isEmpty_iff, hBE]
    obtain ⟨hAal, hRal, hMal, hSal, hLal, hCal⟩ := inv_parts A hIA
    obtain ⟨hAbl, hRbl, hMbl, hSbl, hLbl, hCbl⟩ := inv_parts B hIB
    obtain ⟨hAnodA, hAltA⟩ := allocOk_parts A hAal
    obtain ⟨hAnodB, hAltB⟩ := allocOk_parts B hAbl
    obtain ⟨hRnodA, hRltA, hRrootA, hRmapA⟩ := ringOk_parts A hRal
    obtain ⟨hRnodB, hRltB, hRrootB, hRmapB⟩ := ringOk_parts B hRbl
    have hdisjN : ∀ p ∈ A.nodes, ∀ q ∈ B.nodes, p.1 ≠ q.1 := by
      intro p hp q hq hc
      have hqm : q.1 ∈ B.nodes.map (fun r => r.1) := List.mem_map.2 ⟨q, hq, rfl⟩
      rw [← hc] at hqm
      exact hdN p.1 (Or.inl (List.mem_map.2 ⟨p, hp, rfl⟩)) hqm
    have hAabsent : ∀ k, k ∈ B.nodes.map (fun p => p.1) → alook A.nodes k = none := by
      intro k hk
      refine alook_eq_none _ _ (fun p hp hc => ?_)
      exact hdN k (Or.inl (List.mem_map.2 ⟨p, hp, hc⟩)) hk
    have hBabsent : ∀ k, k ∈ A.nodes.map (fun p => p.1) → alook B.nodes k = none := by
      intro k hk
      refine alook_eq_none _ _ (fun p hp hc => ?_)
      exact hdN k (Or.inl hk) (List.mem_map.2 ⟨p, hp, hc⟩)
    -- the donor after reset satisfies the invariant
    have hdonor : ∀ C : FibHeap, C.nodes = [] → C.ring = [] → C.minRid = none →
        C.numElems = 0 → (∀ q ∈ C.roots, q.1 < C.nextId) → C.Inv = true := by
      intro C h1 h2 h3 h4 h5
      refine inv_intro C (allocOk_intro C (by rw [h1]; simp) (by rw [h1]; simp))
        (ringOk_intro C (by rw [h2]; simp) (by rw [h2]; simp)
          (by rw [h2]; simp) (by rw [h2]; simp))
        ?_ (rootsOk_intro C (by rw [h1]; simp) h5)
        (by rw [h4, h1]; rfl) (by rw [h1]; simp) (by rw [h1]; simp)
      unfold FibHeap.minPresentOk
      rw [h2, h3]
    by_cases hAE : A.ring = []
    · -- receiver empty: adopt the donor's fields
      have hAnil := nodes_nil_of_ring_nil A hIA hAE
      have hmm : A.merge B =
          ({ A with
              nodes := A.nodes ++ B.nodes
              nextId := max A.nextId B.nextId
              nextRid := max A.nextRid B.nextRid
              ring := B.ring
              minRid := B.minRid
              numElems := B.numElems
              maxDegree := B.maxDegree
              roots := B.roots },
           { B with
              nodes := []
              ring := []
              minRid := none
              numElems := 0
              maxDegree := 2 }) := by
        unfold FibHeap.merge
        rw [if_neg (by simpa using hBor), if_pos (by simp [FibHeap.isEmpty, hAE])]
      rw [hmm]
      have hnodes : A.nodes ++ B.nodes = B.nodes := by rw [hAnil]; rfl
      refine ⟨?_, hdonor _ rfl rfl rfl rfl (fun q hq => (inv_rootsOk B hIB).2 q hq), rfl, rfl, ?_, rfl⟩
      · have hANz : A.numElems = 0 := by
          rw [hSal, hAnil]; rfl
        set A2 : FibHeap := { A with
              nodes := A.nodes ++ B.nodes
              nextId := max A.nextId B.nextId
              nextRid := max A.nextRid B.nextRid
              ring := B.ring
              minRid := B.minRid
              numElems := B.numElems
              maxDegree := B.maxDegree
              roots := B.roots } with hA2
        have hA2nodes : A2.nodes = B.nodes := by rw [hA2]; exact hnodes
        have hext : ∀ k nd, alook B.nodes k = some nd → alook A2.nodes k = some nd := by
          intro k nd hk
          rw [hA2nodes]
          exact hk
        refine inv_intro A2 (allocOk_intro A2 (by rw [hA2nodes]; exact hAnodB)
            (fun p hp => lt_of_lt_of_le (hAltB p (by rwa [hA2nodes] at hp))
              (le_max_right _ _)))
          (ringOk_intro A2 hRnodB
            (fun e he => lt_of_lt_of_le (hRltB e he) (le_max_right _ _))
            (fun e he => by
              obtain ⟨nd, hnd, hp⟩ := hRrootB e he
              exact ⟨nd, by rw [hA2nodes]; exact hnd, hp⟩)
            (fun e he => hRmapB e he))
          ?_ (rootsOk_intro A2
            (by
              intro q hq p hp
              rw [hA2nodes] at hq
              exact (inv_rootsOk B hIB).1 q hq p hp)
            (fun q hq => lt_of_lt_of_le ((inv_rootsOk B hIB).2 q hq)
              (le_max_right _ _)))
          (by show B.numElems = _; rw [hSbl, hA2nodes]) ?_ ?_
        · show FibHeap.minPresentOk A2
          unfold FibHeap.minPresentOk
          unfold FibHeap.minPresentOk at hMbl
          exact hMbl
        · intro p hp
          rw [hA2nodes] at hp
          refine nodeLocalOk_mono B A2 p.1 p.2 hext (fun e he => he) (le_refl _) ?_
          exact hLbl p hp
        · intro p hp
          rw [hA2nodes] at hp
          have := hCbl p hp
          cases hc : B.chainDepth (B.nodes.length + 1) p.1 with
          | none => rw [hc] at this; cases this
          | some d =>
            have := chainDepth_congr B A2 hext (B.nodes.length + 1) p.1 d hc
            rw [show A2.nodes.length = B.nodes.length by rw [hA2nodes], this]
            rfl
      · rw [show A.numElems = 0 by rw [hSal, hAnil]; rfl]
        ring
    · -- both non-empty
      have hmm : A.merge B =
          ({ A with
              nodes := A.nodes ++ B.nodes
              nextId := max A.nextId B.nextId
              nextRid := max A.nextRid B.nextRid
              ring := A.ring ++ B.ring
              roots := B.roots.foldl (fun acc p => mapInsert acc p.1 p.2) A.roots
              numElems := A.numElems + B.numElems
              maxDegree := if B.maxDegree > A.maxDegree
                           then B.maxDegree else A.maxDegree },
           { B with
              nodes := []
              ring := []
              minRid := none
              numElems := 0
              maxDegree := 2 }) := by
        unfold FibHeap.merge
        rw [if_neg (by simpa using hBor),
          if_neg (by simp [FibHeap.isEmpty, List.isEmpty_iff, hAE])]
      rw [hmm]
      set A2 : FibHeap := { A with
              nodes := A.nodes ++ B.nodes
              nextId := max A.nextId B.nextId
              nextRid := max A.nextRid B.nextRid
              ring := A.ring ++ B.ring
              roots := B.roots.foldl (fun acc p => mapInsert acc p.1 p.2) A.roots
              numElems := A.numElems + B.numElems
              maxDegree := if B.maxDegree > A.maxDegree
                           then B.maxDegree else A.maxDegree } with hA2
      have hdegA : A.maxDegree ≤ A2.maxDegree := by
        show A.maxDegree ≤ if B.maxDegree > A.maxDegree then B.maxDegree else A.maxDegree
        split <;> omega
      have hdegB : B.maxDegree ≤ A2.maxDegree := by
        show B.maxDegree ≤ if B.maxDegree > A.maxDegree then B.maxDegree else A.maxDegree
        split <;> omega
      have hextA : ∀ k nd, alook A.nodes k = some nd → alook A2.nodes k = some nd := by
        intro k nd hk
        show alook (A.nodes ++ B.nodes) k = some nd
        rw [alook_append_of_isSome _ _ _ (by rw [hk]; rfl)]
        exact hk
      have hextB : ∀ k nd, alook B.nodes k = some nd → alook A2.nodes k = some nd := by
        intro k nd hk
        show alook (A.nodes ++ B.nodes) k = some nd
        rw [alook_append, hAabsent k (List.mem_map.2 ⟨(k, nd), alook_mem _ _ _ hk, rfl⟩)]
        exact hk
      refine ⟨?_, hdonor _ rfl rfl rfl rfl (fun q hq => (inv_rootsOk B hIB).2 q hq), rfl, rfl, rfl, rfl⟩
      refine inv_intro A2 ?_ ?_ ?_ ?_ ?_ ?_ ?_
      · refine allocOk_intro A2 ?_ ?_
        · show ((A.nodes ++ B.nodes).map (fun p => p.1)).Nodup
          rw [List.map_append, List.nodup_append]
          exact ⟨hAnodA, hAnodB, fun k hkA hkB => hdN k (Or.inl hkA) hkB⟩
        · intro p hp
          show p.1 < max A.nextId B.nextId
          cases List.mem_append.1 hp with
          | inl hA => exact lt_of_lt_of_le (hAltA p hA) (le_max_left _ _)
          | inr hB => exact lt_of_lt_of_le (hAltB p hB) (le_max_right _ _)
      · refine ringOk_intro A2 ?_ ?_ ?_ ?_
        · show ((A.ring ++ B.ring).map (fun e => e.rid)).Nodup
          rw [List.map_append, List.nodup_append]
          exact ⟨hRnodA, hRnodB, hdR⟩
        · intro e he
          show e.rid < max A.nextRid B.nextRid
          cases List.mem_append.1 he with
          | inl hA => exact lt_of_lt_of_le (hRltA e hA) (le_max_left _ _)
          | inr hB => exact lt_of_lt_of_le (hRltB e hB) (le_max_right _ _)
        · intro e he
          cases List.mem_append.1 he with
          | inl hA =>
            obtain ⟨nd, hnd, hp⟩ := hRrootA e hA
            exact ⟨nd, hextA _ _ hnd, hp⟩
          | inr hB =>
            obtain ⟨nd, hnd, hp⟩ := hRrootB e hB
            exact ⟨nd, hextB _ _ hnd, hp⟩
        · intro e he
          show alook (B.roots.foldl (fun acc p => mapInsert acc p.1 p.2) A.roots)
            e.root = some (some e.rid)
          cases List.mem_append.1 he with
          | inl hA =>
            rw [alook_foldl_mapInsert_of_isSome _ _ _ (by rw [hRmapA e hA]; rfl)]
            exact hRmapA e hA
          | inr hB =>
            have heB : e.root ∈ B.nodes.map (fun p => p.1) := by
              obtain ⟨nd, hnd, -⟩ := hRrootB e hB
              exact List.mem_map.2 ⟨(e.root, nd), alook_mem _ _ _ hnd, rfl⟩
            rw [alook_foldl_mapInsert_of_none _ _ _ (alook_eq_none _ _ (fun p hp hc =>
              hdN e.root (Or.inr (List.mem_map.2 ⟨p, hp, hc⟩)) heB))]
            exact hRmapB e hB
      · show A2.minPresentOk = true
        have hA2re : A2.ring = A.ring ++ B.ring := rfl
        have hA2me : A2.minRid = A.minRid := rfl
        unfold FibHeap.minPresentOk at hMal ⊢
        rw [hA2re, hA2me]
        cases hring : A.ring with
        | nil => exact absurd hring hAE
        | cons e0 r0 =>
          rw [hring] at hMal
          cases hm : A.minRid with
          | none =>
            rw [hm] at hMal
            dsimp only at hMal
            cases hMal
          | some m =>
            rw [hm] at hMal
            dsimp only at hMal
            rw [List.cons_append]
            dsimp only
            rw [← List.cons_append, List.any_append, hMal]
            rfl
      · refine rootsOk_intro A2 ?_ ?_
        · intro q hq p hp
          have hq2 : q ∈ A.nodes ++ B.nodes := hq
          show alook (B.roots.foldl (fun acc r => mapInsert acc r.1 r.2) A.roots)
            q.1 = none
          cases List.mem_append.1 hq2 with
          | inl hqa =>
            rw [alook_foldl_mapInsert_of_none _ _ _
              ((inv_rootsOk A hIA).1 q hqa p hp)]
            exact alook_eq_none _ _ (fun r hr hc =>
              hdN2 q.1 (List.mem_map.2 ⟨q, hqa, rfl⟩) (List.mem_map.2 ⟨r, hr, hc⟩))
          | inr hqb =>
            rw [alook_foldl_mapInsert_of_none _ _ _
              (alook_eq_none _ _ (fun r hr hc =>
                hdN q.1 (Or.inr (List.mem_map.2 ⟨r, hr, hc⟩))
                  (List.mem_map.2 ⟨q, hqb, rfl⟩)))]
            exact (inv_rootsOk B hIB).1 q hqb p hp
        · intro q hq
          show q.1 < max A.nextId B.nextId
          cases mem_foldl_mapInsert _ _ _ hq with
          | inl hqa =>
            exact lt_of_lt_of_le ((inv_rootsOk A hIA).2 q hqa) (le_max_left _ _)
          | inr hqb =>
            exact lt_of_lt_of_le ((inv_rootsOk B hIB).2 q hqb) (le_max_right _ _)
      · show A.numElems + B.numElems = ((A.nodes ++ B.nodes).length : Int)
        rw [hSal, hSbl, List.length_append]
        push_cast
        ring
      · intro p hp
        have hp2 : p ∈ A.nodes ++ B.nodes := hp
        cases List.mem_append.1 hp2 with
        | inl hA =>
          exact nodeLocalOk_mono A A2 p.1 p.2 hextA
            (fun e he => List.mem_append.2 (Or.inl he)) hdegA (hLal p hA)
        | inr hB =>
          exact nodeLocalOk_mono B A2 p.1 p.2 hextB
            (fun e he => List.mem_append.2 (Or.inr he)) hdegB (hLbl p hB)
      · intro p hp
        have hlen : A2.nodes.length = A.nodes.length + B.nodes.length := by
          show (A.nodes ++ B.nodes).length = _
          exact List.length_append _ _
        have hp2 : p ∈ A.nodes ++ B.nodes := hp
        cases List.mem_append.1 hp2 with
        | inl hA =>
          have := hCal p hA
          cases hc : A.chainDepth (A.nodes.length + 1) p.1 with
          | none => rw [hc] at this; cases this
          | some d =>
            rw [chainDepth_mono A2 (A.nodes.length + 1) (A2.nodes.length + 1) p.1 d
              (chainDepth_congr A A2 hextA _ p.1 d hc) (by omega)]
            rfl
        | inr hB =>
          have := hCbl p hB
          cases hc : B.chainDepth (B.nodes.length + 1) p.1 with
          | none => rw [hc] at this; cases this
          | some d =>
            rw [chainDepth_mono A2 (B.nodes.length + 1) (A2.nodes.length + 1) p.1 d
              (chainDepth_congr B A2 hextB _ p.1 d hc) (by omega)]
            rfl

/-! ### C6: merge post-conditions -/

/-- Claim C6: after `merge(A, B)` on two invariant-satisfying heaps with
disjoint allocator ranges, B is empty with size 0, A's size is the prior
sum, and every value previously stored in B is retrievable from A: its
pre-merge handle still dereferences to it via `get_value`, and
`get_address` (find) locates a live node holding that value. -/
theorem C6_merge_spec (A B : FibHeap) (hIA : A.Inv = true) (hIB : B.Inv = true)
    (hdN0 : ∀ k ∈ A.nodes.map (fun p => p.1) ++ A.roots.map (fun p => p.1),
      k ∉ B.nodes.map (fun p => p.1) ++ B.roots.map (fun p => p.1))
    (hdR : ∀ r ∈ A.ring.map (fun e => e.rid), r ∉ B.ring.map (fun e => e.rid)) :
    (A.merge B).2.isEmpty = true ∧ (A.merge B).2.numElems = 0 ∧
    (A.merge B).1.numElems = A.numElems + B.numElems ∧
    (∀ p ∈ B.nodes, (A.merge B).1.get_value (some p.1) = .ok p.2.value ∧
      ∃ x nd, (A.merge B).1.get_address p.2.value = .ok (some x) ∧
        alook (A.merge B).1.nodes x = some nd ∧ nd.value = p.2.value) := by
  have hdN : ∀ k, (k ∈ A.nodes.map (fun p => p.1) ∨ k ∈ A.roots.map (fun p => p.1)) →
      k ∉ B.nodes.map (fun p => p.1) :=
    fun k hk hc => hdN0 k (List.mem_append.2 hk) (List.mem_append.2 (Or.inl hc))
  have hdN2 : ∀ k ∈ A.nodes.map (fun p => p.1), k ∉ B.roots.map (fun p => p.1) :=
    fun k hk hc => hdN0 k (List.mem_append.2 (Or.inl hk))
      (List.mem_append.2 (Or.inr hc))
  obtain ⟨hInvA2, hInvB2, hring2, hnum2, hsum, hnodes⟩ :=
    merge_spec A B hIA hIB hdN hdN2 hdR
  have hBnodup : (B.nodes.map (fun p => p.1)).Nodup :=
    (allocOk_parts B (inv_parts B hIB).1).1
  have hlook : ∀ p ∈ B.nodes, alook (A.merge B).1.nodes p.1 = some p.2 := by
    intro p hp
    rw [hnodes, alook_append,
      alook_eq_none A.nodes p.1 (fun q hq hc =>
        hdN p.1 (Or.inl (List.mem_map.2 ⟨q, hq, hc⟩))
          (List.mem_map.2 ⟨p, hp, rfl⟩)),
      alook_of_mem_nodup _ _ _ hBnodup hp]
  refine ⟨by simp [FibHeap.isEmpty, hring2], hnum2, hsum, ?_⟩
  intro p hp
  constructor
  · unfold FibHeap.get_value
    dsimp only
    rw [getNode_eq_ok _ _ _ (hlook p hp)]
    rfl
  · obtain ⟨r, hr, hsound, hcomp⟩ := get_address_spec (A.merge B).1 hInvA2 p.2.value
    cases r with
    | none =>
      exfalso
      refine hcomp rfl p ?_ rfl
      rw [hnodes]
      exact List.mem_append.2 (Or.inr hp)
    | some x =>
      obtain ⟨nd, hnd, hv⟩ := hsound x rfl
      exact ⟨x, nd, hr, hnd, hv⟩

/-- The two-element heap {3, 8} built by insertion from the empty heap. -/
def heapA38 : FibHeap :=
  match FibHeap.fromList [3, 8] with
  | .ok hh => hh
  | .error _ => FibHeap.mk0

/-- The two-element heap {1, 5} built in a separate instance whose
allocator range starts at 100. -/
def heapB15 : FibHeap :=
  match (do
    let (h1, _) ← (FibHeap.mkAt 100 100).insert 1
    let (h2, _) ← h1.insert 5
    pure h2 : Except Err FibHeap) with
  | .ok hh => hh
  | .error _ => FibHeap.mk0

/-- Witness for C6 at a concrete input: merging {1,5} into {3,8}. -/
theorem C6_witness :
    heapA38.Inv = true ∧ heapB15.Inv = true ∧
    (heapA38.merge heapB15).2.isEmpty = true ∧
    (heapA38.merge heapB15).2.numElems = 0 ∧
    (heapA38.merge heapB15).1.numElems = heapA38.numElems + heapB15.numElems ∧
    (∀ k ∈ heapA38.nodes.map (fun p => p.1) ++ heapA38.roots.map (fun p => p.1),
      k ∉ heapB15.nodes.map (fun p => p.1) ++ heapB15.roots.map (fun p => p.1)) ∧
    (∀ p ∈ heapB15.nodes,
      (heapA38.merge heapB15).1.get_value (some p.1) = .ok p.2.value ∧
      ∃ x nd, (heapA38.merge heapB15).1.get_address p.2.value = .ok (some x) ∧
        alook (heapA38.merge heapB15).1.nodes x = some nd ∧ nd.value = p.2.value) :=
  ⟨by decide, by decide,
    (C6_merge_spec heapA38 heapB15 (by decide) (by decide) (by decide) (by decide)).1,
    (C6_merge_spec heapA38 heapB15 (by decide) (by decide) (by decide) (by decide)).2.1,
    (C6_merge_spec heapA38 heapB15 (by decide) (by decide) (by decide) (by decide)).2.2.1,
    by decide,
    (C6_merge_spec heapA38 heapB15 (by decide) (by decide) (by decide) (by decide)).2.2.2⟩

/-- Witness for C10 at a concrete input: inserting 3 into the one-element
heap holding 5. -/
theorem C10_witness :
    (∀ p ∈ heap5.nodes, p.1 < heap5.nextId) ∧
    (∀ en ∈ heap5.ring, en.rid ≠ heap5.nextRid) ∧
    (heap5.ring = [] ∨ ∃ mv, heap5.get_min = .ok mv) ∧
    (∃ h', heap5.insert 3 = .ok (h', heap5.nextId) ∧
      h'.get_value (some heap5.nextId) = .ok 3 ∧
      h'.numElems = heap5.numElems + 1 ∧
      (∀ p ∈ heap5.nodes, alook h'.nodes p.1 = alook heap5.nodes p.1)) :=
  ⟨by decide, by decide, Or.inr ⟨5, by decide⟩,
    C10_insert_spec heap5 3 (by decide) (by decide) (Or.inr ⟨5, by decide⟩)⟩

/-! ### Further association-list and list utilities -/

theorem aset_keys {α : Type} (l : List (Nat × α)) (k : Nat) (v : α) :
    (aset l k v).map (fun p => p.1) = l.map (fun p => p.1) := by
  induction l with
  | nil => rfl
  | cons p rest ih =>
    show ((if p.1 == k then (k, v) else p) :: aset rest k v).map _ = _
    by_cases hk : p.1 = k
    · simp only [hk, List.map_cons, if_pos (beq_self_eq_true k)]
      rw [ih]
    · rw [if_neg (by simpa using hk)]
      simp only [List.map_cons]
      rw [ih]

theorem aset_absent {α : Type} (l : List (Nat × α)) (k : Nat) (v : α)
    (ha : alook l k = none) : aset l k v = l := by
  induction l with
  | nil => rfl
  | cons p rest ih =>
    rw [alook_cons] at ha
    by_cases hk : p.1 = k
    · rw [if_pos hk] at ha
      cases ha
    · rw [if_neg hk] at ha
      show (if p.1 == k then (k, v) else p) :: aset rest k v = p :: rest
      rw [if_neg (by simpa using hk), ih ha]

theorem aset_identity {α : Type} (l : List (Nat × α)) (k : Nat) (v : α)
    (hnodup : (l.map (fun p => p.1)).Nodup) (ha : alook l k = some v) :
    aset l k v = l := by
  induction l with
  | nil => cases ha
  | cons p rest ih =>
    rw [alook_cons] at ha
    rw [List.map_cons, List.nodup_cons] at hnodup
    by_cases hk : p.1 = k
    · rw [if_pos hk] at ha
      have hrest : alook rest k = none := by
        refine alook_eq_none _ _ ?_
        intro q hq hc
        exact hnodup.1 (by rw [hk, ← hc]; exact List.mem_map.2 ⟨q, hq, rfl⟩)
      show (if p.1 == k then (k, v) else p) :: aset rest k v = p :: rest
      rw [if_pos (by simpa using hk), aset_absent rest k v hrest]
      cases ha
      rw [← hk]
    · rw [if_neg hk] at ha
      show (if p.1 == k then (k, v) else p) :: aset rest k v = p :: rest
      rw [if_neg (by simpa using hk), ih hnodup.2 ha]

theorem alook_mapErase_self {α : Type} (l : List (Nat × α)) (k : Nat) :
    alook (mapErase l k) k = none := by
  induction l with
  | nil => rfl
  | cons p rest ih =>
    show alook (List.filter _ (p :: rest)) k = none
    rw [List.filter_cons]
    by_cases hk : p.1 = k
    · rw [if_neg (by simp [hk])]
      exact ih
    · rw [if_pos (by simpa using hk), alook_cons, if_neg hk]
      exact ih

theorem alook_mapErase_ne {α : Type} (l : List (Nat × α)) (k k' : Nat)
    (hne : k' ≠ k) : alook (mapErase l k) k' = alook l k' := by
  induction l with
  | nil => rfl
  | cons p rest ih =>
    show alook (List.filter _ (p :: rest)) k' = _
    rw [List.filter_cons]
    by_cases hk : p.1 = k
    · rw [if_neg (by simp [hk]), alook_cons, if_neg (by rw [hk]; exact fun h => hne h.symm)]
      exact ih
    · rw [if_pos (by simpa using hk), alook_cons, alook_cons]
      by_cases hp : p.1 = k'
      · rw [if_pos hp, if_pos hp]
      · rw [if_neg hp, if_neg hp]
        exact ih

theorem mapErase_sublist {α : Type} (l : List (Nat × α)) (k : Nat) :
    (mapErase l k).Sublist l := List.filter_sublist l

theorem mem_mapErase {α : Type} (l : List (Nat × α)) (k : Nat) (q : Nat × α)
    (hq : q ∈ mapErase l k) : q ∈ l ∧ q.1 ≠ k := by
  unfold mapErase at hq
  have := List.mem_filter.1 hq
  refine ⟨this.1, ?_⟩
  simpa using this.2

theorem mem_mapErase_of_mem {α : Type} (l : List (Nat × α)) (k : Nat)
    (q : Nat × α) (hq : q ∈ l) (hne : q.1 ≠ k) : q ∈ mapErase l k := by
  unfold mapErase
  exact List.mem_filter.2 ⟨hq, by simpa using hne⟩

theorem length_mapErase_present {α : Type} (l : List (Nat × α)) (k : Nat)
    (v : α) (hnodup : (l.map (fun p => p.1)).Nodup) (ha : alook l k = some v) :
    (mapErase l k).length + 1 = l.length := by
  induction l with
  | nil => cases ha
  | cons p rest ih =>
    rw [alook_cons] at ha
    rw [List.map_cons, List.nodup_cons] at hnodup
    show (List.filter _ (p :: rest)).length + 1 = _
    rw [List.filter_cons]
    by_cases hk : p.1 = k
    · rw [if_neg (by simp [hk])]
      have hrest : mapErase rest k = rest := by
        unfold mapErase
        refine List.filter_eq_self.2 ?_
        intro q hq
        simp only [bne_iff_ne, ne_eq, decide_eq_true_eq]
        intro hc
        exact hnodup.1 (by rw [hk, ← hc]; exact List.mem_map.2 ⟨q, hq, rfl⟩)
      show (mapErase rest k).length + 1 = rest.length + 1
      rw [hrest]
    · rw [if_pos (by simpa using hk)]
      rw [if_neg hk] at ha
      simp only [List.length_cons]
      rw [← ih hnodup.2 ha]
      rfl

theorem mem_mapInsert {α : Type} (l : List (Nat × α)) (k : Nat) (v : α)
    (q : Nat × α) (hq : q ∈ mapInsert l k v) : q ∈ l ∨ q = (k, v) := by
  unfold mapInsert at hq
  by_cases hp : (l.find? (fun p => p.1 == k)).isSome
  · rw [if_pos hp] at hq
    exact Or.inl hq
  · rw [if_neg hp] at hq
    cases List.mem_append.1 hq with
    | inl h => exact Or.inl h
    | inr h => exact Or.inr (List.mem_singleton.1 h)

theorem alook_mapInsert_self_of_absent {α : Type} (l : List (Nat × α))
    (k : Nat) (v : α) (ha : alook l k = none) :
    alook (mapInsert l k v) k = some v := by
  have hf : l.find? (fun p => p.1 == k) = none := by
    cases hf : l.find? (fun p => p.1 == k) with
    | none => rfl
    | some p =>
      have hx : alook l k = some p.2 := by
        unfold alook
        rw [hf]
        rfl
      rw [ha] at hx
      cases hx
  unfold mapInsert
  rw [if_neg (by simp [hf]), alook_append, ha, alook_cons]
  simp

theorem decomp_at {α : Type} (l : List α) (i : Nat) (e : α)
    (hget : l.get? i = some e) : l = l.take i ++ e :: l.drop (i + 1) := by
  induction l generalizing i with
  | nil => cases hget
  | cons x rest ih =>
    cases i with
    | zero =>
      cases hget
      rfl
    | succ i =>
      show x :: rest = x :: (rest.take i ++ e :: rest.drop (i + 1))
      rw [← ih i hget]

theorem valueMap_aset_preserve {α : Type} (vf : α → ElemType)
    (l : List (Nat × α)) (k : Nat) (nd ndX : α)
    (hnodup : (l.map (fun p => p.1)).Nodup)
    (ha : alook l k = some nd) (hv : vf ndX = vf nd) :
    (aset l k ndX).map (fun p => (p.1, vf p.2)) =
      l.map (fun p => (p.1, vf p.2)) := by
  induction l with
  | nil => cases ha
  | cons p rest ih =>
    rw [alook_cons] at ha
    rw [List.map_cons, List.nodup_cons] at hnodup
    show ((if p.1 == k then (k, ndX) else p) :: aset rest k ndX).map _ = _
    by_cases hk : p.1 = k
    · rw [if_pos hk] at ha
      cases ha
      have hrest : alook rest k = none := by
        refine alook_eq_none _ _ ?_
        intro q hq hc
        exact hnodup.1 (by rw [hk, ← hc]; exact List.mem_map.2 ⟨q, hq, rfl⟩)
      rw [if_pos (by simpa using hk), aset_absent rest k ndX hrest]
      simp only [List.map_cons]
      rw [hv, hk]
    · rw [if_neg hk] at ha
      rw [if_neg (by simpa using hk)]
      simp only [List.map_cons]
      rw [ih hnodup.2 ha]

theorem filter_isSome_set_none (l : List (Option Nat)) (i : Nat) (c : Nat)
    (hget : l.get? i = some (some c)) :
    ((l.set i none).filter (fun x => x.isSome)).length + 1 =
      (l.filter (fun x => x.isSome)).length := by
  induction l generalizing i with
  | nil => cases hget
  | cons x rest ih =>
    cases i with
    | zero =>
      cases hget
      show ((none :: rest).filter _).length + 1 = ((some c :: rest).filter _).length
      rw [List.filter_cons, List.filter_cons]
      simp
    | succ i =>
      show (((x :: rest.set i none)).filter _).length + 1 = _
      rw [List.filter_cons, List.filter_cons]
      by_cases hx : x.isSome
      · rw [if_pos (by simpa using hx), if_pos (by simpa using hx)]
        simp only [List.length_cons]
        rw [← ih i hget]
      · rw [if_neg (by simpa using hx), if_neg (by simpa using hx)]
        exact ih i hget

theorem get?_set_ne' {α : Type} (l : List α) (i j : Nat) (v : α)
    (hij : i ≠ j) : (l.set i v).get? j = l.get? j := by
  induction l generalizing i j with
  | nil => rfl
  | cons x rest ih =>
    cases i with
    | zero =>
      cases j with
      | zero => exact absurd rfl hij
      | succ j => rfl
    | succ i =>
      cases j with
      | zero => rfl
      | succ j => exact ih i j (fun h => hij (by rw [h]))

theorem get?_set_self' {α : Type} (l : List α) (i : Nat) (v : α)
    (hi : i < l.length) : (l.set i v).get? i = some v := by
  induction l generalizing i with
  | nil => cases hi
  | cons x rest ih =>
    cases i with
    | zero => rfl
    | succ i => exact ih i (by simpa using hi)

theorem get?_append_left {α : Type} (l1 l2 : List α) (i : Nat)
    (hi : i < l1.length) : (l1 ++ l2).get? i = l1.get? i := by
  induction l1 generalizing i with
  | nil => cases hi
  | cons x rest ih =>
    cases i with
    | zero => rfl
    | succ i => exact ih i (by simpa using hi)

theorem get?_append_last {α : Type} (l : List α) (v : α) :
    (l ++ [v]).get? l.length = some v := by
  induction l with
  | nil => rfl
  | cons x rest ih => exact ih

/-- `find?` by a key locates the middle of a decomposition whose key is
nowhere in the prefix. -/
theorem find?_decomp {α : Type} (f : α → Nat) (X Y : List α) (e : α)
    (hX : ∀ x ∈ X, f x ≠ f e) :
    (X ++ e :: Y).find? (fun x => f x == f e) = some e := by
  induction X with
  | nil =>
    show List.find? _ (e :: Y) = some e
    rw [List.find?_cons_of_pos _ (by simp)]
  | cons x rest ih =>
    rw [List.cons_append, List.find?_cons_of_neg _ (by
      simpa using hX x (List.mem_cons_self _ _))]
    exact ih (fun y hy => hX y (List.mem_cons_of_mem _ hy))

theorem findIdx?_decomp_go {α : Type} (f : α → Nat) (Y : List α) (e : α) :
    ∀ (X : List α) (i : Nat), (∀ x ∈ X, f x ≠ f e) →
      List.findIdx? (fun x => f x == f e) (X ++ e :: Y) i = some (i + X.length) := by
  intro X
  induction X with
  | nil =>
    intro i _
    show List.findIdx? _ (e :: Y) i = some (i + 0)
    rw [List.findIdx?_cons, if_pos (by simp)]
    simp
  | cons x rest ih =>
    intro i hX
    rw [List.cons_append, List.findIdx?_cons, if_neg (by
      simpa using hX x (List.mem_cons_self _ _))]
    rw [ih (i + 1) (fun y hy => hX y (List.mem_cons_of_mem _ hy))]
    simp only [List.length_cons]
    congr 1
    omega

theorem findIdx?_decomp {α : Type} (f : α → Nat) (X Y : List α) (e : α)
    (hX : ∀ x ∈ X, f x ≠ f e) :
    (X ++ e :: Y).findIdx? (fun x => f x == f e) = some X.length := by
  have := findIdx?_decomp_go f Y e X 0 hX
  simpa using this

/-! ### Chain surgery: parent cuts and reparenting under a root -/

/-- Cutting parents (each node of `h2` is alive in `h1` with either the
same parent — itself alive in `h2` — or no parent) preserves chain
termination at the same fuel, with no larger depth. -/
theorem chainDepth_parent_cut (h1 h2 : FibHeap)
    (hcut : ∀ k nd2 p, alook h2.nodes k = some nd2 → nd2.parent = some p →
      ∃ nd1, alook h1.nodes k = some nd1 ∧ nd1.parent = some p ∧
        (alook h2.nodes p).isSome) :
    ∀ f k d, h1.chainDepth f k = some d → (alook h2.nodes k).isSome →
      ∃ d2 ≤ d, h2.chainDepth f k = some d2 := by
  intro f
  induction f with
  | zero =>
    intro k d hd
    cases hd
  | succ f ih =>
    intro k d hd hk2
    cases ha2 : alook h2.nodes k with
    | none => rw [ha2] at hk2; cases hk2
    | some nd2 =>
      cases hp2 : nd2.parent with
      | none => exact ⟨0, Nat.zero_le d, chainDepth_succ_root h2 f k nd2 ha2 hp2⟩
      | some p =>
        obtain ⟨nd1, ha1, hp1, hps⟩ := hcut k nd2 p ha2 hp2
        rw [chainDepth_succ_parent h1 f k nd1 p ha1 hp1] at hd
        cases hc : h1.chainDepth f p with
        | none => rw [hc] at hd; cases hd
        | some dp =>
          rw [hc] at hd
          have hdd : d = dp + 1 := by simpa using hd.symm
          subst hdd
          obtain ⟨d2, hle, hc2⟩ := ih p dp hc hps
          refine ⟨d2 + 1, by omega, ?_⟩
          rw [chainDepth_succ_parent h2 f k nd2 p ha2 hp2, hc2]
          rfl

/-- Hanging the parentless node `x` under the (distinct, parentless) node
`w` keeps every chain terminating, growing depths by at most one. -/
theorem chainDepth_reparent (h1 h2 : FibHeap) (x w : Nat)
    (hxw : x ≠ w)
    (hx2 : ∃ ndx2, alook h2.nodes x = some ndx2 ∧ ndx2.parent = some w)
    (hw2 : ∃ ndw2, alook h2.nodes w = some ndw2 ∧ ndw2.parent = none)
    (hsame : ∀ k nd1, k ≠ x → alook h1.nodes k = some nd1 →
      ∃ nd2, alook h2.nodes k = some nd2 ∧ nd2.parent = nd1.parent) :
    ∀ f k d, h1.chainDepth f k = some d →
      ∃ d2 ≤ d + 1, h2.chainDepth (f + 1) k = some d2 := by
  intro f
  induction f with
  | zero =>
    intro k d hd
    cases hd
  | succ f ih =>
    intro k d hd
    cases ha1 : alook h1.nodes k with
    | none => rw [chainDepth_succ_none h1 f k ha1] at hd; cases hd
    | some nd1 =>
      by_cases hkx : k = x
      · subst hkx
        obtain ⟨ndx2, hax2, hpx2⟩ := hx2
        obtain ⟨ndw2, haw2, hpw2⟩ := hw2
        refine ⟨1, ?_, ?_⟩
        · omega
        · rw [chainDepth_succ_parent h2 (f + 1) k ndx2 w hax2 hpx2,
            chainDepth_succ_root h2 f w ndw2 haw2 hpw2]
          rfl
      · obtain ⟨nd2, ha2, hp2⟩ := hsame k nd1 hkx ha1
        cases hp1 : nd1.parent with
        | none =>
          refine ⟨0, by omega, ?_⟩
          exact chainDepth_succ_root h2 (f + 1) k nd2 ha2 (by rw [hp2, hp1])
        | some p =>
          rw [chainDepth_succ_parent h1 f k nd1 p ha1 hp1] at hd
          cases hc : h1.chainDepth f p with
          | none => rw [hc] at hd; cases hd
          | some dp =>
            rw [hc] at hd
            have hdd : d = dp + 1 := by simpa using hd.symm
            subst hdd
            obtain ⟨d2, hle, hc2⟩ := ih p dp hc
            refine ⟨d2 + 1, by omega, ?_⟩
            rw [chainDepth_succ_parent h2 (f + 1) k nd2 p ha2 (by rw [hp2, hp1]),
              hc2]
            rfl

/-- A chain that terminates at any fuel terminates at the standard fuel
`nodes.length + 1`. -/
theorem chainDepth_norm (h : FibHeap) (k : Nat)
    (hnodup : (h.nodes.map (fun p => p.1)).Nodup) (f d : Nat)
    (hd : h.chainDepth f k = some d) :
    (h.chainDepth (h.nodes.length + 1) k).isSome := by
  have hlt : d < h.nodes.length := chainDepth_lt_length h f k d hd hnodup
  have hmin := chainDepth_min_fuel h f k d hd
  rw [chainDepth_mono h (d + 1) (h.nodes.length + 1) k d hmin (by omega)]
  rfl

/-! ### The structural core invariant -/

theorem coreInv_of_inv (h : FibHeap) (hI : h.Inv = true) : CoreInv h := by
  obtain ⟨hA, hR, -, hS, hL, hC⟩ := inv_parts h hI
  refine ⟨hA, hR, ?_, hS, hL, hC⟩
  simp only [FibHeap.Inv, Bool.and_eq_true] at hI
  exact hI.1.1.1.2

theorem inv_of_coreInv (h : FibHeap) (hC : CoreInv h)
    (hM : h.minPresentOk = true) : h.Inv = true :=
  inv_intro h hC.1 hC.2.1 hM hC.2.2.1 hC.2.2.2.1 hC.2.2.2.2.1 hC.2.2.2.2.2

theorem core_nodup (h : FibHeap) (hC : CoreInv h) :
    (h.nodes.map (fun p => p.1)).Nodup := (allocOk_parts h hC.1).1

theorem core_localOk (h : FibHeap) (hC : CoreInv h) (k : Nat) (nd : Node)
    (ha : alook h.nodes k = some nd) : h.nodeLocalOk k nd = true :=
  hC.2.2.2.2.1 (k, nd) (alook_mem _ _ _ ha)

theorem core_chain_lt (h : FibHeap) (hC : CoreInv h) (k : Nat) (nd : Node)
    (ha : alook h.nodes k = some nd) :
    ∃ d, h.chainDepth (h.nodes.length + 1) k = some d ∧ d < h.nodes.length := by
  have hs := hC.2.2.2.2.2 (k, nd) (alook_mem _ _ _ ha)
  cases hc : h.chainDepth (h.nodes.length + 1) k with
  | none => rw [hc] at hs; cases hs
  | some d => exact ⟨d, rfl, chainDepth_lt_length h _ k d hc (core_nodup h hC)⟩

/-- `chain_to_root` from the core invariant (no `front`/`min` clauses
needed). -/
theorem chain_to_root_core (h : FibHeap) (hC : CoreInv h) (k : Nat) (nd : Node)
    (ha : alook h.nodes k = some nd) :
    ∃ e ∈ h.ring, ∃ rnd, alook h.nodes e.root = some rnd ∧
      rnd.value ≤ nd.value ∧ InSub h e.root k := by
  obtain ⟨d, hd, hdlt⟩ := core_chain_lt h hC k nd ha
  clear hdlt
  induction d using Nat.strong_induction_on generalizing k nd with
  | _ d ih =>
    have hL := core_localOk h hC k nd ha
    cases hp : nd.parent with
    | none =>
      obtain ⟨-, e, he, herk⟩ := localOk_root h k nd hL hp
      subst herk
      exact ⟨e, he, nd, ha, le_refl _, InSub.refl _⟩
    | some p =>
      obtain ⟨pn, hpn, -, hslot⟩ := localOk_parent h k nd p hL hp
      obtain ⟨d2, hd2, -⟩ := core_chain_lt h hC p pn hpn
      have hdd : d = d2 + 1 := by
        have hstep := chainDepth_succ_parent h h.nodes.length k nd p ha hp
        rw [hd] at hstep
        cases hcp : h.chainDepth h.nodes.length p with
        | none => rw [hcp] at hstep; cases hstep
        | some dp =>
          rw [hcp] at hstep
          have h1 : d = dp + 1 := by simpa using hstep
          have h2 : dp = d2 := chainDepth_unique h h.nodes.length
            (h.nodes.length + 1) p dp d2 hcp hd2
          omega
      obtain ⟨cpn, hcpn, hple⟩ :=
        localOk_child h p pn (core_localOk h hC p pn hpn) nd.childIndex.toNat k hslot
      obtain ⟨e, he, rnd, hrnd, hrle, hins⟩ := ih d2 (by omega) p pn hpn hd2
      refine ⟨e, he, rnd, hrnd, ?_, ?_⟩
      · rw [hcpn] at ha
        cases ha
        exact le_trans hrle hple.2.2
      · exact InSub_trans h e.root p k hins
          (InSub.step p pn nd.childIndex.toNat k k hpn hslot (InSub.refl k))

theorem ring_ne_nil_core (h : FibHeap) (hC : CoreInv h)
    (hne : h.nodes ≠ []) : h.ring ≠ [] := by
  cases hn : h.nodes with
  | nil => exact absurd hn hne
  | cons p rest =>
    obtain ⟨e, he, -⟩ := chain_to_root_core h hC p.1 p.2
      (alook_of_mem_nodup _ _ _ (core_nodup h hC) (by
        rw [hn]; exact List.mem_cons_self _ _))
    intro hr
    rw [hr] at he
    cases he

/-- A non-empty heap satisfying the full invariant with a correct
minimum yields `get_min` as a lower bound of every live value. -/
theorem minVal_parts (h : FibHeap) (hM : h.MInv = true) (hne : h.ring ≠ []) :
    ∃ mv, h.get_min = .ok mv ∧ ∀ p ∈ h.nodes, mv ≤ p.2.value := by
  have hmv := hM
  simp only [FibHeap.MInv, Bool.and_eq_true] at hmv
  have hv := hmv.2
  unfold FibHeap.minValOk at hv
  cases hr : h.ring with
  | nil => exact absurd hr hne
  | cons e0 r0 =>
    rw [hr] at hv
    dsimp only at hv
    cases hgm : h.get_min with
    | error e => rw [hgm] at hv; cases hv
    | ok mv =>
      rw [hgm] at hv
      simp only [List.all_eq_true, decide_eq_true_eq] at hv
      exact ⟨mv, rfl, hv⟩

theorem minVal_intro (h : FibHeap) (hI : h.Inv = true)
    (hv : h.ring ≠ [] → ∃ mv, h.get_min = .ok mv ∧ ∀ p ∈ h.nodes, mv ≤ p.2.value) :
    h.MInv = true := by
  simp only [FibHeap.MInv, Bool.and_eq_true]
  refine ⟨hI, ?_⟩
  unfold FibHeap.minValOk
  cases hr : h.ring with
  | nil => rfl
  | cons e0 r0 =>
    obtain ⟨mv, hgm, hle⟩ := hv (by rw [hr]; exact List.cons_ne_nil _ _)
    dsimp only
    rw [hgm]
    simp only [List.all_eq_true, decide_eq_true_eq]
    exact hle

theorem minv_parts (h : FibHeap) (hM : h.MInv = true) :
    h.Inv = true ∧ h.minValOk = true := by
  simpa [FibHeap.MInv, Bool.and_eq_true] using hM

/-- Heap order (claim C2's property) follows from the structural core. -/
theorem heapOrder_of_core (h : FibHeap) (hC : CoreInv h) :
    h.heapOrderOk = true := by
  unfold FibHeap.heapOrderOk
  rw [List.all_eq_true]
  intro q hq
  have haq : alook h.nodes q.1 = some q.2 :=
    alook_of_mem_nodup _ _ _ (core_nodup h hC) hq
  cases hp : q.2.parent with
  | none => rfl
  | some p =>
    dsimp only
    obtain ⟨pn, hpn, -, hslot⟩ :=
      localOk_parent h q.1 q.2 p (core_localOk h hC q.1 q.2 haq) hp
    obtain ⟨cnd, hcnd, -, -, hle⟩ :=
      localOk_child h p pn (core_localOk h hC p pn hpn) q.2.childIndex.toNat q.1 hslot
    rw [hcnd] at haq
    cases haq
    rw [hpn]
    simpa using hle

/-! ### Chain-step and single-field-update helpers -/

theorem isSome_aset {α : Type} (l : List (Nat × α)) (k : Nat) (v : α)
    (k' : Nat) : (alook (aset l k v) k').isSome = (alook l k').isSome := by
  by_cases hk : k = k'
  · subst hk
    cases ha : alook l k with
    | none => rw [aset_absent l k v ha, ha]
    | some v0 =>
      rw [alook_aset_self l k v (by rw [ha]; rfl)]
      rfl
  · rw [alook_aset_ne l k k' v hk]

theorem chainDepth_congr_parent (h1 h2 : FibHeap)
    (hpar : ∀ k, (alook h1.nodes k).map (fun nd => nd.parent) =
      (alook h2.nodes k).map (fun nd => nd.parent)) :
    ∀ f k, h1.chainDepth f k = h2.chainDepth f k := by
  intro f
  induction f with
  | zero => intro k; rfl
  | succ f ih =>
    intro k
    have hk := hpar k
    cases ha1 : alook h1.nodes k with
    | none =>
      rw [ha1] at hk
      cases ha2 : alook h2.nodes k with
      | none => rw [chainDepth_succ_none h1 f k ha1, chainDepth_succ_none h2 f k ha2]
      | some nd2 => rw [ha2] at hk; cases hk
    | some nd1 =>
      rw [ha1] at hk
      cases ha2 : alook h2.nodes k with
      | none => rw [ha2] at hk; cases hk
      | some nd2 =>
        rw [ha2] at hk
        have hpp : nd1.parent = nd2.parent := by simpa using hk
        cases hp : nd1.parent with
        | none =>
          rw [chainDepth_succ_root h1 f k nd1 ha1 hp,
            chainDepth_succ_root h2 f k nd2 ha2 (by rw [← hpp, hp])]
        | some p =>
          rw [chainDepth_succ_parent h1 f k nd1 p ha1 hp,
            chainDepth_succ_parent h2 f k nd2 p ha2 (by rw [← hpp, hp]), ih p]

/-- Under the core invariant the chain depth steps down by exactly one
along a parent edge. -/
theorem parent_chain_step (h : FibHeap) (hC : CoreInv h) (k : Nat) (nd : Node)
    (p : Nat) (d : Nat) (ha : alook h.nodes k = some nd) (hp : nd.parent = some p)
    (hd : h.chainDepth (h.nodes.length + 1) k = some d) :
    ∃ dp, h.chainDepth (h.nodes.length + 1) p = some dp ∧ d = dp + 1 := by
  have hstep := chainDepth_succ_parent h h.nodes.length k nd p ha hp
  rw [hd] at hstep
  cases hcp : h.chainDepth h.nodes.length p with
  | none => rw [hcp] at hstep; cases hstep
  | some dp =>
    rw [hcp] at hstep
    refine ⟨dp, chainDepth_mono h h.nodes.length (h.nodes.length + 1) p dp hcp
      (by omega), ?_⟩
    have h9 := hstep
    simp only [Option.map_some] at h9
    have h8 : d = dp + 1 := by
      cases h9
      rfl
    exact h8

theorem no_self_parent (h : FibHeap) (hC : CoreInv h) (k : Nat) (nd : Node)
    (ha : alook h.nodes k = some nd) : nd.parent ≠ some k := by
  intro hp
  obtain ⟨d, hd, -⟩ := core_chain_lt h hC k nd ha
  obtain ⟨dp, hdp, hstep⟩ := parent_chain_step h hC k nd k d ha hp hd
  have := chainDepth_unique h _ _ k d dp hd hdp
  omega

theorem no_two_cycle (h : FibHeap) (hC : CoreInv h) (k p : Nat)
    (nd pn : Node) (ha : alook h.nodes k = some nd)
    (hap : alook h.nodes p = some pn) (hp : nd.parent = some p) :
    pn.parent ≠ some k := by
  intro hpp
  obtain ⟨d, hd, -⟩ := core_chain_lt h hC k nd ha
  obtain ⟨dp, hdp, hstep⟩ := parent_chain_step h hC k nd p d ha hp hd
  obtain ⟨dk, hdk, hstep2⟩ := parent_chain_step h hC p pn k dp hap hpp hdp
  have := chainDepth_unique h _ _ k d dk hd hdk
  omega

theorem degreeIdx_nonneg (d : Int) (hd : 0 ≤ d) :
    FibHeap.degreeIdx d = .ok d.toNat := by
  unfold FibHeap.degreeIdx
  rw [if_neg (by omega)]

/-- Replacing one node by a copy that differs at most in the `loser` flag
preserves the full invariant (no clause reads the flag). -/
theorem MInv_set_flag (h : FibHeap) (x : Nat) (nd ndX : Node)
    (ha : alook h.nodes x = some nd)
    (hv : ndX.value = nd.value) (hpp : ndX.parent = nd.parent)
    (hcc : ndX.children = nd.children) (hci : ndX.childIndex = nd.childIndex)
    (hnc : ndX.numChildren = nd.numChildren)
    (hM : h.MInv = true) : (h.setNode x ndX).MInv = true := by
  obtain ⟨hI, -⟩ := minv_parts h hM
  have hC := coreInv_of_inv h hI
  have hnodup := core_nodup h hC
  set g := h.setNode x ndX with hg
  have hgn : g.nodes = aset h.nodes x ndX := rfl
  have hax : alook g.nodes x = some ndX := by
    rw [hgn]
    exact alook_aset_self _ _ _ (by rw [ha]; rfl)
  have hane : ∀ k, k ≠ x → alook g.nodes k = alook h.nodes k := by
    intro k hk
    rw [hgn, alook_aset_ne _ _ _ _ (fun hc => hk hc.symm)]
  have hext : ∀ k, (alook h.nodes k).isSome = (alook g.nodes k).isSome := by
    intro k
    rw [hgn, isSome_aset]
  have hparents : ∀ k, (alook h.nodes k).map (fun nd => nd.parent) =
      (alook g.nodes k).map (fun nd => nd.parent) := by
    intro k
    by_cases hk : k = x
    · subst hk
      rw [ha, hax]
      simp [hpp]
    · rw [hane k hk]
  have hlen : g.nodes.length = h.nodes.length := by
    rw [hgn, alook_length_aset]
  refine minVal_intro g (inv_intro g ?_ ?_ ?_ ?_ ?_ ?_ ?_) ?_
  · refine allocOk_intro g ?_ ?_
    · rw [hgn, aset_keys]
      exact hnodup
    · intro p hp
      have : p.1 ∈ g.nodes.map (fun q => q.1) := List.mem_map.2 ⟨p, hp, rfl⟩
      rw [hgn, aset_keys] at this
      obtain ⟨q, hq, hqe⟩ := List.mem_map.1 this
      rw [← hqe]
      exact (allocOk_parts h hC.1).2 q hq
  · obtain ⟨hr1, hr2, hr3, hr4⟩ := ringOk_parts h hC.2.1
    refine ringOk_intro g hr1 hr2 ?_ hr4
    intro e he
    obtain ⟨nde, hnde, hpe⟩ := hr3 e he
    by_cases hex : e.root = x
    · rw [hex, ha] at hnde
      cases hnde
      exact ⟨ndX, by rw [hex]; exact hax, by rw [hpp]; exact hpe⟩
    · exact ⟨nde, by rw [hane e.root hex]; exact hnde, hpe⟩
  · have := (inv_parts h hI).2.2.1
    unfold FibHeap.minPresentOk at this ⊢
    exact this
  · obtain ⟨ho1, ho2⟩ := inv_rootsOk h hI
    refine rootsOk_intro g ?_ ho2
    intro q hq pq hpq
    have haq : alook g.nodes q.1 = some q.2 := by
      refine alook_of_mem_nodup _ _ _ ?_ hq
      rw [hgn, aset_keys]
      exact hnodup
    by_cases hqx : q.1 = x
    · rw [hqx, hax] at haq
      cases haq
      have hgr : g.roots = h.roots := rfl
      rw [hgr, hqx]
      refine ho1 (x, nd) (alook_mem _ _ _ ha) pq ?_
      rw [← hpp]
      exact hpq
    · rw [hane q.1 hqx] at haq
      exact ho1 (q.1, q.2) (alook_mem _ _ _ haq) pq hpq
  · rw [hlen]
    exact hC.2.2.2.1
  · intro q hq
    have haq : alook g.nodes q.1 = some q.2 := by
      refine alook_of_mem_nodup _ _ _ ?_ hq
      rw [hgn, aset_keys]
      exact hnodup
    have hLg : ∀ k knd, alook h.nodes k = some knd → g.nodeLocalOk k knd = true := by
      intro k knd hknd
      have hL := core_localOk h hC k knd hknd
      refine nodeLocalOk_intro g k knd ?_ (localOk_numChildren h k knd hL)
        (localOk_degree_le h k knd hL) ?_ ?_
      · intro i c hcslot
        obtain ⟨cnd, hcnd, hcp, hcci, hcle⟩ := localOk_child h k knd hL i c hcslot
        by_cases hcx : c = x
        · rw [hcx, ha] at hcnd
          cases hcnd
          exact ⟨ndX, by rw [hcx]; exact hax, by rw [hpp]; exact hcp,
            by rw [hci]; exact hcci, by rw [hv]; exact hcle⟩
        · exact ⟨cnd, by rw [hane c hcx]; exact hcnd, hcp, hcci, hcle⟩
      · intro hkp
        obtain ⟨hkci, e, he, hek⟩ := localOk_root h k knd hL hkp
        exact ⟨hkci, e, he, hek⟩
      · intro pk hkp
        obtain ⟨pkn, hpkn, hkci, hkslot⟩ := localOk_parent h k knd pk hL hkp
        by_cases hpx : pk = x
        · rw [hpx, ha] at hpkn
          cases hpkn
          exact ⟨ndX, by rw [hpx]; exact hax, hkci, by rw [hcc]; exact hkslot⟩
        · exact ⟨pkn, by rw [hane pk hpx]; exact hpkn, hkci, hkslot⟩
    by_cases hqx : q.1 = x
    · rw [hqx, hax] at haq
      cases haq
      have hbase := hLg x nd ha
      rw [hqx]
      refine nodeLocalOk_intro g x q.2 ?_ ?_ ?_ ?_ ?_
      · intro i c hcslot
        rw [hcc] at hcslot
        obtain ⟨cnd, h1, h2, h3, h4⟩ :=
          localOk_child g x nd hbase i c hcslot
        exact ⟨cnd, h1, h2, h3, by rw [hv]; exact h4⟩
      · rw [hnc, hcc]
        exact localOk_numChildren g x nd hbase
      · rw [hcc]
        exact localOk_degree_le g x nd hbase
      · intro hkp
        rw [hci]
        exact localOk_root g x nd hbase (by rw [← hpp]; exact hkp)
      · intro pk hkp
        rw [hci]
        exact localOk_parent g x nd pk hbase (by rw [← hpp]; exact hkp)
    · rw [hane q.1 hqx] at haq
      exact hLg q.1 q.2 haq
  · intro q hq
    have haq : alook g.nodes q.1 = some q.2 := by
      refine alook_of_mem_nodup _ _ _ ?_ hq
      rw [hgn, aset_keys]
      exact hnodup
    have hsome : (alook h.nodes q.1).isSome := by
      rw [hext, haq]
      rfl
    cases hah : alook h.nodes q.1 with
    | none => rw [hah] at hsome; cases hsome
    | some ndh =>
      obtain ⟨d, hd, -⟩ := core_chain_lt h hC q.1 ndh hah
      rw [hlen, ← chainDepth_congr_parent h g hparents _ q.1, hd]
      rfl
  · intro hne
    obtain ⟨mv, hgm, hle⟩ := minVal_parts h hM hne
    refine ⟨mv, ?_, ?_⟩
    · exact get_min_stable h g x nd ndX mv hgm ha hv rfl rfl (fun m hm => rfl) hne
    · intro q hq
      have haq : alook g.nodes q.1 = some q.2 := by
        refine alook_of_mem_nodup _ _ _ ?_ hq
        rw [hgn, aset_keys]
        exact hnodup
      by_cases hqx : q.1 = x
      · rw [hqx, hax] at haq
        cases haq
        rw [hv]
        exact hle (x, nd) (alook_mem _ _ _ ha)
      · rw [hane q.1 hqx] at haq
        exact hle (q.1, q.2) (alook_mem _ _ _ haq)

/-! ### Operational helpers for buckets, `min` presence and value maps -/

theorem bucketSet_ok (b : List (Option Nat)) (i : Nat) (v : Option Nat)
    (hi : i < b.length) : FibHeap.bucketSet b i v = .ok (b.set i v) := by
  unfold FibHeap.bucketSet
  rw [if_pos hi]

theorem bucketGet_ok (b : List (Option Nat)) (i : Nat) (s : Option Nat)
    (hs : b.get? i = some s) : FibHeap.bucketGet b i = .ok s := by
  unfold FibHeap.bucketGet
  rw [hs]

theorem minPresentOk_parts (h : FibHeap) (hm : h.minPresentOk = true) :
    (h.ring = [] ∧ h.minRid = none) ∨
    (h.ring ≠ [] ∧ ∃ m e, h.minRid = some m ∧ e ∈ h.ring ∧ e.rid = m) := by
  unfold FibHeap.minPresentOk at hm
  cases hr : h.ring with
  | nil =>
    rw [hr] at hm
    cases hmr : h.minRid with
    | none => exact Or.inl ⟨rfl, rfl⟩
    | some m => rw [hmr] at hm; cases hm
  | cons e0 r0 =>
    rw [hr] at hm
    cases hmr : h.minRid with
    | none => rw [hmr] at hm; cases hm
    | some m =>
      rw [hmr] at hm
      dsimp only at hm
      simp only [List.any_eq_true, beq_iff_eq] at hm
      obtain ⟨e, he, heq⟩ := hm
      exact Or.inr ⟨List.cons_ne_nil _ _, m, e, rfl, he, heq⟩

theorem minPresentOk_intro_nonempty (h : FibHeap) (m : Nat) (e : RingNode)
    (hne : h.ring ≠ []) (hm : h.minRid = some m) (he : e ∈ h.ring)
    (hrid : e.rid = m) : h.minPresentOk = true := by
  unfold FibHeap.minPresentOk
  cases hr : h.ring with
  | nil => exact absurd hr hne
  | cons e0 r0 =>
    rw [hm]
    dsimp only
    simp only [List.any_eq_true, beq_iff_eq]
    exact ⟨e, by rw [← hr]; exact he, hrid⟩

theorem minPresentOk_intro_empty (h : FibHeap) (hr : h.ring = [])
    (hm : h.minRid = none) : h.minPresentOk = true := by
  unfold FibHeap.minPresentOk
  rw [hr, hm]

theorem valueMap_setNode_preserve (h : FibHeap) (k : Nat) (nd ndX : Node)
    (hnodup : (h.nodes.map (fun p => p.1)).Nodup)
    (ha : alook h.nodes k = some nd) (hv : ndX.value = nd.value) :
    (h.setNode k ndX).valueMap = h.valueMap := by
  show (aset h.nodes k ndX).map (fun p => (p.1, p.2.value)) =
    h.nodes.map (fun p => (p.1, p.2.value))
  exact valueMap_aset_preserve (fun nd => nd.value) h.nodes k nd ndX hnodup ha hv

theorem valueMap_aset_update (l : List (Nat × Node)) (k : Nat) (ndX : Node) :
    (aset l k ndX).map (fun p => (p.1, p.2.value)) =
      aset (l.map (fun p => (p.1, p.2.value))) k ndX.value := by
  induction l with
  | nil => rfl
  | cons p rest ih =>
    show ((if p.1 == k then (k, ndX) else p) :: aset rest k ndX).map _ = _
    by_cases hk : p.1 = k
    · rw [if_pos (by simpa using hk)]
      simp only [List.map_cons]
      show _ :: _ = (if p.1 == k then (k, ndX.value) else (p.1, p.2.value)) :: _
      rw [if_pos (by simpa using hk), ih]
      rfl
    · rw [if_neg (by simpa using hk)]

      simp only [List.map_cons]
      show _ :: _ = (if p.1 == k then (k, ndX.value) else (p.1, p.2.value)) :: _
      rw [if_neg (by simpa using hk), ih]
      rfl

set_option maxHeartbeats 1000000

/-- One full specification of the cut / cascading-cut loop: started on a
node `curr` whose only possible invariant violations are the heap-order on
the edge to its parent and the minimum bound at `curr` itself (witnessed
by a larger value `w` that would restore full `MInv`), the loop succeeds
and restores `MInv`, changing no value, count, allocator position, arena
size or degree cap. -/
theorem cut_loop_ok (d : Nat) :
    ∀ (fuel : Nat) (h : FibHeap) (curr p : Nat) (cn : Node) (w : ElemType),
      alook h.nodes curr = some cn → cn.parent = some p → cn.value ≤ w →
      (h.setNode curr { cn with value := w }).MInv = true →
      h.chainDepth (h.nodes.length + 1) curr = some d → d < fuel →
      ∃ h', h.cut_loop curr (some p) fuel = .ok h' ∧ h'.MInv = true ∧
        h'.valueMap = h.valueMap ∧ h'.numElems = h.numElems ∧
        h'.nextId = h.nextId ∧ h'.nodes.length = h.nodes.length ∧
        h'.maxDegree = h.maxDegree := by
  induction d using Nat.strong_induction_on with
  | _ d IH =>
    intro fuel h curr p cn w hacn hcp hvw hW hdep hdf
    set cnW : Node := { cn with value := w } with hcnW
    set W : FibHeap := h.setNode curr cnW with hWdef
    obtain ⟨hIW, -⟩ := minv_parts W hW
    have hCW : CoreInv W := coreInv_of_inv W hIW
    have hnodW : (W.nodes.map (fun q => q.1)).Nodup := core_nodup W hCW
    have hkeys : W.nodes.map (fun q => q.1) = h.nodes.map (fun q => q.1) :=
      aset_keys _ _ _
    have hnodH : (h.nodes.map (fun q => q.1)).Nodup := by
      rw [← hkeys]
      exact hnodW
    have haWc : alook W.nodes curr = some cnW :=
      alook_aset_self _ _ _ (by rw [hacn]; rfl)
    have haWne : ∀ k, k ≠ curr → alook W.nodes k = alook h.nodes k :=
      fun k hk => alook_aset_ne _ _ _ _ (fun hc => hk hc.symm)
    have hlenW : W.nodes.length = h.nodes.length := alook_length_aset _ _ _
    have hLc : W.nodeLocalOk curr cnW = true := core_localOk W hCW curr cnW haWc
    have hcpW : cnW.parent = some p := hcp
    obtain ⟨pnW, haWp, hciNN, hslot⟩ := localOk_parent W curr cnW p hLc hcpW
    have hpc : p ≠ curr := by
      intro hc
      exact no_self_parent W hCW curr cnW haWc (by rw [hcpW, hc])
    have hapn : alook h.nodes p = some pnW := by
      rw [← haWne p hpc]
      exact haWp
    -- parents agree between h and W, so depth transfers
    have hpareq : ∀ k, (alook h.nodes k).map (fun nd => nd.parent) =
        (alook W.nodes k).map (fun nd => nd.parent) := by
      intro k
      by_cases hk : k = curr
      · subst hk
        rw [hacn, haWc]
        rfl
      · rw [haWne k hk]
    have hdepW : W.chainDepth (W.nodes.length + 1) curr = some d := by
      rw [hlenW, ← chainDepth_congr_parent h W hpareq _ curr]
      exact hdep
    obtain ⟨dp, hdpW, hddp⟩ := parent_chain_step W hCW curr cnW p d haWc hcpW hdepW
    -- the heap is non-empty, so get_min is available
    have hWne : W.nodes ≠ [] := by
      intro hc
      rw [hc] at haWc
      cases haWc
    have hringne : h.ring ≠ [] := ring_ne_nil_core W hCW hWne
    obtain ⟨mvW, hgmW, hmvle⟩ := minVal_parts W hW hringne
    obtain ⟨-, mrid, me, ndm, hmW, hfW, hnW, hvW⟩ := (get_min_ok_iff W mvW).1 hgmW
    have hmem : me ∈ W.ring := List.mem_of_find?_eq_some hfW
    obtain ⟨ndm2, hndm2, hpm2⟩ := (ringOk_parts W hCW.2.1).2.2.1 me hmem
    have hndm : ndm2 = ndm := by
      rw [hnW] at hndm2
      exact (Option.some_inj.1 hndm2).symm
    have hmroot_ne : me.root ≠ curr := by
      intro hc
      rw [hc, haWc] at hnW
      cases hnW
      rw [hndm] at hpm2
      rw [hcpW] at hpm2
      cases hpm2
    -- unfold one iteration
    obtain ⟨fl, rfl⟩ : ∃ fl, fuel = fl + 1 := ⟨fuel - 1, by omega⟩
    have hci_lt : cn.childIndex.toNat < pnW.children.length :=
      (List.get?_eq_some.1 hslot).1
    set ci : Nat := cn.childIndex.toNat with hci
    set pnX : Node := { pnW with children := pnW.children.set ci none,
                                 numChildren := pnW.numChildren - 1 } with hpnX
    set h1 : FibHeap := h.setNode p pnX with hh1
    have ha1c : alook h1.nodes curr = some cn := by
      show alook (aset h.nodes p pnX) curr = some cn
      rw [alook_aset_ne _ _ _ _ hpc]
      exact hacn
    have ha1p : alook h1.nodes p = some pnX := by
      show alook (aset h.nodes p pnX) p = some pnX
      exact alook_aset_self _ _ _ (by rw [hapn]; rfl)
    have ha1o : ∀ k, k ≠ p → alook h1.nodes k = alook h.nodes k := by
      intro k hk
      show alook (aset h.nodes p pnX) k = alook h.nodes k
      rw [alook_aset_ne _ _ _ _ (fun hc => hk hc.symm)]
    -- get_min survives the detach
    have hgm1 : h1.get_min = .ok mvW := by
      rw [get_min_ok_iff]
      refine ⟨hringne, mrid, me, ?_⟩
      by_cases hmp : me.root = p
      · refine ⟨pnX, hmW, hfW, ?_, ?_⟩
        · rw [hmp]
          exact ha1p
        · rw [hmp, haWne p hpc, hapn] at hnW
          cases hnW
          exact hvW
      · refine ⟨ndm, hmW, hfW, ?_, hvW⟩
        rw [ha1o me.root hmp, ← haWne me.root hmroot_ne]
        exact hnW
    have hrid1 : ∀ en ∈ h1.ring, en.rid ≠ h1.nextRid := by
      intro en hen
      exact Nat.ne_of_lt ((ringOk_parts W hCW.2.1).2.1 en hen)
    obtain ⟨h2, hrun2, hn2, hid2, hnum2, hmax2, hnr2, hroots2, hring2⟩ :=
      add_root_spec h1 curr cn ha1c hrid1 (Or.inr ⟨mvW, hgm1⟩)
    set cnR : Node := { cn with loser := false, parent := none, childIndex := -1 }
      with hcnR
    obtain ⟨j, mv', hj1, hjlen, hring2', hgm2, hmr2⟩ :=
      hring2.resolve_left (fun hc => hringne hc.1)
    have hmv' : mv' = mvW := by
      rw [hgm1] at hgm2
      exact (Option.some_inj.1 (by simpa using hgm2)).symm
    rw [hmv'] at hmr2
    set newE : RingNode := { rid := h.nextRid, root := curr } with hnewE
    -- basic lookups in h2
    have ha2c : alook h2.nodes curr = some cnR := by
      rw [hn2]
      exact alook_aset_self _ _ _ (by rw [ha1c]; rfl)
    have ha2p : alook h2.nodes p = some pnX := by
      rw [hn2, alook_aset_ne _ _ _ _ (fun hc => hpc hc.symm)]
      exact ha1p
    have ha2o : ∀ k, k ≠ curr → k ≠ p → alook h2.nodes k = alook W.nodes k := by
      intro k hk hkp
      rw [hn2, alook_aset_ne _ _ _ _ (fun hc => hk hc.symm),
        ha1o k hkp, haWne k hk]
    have hkeys2 : h2.nodes.map (fun q => q.1) = h.nodes.map (fun q => q.1) := by
      rw [hn2]
      show (aset (aset h.nodes p pnX) curr cnR).map _ = _
      rw [aset_keys, aset_keys]
    have hnod2 : (h2.nodes.map (fun q => q.1)).Nodup := by
      rw [hkeys2]
      exact hnodH
    have hlen2 : h2.nodes.length = h.nodes.length := by
      rw [hn2]
      show (aset (aset h.nodes p pnX) curr cnR).length = _
      rw [alook_length_aset, alook_length_aset]
    have hsome2 : ∀ k, (alook h2.nodes k).isSome = (alook W.nodes k).isSome := by
      intro k
      rw [hn2]
      show (alook (aset (aset h.nodes p pnX) curr cnR) k).isSome = _
      rw [isSome_aset, isSome_aset]
      show _ = (alook (aset h.nodes curr cnW) k).isSome
      rw [isSome_aset]
    have hperm : h2.ring.Perm (newE :: h.ring) := by
      rw [hring2']
      have := @List.perm_middle _ newE (h.ring.take j) (h.ring.drop j)
      rw [List.take_append_drop] at this
      exact this
    have hmem2 : ∀ e, e ∈ h2.ring → e ∈ h.ring ∨ e = newE := by
      intro e he
      have := hperm.mem_iff.1 he
      cases List.mem_cons.1 this with
      | inl h => exact Or.inr h
      | inr h => exact Or.inl h
    have hmem2' : ∀ e, e ∈ h.ring → e ∈ h2.ring := by
      intro e he
      exact hperm.mem_iff.2 (List.mem_cons_of_mem _ he)
    have hnewE2 : newE ∈ h2.ring := hperm.mem_iff.2 (List.mem_cons_self _ _)
    -- roots map of h2
    have hrabs : alook h.roots curr = none :=
      (inv_rootsOk W hIW).1 (curr, cnW) (alook_mem _ _ _ haWc) p hcpW
    have hroots2' : h2.roots = mapInsert h.roots curr (some h.nextRid) := hroots2
    have ha2rc : alook h2.roots curr = some (some h.nextRid) := by
      rw [hroots2']
      exact alook_mapInsert_self_of_absent _ _ _ hrabs
    have ha2rne : ∀ k, k ≠ curr → alook h2.roots k = alook h.roots k := by
      intro k hk
      rw [hroots2']
      exact alook_mapInsert_ne _ _ _ _ (fun hc => hk hc.symm)
    -- parent-edge compatibility between W and h2 (only `curr` was cut)
    have hcut2 : ∀ k nd2 pk, alook h2.nodes k = some nd2 → nd2.parent = some pk →
        ∃ nd1, alook W.nodes k = some nd1 ∧ nd1.parent = some pk ∧
          (alook h2.nodes pk).isSome := by
      intro k nd2 pk hak hpk
      by_cases hkc : k = curr
      · rw [hkc, ha2c] at hak
        cases hak
        rw [show cnR.parent = none from rfl] at hpk
        cases hpk
      · by_cases hkp : k = p
        · rw [hkp, ha2p] at hak
          cases hak
          have hpk' : pnW.parent = some pk := hpk
          obtain ⟨qn, hqn, -, -⟩ :=
            localOk_parent W p pnW pk (core_localOk W hCW p pnW haWp) hpk'
          refine ⟨pnW, by rw [hkp]; exact haWp, hpk', ?_⟩
          rw [hsome2 pk, hqn]
          rfl
        · rw [ha2o k hkc hkp] at hak
          obtain ⟨qn, hqn, -, -⟩ :=
            localOk_parent W k nd2 pk (core_localOk W hCW k nd2 hak) hpk
          refine ⟨nd2, hak, hpk, ?_⟩
          rw [hsome2 pk, hqn]
          rfl
    have hWbound : ∀ k nd, alook W.nodes k = some nd → k < h.nextId := by
      intro k nd ha
      exact (allocOk_parts W hCW.1).2 (k, nd) (alook_mem _ _ _ ha)
    have hcurr_lt : curr < h.nextId := hWbound curr cnW haWc
    have hrne2 : h2.ring ≠ [] := by
      have hl := hperm.length_eq
      intro hc
      rw [hc] at hl
      simp at hl
    have hmerid : me.rid = mrid := by
      have := List.find?_some hfW
      simpa using this
    have hmemh : me ∈ h.ring := hmem
    -- the structural invariant of h2
    have hI2 : h2.Inv = true := by
      refine inv_intro h2 ?_ ?_ ?_ ?_ ?_ ?_ ?_
      · -- allocOk
        refine allocOk_intro h2 hnod2 ?_
        intro q hq
        have haq : alook h2.nodes q.1 = some q.2 :=
          alook_of_mem_nodup _ _ _ hnod2 hq
        have hqs : (alook W.nodes q.1).isSome := by
          rw [← hsome2 q.1, haq]
          rfl
        cases haw : alook W.nodes q.1 with
        | none => rw [haw] at hqs; cases hqs
        | some wnd =>
          rw [hid2]
          show q.1 < h.nextId
          exact hWbound q.1 wnd haw
      · -- ringOk
        obtain ⟨hr1, hr2, hr3, hr4⟩ := ringOk_parts W hCW.2.1
        have hrootW : ∀ e ∈ h.ring, e.root ≠ curr := by
          intro e he hc
          obtain ⟨nde, hnde, hpe⟩ := hr3 e he
          rw [hc, haWc] at hnde
          cases hnde
          rw [hcpW] at hpe
          cases hpe
        refine ringOk_intro h2 ?_ ?_ ?_ ?_
        · have hp9 := (hperm.map (fun e => e.rid)).nodup_iff
          refine hp9.2 ?_
          refine List.nodup_cons.2 ⟨?_, hr1⟩
          intro hc
          obtain ⟨e, he, heq⟩ := List.mem_map.1 hc
          exact Nat.ne_of_lt (hr2 e he) heq
        · intro e he
          rw [hnr2]
          cases hmem2 e he with
          | inl hold => exact Nat.lt_succ_of_lt (hr2 e hold)
          | inr hnew =>
            rw [hnew]
            exact Nat.lt_succ_self _
        · intro e he
          cases hmem2 e he with
          | inl hold =>
            obtain ⟨nde, hnde, hpe⟩ := hr3 e hold
            by_cases hep : e.root = p
            · rw [hep, haWp] at hnde
              cases hnde
              exact ⟨pnX, by rw [hep]; exact ha2p, hpe⟩
            · refine ⟨nde, ?_, hpe⟩
              rw [ha2o e.root (hrootW e hold) hep]
              exact hnde
          | inr hnew =>
            rw [hnew]
            exact ⟨cnR, ha2c, rfl⟩
        · intro e he
          cases hmem2 e he with
          | inl hold =>
            rw [ha2rne e.root (hrootW e hold)]
            exact hr4 e hold
          | inr hnew =>
            rw [hnew]
            exact ha2rc
      · -- minPresentOk
        by_cases hlt : cn.value < mvW
        · refine minPresentOk_intro_nonempty h2 h.nextRid newE hrne2 ?_ hnewE2 rfl
          rw [hmr2, if_pos hlt]
          rfl
        · refine minPresentOk_intro_nonempty h2 mrid me hrne2 ?_ (hmem2' me hmemh)
            hmerid
          rw [hmr2, if_neg hlt]
          exact hmW
      · -- rootsOk
        refine rootsOk_intro h2 ?_ ?_
        · intro q hq pk hpk
          have haq : alook h2.nodes q.1 = some q.2 :=
            alook_of_mem_nodup _ _ _ hnod2 hq
          by_cases hkc : q.1 = curr
          · rw [hkc, ha2c] at haq
            have heq := Option.some_inj.1 haq
            rw [← heq, show cnR.parent = none from rfl] at hpk
            cases hpk
          · rw [ha2rne q.1 hkc]
            by_cases hkp : q.1 = p
            · rw [hkp, ha2p] at haq
              have heq := Option.some_inj.1 haq
              rw [← heq] at hpk
              rw [hkp]
              exact (inv_rootsOk W hIW).1 (p, pnW) (alook_mem _ _ _ haWp) pk hpk
            · rw [ha2o q.1 hkc hkp] at haq
              exact (inv_rootsOk W hIW).1 (q.1, q.2) (alook_mem _ _ _ haq) pk hpk
        · intro q hq
          rw [hroots2'] at hq
          rw [hid2]
          cases mem_mapInsert _ _ _ q hq with
          | inl hold => exact (inv_rootsOk W hIW).2 q hold
          | inr hnew =>
            rw [hnew]
            exact hcurr_lt
      · -- numElems
        rw [hnum2, hlen2, ← hlenW]
        exact hCW.2.2.2.1
      · -- localOk of every node
        intro q hq
        have haq : alook h2.nodes q.1 = some q.2 :=
          alook_of_mem_nodup _ _ _ hnod2 hq
        by_cases hkc : q.1 = curr
        · rw [hkc, ha2c] at haq
          have heq := Option.some_inj.1 haq
          rw [hkc, ← heq]
          refine nodeLocalOk_intro h2 curr cnR ?_ ?_ ?_ ?_ ?_
          · intro i c hcslot
            have hscW : cnW.children.get? i = some (some c) := hcslot
            obtain ⟨cnd, hcnd, hcpc, hcci, hcle⟩ :=
              localOk_child W curr cnW (core_localOk W hCW curr cnW haWc) i c hscW
            have hcne : c ≠ curr := by
              intro hc
              rw [hc, haWc] at hcnd
              cases hcnd
              rw [hcpW] at hcpc
              exact hpc (Option.some_inj.1 hcpc)
            have hcnep : c ≠ p := by
              intro hc
              rw [hc, haWp] at hcnd
              cases hcnd
              exact no_two_cycle W hCW curr p cnW pnW haWc haWp hcpW hcpc
            refine ⟨cnd, ?_, hcpc, hcci, ?_⟩
            · rw [ha2o c hcne hcnep]
              exact hcnd
            · exact le_trans hvw hcle
          · exact localOk_numChildren W curr cnW (core_localOk W hCW curr cnW haWc)
          · rw [hmax2]
            exact localOk_degree_le W curr cnW (core_localOk W hCW curr cnW haWc)
          · intro hp9
            exact ⟨rfl, newE, hnewE2, rfl⟩
          · intro pk hpk
            rw [show cnR.parent = none from rfl] at hpk
            cases hpk
        · by_cases hkp : q.1 = p
          · rw [hkp, ha2p] at haq
            have heq := Option.some_inj.1 haq
            rw [hkp, ← heq]
            have hLp := core_localOk W hCW p pnW haWp
            refine nodeLocalOk_intro h2 p pnX ?_ ?_ ?_ ?_ ?_
            · intro i c hcslot
              have hine : i ≠ ci := by
                intro hc
                rw [show pnX.children = pnW.children.set ci none from rfl, hc,
                  get?_set_self' _ _ _ hci_lt] at hcslot
                cases hcslot
              have hsc : pnW.children.get? i = some (some c) := by
                rw [show pnX.children = pnW.children.set ci none from rfl,
                  get?_set_ne' _ _ _ _ (fun hc => hine hc.symm)] at hcslot
                exact hcslot
              obtain ⟨cnd, hcnd, hcpc, hcci, hcle⟩ :=
                localOk_child W p pnW hLp i c hsc
              have hcne : c ≠ curr := by
                intro hc
                rw [hc, haWc] at hcnd
                cases hcnd
                refine hine ?_
                rw [hci, show cnW.childIndex = (i : Int) from hcci]
                simp
              have hcnep : c ≠ p := by
                intro hc
                rw [hc, haWp] at hcnd
                cases hcnd
                exact no_self_parent W hCW p pnW haWp hcpc
              refine ⟨cnd, ?_, hcpc, hcci, hcle⟩
              rw [ha2o c hcne hcnep]
              exact hcnd
            · have hnum := localOk_numChildren W p pnW hLp
              have hcnt := filter_isSome_set_none pnW.children ci curr hslot
              show pnW.numChildren - 1 =
                (((pnW.children.set ci none).filter (fun c => c.isSome)).length : Int)
              rw [hnum]
              omega
            · show (pnW.children.set ci none).length ≤ h2.maxDegree
              rw [List.length_set, hmax2]
              exact localOk_degree_le W p pnW hLp
            · intro hp9
              obtain ⟨hci9, e, he, her⟩ := localOk_root W p pnW hLp hp9
              exact ⟨hci9, e, hmem2' e he, her⟩
            · intro pk hpk
              obtain ⟨qn, hqn, hci9, hslot9⟩ := localOk_parent W p pnW pk hLp hpk
              have hpknp : pk ≠ p := by
                intro hc
                rw [hc] at hpk
                exact no_self_parent W hCW p pnW haWp hpk
              have hpknc : pk ≠ curr := by
                intro hc
                rw [hc] at hpk
                exact no_two_cycle W hCW curr p cnW pnW haWc haWp hcpW hpk
              refine ⟨qn, ?_, hci9, hslot9⟩
              rw [ha2o pk hpknc hpknp]
              exact hqn
          · rw [ha2o q.1 hkc hkp] at haq
            have hLk := core_localOk W hCW q.1 q.2 haq
            refine nodeLocalOk_intro h2 q.1 q.2 ?_
              (localOk_numChildren W q.1 q.2 hLk)
              (by rw [hmax2]; exact localOk_degree_le W q.1 q.2 hLk) ?_ ?_
            · intro i c hcslot
              obtain ⟨cnd, hcnd, hcpc, hcci, hcle⟩ :=
                localOk_child W q.1 q.2 hLk i c hcslot
              by_cases hcc : c = curr
              · exfalso
                rw [hcc, haWc] at hcnd
                cases hcnd
                rw [hcpW] at hcpc
                exact hkp (Option.some_inj.1 hcpc).symm
              · by_cases hcp9 : c = p
                · rw [hcp9, haWp] at hcnd
                  cases hcnd
                  exact ⟨pnX, by rw [hcp9]; exact ha2p, hcpc, hcci, hcle⟩
                · refine ⟨cnd, ?_, hcpc, hcci, hcle⟩
                  rw [ha2o c hcc hcp9]
                  exact hcnd
            · intro hp9
              obtain ⟨hci9, e, he, her⟩ := localOk_root W q.1 q.2 hLk hp9
              exact ⟨hci9, e, hmem2' e he, her⟩
            · intro pk hpk
              obtain ⟨qn, hqn, hci9, hslot9⟩ := localOk_parent W q.1 q.2 pk hLk hpk
              by_cases hpkc : pk = curr
              · rw [hpkc, haWc] at hqn
                cases hqn
                refine ⟨cnR, by rw [hpkc]; exact ha2c, hci9, hslot9⟩
              · by_cases hpkp : pk = p
                · rw [hpkp, haWp] at hqn
                  cases hqn
                  refine ⟨pnX, by rw [hpkp]; exact ha2p, hci9, ?_⟩
                  show (pnW.children.set ci none).get? q.2.childIndex.toNat =
                    some (some q.1)
                  have hine : q.2.childIndex.toNat ≠ ci := by
                    intro hc
                    rw [hc, hslot] at hslot9
                    exact hkc (Option.some_inj.1 (Option.some_inj.1 hslot9)).symm
                  rw [get?_set_ne' _ _ _ _ (fun hc => hine hc.symm)]
                  exact hslot9
                · refine ⟨qn, ?_, hci9, hslot9⟩
                  rw [ha2o pk hpkc hpkp]
                  exact hqn
      · -- chains
        intro q hq
        have haq : alook h2.nodes q.1 = some q.2 :=
          alook_of_mem_nodup _ _ _ hnod2 hq
        have hqs : (alook W.nodes q.1).isSome := by
          rw [← hsome2 q.1, haq]
          rfl
        cases haw : alook W.nodes q.1 with
        | none => rw [haw] at hqs; cases hqs
        | some wnd =>
          obtain ⟨dq, hdq, -⟩ := core_chain_lt W hCW q.1 wnd haw
          obtain ⟨d2, -, hc2⟩ := chainDepth_parent_cut W h2 hcut2
            (W.nodes.length + 1) q.1 dq hdq (by rw [haq]; rfl)
          rw [hlen2, ← hlenW, hc2]
          rfl
    have hM2 : h2.MInv = true := by
      refine minVal_intro h2 hI2 ?_
      intro _
      have hbound : ∀ q ∈ h2.nodes, q.1 ≠ curr → mvW ≤ q.2.value := by
        intro q hq hqc
        have haq : alook h2.nodes q.1 = some q.2 :=
          alook_of_mem_nodup _ _ _ hnod2 hq
        by_cases hkp : q.1 = p
        · rw [hkp, ha2p] at haq
          have heq := Option.some_inj.1 haq
          rw [← heq]
          exact hmvle (p, pnW) (alook_mem _ _ _ haWp)
        · rw [ha2o q.1 hqc hkp] at haq
          exact hmvle (q.1, q.2) (alook_mem _ _ _ haq)
      by_cases hlt : cn.value < mvW
      · refine ⟨cn.value, ?_, ?_⟩
        · rw [get_min_ok_iff]
          refine ⟨hrne2, h.nextRid, newE, cnR, ?_, ?_, ha2c, rfl⟩
          · rw [hmr2, if_pos hlt]
            rfl
          · rw [hring2']
            refine find?_decomp (fun e => e.rid) (h.ring.take j) (h.ring.drop j)
              newE ?_
            intro x hx
            exact Nat.ne_of_lt ((ringOk_parts W hCW.2.1).2.1 x
              ((List.take_sublist j h.ring).subset hx))
        · intro q hq
          by_cases hqc : q.1 = curr
          · have haq : alook h2.nodes q.1 = some q.2 :=
              alook_of_mem_nodup _ _ _ hnod2 hq
            rw [hqc, ha2c] at haq
            have heq := Option.some_inj.1 haq
            rw [← heq]
          · exact le_of_lt (lt_of_lt_of_le hlt (hbound q hq hqc))
      · refine ⟨mvW, ?_, ?_⟩
        · rw [get_min_ok_iff]
          refine ⟨hrne2, mrid, me, ?_⟩
          have hfind2 : h2.ring.find? (fun en => en.rid == mrid) = some me := by
            rw [hring2', find?_splice _ _ _ _ ?_]
            · exact hfW
            · show (newE.rid == mrid) = false
              simp only [beq_eq_false_iff_ne, ne_eq]
              intro hc
              rw [← hmerid] at hc
              exact Nat.ne_of_lt ((ringOk_parts W hCW.2.1).2.1 me hmemh) hc.symm
          by_cases hmp : me.root = p
          · refine ⟨pnX, ?_, hfind2, ?_, ?_⟩
            · rw [hmr2, if_neg hlt]
              exact hmW
            · rw [hmp]
              exact ha2p
            · rw [hmp, haWp] at hnW
              cases hnW
              exact hvW
          · refine ⟨ndm, ?_, hfind2, ?_, hvW⟩
            · rw [hmr2, if_neg hlt]
              exact hmW
            · rw [ha2o me.root hmroot_ne hmp]
              exact hnW
        · intro q hq
          by_cases hqc : q.1 = curr
          · have haq : alook h2.nodes q.1 = some q.2 :=
              alook_of_mem_nodup _ _ _ hnod2 hq
            rw [hqc, ha2c] at haq
            have heq := Option.some_inj.1 haq
            rw [← heq]
            exact le_of_not_lt hlt
          · exact hbound q hq hqc
    -- value bookkeeping of h2
    have hvm2 : h2.valueMap = h.valueMap := by
      rw [show h2.valueMap = h2.nodes.map (fun q => (q.1, q.2.value)) from rfl, hn2]
      show (aset (aset h.nodes p pnX) curr cnR).map _ = _
      rw [valueMap_aset_preserve (fun nd : Node => nd.value) _ curr cn cnR
        (by rw [aset_keys]; exact hnodH)
        (by rw [alook_aset_ne _ _ _ _ hpc]; exact hacn) rfl]
      exact valueMap_aset_preserve (fun nd : Node => nd.value) _ p pnW pnX hnodH hapn rfl
    have hne2 : h2.numElems = h.numElems := hnum2
    have hid2' : h2.nextId = h.nextId := hid2
    have hmax2' : h2.maxDegree = h.maxDegree := hmax2
    -- now run the continuation of the loop body
    show ∃ h', h.cut_loop curr (some p) (fl + 1) = .ok h' ∧ _
    have hrun : h.cut_loop curr (some p) (fl + 1) = (do
        let pn2 ← h2.getNode p
        if pn2.loser then h2.cut_loop p pn2.parent fl
        else
          match pn2.parent with
          | some _ => pure (h2.setNode p { pn2 with loser := true })
          | none => pure h2) := by
      show (do
        let pn ← h.getNode p
        let cn2 ← h.getNode curr
        let ci2 ← FibHeap.degreeIdx cn2.childIndex
        let slots ← FibHeap.bucketSet pn.children ci2 none
        let pn := { pn with children := slots, numChildren := pn.numChildren - 1 }
        let h := h.setNode p pn
        let h ← h.add_root curr
        let pn2 ← h.getNode p
        if pn2.loser then h.cut_loop p pn2.parent fl
        else
          match pn2.parent with
          | some _ => pure (h.setNode p { pn2 with loser := true })
          | none => pure h) = _
      rw [getNode_eq_ok h p pnW hapn, getNode_eq_ok h curr cn hacn]
      simp only [eok_bind]
      rw [degreeIdx_nonneg cn.childIndex hciNN]
      simp only [eok_bind]
      rw [bucketSet_ok _ _ _ hci_lt]
      simp only [eok_bind]
      rw [hrun2]
      simp only [eok_bind]
    rw [hrun]
    rw [getNode_eq_ok h2 p pnX ha2p]
    simp only [eok_bind]
    by_cases hls : pnX.loser = true
    · rw [if_pos hls]
      cases hpp : pnX.parent with
      | none =>
        obtain ⟨fl2, rfl⟩ : ∃ fl2, fl = fl2 + 1 := ⟨fl - 1, by omega⟩
        refine ⟨h2, ?_, hM2, hvm2, hne2, hid2', hlen2, hmax2'⟩
        show h2.cut_loop p none (fl2 + 1) = .ok h2
        rfl
      | some q =>
        -- clean recursive call
        obtain ⟨d2, hd2le, hd2⟩ := chainDepth_parent_cut W h2
          hcut2 (W.nodes.length + 1) p dp hdpW (by
            rw [ha2p]
            rfl)
        have hppW : pnX.value ≤ pnX.value := le_refl _
        have hsetid : h2.setNode p pnX = h2 := by
          show { h2 with nodes := aset h2.nodes p pnX } = h2
          rw [aset_identity _ _ _ hnod2 ha2p]
        have hWX : (h2.setNode p { pnX with value := pnX.value }).MInv = true := by
          have heq : ({ pnX with value := pnX.value } : Node) = pnX := rfl
          rw [heq, hsetid]
          exact hM2
        have hd2' : h2.chainDepth (h2.nodes.length + 1) p = some d2 := by
          rw [hlen2, ← hlenW]
          exact hd2
        obtain ⟨h3, hrun3, hM3, hvm3, hne3, hid3, hlen3, hmax3⟩ :=
          IH d2 (by omega) fl h2 p q pnX pnX.value ha2p hpp hppW hWX hd2'
            (by omega)
        refine ⟨h3, hrun3, hM3, ?_, ?_, ?_, ?_, ?_⟩
        · rw [hvm3, hvm2]
        · rw [hne3, hne2]
        · rw [hid3, hid2']
        · rw [hlen3, hlen2]
        · rw [hmax3, hmax2']
    · rw [if_neg hls]
      cases hpp : pnX.parent with
      | none =>
        exact ⟨h2, rfl, hM2, hvm2, hne2, hid2', hlen2, hmax2'⟩
      | some q =>
        refine ⟨_, rfl, ?_, ?_, hne2, hid2', ?_, hmax2'⟩
        · exact MInv_set_flag h2 p pnX _ ha2p rfl hpp.symm rfl rfl rfl hM2
        · rw [show ∀ nd9, (h2.setNode p nd9).valueMap =
            (aset h2.nodes p nd9).map
              (fun q => (q.1, q.2.value)) from fun nd9 => rfl]
          rw [valueMap_aset_preserve (fun nd : Node => nd.value) h2.nodes p pnX]
          · exact hvm2
          · exact hnod2
          · exact ha2p
          · rfl
        · show (aset h2.nodes p _).length = h.nodes.length
          rw [alook_length_aset]
          exact hlen2

theorem aset_aset {α : Type} (l : List (Nat × α)) (k : Nat) (v1 v2 : α) :
    aset (aset l k v1) k v2 = aset l k v2 := by
  induction l with
  | nil => rfl
  | cons p rest ih =>
    show aset ((if p.1 == k then (k, v1) else p) :: aset rest k v1) k v2 = _
    by_cases hk : p.1 = k
    · rw [if_pos (by simpa using hk)]
      show (if k == k then (k, v2) else (k, v1)) :: aset (aset rest k v1) k v2 = _
      rw [if_pos (by simp), ih]
      show _ = (if p.1 == k then (k, v2) else p) :: aset rest k v2
      rw [if_pos (by simpa using hk)]
    · rw [if_neg (by simpa using hk)]
      show (if p.1 == k then (k, v2) else p) :: aset (aset rest k v1) k v2 = _
      rw [if_neg (by simpa using hk), ih]
      show _ = (if p.1 == k then (k, v2) else p) :: aset rest k v2
      rw [if_neg (by simpa using hk)]

/-- Lowering one node's value in place preserves the structural invariant
provided the node's own parent edge (if any) still respects heap order. -/
theorem Inv_set_value (h : FibHeap) (x : Nat) (nd ndX : Node)
    (ha : alook h.nodes x = some nd)
    (hv : ndX.value ≤ nd.value) (hpp : ndX.parent = nd.parent)
    (hcc : ndX.children = nd.children) (hci : ndX.childIndex = nd.childIndex)
    (hnc : ndX.numChildren = nd.numChildren)
    (hord : ∀ p pn, nd.parent = some p → alook h.nodes p = some pn →
      pn.value ≤ ndX.value)
    (hI : h.Inv = true) : (h.setNode x ndX).Inv = true := by
  have hC := coreInv_of_inv h hI
  have hnodup := core_nodup h hC
  set g := h.setNode x ndX with hg
  have hgn : g.nodes = aset h.nodes x ndX := rfl
  have hax : alook g.nodes x = some ndX := by
    rw [hgn]
    exact alook_aset_self _ _ _ (by rw [ha]; rfl)
  have hane : ∀ k, k ≠ x → alook g.nodes k = alook h.nodes k := by
    intro k hk
    rw [hgn, alook_aset_ne _ _ _ _ (fun hc => hk hc.symm)]
  have hext : ∀ k, (alook h.nodes k).isSome = (alook g.nodes k).isSome := by
    intro k
    rw [hgn, isSome_aset]
  have hparents : ∀ k, (alook h.nodes k).map (fun nd => nd.parent) =
      (alook g.nodes k).map (fun nd => nd.parent) := by
    intro k
    by_cases hk : k = x
    · subst hk
      rw [ha, hax]
      simp [hpp]
    · rw [hane k hk]
  have hlen : g.nodes.length = h.nodes.length := by
    rw [hgn, alook_length_aset]
  refine inv_intro g ?_ ?_ ?_ ?_ ?_ ?_ ?_
  · refine allocOk_intro g ?_ ?_
    · rw [hgn, aset_keys]
      exact hnodup
    · intro p hp
      have : p.1 ∈ g.nodes.map (fun q => q.1) := List.mem_map.2 ⟨p, hp, rfl⟩
      rw [hgn, aset_keys] at this
      obtain ⟨q, hq, hqe⟩ := List.mem_map.1 this
      rw [← hqe]
      exact (allocOk_parts h hC.1).2 q hq
  · obtain ⟨hr1, hr2, hr3, hr4⟩ := ringOk_parts h hC.2.1
    refine ringOk_intro g hr1 hr2 ?_ hr4
    intro e he
    obtain ⟨nde, hnde, hpe⟩ := hr3 e he
    by_cases hex : e.root = x
    · rw [hex, ha] at hnde
      cases hnde
      exact ⟨ndX, by rw [hex]; exact hax, by rw [hpp]; exact hpe⟩
    · exact ⟨nde, by rw [hane e.root hex]; exact hnde, hpe⟩
  · have := (inv_parts h hI).2.2.1
    unfold FibHeap.minPresentOk at this ⊢
    exact this
  · obtain ⟨ho1, ho2⟩ := inv_rootsOk h hI
    refine rootsOk_intro g ?_ ho2
    intro q hq pq hpq
    have haq : alook g.nodes q.1 = some q.2 := by
      refine alook_of_mem_nodup _ _ _ ?_ hq
      rw [hgn, aset_keys]
      exact hnodup
    by_cases hqx : q.1 = x
    · rw [hqx, hax] at haq
      cases haq
      have hgr : g.roots = h.roots := rfl
      rw [hgr, hqx]
      refine ho1 (x, nd) (alook_mem _ _ _ ha) pq ?_
      rw [← hpp]
      exact hpq
    · rw [hane q.1 hqx] at haq
      exact ho1 (q.1, q.2) (alook_mem _ _ _ haq) pq hpq
  · rw [hlen]
    exact hC.2.2.2.1
  · intro q hq
    have haq : alook g.nodes q.1 = some q.2 := by
      refine alook_of_mem_nodup _ _ _ ?_ hq
      rw [hgn, aset_keys]
      exact hnodup
    have hLg : ∀ k knd, alook h.nodes k = some knd → k ≠ x →
        g.nodeLocalOk k knd = true := by
      intro k knd hknd hkx
      have hL := core_localOk h hC k knd hknd
      refine nodeLocalOk_intro g k knd ?_ (localOk_numChildren h k knd hL)
        (localOk_degree_le h k knd hL) ?_ ?_
      · intro i c hcslot
        obtain ⟨cnd, hcnd, hcp, hcci, hcle⟩ := localOk_child h k knd hL i c hcslot
        by_cases hcx : c = x
        · rw [hcx, ha] at hcnd
          cases hcnd
          refine ⟨ndX, by rw [hcx]; exact hax, by rw [hpp]; exact hcp,
            by rw [hci]; exact hcci, ?_⟩
          exact hord k knd hcp hknd
        · exact ⟨cnd, by rw [hane c hcx]; exact hcnd, hcp, hcci, hcle⟩
      · intro hkp
        obtain ⟨hkci, e, he, hek⟩ := localOk_root h k knd hL hkp
        exact ⟨hkci, e, he, hek⟩
      · intro pk hkp
        obtain ⟨pkn, hpkn, hkci, hkslot⟩ := localOk_parent h k knd pk hL hkp
        by_cases hpx : pk = x
        · rw [hpx, ha] at hpkn
          cases hpkn
          exact ⟨ndX, by rw [hpx]; exact hax, hkci, by rw [hcc]; exact hkslot⟩
        · exact ⟨pkn, by rw [hane pk hpx]; exact hpkn, hkci, hkslot⟩
    by_cases hqx : q.1 = x
    · rw [hqx, hax] at haq
      have heq := Option.some_inj.1 haq
      have hbase := core_localOk h hC x nd ha
      rw [hqx, ← heq]
      refine nodeLocalOk_intro g x ndX ?_ ?_ ?_ ?_ ?_
      · intro i c hcslot
        rw [hcc] at hcslot
        obtain ⟨cnd, hcnd, hcp, hcci, hcle⟩ := localOk_child h x nd hbase i c hcslot
        by_cases hcx : c = x
        · rw [hcx, ha] at hcnd
          cases hcnd
          refine ⟨ndX, by rw [hcx]; exact hax, by rw [hpp]; exact hcp,
            by rw [hci]; exact hcci, le_refl _⟩
        · refine ⟨cnd, by rw [hane c hcx]; exact hcnd, hcp, hcci,
            le_trans hv hcle⟩
      · rw [hnc, hcc]
        exact localOk_numChildren h x nd hbase
      · rw [hcc]
        exact localOk_degree_le h x nd hbase
      · intro hkp
        rw [hci]
        obtain ⟨hkci, e, he, hek⟩ := localOk_root h x nd hbase (by rw [← hpp]; exact hkp)
        exact ⟨hkci, e, he, hek⟩
      · intro pk hkp
        rw [hci]
        obtain ⟨pkn, hpkn, hkci, hkslot⟩ :=
          localOk_parent h x nd pk hbase (by rw [← hpp]; exact hkp)
        by_cases hpx : pk = x
        · rw [hpx, ha] at hpkn
          cases hpkn
          exact ⟨ndX, by rw [hpx]; exact hax, hkci, by rw [hcc]; exact hkslot⟩
        · exact ⟨pkn, by rw [hane pk hpx]; exact hpkn, hkci, hkslot⟩
    · rw [hane q.1 hqx] at haq
      exact hLg q.1 q.2 haq hqx
  · intro q hq
    have haq : alook g.nodes q.1 = some q.2 := by
      refine alook_of_mem_nodup _ _ _ ?_ hq
      rw [hgn, aset_keys]
      exact hnodup
    have hsome : (alook h.nodes q.1).isSome := by
      rw [hext, haq]
      rfl
    cases hah : alook h.nodes q.1 with
    | none => rw [hah] at hsome; cases hsome
    | some ndh =>
      obtain ⟨d, hd, -⟩ := core_chain_lt h hC q.1 ndh hah
      rw [hlen, ← chainDepth_congr_parent h g hparents _ q.1, hd]
      rfl

/-- Full specification of a valid `decrease_val` call: it succeeds,
restores the invariant, updates exactly the one value, and leaves the
count, allocator, arena size and degree cap alone. -/
theorem decrease_val_spec (h : FibHeap) (n : Nat) (nd : Node) (v : ElemType)
    (hM : h.MInv = true) (ha : alook h.nodes n = some nd) (hlt : v < nd.value) :
    ∃ h', h.decrease_val (some n) v = .ok h' ∧ h'.MInv = true ∧
      h'.valueMap = aset h.valueMap n v ∧
      h'.numElems = h.numElems ∧ h'.nextId = h.nextId ∧
      h'.nodes.length = h.nodes.length ∧ h'.maxDegree = h.maxDegree := by
  obtain ⟨hI, -⟩ := minv_parts h hM
  have hC := coreInv_of_inv h hI
  have hnodup := core_nodup h hC
  set ndV : Node := { nd with value := v } with hndV
  set hV : FibHeap := h.setNode n ndV with hhV
  have haV : alook hV.nodes n = some ndV :=
    alook_aset_self _ _ _ (by rw [ha]; rfl)
  have haVne : ∀ k, k ≠ n → alook hV.nodes k = alook h.nodes k :=
    fun k hk => alook_aset_ne _ _ _ _ (fun hc => hk hc.symm)
  have hlenV : hV.nodes.length = h.nodes.length := alook_length_aset _ _ _
  have hvmV : hV.valueMap = aset h.valueMap n v := by
    show (aset h.nodes n ndV).map (fun p => (p.1, p.2.value)) = _
    exact valueMap_aset_update h.nodes n ndV
  have hVne : hV.nodes ≠ [] := by
    intro hc
    rw [hc] at haV
    cases haV
  have hringne : h.ring ≠ [] := ring_ne_nil_core h hC (by
    intro hc
    rw [hc] at ha
    cases ha)
  obtain ⟨mvh, hgmh, hmle⟩ := minVal_parts h hM hringne
  obtain ⟨-, mrid, me, ndme, hmrid, hfme, hnme, hvme⟩ := (get_min_ok_iff h mvh).1 hgmh
  have hmemme : me ∈ h.ring := List.mem_of_find?_eq_some hfme
  obtain ⟨ndme2, hndme2, hpme⟩ := (ringOk_parts h hC.2.1).2.2.1 me hmemme
  have hndme' : ndme2 = ndme := by
    rw [hnme] at hndme2
    exact (Option.some_inj.1 hndme2).symm
  -- run the code
  show ∃ h', (do
    let nd9 ← h.getNode n
    if v ≥ nd9.value then throw Err.invalidKeyOrder
    else do
      let nd9 := { nd9 with value := v }
      let h9 := h.setNode n nd9
      let intact ←
        match nd9.parent with
        | none => pure true
        | some p => do
          let pn ← h9.getNode p
          pure (decide (pn.value ≤ v))
      if intact then do
        let mv ← h9.get_min
        if v < mv then
          let (h9, r?) := h9.rootsIndex n
          pure { h9 with minRid := r? }
        else pure h9
      else h9.cut_loop n nd9.parent (h9.nodes.length + 1)) = .ok h' ∧ _
  rw [getNode_eq_ok h n nd ha]
  simp only [eok_bind]
  rw [if_neg (by simpa using hlt)]
  have hselfp : ∀ p9, nd.parent = some p9 → p9 ≠ n := by
    intro p9 hp9 hc
    rw [hc] at hp9
    exact no_self_parent h hC n nd ha hp9
  have hfold1 : ({ nd with value := v } : Node) = ndV := rfl
  have hmne : me.root = n → ndme = nd := by
    intro hmn
    rw [hmn, ha] at hnme
    exact (Option.some_inj.1 hnme).symm
  cases hpar : nd.parent with
  | none =>
    have hparV : ndV.parent = none := hpar
    have hIV : hV.Inv = true := by
      refine Inv_set_value h n nd ndV ha (le_of_lt hlt) rfl rfl rfl rfl ?_ hI
      intro p9 pn9 hp9 hpn9
      rw [hpar] at hp9
      cases hp9
    dsimp only
    have hfoldN : ({ value := v, loser := nd.loser, parent := none,
                     childIndex := nd.childIndex, children := nd.children,
                     numChildren := nd.numChildren } : Node) = ndV := by
      rw [hndV, hpar]
    rw [hfoldN, ← hhV]
    simp only [epure_def, eok_bind]
    simp only [if_true]
    by_cases hmn : me.root = n
    · -- the minimum node itself is decreased
      have hgmV : hV.get_min = .ok v := by
        rw [get_min_ok_iff]
        exact ⟨hringne, mrid, me, ndV, hmrid, hfme, by rw [hmn]; exact haV, rfl⟩
      rw [hgmV]
      simp only [eok_bind]
      rw [if_neg (lt_irrefl v)]
      refine ⟨hV, rfl, ?_, hvmV, rfl, rfl, hlenV, rfl⟩
      refine minVal_intro hV hIV ?_
      intro _
      refine ⟨v, hgmV, ?_⟩
      intro q hq
      have haq : alook hV.nodes q.1 = some q.2 := by
        refine alook_of_mem_nodup _ _ _ ?_ hq
        show ((aset h.nodes n ndV).map (fun p => p.1)).Nodup
        rw [aset_keys]
        exact hnodup
      by_cases hqn : q.1 = n
      · rw [hqn, haV] at haq
        have heq := Option.some_inj.1 haq
        rw [← heq]
      · rw [haVne q.1 hqn] at haq
        have hmv9 : mvh = nd.value := by
          rw [← hvme, hmne hmn]
        refine le_trans (le_of_lt ?_) (hmle (q.1, q.2) (alook_mem _ _ _ haq))
        rw [hmv9]
        exact hlt
    · -- the minimum entry is elsewhere; update `min` if we undercut it
      have hgmV : hV.get_min = .ok mvh := by
        rw [get_min_ok_iff]
        refine ⟨hringne, mrid, me, ndme, hmrid, hfme, ?_, hvme⟩
        rw [haVne me.root hmn]
        exact hnme
      rw [hgmV]
      simp only [eok_bind]
      obtain ⟨hcieq, e, he, her⟩ :=
        localOk_root h n nd (core_localOk h hC n nd ha) hpar
      have hre : alook h.roots n = some (some e.rid) := by
        have := (ringOk_parts h hC.2.1).2.2.2 e he
        rw [her] at this
        exact this
      by_cases hvlt : v < mvh
      · rw [if_pos hvlt]
        have hri : hV.rootsIndex n = (hV, some e.rid) := by
          unfold FibHeap.rootsIndex
          rw [show alook hV.roots n = alook h.roots n from rfl, hre]
        rw [hri]
        dsimp only
        set R : FibHeap := { hV with minRid := some e.rid } with hR
        have hfe : hV.ring.find? (fun en => en.rid == e.rid) = some e := by
          obtain ⟨X, Y, hXY⟩ := List.append_of_mem he
          show h.ring.find? _ = some e
          rw [hXY]
          refine find?_decomp (fun en => en.rid) X Y e ?_
          intro x hx hc
          have hnr : (h.ring.map (fun en => en.rid)).Nodup :=
            (ringOk_parts h hC.2.1).1
          rw [hXY, List.map_append, List.map_cons] at hnr
          have := (List.nodup_append.1 hnr).2.2
          exact this (List.mem_map.2 ⟨x, hx, hc⟩) (List.mem_cons_self _ _)
        have hgmR : R.get_min = .ok v := by
          rw [get_min_ok_iff]
          exact ⟨hringne, e.rid, e, ndV, rfl, hfe, by rw [her]; exact haV, rfl⟩
        have hIR : R.Inv = true := by
          obtain ⟨hA9, hR9, -, hS9, hL9, hC9⟩ := inv_parts hV hIV
          refine inv_intro R hA9 hR9 ?_ ?_ hS9 hL9 ?_
          · exact minPresentOk_intro_nonempty R e.rid e hringne rfl he rfl
          · simp only [FibHeap.Inv, Bool.and_eq_true] at hIV
            exact hIV.1.1.1.2
          · intro q hq
            rw [← chainDepth_congr_parent hV R (fun k => rfl) _ q.1]
            exact hC9 q hq
        refine ⟨R, rfl, ?_, hvmV, rfl, rfl, hlenV, rfl⟩
        refine minVal_intro R hIR ?_
        intro _
        refine ⟨v, hgmR, ?_⟩
        intro q hq
        have haq : alook hV.nodes q.1 = some q.2 := by
          refine alook_of_mem_nodup _ _ _ ?_ hq
          show ((aset h.nodes n ndV).map (fun p => p.1)).Nodup
          rw [aset_keys]
          exact hnodup
        by_cases hqn : q.1 = n
        · rw [hqn, haV] at haq
          have heq := Option.some_inj.1 haq
          rw [← heq]
        · rw [haVne q.1 hqn] at haq
          exact le_trans (le_of_lt hvlt) (hmle (q.1, q.2) (alook_mem _ _ _ haq))
      · rw [if_neg hvlt]
        refine ⟨hV, rfl, ?_, hvmV, rfl, rfl, hlenV, rfl⟩
        refine minVal_intro hV hIV ?_
        intro _
        refine ⟨mvh, hgmV, ?_⟩
        intro q hq
        have haq : alook hV.nodes q.1 = some q.2 := by
          refine alook_of_mem_nodup _ _ _ ?_ hq
          show ((aset h.nodes n ndV).map (fun p => p.1)).Nodup
          rw [aset_keys]
          exact hnodup
        by_cases hqn : q.1 = n
        · rw [hqn, haV] at haq
          have heq := Option.some_inj.1 haq
          rw [← heq]
          exact le_of_not_lt hvlt
        · rw [haVne q.1 hqn] at haq
          exact hmle (q.1, q.2) (alook_mem _ _ _ haq)
  | some p =>
    have hparV : ndV.parent = some p := hpar
    have hpn9 : p ≠ n := hselfp p hpar
    obtain ⟨pn, hpn, -, -⟩ :=
      localOk_parent h n nd p (core_localOk h hC n nd ha) hpar
    have hpnV : alook hV.nodes p = some pn := by
      rw [haVne p hpn9]
      exact hpn
    have hmroot : me.root ≠ n := by
      intro hc
      rw [hc, ha] at hndme2
      have h9 := Option.some_inj.1 hndme2
      rw [← h9, hpar] at hpme
      cases hpme
    dsimp only
    have hfoldS : ({ value := v, loser := nd.loser, parent := some p,
                     childIndex := nd.childIndex, children := nd.children,
                     numChildren := nd.numChildren } : Node) = ndV := by
      rw [hndV, hpar]
    rw [hfoldS, ← hhV]
    rw [getNode_eq_ok hV p pn hpnV]
    simp only [eok_bind, epure_def]
    by_cases hord : pn.value ≤ v
    · -- heap order intact: the parent still undercuts the new value
      rw [if_pos (by rw [decide_eq_true_eq]; exact hord)]
      have hIV : hV.Inv = true := by
        refine Inv_set_value h n nd ndV ha (le_of_lt hlt) rfl rfl rfl rfl ?_ hI
        intro p9 pn9 hp9 hpn99
        rw [hpar] at hp9
        cases hp9
        rw [hpn] at hpn99
        cases hpn99
        exact hord
      have hgmV : hV.get_min = .ok mvh := by
        rw [get_min_ok_iff]
        refine ⟨hringne, mrid, me, ndme, hmrid, hfme, ?_, hvme⟩
        rw [haVne me.root hmroot]
        exact hnme
      rw [hgmV]
      simp only [eok_bind]
      have hnvlt : ¬ v < mvh := by
        intro hc
        exact absurd (le_trans (hmle (p, pn) (alook_mem _ _ _ hpn)) hord)
          (not_le.2 hc)
      rw [if_neg hnvlt]
      refine ⟨hV, rfl, ?_, hvmV, rfl, rfl, hlenV, rfl⟩
      refine minVal_intro hV hIV ?_
      intro _
      refine ⟨mvh, hgmV, ?_⟩
      intro q hq
      have haq : alook hV.nodes q.1 = some q.2 := by
        refine alook_of_mem_nodup _ _ _ ?_ hq
        show ((aset h.nodes n ndV).map (fun p => p.1)).Nodup
        rw [aset_keys]
        exact hnodup
      by_cases hqn : q.1 = n
      · rw [hqn, haV] at haq
        have heq := Option.some_inj.1 haq
        rw [← heq]
        exact le_of_not_lt hnvlt
      · rw [haVne q.1 hqn] at haq
        exact hmle (q.1, q.2) (alook_mem _ _ _ haq)
    · -- order broken: the cut loop takes over
      rw [if_neg (by rw [decide_eq_true_eq]; exact hord)]
      obtain ⟨d, hd, hdlt⟩ := core_chain_lt h hC n nd ha
      have hpareq : ∀ k, (alook h.nodes k).map (fun nd => nd.parent) =
          (alook hV.nodes k).map (fun nd => nd.parent) := by
        intro k
        by_cases hk : k = n
        · subst hk
          rw [ha, haV]
          rfl
        · rw [haVne k hk]
      have hdepV : hV.chainDepth (hV.nodes.length + 1) n = some d := by
        rw [hlenV, ← chainDepth_congr_parent h hV hpareq _ n]
        exact hd
      have hback : hV.setNode n nd = h := by
        show ({ h with nodes := aset (aset h.nodes n ndV) n nd } : FibHeap) = h
        rw [aset_aset, aset_identity _ _ _ hnodup ha]
      have hMW : (hV.setNode n { ndV with value := nd.value }).MInv = true := by
        rw [show ({ ndV with value := nd.value } : Node) = nd from rfl, hback]
        exact hM
      obtain ⟨h3, hrun3, hM3, hvm3, hne3, hid3, hlen3, hmax3⟩ :=
        cut_loop_ok d (hV.nodes.length + 1) hV n p ndV nd.value haV hparV
          (le_of_lt hlt) hMW hdepV (by rw [hlenV]; omega)
      refine ⟨h3, hrun3, hM3, ?_, hne3, hid3, ?_, hmax3⟩
      · rw [hvm3, hvmV]
      · rw [hlen3, hlenV]


theorem localOk_slot_inj (h : FibHeap) (k : Nat) (nd : Node)
    (hL : h.nodeLocalOk k nd = true) (i j c : Nat)
    (hi : nd.children.get? i = some (some c))
    (hj : nd.children.get? j = some (some c)) : i = j := by
  obtain ⟨cnd, hcnd, -, hci, -⟩ := localOk_child h k nd hL i c hi
  obtain ⟨cnd2, hcnd2, -, hcj, -⟩ := localOk_child h k nd hL j c hj
  rw [hcnd] at hcnd2
  have heq := Option.some_inj.1 hcnd2
  rw [← heq] at hcj
  rw [hci] at hcj
  exact_mod_cast hcj

/-- The promotion loop of `remove_min`: `add_root` each non-null child of
the extracted minimum `m`.  Everything except `m`'s own child bookkeeping
survives, the minimum's ring entry stays in place, values are untouched,
and afterwards no live node has `m` as parent. -/
theorem promote_children_spec :
    ∀ (slots : List (Option Nat)) (h : FibHeap) (m : Nat) (mnd : Node)
      (mrid : Nat) (me : RingNode) (mv : ElemType),
      PromCore h m →
      alook h.nodes m = some mnd → mnd.parent = none →
      h.minRid = some mrid →
      h.ring.find? (fun en => en.rid == mrid) = some me →
      h.get_min = .ok mv →
      (∀ p ∈ h.nodes, mv ≤ p.2.value) →
      (∀ c, some c ∈ slots → ∃ cnd, alook h.nodes c = some cnd ∧
        cnd.parent = some m) →
      (∀ x xnd, alook h.nodes x = some xnd → xnd.parent = some m →
        some x ∈ slots) →
      (∀ i j c, slots.get? i = some (some c) → slots.get? j = some (some c) →
        i = j) →
      ∃ h', h.promote_children slots = .ok h' ∧
        PromCore h' m ∧
        alook h'.nodes m = some mnd ∧
        h'.minRid = some mrid ∧
        h'.ring.find? (fun en => en.rid == mrid) = some me ∧
        h'.get_min = .ok mv ∧
        (∀ p ∈ h'.nodes, mv ≤ p.2.value) ∧
        (∀ x xnd, alook h'.nodes x = some xnd → xnd.parent ≠ some m) ∧
        h'.valueMap = h.valueMap ∧ h'.numElems = h.numElems ∧
        h'.nextId = h.nextId ∧ h'.nodes.length = h.nodes.length ∧
        h'.maxDegree = h.maxDegree ∧
        (∀ e ∈ h.ring, e ∈ h'.ring) := by
  intro slots
  induction slots with
  | nil =>
    intro h m mnd mrid me mv hP hm hmp hmr hfme hgm hble hslots hsub hinj
    refine ⟨h, rfl, hP, hm, hmr, hfme, hgm, hble, ?_, rfl, rfl, rfl, rfl, rfl,
      fun e he => he⟩
    intro x xnd hax hpx
    have := hsub x xnd hax hpx
    cases this
  | cons s rest ih =>
    intro h m mnd mrid me mv hP hm hmp hmr hfme hgm hble hslots hsub hinj
    cases s with
    | none =>
      show ∃ h', h.promote_children rest = .ok h' ∧ _
      refine ih h m mnd mrid me mv hP hm hmp hmr hfme hgm hble ?_ ?_ ?_
      · intro c hc
        exact hslots c (List.mem_cons_of_mem _ hc)
      · intro x xnd hax hpx
        have := hsub x xnd hax hpx
        cases List.mem_cons.1 this with
        | inl h9 => cases h9
        | inr h9 => exact h9
      · intro i j c hi hj
        have := hinj (i + 1) (j + 1) c hi hj
        omega
    | some c =>
      obtain ⟨hA, hR, hO, hS, hL, hCh⟩ := hP
      have hnodup : (h.nodes.map (fun p => p.1)).Nodup := (allocOk_parts h hA).1
      obtain ⟨cnd, hac, hcp⟩ := hslots c (List.mem_cons_self _ _)
      have hcm : c ≠ m := by
        intro hcm9
        rw [hcm9, hm] at hac
        have heq := Option.some_inj.1 hac
        rw [heq, hcp] at hmp
        cases hmp
      have hLc := hL (c, cnd) (alook_mem _ _ _ hac) hcm
      have hmemme : me ∈ h.ring := List.mem_of_find?_eq_some hfme
      have hmerid : me.rid = mrid := by
        have := List.find?_some hfme
        simpa using this
      obtain ⟨hr1, hr2, hr3, hr4⟩ := ringOk_parts h hR
      have hrid9 : ∀ en ∈ h.ring, en.rid ≠ h.nextRid :=
        fun en hen => Nat.ne_of_lt (hr2 en hen)
      obtain ⟨h2, hrun2, hn2, hid2, hnum2, hmax2, hnr2, hroots2, hring2⟩ :=
        add_root_spec h c cnd hac hrid9 (Or.inr ⟨mv, hgm⟩)
      set cnR : Node := { cnd with loser := false, parent := none, childIndex := -1 } with hcnR
      have hringne : h.ring ≠ [] := by
        intro hc9
        rw [hc9] at hmemme
        cases hmemme
      obtain ⟨j, mv2, hj1, hjlen, hring2', hgm2, hmr2⟩ :=
        hring2.resolve_left (fun hc9 => hringne hc9.1)
      have hmv2 : mv2 = mv := by
        rw [hgm] at hgm2
        exact (Option.some_inj.1 (by simpa using hgm2)).symm
      rw [hmv2] at hmr2
      have hnlt : ¬ cnd.value < mv :=
        not_lt.2 (hble (c, cnd) (alook_mem _ _ _ hac))
      rw [if_neg hnlt] at hmr2
      set newE : RingNode := { rid := h.nextRid, root := c } with hnewE
      have ha2c : alook h2.nodes c = some cnR := by
        rw [hn2]
        exact alook_aset_self _ _ _ (by rw [hac]; rfl)
      have ha2o : ∀ k, k ≠ c → alook h2.nodes k = alook h.nodes k := by
        intro k hk
        rw [hn2, alook_aset_ne _ _ _ _ (fun hc9 => hk hc9.symm)]
      have hkeys2 : h2.nodes.map (fun q => q.1) = h.nodes.map (fun q => q.1) := by
        rw [hn2]
        exact aset_keys _ _ _
      have hnod2 : (h2.nodes.map (fun q => q.1)).Nodup := by
        rw [hkeys2]
        exact hnodup
      have hlen2 : h2.nodes.length = h.nodes.length := by
        rw [hn2]
        exact alook_length_aset _ _ _
      have hsome2 : ∀ k, (alook h2.nodes k).isSome = (alook h.nodes k).isSome := by
        intro k
        rw [hn2]
        exact isSome_aset _ _ _ _
      have hperm : h2.ring.Perm (newE :: h.ring) := by
        rw [hring2']
        have := @List.perm_middle _ newE (h.ring.take j) (h.ring.drop j)
        rw [List.take_append_drop] at this
        exact this
      have hmem2 : ∀ e, e ∈ h2.ring → e ∈ h.ring ∨ e = newE := by
        intro e he
        cases List.mem_cons.1 (hperm.mem_iff.1 he) with
        | inl h9 => exact Or.inr h9
        | inr h9 => exact Or.inl h9
      have hmem2' : ∀ e, e ∈ h.ring → e ∈ h2.ring :=
        fun e he => hperm.mem_iff.2 (List.mem_cons_of_mem _ he)
      have hnewE2 : newE ∈ h2.ring := hperm.mem_iff.2 (List.mem_cons_self _ _)
      have hrabs : alook h.roots c = none := by
        have hO9 := hO
        simp only [FibHeap.rootsOk, Bool.and_eq_true, List.all_eq_true] at hO9
        have := hO9.1 (c, cnd) (alook_mem _ _ _ hac)
        rw [hcp] at this
        dsimp only at this
        simpa using this
      have ha2rc : alook h2.roots c = some (some h.nextRid) := by
        rw [hroots2]
        exact alook_mapInsert_self_of_absent _ _ _ hrabs
      have ha2rne : ∀ k, k ≠ c → alook h2.roots k = alook h.roots k := by
        intro k hk
        rw [hroots2]
        exact alook_mapInsert_ne _ _ _ _ (fun hc9 => hk hc9.symm)
      have hrootsne : ∀ e ∈ h.ring, e.root ≠ c := by
        intro e he hc9
        obtain ⟨nde, hnde, hpe⟩ := hr3 e he
        rw [hc9, hac] at hnde
        have heq := Option.some_inj.1 hnde
        rw [← heq, hcp] at hpe
        cases hpe
      have hchne : ∀ x xnd, alook h.nodes x = some xnd → ∀ i9,
          xnd.children.get? i9 = some (some c) → x = m := by
        intro x xnd hax i9 hslot9
        by_cases hxm : x = m
        · exact hxm
        · exfalso
          obtain ⟨cnd9, hcnd9, hcp9, -, -⟩ :=
            localOk_child h x xnd (hL (x, xnd) (alook_mem _ _ _ hax) hxm) i9 c hslot9
          rw [hac] at hcnd9
          have heq := Option.some_inj.1 hcnd9
          rw [← heq, hcp] at hcp9
          exact hxm (Option.some_inj.1 hcp9).symm
      have hcut9 : ∀ k nd2 pk, alook h2.nodes k = some nd2 →
          nd2.parent = some pk →
          ∃ nd1, alook h.nodes k = some nd1 ∧ nd1.parent = some pk ∧
            (alook h2.nodes pk).isSome := by
        intro k nd2 pk hak hpk
        by_cases hkc : k = c
        · rw [hkc, ha2c] at hak
          have heq := Option.some_inj.1 hak
          rw [← heq, show cnR.parent = none from rfl] at hpk
          cases hpk
        · rw [ha2o k hkc] at hak
          refine ⟨nd2, hak, hpk, ?_⟩
          by_cases hkm : k = m
          · rw [hkm, hm] at hak
            have heq := Option.some_inj.1 hak
            rw [← heq, hmp] at hpk
            cases hpk
          · obtain ⟨qn, hqn, -, -⟩ := localOk_parent h k nd2 pk
              (hL (k, nd2) (alook_mem _ _ _ hak) hkm) hpk
            rw [hsome2 pk, hqn]
            rfl
      have hP2 : PromCore h2 m := by
        refine ⟨?_, ?_, ?_, ?_, ?_, ?_⟩
        · refine allocOk_intro h2 hnod2 ?_
          intro q hq
          have haq : alook h2.nodes q.1 = some q.2 :=
            alook_of_mem_nodup _ _ _ hnod2 hq
          have hqs : (alook h.nodes q.1).isSome := by
            rw [← hsome2 q.1, haq]
            rfl
          cases hah : alook h.nodes q.1 with
          | none => rw [hah] at hqs; cases hqs
          | some hn9 =>
            rw [hid2]
            exact (allocOk_parts h hA).2 (q.1, hn9) (alook_mem _ _ _ hah)
        · refine ringOk_intro h2 ?_ ?_ ?_ ?_
          · have hp9 := (hperm.map (fun e => e.rid)).nodup_iff
            refine hp9.2 ?_
            refine List.nodup_cons.2 ⟨?_, hr1⟩
            intro hc9
            obtain ⟨e, he, heq⟩ := List.mem_map.1 hc9
            exact Nat.ne_of_lt (hr2 e he) heq
          · intro e he
            rw [hnr2]
            cases hmem2 e he with
            | inl hold => exact Nat.lt_succ_of_lt (hr2 e hold)
            | inr hnew =>
              rw [hnew]
              exact Nat.lt_succ_self _
          · intro e he
            cases hmem2 e he with
            | inl hold =>
              obtain ⟨nde, hnde, hpe⟩ := hr3 e hold
              refine ⟨nde, ?_, hpe⟩
              rw [ha2o e.root (hrootsne e hold)]
              exact hnde
            | inr hnew =>
              rw [hnew]
              exact ⟨cnR, ha2c, rfl⟩
          · intro e he
            cases hmem2 e he with
            | inl hold =>
              rw [ha2rne e.root (hrootsne e hold)]
              exact hr4 e hold
            | inr hnew =>
              rw [hnew]
              exact ha2rc
        · refine rootsOk_intro h2 ?_ ?_
          · intro q hq pk hpk
            have haq : alook h2.nodes q.1 = some q.2 :=
              alook_of_mem_nodup _ _ _ hnod2 hq
            by_cases hkc : q.1 = c
            · rw [hkc, ha2c] at haq
              have heq := Option.some_inj.1 haq
              rw [← heq, show cnR.parent = none from rfl] at hpk
              cases hpk
            · rw [ha2rne q.1 hkc]
              rw [ha2o q.1 hkc] at haq
              have hO9 := hO
              simp only [FibHeap.rootsOk, Bool.and_eq_true, List.all_eq_true] at hO9
              have := hO9.1 (q.1, q.2) (alook_mem _ _ _ haq)
              rw [hpk] at this
              dsimp only at this
              simpa using this
          · intro q hq
            rw [hroots2] at hq
            rw [hid2]
            cases mem_mapInsert _ _ _ q hq with
            | inl hold =>
              have hO9 := hO
              simp only [FibHeap.rootsOk, Bool.and_eq_true, List.all_eq_true,
                decide_eq_true_eq] at hO9
              exact hO9.2 q hold
            | inr hnew =>
              rw [hnew]
              exact (allocOk_parts h hA).2 (c, cnd) (alook_mem _ _ _ hac)
        · rw [hnum2, hlen2]
          exact hS
        · intro q hq hqm
          have haq : alook h2.nodes q.1 = some q.2 :=
            alook_of_mem_nodup _ _ _ hnod2 hq
          by_cases hkc : q.1 = c
          · rw [hkc, ha2c] at haq
            have heq := Option.some_inj.1 haq
            rw [hkc, ← heq]
            refine nodeLocalOk_intro h2 c cnR ?_ ?_ ?_ ?_ ?_
            · intro i9 c9 hcslot
              have hscW : cnd.children.get? i9 = some (some c9) := hcslot
              obtain ⟨cnd9, hcnd9, hcpc, hcci, hcle⟩ :=
                localOk_child h c cnd hLc i9 c9 hscW
              have hcne : c9 ≠ c := by
                intro hc9
                rw [hc9, hac] at hcnd9
                have heq9 := Option.some_inj.1 hcnd9
                rw [← heq9, hcp] at hcpc
                exact hcm (Option.some_inj.1 hcpc).symm
              refine ⟨cnd9, ?_, hcpc, hcci, hcle⟩
              rw [ha2o c9 hcne]
              exact hcnd9
            · exact localOk_numChildren h c cnd hLc
            · rw [hmax2]
              exact localOk_degree_le h c cnd hLc
            · intro hp9
              exact ⟨rfl, newE, hnewE2, rfl⟩
            · intro pk hpk
              rw [show cnR.parent = none from rfl] at hpk
              cases hpk
          · rw [ha2o q.1 hkc] at haq
            have hLk := hL (q.1, q.2) (alook_mem _ _ _ haq) hqm
            refine nodeLocalOk_intro h2 q.1 q.2 ?_
              (localOk_numChildren h q.1 q.2 hLk)
              (by rw [hmax2]; exact localOk_degree_le h q.1 q.2 hLk) ?_ ?_
            · intro i9 c9 hcslot
              obtain ⟨cnd9, hcnd9, hcpc, hcci, hcle⟩ :=
                localOk_child h q.1 q.2 hLk i9 c9 hcslot
              have hcne : c9 ≠ c := by
                intro hc9
                rw [hc9] at hcslot
                exact hqm (hchne q.1 q.2 haq i9 hcslot)
              refine ⟨cnd9, ?_, hcpc, hcci, hcle⟩
              rw [ha2o c9 hcne]
              exact hcnd9
            · intro hp9
              obtain ⟨hci9, e, he, her⟩ := localOk_root h q.1 q.2 hLk hp9
              exact ⟨hci9, e, hmem2' e he, her⟩
            · intro pk hpk
              obtain ⟨qn, hqn, hci9, hslot9⟩ := localOk_parent h q.1 q.2 pk hLk hpk
              by_cases hpkc : pk = c
              · rw [hpkc, hac] at hqn
                have heq9 := Option.some_inj.1 hqn
                refine ⟨cnR, by rw [hpkc]; exact ha2c, hci9, ?_⟩
                show cnd.children.get? q.2.childIndex.toNat = some (some q.1)
                rw [heq9]
                exact hslot9
              · refine ⟨qn, ?_, hci9, hslot9⟩
                rw [ha2o pk hpkc]
                exact hqn
        · intro q hq
          have haq : alook h2.nodes q.1 = some q.2 :=
            alook_of_mem_nodup _ _ _ hnod2 hq
          have hqs : (alook h.nodes q.1).isSome := by
            rw [← hsome2 q.1, haq]
            rfl
          cases hah : alook h.nodes q.1 with
          | none => rw [hah] at hqs; cases hqs
          | some hn9 =>
            have hdq := hCh (q.1, hn9) (alook_mem _ _ _ hah)
            cases hdq9 : h.chainDepth (h.nodes.length + 1) q.1 with
            | none => rw [hdq9] at hdq; cases hdq
            | some dq =>
              obtain ⟨d2, -, hc2⟩ := chainDepth_parent_cut h h2 hcut9
                (h.nodes.length + 1) q.1 dq hdq9 (by rw [haq]; rfl)
              rw [hlen2, hc2]
              rfl
      -- carried state facts for the recursive call
      have hm2 : alook h2.nodes m = some mnd := by
        rw [ha2o m (fun hc9 => hcm hc9.symm)]
        exact hm
      have hmr2' : h2.minRid = some mrid := by
        rw [hmr2]
        exact hmr
      have hfme2 : h2.ring.find? (fun en => en.rid == mrid) = some me := by
        rw [hring2']
        rw [find?_splice _ _ _ _ ?_]
        · exact hfme
        · show (newE.rid == mrid) = false
          simp only [beq_eq_false_iff_ne, ne_eq]
          intro hc9
          rw [← hmerid] at hc9
          exact Nat.ne_of_lt (hr2 me hmemme) hc9.symm
      obtain ⟨-, mrid9, me9, ndme, hmrid9, hfme9, hnme, hvme⟩ :=
        (get_min_ok_iff h mv).1 hgm
      have hmr99 : mrid9 = mrid := by
        rw [hmr] at hmrid9
        exact (Option.some_inj.1 hmrid9).symm
      rw [hmr99] at hfme9
      have hme99 : me9 = me := by
        rw [hfme] at hfme9
        exact (Option.some_inj.1 hfme9).symm
      rw [hme99] at hnme
      have hrne29 : h2.ring ≠ [] := by
        intro hc9
        have h99 := hnewE2
        rw [hc9] at h99
        cases h99
      have hgm2' : h2.get_min = .ok mv := by
        rw [get_min_ok_iff]
        refine ⟨hrne29, mrid, me, ndme, hmr2', hfme2, ?_, hvme⟩
        rw [ha2o me.root (hrootsne me hmemme)]
        exact hnme
      have hble2 : ∀ p ∈ h2.nodes, mv ≤ p.2.value := by
        intro q hq
        have haq : alook h2.nodes q.1 = some q.2 :=
          alook_of_mem_nodup _ _ _ hnod2 hq
        by_cases hkc : q.1 = c
        · rw [hkc, ha2c] at haq
          have heq := Option.some_inj.1 haq
          rw [← heq]
          exact hble (c, cnd) (alook_mem _ _ _ hac)
        · rw [ha2o q.1 hkc] at haq
          exact hble (q.1, q.2) (alook_mem _ _ _ haq)
      have hslots2 : ∀ c9, some c9 ∈ rest → ∃ cnd9,
          alook h2.nodes c9 = some cnd9 ∧ cnd9.parent = some m := by
        intro c9 hc9
        obtain ⟨cnd9, hcnd9, hcp9⟩ := hslots c9 (List.mem_cons_of_mem _ hc9)
        have hne : c9 ≠ c := by
          intro hc99
          obtain ⟨i9, hi9⟩ := List.get_of_mem hc9
          have hi99 : rest.get? i9.1 = some (some c9) := by
            rw [List.get?_eq_get i9.2, hi9]
          rw [hc99] at hi99
          have := hinj 0 (i9.1 + 1) c rfl hi99
          omega
        refine ⟨cnd9, ?_, hcp9⟩
        rw [ha2o c9 hne]
        exact hcnd9
      have hsub2 : ∀ x xnd, alook h2.nodes x = some xnd →
          xnd.parent = some m → some x ∈ rest := by
        intro x xnd hax hpx
        by_cases hxc : x = c
        · rw [hxc, ha2c] at hax
          have heq := Option.some_inj.1 hax
          rw [← heq, show cnR.parent = none from rfl] at hpx
          cases hpx
        · rw [ha2o x hxc] at hax
          have := hsub x xnd hax hpx
          cases List.mem_cons.1 this with
          | inl h9 =>
            exfalso
            exact hxc (Option.some_inj.1 h9)
          | inr h9 => exact h9
      have hinj2 : ∀ i j c9, rest.get? i = some (some c9) →
          rest.get? j = some (some c9) → i = j := by
        intro i j c9 hi hj
        have := hinj (i + 1) (j + 1) c9 hi hj
        omega
      obtain ⟨h', hrun', hP', hm', hmr', hfme', hgm', hble', hnp', hvm', hne',
        hid', hlen', hmax', hring'⟩ :=
        ih h2 m mnd mrid me mv hP2 hm2 hmp hmr2' hfme2 hgm2' hble2 hslots2 hsub2 hinj2
      refine ⟨h', ?_, hP', hm', hmr', hfme', hgm', hble', hnp', ?_, ?_, ?_, ?_,
        ?_, ?_⟩
      · show (do
          let h9 ← h.add_root c
          h9.promote_children rest) = .ok h'
        rw [hrun2]
        simp only [eok_bind]
        exact hrun'
      · rw [hvm']
        show h2.nodes.map (fun p => (p.1, p.2.value)) = _
        rw [hn2]
        exact valueMap_aset_preserve (fun nd : Node => nd.value) _ c cnd cnR
          hnodup hac rfl
      · rw [hne', hnum2]
      · rw [hid', hid2]
      · rw [hlen', hlen2]
      · rw [hmax', hmax2]
      · intro e he
        exact hring' e (hmem2' e he)

theorem rid_find_decomp (X Y : List RingNode) (e : RingNode)
    (hnodup : ((X ++ e :: Y).map (fun en => en.rid)).Nodup) :
    (X ++ e :: Y).find? (fun en => en.rid == e.rid) = some e := by
  refine find?_decomp (fun en => en.rid) X Y e ?_
  intro x hx hc
  rw [List.map_append, List.map_cons] at hnodup
  exact (List.nodup_append.1 hnodup).2.2 (List.mem_map.2 ⟨x, hx, hc⟩)
    (List.mem_cons_self _ _)

theorem rid_findIdx_decomp (X Y : List RingNode) (e : RingNode)
    (hnodup : ((X ++ e :: Y).map (fun en => en.rid)).Nodup) :
    (X ++ e :: Y).findIdx? (fun en => en.rid == e.rid) = some X.length := by
  refine findIdx?_decomp (fun en => en.rid) X Y e ?_
  intro x hx hc
  rw [List.map_append, List.map_cons] at hnodup
  exact (List.nodup_append.1 hnodup).2.2 (List.mem_map.2 ⟨x, hx, hc⟩)
    (List.mem_cons_self _ _)

theorem drop_middle {α : Type} (X Y : List α) (e : α) :
    (X ++ e :: Y).drop (X.length + 1) = Y := by
  have : X ++ e :: Y = (X ++ [e]) ++ Y := by simp
  rw [this, show X.length + 1 = (X ++ [e]).length by simp]
  exact List.drop_left _ _

theorem mem_remove_middle {α : Type} (X Y : List α) (e x : α)
    (hx : x ∈ X ++ e :: Y) (hne : x ≠ e) : x ∈ X ++ Y := by
  cases List.mem_append.1 hx with
  | inl h9 => exact List.mem_append.2 (Or.inl h9)
  | inr h9 =>
    cases List.mem_cons.1 h9 with
    | inl h99 => exact absurd h99 hne
    | inr h99 => exact List.mem_append.2 (Or.inr h99)

/-- Operational characterization of `remove_ringnode` at a present ring
id: the entry is unlinked in place (or the ring collapses to empty), and
its root leaves the `roots` map. -/
theorem remove_ringnode_spec (h : FibHeap) (X Y : List RingNode) (e : RingNode)
    (hdecomp : h.ring = X ++ e :: Y)
    (hnodup : (h.ring.map (fun en => en.rid)).Nodup) :
    ∃ h', h.remove_ringnode (some e.rid) = .ok h' ∧
      h'.roots = mapErase h.roots e.root ∧
      h'.nodes = h.nodes ∧ h'.numElems = h.numElems ∧ h'.nextId = h.nextId ∧
      h'.nextRid = h.nextRid ∧ h'.maxDegree = h.maxDegree ∧
      ((h.ring.length = 1 ∧ h'.ring = [] ∧ h'.minRid = none) ∨
       (h.ring.length ≠ 1 ∧ h'.ring = X ++ Y ∧ h'.minRid = h.minRid)) := by
  rw [hdecomp] at hnodup
  have hfind : h.ring.find? (fun en => en.rid == e.rid) = some e := by
    rw [hdecomp]
    exact rid_find_decomp X Y e hnodup
  simp only [FibHeap.remove_ringnode, hfind]
  by_cases hlen : h.ring.length = 1
  · rw [if_pos (by simpa using hlen)]
    exact ⟨_, rfl, rfl, rfl, rfl, rfl, rfl, rfl, Or.inl ⟨hlen, rfl, rfl⟩⟩
  · rw [if_neg (by simpa using hlen)]
    have hidx : h.ring.findIdx? (fun en => en.rid == e.rid) = some X.length := by
      rw [hdecomp]
      exact rid_findIdx_decomp X Y e hnodup
    rw [hidx]
    dsimp only
    refine ⟨_, rfl, rfl, rfl, rfl, rfl, rfl, rfl, Or.inr ⟨hlen, ?_, rfl⟩⟩
    show (h.ring.take X.length ++ h.ring.drop (X.length + 1)) = X ++ Y
    rw [hdecomp, List.take_left, drop_middle]

theorem getRing_eq_ok (h : FibHeap) (r : Nat) (e : RingNode)
    (hf : h.ring.find? (fun en => en.rid == r) = some e) :
    h.getRing r = .ok e := by
  unfold FibHeap.getRing
  rw [hf]
theorem ring_root_inj (h : FibHeap) (hR : h.ringOk = true) (e1 e2 : RingNode)
    (h1 : e1 ∈ h.ring) (h2 : e2 ∈ h.ring) (heq : e1.root = e2.root) : e1 = e2 := by
  obtain ⟨hr1, -, -, hr4⟩ := ringOk_parts h hR
  have q1 := hr4 e1 h1
  have q2 := hr4 e2 h2
  rw [heq, q2] at q1
  have hrid : e2.rid = e1.rid := by
    have := Option.some_inj.1 q1
    simpa using this
  exact (List.inj_on_of_nodup_map hr1 h1 h2 hrid.symm)

theorem fibheap_eq (a c : FibHeap) (e1 : a.nodes = c.nodes)
    (e2 : a.nextId = c.nextId) (e3 : a.ring = c.ring)
    (e4 : a.nextRid = c.nextRid) (e5 : a.minRid = c.minRid)
    (e6 : a.numElems = c.numElems) (e7 : a.maxDegree = c.maxDegree)
    (e8 : a.roots = c.roots) : a = c := by
  cases a
  cases c
  simp_all

theorem ite_maxDegree (c : Prop) [Decidable c] (x : FibHeap) (a : Nat) :
    (if c then { x with maxDegree := a } else x) =
      { x with maxDegree := if c then a else x.maxDegree } := by
  by_cases h9 : c
  · rw [if_pos h9, if_pos h9]
  · rw [if_neg h9, if_neg h9]

/-- Full specification of `adopt`: the tree at `eB` is appended as a new
child of the tree at `eS` (whose root value does not exceed it), `eB`
leaves the ring and the `roots` map, `maxDegree` absorbs the new child
count, and the structural core invariant is preserved. -/
theorem adopt_spec (h : FibHeap) (X Y : List RingNode) (eS eB : RingNode)
    (tS tB : Node) (hCI : CoreInv h)
    (hdecomp : h.ring = X ++ eB :: Y)
    (hmemS : eS ∈ h.ring) (hne : eS.rid ≠ eB.rid)
    (hatS : alook h.nodes eS.root = some tS)
    (hatB : alook h.nodes eB.root = some tB)
    (hord : tS.value ≤ tB.value) :
    ∃ h', h.adopt eS.rid eB.rid = .ok (h', eS.rid) ∧
      CoreInv h' ∧
      h'.ring = X ++ Y ∧
      h'.nodes = aset (aset h.nodes eS.root
          { tS with children := tS.children ++ [some eB.root],
                    numChildren := tS.numChildren + 1 })
        eB.root
        { tB with childIndex := (tS.children.length : Int),
                  parent := some eS.root } ∧
      h'.roots = mapErase h.roots eB.root ∧
      h'.maxDegree = max h.maxDegree (tS.children.length + 1) ∧
      h'.minRid = h.minRid ∧ h'.numElems = h.numElems ∧
      h'.nextId = h.nextId ∧ h'.nextRid = h.nextRid ∧
      h'.valueMap = h.valueMap ∧ h'.nodes.length = h.nodes.length := by
  obtain ⟨hA, hR, hO, hS, hL, hCh⟩ := hCI
  have hnodup : (h.nodes.map (fun p => p.1)).Nodup := (allocOk_parts h hA).1
  obtain ⟨hr1, hr2, hr3, hr4⟩ := ringOk_parts h hR
  have hmemB : eB ∈ h.ring := by
    rw [hdecomp]
    exact List.mem_append.2 (Or.inr (List.mem_cons_self _ _))
  set s : Nat := eS.root with hsdef
  set b : Nat := eB.root with hbdef
  have hsb : s ≠ b := by
    intro hc
    exact hne (by rw [ring_root_inj h hR eS eB hmemS hmemB hc])
  have htSp : tS.parent = none := by
    obtain ⟨nde, hnde, hpe⟩ := hr3 eS hmemS
    rw [hatS] at hnde
    rw [← (Option.some_inj.1 hnde)] at hpe
    exact hpe
  have htBp : tB.parent = none := by
    obtain ⟨nde, hnde, hpe⟩ := hr3 eB hmemB
    rw [hatB] at hnde
    rw [← (Option.some_inj.1 hnde)] at hpe
    exact hpe
  have hfS : h.ring.find? (fun en => en.rid == eS.rid) = some eS := by
    obtain ⟨Xs, Ys, hXY⟩ := List.append_of_mem hmemS
    rw [hXY]
    refine rid_find_decomp Xs Ys eS ?_
    rw [← hXY]
    exact hr1
  have hfB : h.ring.find? (fun en => en.rid == eB.rid) = some eB := by
    rw [hdecomp]
    refine rid_find_decomp X Y eB ?_
    rw [← hdecomp]
    exact hr1
  set t1N : Node := { tS with children := tS.children ++ [some b], numChildren := tS.numChildren + 1 } with ht1N
  set t2N : Node := { tB with childIndex := (tS.children.length : Int), parent := some s } with ht2N
  set h1 : FibHeap := h.setNode s t1N with hh1
  set h2 : FibHeap := h1.setNode b t2N with hh2
  have ha2s : alook h2.nodes s = some t1N := by
    show alook (aset (aset h.nodes s t1N) b t2N) s = some t1N
    rw [alook_aset_ne _ _ _ _ (fun hc => hsb hc.symm)]
    exact alook_aset_self _ _ _ (by rw [hatS]; rfl)
  have ha2b : alook h2.nodes b = some t2N := by
    show alook (aset (aset h.nodes s t1N) b t2N) b = some t2N
    refine alook_aset_self _ _ _ ?_
    rw [alook_aset_ne _ _ _ _ hsb, hatB]
    rfl
  have ha2o : ∀ k, k ≠ s → k ≠ b → alook h2.nodes k = alook h.nodes k := by
    intro k hks hkb
    show alook (aset (aset h.nodes s t1N) b t2N) k = alook h.nodes k
    rw [alook_aset_ne _ _ _ _ (fun hc => hkb hc.symm),
      alook_aset_ne _ _ _ _ (fun hc => hks hc.symm)]
  have hkeys2 : h2.nodes.map (fun q => q.1) = h.nodes.map (fun q => q.1) := by
    show (aset (aset h.nodes s t1N) b t2N).map _ = _
    rw [aset_keys, aset_keys]
  have hnod2 : (h2.nodes.map (fun q => q.1)).Nodup := by
    rw [hkeys2]
    exact hnodup
  have hlen2 : h2.nodes.length = h.nodes.length := by
    show (aset (aset h.nodes s t1N) b t2N).length = _
    rw [alook_length_aset, alook_length_aset]
  have hsome2 : ∀ k, (alook h2.nodes k).isSome = (alook h.nodes k).isSome := by
    intro k
    show (alook (aset (aset h.nodes s t1N) b t2N) k).isSome = _
    rw [isSome_aset, isSome_aset]
  have hnochild : ∀ r, (∃ rnd, alook h.nodes r = some rnd ∧ rnd.parent = none) →
      ∀ k knd i, alook h.nodes k = some knd →
        knd.children.get? i = some (some r) → False := by
    intro r ⟨rnd, harn, hrp⟩ k knd i hak hslot
    obtain ⟨cnd, hcnd, hcp, -, -⟩ :=
      localOk_child h k knd (hL (k, knd) (alook_mem _ _ _ hak)) i r hslot
    rw [harn] at hcnd
    rw [(Option.some_inj.1 hcnd)] at hrp
    rw [hrp] at hcp
    cases hcp
  have hnochildS := hnochild s ⟨tS, hatS, htSp⟩
  have hnochildB := hnochild b ⟨tB, hatB, htBp⟩
  have hrootne : ∀ e ∈ h.ring, e ≠ eB → e.root ≠ b := by
    intro e he heB hc
    exact heB (ring_root_inj h hR e eB he hmemB hc)
  -- core invariant of the adopted state with the ring/roots updated
  set h3 : FibHeap := { h2 with ring := X ++ Y, roots := mapErase h.roots b, maxDegree := max h.maxDegree (tS.children.length + 1) } with hh3
  have hmemS3 : eS ∈ X ++ Y := by
    refine mem_remove_middle X Y eB eS ?_ ?_
    · rw [← hdecomp]
      exact hmemS
    · intro hc
      exact hne (by rw [hc])
  have hCI3 : CoreInv h3 := by
    refine ⟨?_, ?_, ?_, ?_, ?_, ?_⟩
    · refine allocOk_intro h3 hnod2 ?_
      intro q hq
      have haq : alook h3.nodes q.1 = some q.2 :=
        alook_of_mem_nodup _ _ _ hnod2 hq
      have hqs : (alook h.nodes q.1).isSome := by
        rw [← hsome2 q.1]
        rw [show h3.nodes = h2.nodes from rfl] at haq
        rw [haq]
        rfl
      cases hah : alook h.nodes q.1 with
      | none => rw [hah] at hqs; cases hqs
      | some hn9 =>
        exact (allocOk_parts h hA).2 (q.1, hn9) (alook_mem _ _ _ hah)
    · refine ringOk_intro h3 ?_ ?_ ?_ ?_
      · have hsub : (X ++ Y).Sublist (X ++ eB :: Y) := by
          refine List.Sublist.append_left ?_ X
          exact List.sublist_cons_self _ _
        refine List.Nodup.sublist (hsub.map _) ?_
        rw [← hdecomp]
        exact hr1
      · intro e he
        refine hr2 e ?_
        rw [hdecomp]
        exact List.mem_append.2 (by
          cases List.mem_append.1 he with
          | inl h9 => exact Or.inl h9
          | inr h9 => exact Or.inr (List.mem_cons_of_mem _ h9))
      · intro e he
        have hemem : e ∈ h.ring := by
          rw [hdecomp]
          cases List.mem_append.1 he with
          | inl h9 => exact List.mem_append.2 (Or.inl h9)
          | inr h9 => exact List.mem_append.2 (Or.inr (List.mem_cons_of_mem _ h9))
        have heB : e ≠ eB := by
          intro hc
          subst hc
          rw [hdecomp] at hr1
          rw [List.map_append, List.map_cons] at hr1
          have hdisj := (List.nodup_append.1 hr1).2
          cases List.mem_append.1 he with
          | inl h9 =>
            exact hdisj.2 (List.mem_map.2 ⟨e, h9, rfl⟩) (List.mem_cons_self _ _)
          | inr h9 =>
            have hconsnd := hdisj.1
            rw [List.nodup_cons] at hconsnd
            exact hconsnd.1 (List.mem_map.2 ⟨e, h9, rfl⟩)
        obtain ⟨nde, hnde, hpe⟩ := hr3 e hemem
        by_cases hes : e.root = s
        · refine ⟨t1N, by rw [hes]; exact ha2s, ?_⟩
          rw [hes, hatS] at hnde
          rw [show t1N.parent = tS.parent from rfl]
          rw [(Option.some_inj.1 hnde)]
          exact hpe
        · refine ⟨nde, ?_, hpe⟩
          rw [show h3.nodes = h2.nodes from rfl,
            ha2o e.root hes (hrootne e hemem heB)]
          exact hnde
      · intro e he
        have hemem : e ∈ h.ring := by
          rw [hdecomp]
          cases List.mem_append.1 he with
          | inl h9 => exact List.mem_append.2 (Or.inl h9)
          | inr h9 => exact List.mem_append.2 (Or.inr (List.mem_cons_of_mem _ h9))
        have heB : e ≠ eB := by
          intro hc
          subst hc
          rw [hdecomp] at hr1
          rw [List.map_append, List.map_cons] at hr1
          have hdisj := (List.nodup_append.1 hr1).2
          cases List.mem_append.1 he with
          | inl h9 =>
            exact hdisj.2 (List.mem_map.2 ⟨e, h9, rfl⟩) (List.mem_cons_self _ _)
          | inr h9 =>
            have hconsnd := hdisj.1
            rw [List.nodup_cons] at hconsnd
            exact hconsnd.1 (List.mem_map.2 ⟨e, h9, rfl⟩)
        show alook (mapErase h.roots b) e.root = some (some e.rid)
        rw [alook_mapErase_ne _ _ _ (hrootne e hemem heB)]
        exact hr4 e hemem
    · refine rootsOk_intro h3 ?_ ?_
      · intro q hq pk hpk
        have haq : alook h3.nodes q.1 = some q.2 :=
          alook_of_mem_nodup _ _ _ hnod2 hq
        show alook (mapErase h.roots b) q.1 = none
        by_cases hqb : q.1 = b
        · rw [hqb]
          exact alook_mapErase_self _ _
        · rw [alook_mapErase_ne _ _ _ hqb]
          by_cases hqs : q.1 = s
          · rw [show h3.nodes = h2.nodes from rfl, hqs, ha2s] at haq
            have heq := Option.some_inj.1 haq
            rw [← heq, show t1N.parent = tS.parent from rfl, htSp] at hpk
            cases hpk
          · rw [show h3.nodes = h2.nodes from rfl, ha2o q.1 hqs hqb] at haq
            have hO9 := hO
            simp only [FibHeap.rootsOk, Bool.and_eq_true, List.all_eq_true] at hO9
            have := hO9.1 (q.1, q.2) (alook_mem _ _ _ haq)
            rw [hpk] at this
            dsimp only at this
            simpa using this
      · intro q hq
        have hq9 := mem_mapErase _ _ _ hq
        have hO9 := hO
        simp only [FibHeap.rootsOk, Bool.and_eq_true, List.all_eq_true,
          decide_eq_true_eq] at hO9
        exact hO9.2 q hq9.1
    · show h.numElems = (h2.nodes.length : Int)
      rw [hlen2]
      exact hS
    · intro q hq
      have haq : alook h3.nodes q.1 = some q.2 :=
        alook_of_mem_nodup _ _ _ hnod2 hq
      have hmax3 : h.maxDegree ≤ h3.maxDegree := le_max_left _ _
      by_cases hqs : q.1 = s
      · rw [show h3.nodes = h2.nodes from rfl, hqs, ha2s] at haq
        have heq := Option.some_inj.1 haq
        rw [hqs, ← heq]
        have hLs := hL (s, tS) (alook_mem _ _ _ hatS)
        refine nodeLocalOk_intro h3 s t1N ?_ ?_ ?_ ?_ ?_
        · intro i c hcslot
          rw [show t1N.children = tS.children ++ [some b] from rfl] at hcslot
          by_cases hilen : i < tS.children.length
          · rw [get?_append_left _ _ _ hilen] at hcslot
            obtain ⟨cnd, hcnd, hcp, hcci, hcle⟩ :=
              localOk_child h s tS hLs i c hcslot
            have hcs : c ≠ s := by
              intro hc
              rw [hc, hatS] at hcnd
              rw [← (Option.some_inj.1 hcnd), htSp] at hcp
              cases hcp
            have hcb : c ≠ b := by
              intro hc
              rw [hc, hatB] at hcnd
              rw [← (Option.some_inj.1 hcnd), htBp] at hcp
              cases hcp
            refine ⟨cnd, ?_, hcp, hcci, hcle⟩
            rw [show h3.nodes = h2.nodes from rfl, ha2o c hcs hcb]
            exact hcnd
          · have hieq : i = tS.children.length := by
              have hi2 : i < (tS.children ++ [some b]).length :=
                (List.get?_eq_some.1 hcslot).1
              rw [List.length_append, List.length_singleton] at hi2
              omega
            rw [hieq, get?_append_last] at hcslot
            have hcb : c = b := by
              have := Option.some_inj.1 hcslot
              exact (Option.some_inj.1 this).symm
            subst hcb
            refine ⟨t2N, by rw [show h3.nodes = h2.nodes from rfl]; exact ha2b,
              rfl, ?_, ?_⟩
            · rw [hieq]
            · show t1N.value ≤ t2N.value
              exact hord
        · show t1N.numChildren =
            (((tS.children ++ [some b]).filter (fun c => c.isSome)).length : Int)
          rw [List.filter_append]
          have := localOk_numChildren h s tS hLs
          show tS.numChildren + 1 = _
          rw [this]
          simp
        · show (tS.children ++ [some b]).length ≤ h3.maxDegree
          rw [List.length_append, List.length_singleton]
          exact le_max_right _ _
        · intro hp9
          refine ⟨?_, eS, hmemS3, rfl⟩
          show tS.childIndex = -1
          exact (localOk_root h s tS hLs htSp).1
        · intro pk hpk
          rw [show t1N.parent = tS.parent from rfl, htSp] at hpk
          cases hpk
      · by_cases hqb : q.1 = b
        · rw [show h3.nodes = h2.nodes from rfl, hqb, ha2b] at haq
          have heq := Option.some_inj.1 haq
          rw [hqb, ← heq]
          have hLb := hL (b, tB) (alook_mem _ _ _ hatB)
          refine nodeLocalOk_intro h3 b t2N ?_ ?_ ?_ ?_ ?_
          · intro i c hcslot
            rw [show t2N.children = tB.children from rfl] at hcslot
            obtain ⟨cnd, hcnd, hcp, hcci, hcle⟩ :=
              localOk_child h b tB hLb i c hcslot
            have hcs : c ≠ s := by
              intro hc
              rw [hc, hatS] at hcnd
              rw [← (Option.some_inj.1 hcnd), htSp] at hcp
              cases hcp
            have hcb : c ≠ b := by
              intro hc
              rw [hc, hatB] at hcnd
              rw [← (Option.some_inj.1 hcnd), htBp] at hcp
              cases hcp
            refine ⟨cnd, ?_, hcp, hcci, hcle⟩
            rw [show h3.nodes = h2.nodes from rfl, ha2o c hcs hcb]
            exact hcnd
          · exact localOk_numChildren h b tB hLb
          · exact le_trans (localOk_degree_le h b tB hLb) hmax3
          · intro hp9
            rw [show t2N.parent = some s from rfl] at hp9
            cases hp9
          · intro pk hpk
            rw [show t2N.parent = some s from rfl] at hpk
            have hpks : pk = s := (Option.some_inj.1 hpk).symm
            refine ⟨t1N, by
              rw [show h3.nodes = h2.nodes from rfl, hpks]
              exact ha2s, by
                show (0 : Int) ≤ (tS.children.length : Int)
                positivity, ?_⟩
            show (tS.children ++ [some b]).get?
              ((tS.children.length : Int)).toNat = some (some b)
            rw [Int.toNat_natCast]
            exact get?_append_last _ _
        · rw [show h3.nodes = h2.nodes from rfl, ha2o q.1 hqs hqb] at haq
          have hLk := hL (q.1, q.2) (alook_mem _ _ _ haq)
          refine nodeLocalOk_intro h3 q.1 q.2 ?_
            (localOk_numChildren h q.1 q.2 hLk)
            (le_trans (localOk_degree_le h q.1 q.2 hLk) hmax3) ?_ ?_
          · intro i c hcslot
            obtain ⟨cnd, hcnd, hcp, hcci, hcle⟩ :=
              localOk_child h q.1 q.2 hLk i c hcslot
            have hcs : c ≠ s := by
              intro hc
              rw [hc] at hcslot
              exact hnochildS q.1 q.2 i haq hcslot
            have hcb : c ≠ b := by
              intro hc
              rw [hc] at hcslot
              exact hnochildB q.1 q.2 i haq hcslot
            refine ⟨cnd, ?_, hcp, hcci, hcle⟩
            rw [show h3.nodes = h2.nodes from rfl, ha2o c hcs hcb]
            exact hcnd
          · intro hp9
            obtain ⟨hci9, e, he, her⟩ := localOk_root h q.1 q.2 hLk hp9
            have heB : e ≠ eB := by
              intro hc
              rw [hc] at her
              exact hqb her.symm
            refine ⟨hci9, e, ?_, her⟩
            rw [hdecomp] at he
            exact mem_remove_middle X Y eB e he heB
          · intro pk hpk
            obtain ⟨qn, hqn, hci9, hslot9⟩ := localOk_parent h q.1 q.2 pk hLk hpk
            by_cases hpks : pk = s
            · rw [hpks, hatS] at hqn
              have heq9 := Option.some_inj.1 hqn
              refine ⟨t1N, by
                rw [show h3.nodes = h2.nodes from rfl, hpks]
                exact ha2s, hci9, ?_⟩
              show (tS.children ++ [some b]).get? q.2.childIndex.toNat =
                some (some q.1)
              rw [← heq9] at hslot9
              have hlt9 : q.2.childIndex.toNat < tS.children.length :=
                (List.get?_eq_some.1 hslot9).1
              rw [get?_append_left _ _ _ hlt9]
              exact hslot9
            · by_cases hpkb : pk = b
              · rw [hpkb, hatB] at hqn
                have heq9 := Option.some_inj.1 hqn
                refine ⟨t2N, by
                  rw [show h3.nodes = h2.nodes from rfl, hpkb]
                  exact ha2b, hci9, ?_⟩
                show tB.children.get? q.2.childIndex.toNat = some (some q.1)
                rw [heq9]
                exact hslot9
              · refine ⟨qn, ?_, hci9, hslot9⟩
                rw [show h3.nodes = h2.nodes from rfl, ha2o pk hpks hpkb]
                exact hqn
    · intro q hq
      have haq : alook h3.nodes q.1 = some q.2 :=
        alook_of_mem_nodup _ _ _ hnod2 hq
      have hqs : (alook h.nodes q.1).isSome := by
        rw [← hsome2 q.1]
        rw [show h3.nodes = h2.nodes from rfl] at haq
        rw [haq]
        rfl
      cases hah : alook h.nodes q.1 with
      | none => rw [hah] at hqs; cases hqs
      | some hn9 =>
        have hdq := hCh (q.1, hn9) (alook_mem _ _ _ hah)
        cases hdq9 : h.chainDepth (h.nodes.length + 1) q.1 with
        | none => rw [hdq9] at hdq; cases hdq
        | some dq =>
          have hsame9 : ∀ k nd1, k ≠ b → alook h.nodes k = some nd1 →
              ∃ nd2, alook h3.nodes k = some nd2 ∧ nd2.parent = nd1.parent := by
            intro k nd1 hkb hak
            by_cases hks : k = s
            · rw [hks, hatS] at hak
              refine ⟨t1N, by
                rw [show h3.nodes = h2.nodes from rfl, hks]
                exact ha2s, ?_⟩
              show tS.parent = nd1.parent
              rw [Option.some_inj.1 hak]
            · refine ⟨nd1, ?_, rfl⟩
              rw [show h3.nodes = h2.nodes from rfl, ha2o k hks hkb]
              exact hak
          obtain ⟨d2, -, hc2⟩ := chainDepth_reparent h h3 b s (fun hc => hsb hc.symm)
            ⟨t2N, by rw [show h3.nodes = h2.nodes from rfl]; exact ha2b, rfl⟩
            ⟨t1N, by rw [show h3.nodes = h2.nodes from rfl]; exact ha2s, htSp⟩
            hsame9 (h.nodes.length + 1) q.1 dq hdq9
          exact chainDepth_norm h3 q.1 hnod2 (h.nodes.length + 2) d2 hc2
  -- operational run
  refine ⟨h3, ?_, hCI3, rfl, rfl, rfl, rfl, rfl, rfl, rfl, rfl, ?_, hlen2⟩
  · show (do
      let eS9 ← h.getRing eS.rid
      let eB9 ← h.getRing eB.rid
      let t1 ← h.getNode eS9.root
      let t2 ← h.getNode eB9.root
      let t1 := { t1 with children := t1.children ++ [some eB9.root],
                          numChildren := t1.numChildren + 1 }
      let h9 := h.setNode eS9.root t1
      let t2 := { t2 with childIndex := (t1.children.length : Int) - 1,
                          parent := some eS9.root }
      let h9 := h9.setNode eB9.root t2
      let h9 := if t1.children.length > h9.maxDegree
                then { h9 with maxDegree := t1.children.length } else h9
      let h9 ← h9.remove_ringnode (some eB.rid)
      pure (h9, eS.rid)) = .ok (h3, eS.rid)
    rw [getRing_eq_ok h eS.rid eS hfS, getRing_eq_ok h eB.rid eB hfB]
    simp only [eok_bind]
    rw [getNode_eq_ok h s tS hatS, getNode_eq_ok h b tB hatB]
    simp only [eok_bind, FibHeap.setNode]
    have ht2X : Node.mk tB.value tB.loser (some eS.root)
        (((tS.children ++ [some eB.root]).length : Int) - 1)
        tB.children tB.numChildren = t2N := by
      rw [ht2N]
      have hci : (((tS.children ++ [some eB.root]).length : Int) - 1) =
          (tS.children.length : Int) := by
        rw [List.length_append, List.length_singleton]
        push_cast
        ring
      rw [hci]
    rw [ht2X, ← ht1N]
    have hfold2 : aset (aset h.nodes eS.root t1N) eB.root t2N = h2.nodes := rfl
    rw [hfold2]
    have hlen1 : h.ring.length ≠ 1 := by
      rw [hdecomp]
      intro hc
      rw [List.length_append, List.length_cons] at hc
      have hXz : X.length = 0 ∧ Y.length = 0 := by omega
      have hX0 : X = [] := List.length_eq_zero.1 hXz.1
      have hY0 : Y = [] := List.length_eq_zero.1 hXz.2
      rw [hX0, hY0] at hmemS3
      cases hmemS3
    by_cases hgt : (tS.children ++ [some eB.root]).length > h.maxDegree
    · rw [if_pos hgt]
      obtain ⟨h4, hrun4, hroots4, hnodes4, hnum4, hid4, hnrid4, hmax4, hcase4⟩ :=
        remove_ringnode_spec (FibHeap.mk h2.nodes h.nextId h.ring h.nextRid
          h.minRid h.numElems (tS.children ++ [some eB.root]).length h.roots)
          X Y eB hdecomp hr1
      rw [hrun4]
      simp only [eok_bind, epure_def]
      obtain ⟨-, hring4, hmr4⟩ := hcase4.resolve_left (fun hc => hlen1 hc.1)
      have hh4 : h4 = h3 := by
        refine fibheap_eq h4 h3 ?_ ?_ ?_ ?_ ?_ ?_ ?_ ?_
        · rw [hnodes4]
        · rw [hid4]
          rfl
        · rw [hring4]
        · rw [hnrid4]
          rfl
        · rw [hmr4]
          rfl
        · rw [hnum4]
          rfl
        · rw [hmax4]
          show (tS.children ++ [some eB.root]).length =
            max h.maxDegree (tS.children.length + 1)
          rw [List.length_append, List.length_singleton] at hgt ⊢
          rw [Nat.max_eq_right (by omega : h.maxDegree ≤ tS.children.length + 1)]
        · rw [hroots4]
      rw [hh4]
    · rw [if_neg hgt]
      obtain ⟨h4, hrun4, hroots4, hnodes4, hnum4, hid4, hnrid4, hmax4, hcase4⟩ :=
        remove_ringnode_spec (FibHeap.mk h2.nodes h.nextId h.ring h.nextRid
          h.minRid h.numElems h.maxDegree h.roots)
          X Y eB hdecomp hr1
      rw [hrun4]
      simp only [eok_bind, epure_def]
      obtain ⟨-, hring4, hmr4⟩ := hcase4.resolve_left (fun hc => hlen1 hc.1)
      have hh4 : h4 = h3 := by
        refine fibheap_eq h4 h3 ?_ ?_ ?_ ?_ ?_ ?_ ?_ ?_
        · rw [hnodes4]
        · rw [hid4]
          rfl
        · rw [hring4]
        · rw [hnrid4]
          rfl
        · rw [hmr4]
          rfl
        · rw [hnum4]
          rfl
        · rw [hmax4]
          show h.maxDegree = max h.maxDegree (tS.children.length + 1)
          rw [List.length_append, List.length_singleton] at hgt
          rw [Nat.max_eq_left (by omega : tS.children.length + 1 ≤ h.maxDegree)]
        · rw [hroots4]
      rw [hh4]
  · show h2.nodes.map _ = _
    show (aset (aset h.nodes s t1N) b t2N).map (fun p => (p.1, p.2.value)) = _
    rw [valueMap_aset_preserve (fun nd : Node => nd.value) _ b tB t2N
      (by rw [aset_keys]; exact hnodup)
      (by rw [alook_aset_ne _ _ _ _ hsb]; exact hatB) rfl]
    exact valueMap_aset_preserve (fun nd : Node => nd.value) _ s tS t1N
      hnodup hatS rfl

theorem split_unique_rid (Z W X Y : List RingNode) (e : RingNode)
    (hnd : ((Z ++ e :: W).map (fun en => en.rid)).Nodup)
    (heq : Z ++ e :: W = X ++ e :: Y) : Z = X ∧ W = Y := by
  have hiZ : (Z ++ e :: W).findIdx? (fun en => en.rid == e.rid) = some Z.length :=
    rid_findIdx_decomp Z W e hnd
  have hiX : (X ++ e :: Y).findIdx? (fun en => en.rid == e.rid) = some X.length := by
    refine rid_findIdx_decomp X Y e ?_
    rw [← heq]
    exact hnd
  rw [heq, hiX] at hiZ
  have hlen : Z.length = X.length := (Option.some_inj.1 hiZ).symm
  obtain ⟨hZX, hEW⟩ := List.append_inj heq hlen
  refine ⟨hZX, ?_⟩
  exact List.tail_eq_of_cons_eq hEW

/-- `FibHeap::merge_trees`: the root with the smaller value adopts the
other tree; the loser leaves the ring, the winner gains one child and the
bookkeeping fields are preserved. -/
theorem merge_trees_spec (h : FibHeap) (e1 e2 : RingNode) (t1 t2 : Node)
    (hCI : CoreInv h) (hmem1 : e1 ∈ h.ring) (hmem2 : e2 ∈ h.ring)
    (hne : e1.rid ≠ e2.rid)
    (hat1 : alook h.nodes e1.root = some t1)
    (hat2 : alook h.nodes e2.root = some t2) :
    ∃ h' eW eL tW tL, h.merge_trees e1.rid e2.rid = .ok (h', eW.rid) ∧
      CoreInv h' ∧
      ((eW = e1 ∧ eL = e2 ∧ tW = t1 ∧ tL = t2) ∨
       (eW = e2 ∧ eL = e1 ∧ tW = t2 ∧ tL = t1)) ∧
      tW.value ≤ tL.value ∧
      (∀ Z W, h.ring = Z ++ eL :: W → h'.ring = Z ++ W) ∧
      alook h'.nodes eW.root =
        some { tW with children := tW.children ++ [some eL.root],
                       numChildren := tW.numChildren + 1 } ∧
      (∀ k, k ≠ eW.root → k ≠ eL.root → alook h'.nodes k = alook h.nodes k) ∧
      h'.maxDegree = max h.maxDegree (tW.children.length + 1) ∧
      h'.minRid = h.minRid ∧ h'.numElems = h.numElems ∧
      h'.nextId = h.nextId ∧ h'.nextRid = h.nextRid ∧
      h'.valueMap = h.valueMap ∧ h'.nodes.length = h.nodes.length := by
  have hr1 := (ringOk_parts h hCI.2.1).1
  have hf1 : h.ring.find? (fun en => en.rid == e1.rid) = some e1 := by
    obtain ⟨Xs, Ys, hXY⟩ := List.append_of_mem hmem1
    rw [hXY]
    refine rid_find_decomp Xs Ys e1 ?_
    rw [← hXY]
    exact hr1
  have hf2 : h.ring.find? (fun en => en.rid == e2.rid) = some e2 := by
    obtain ⟨Xs, Ys, hXY⟩ := List.append_of_mem hmem2
    rw [hXY]
    refine rid_find_decomp Xs Ys e2 ?_
    rw [← hXY]
    exact hr1
  simp only [FibHeap.merge_trees]
  rw [getRing_eq_ok h e1.rid e1 hf1, getRing_eq_ok h e2.rid e2 hf2]
  simp only [eok_bind]
  rw [getNode_eq_ok h e1.root t1 hat1, getNode_eq_ok h e2.root t2 hat2]
  simp only [eok_bind]
  by_cases hord : t1.value ≤ t2.value
  · rw [if_pos hord]
    obtain ⟨X0, Y0, hXY0⟩ := List.append_of_mem hmem2
    obtain ⟨h', hrun, hCI', hring', hnodes', hroots', hmax', hmr', hnum',
      hid', hnrid', hvm', hlen'⟩ :=
      adopt_spec h X0 Y0 e1 e2 t1 t2 hCI hXY0 hmem1 hne hat1 hat2 hord
    refine ⟨h', e1, e2, t1, t2, hrun, hCI', Or.inl ⟨rfl, rfl, rfl, rfl⟩,
      hord, ?_, ?_, ?_, hmax', hmr', hnum', hid', hnrid', hvm', hlen'⟩
    · intro Z W hZW
      have hsp := split_unique_rid Z W X0 Y0 e2 (by rw [← hZW]; exact hr1)
        (by rw [← hZW, ← hXY0])
      rw [hring', ← hsp.1, ← hsp.2]
    · rw [hnodes']
      refine alook_aset_ne _ _ _ _ ?_ |>.trans
        (alook_aset_self _ _ _ (by rw [hat1]; rfl))
      intro hc
      have hmemB2 : e2 ∈ h.ring := hmem2
      exact hne (by
        rw [ring_root_inj h hCI.2.1 e1 e2 hmem1 hmemB2 hc.symm])
    · intro k hkW hkL
      rw [hnodes']
      rw [alook_aset_ne _ _ _ _ (fun hc => hkL hc.symm),
        alook_aset_ne _ _ _ _ (fun hc => hkW hc.symm)]
  · rw [if_neg hord]
    have hord2 : t2.value ≤ t1.value := le_of_not_le hord
    obtain ⟨X0, Y0, hXY0⟩ := List.append_of_mem hmem1
    obtain ⟨h', hrun, hCI', hring', hnodes', hroots', hmax', hmr', hnum',
      hid', hnrid', hvm', hlen'⟩ :=
      adopt_spec h X0 Y0 e2 e1 t2 t1 hCI hXY0 hmem2 (fun hc => hne hc.symm)
        hat2 hat1 hord2
    refine ⟨h', e2, e1, t2, t1, hrun, hCI', Or.inr ⟨rfl, rfl, rfl, rfl⟩,
      hord2, ?_, ?_, ?_, hmax', hmr', hnum', hid', hnrid', hvm', hlen'⟩
    · intro Z W hZW
      have hsp := split_unique_rid Z W X0 Y0 e1 (by rw [← hZW]; exact hr1)
        (by rw [← hZW, ← hXY0])
      rw [hring', ← hsp.1, ← hsp.2]
    · rw [hnodes']
      refine alook_aset_ne _ _ _ _ ?_ |>.trans
        (alook_aset_self _ _ _ (by rw [hat2]; rfl))
      intro hc
      exact hne (by
        rw [ring_root_inj h hCI.2.1 e1 e2 hmem1 hmem2 hc])
    · intro k hkW hkL
      rw [hnodes']
      rw [alook_aset_ne _ _ _ _ (fun hc => hkL hc.symm),
        alook_aset_ne _ _ _ _ (fun hc => hkW hc.symm)]

/-! ### Removal pipeline: consolidation, relocation, `remove_min` -/


set_option maxHeartbeats 1000000

theorem ring_rid_inj (h : FibHeap) (hR : h.ringOk = true) (e1 e2 : RingNode)
    (h1 : e1 ∈ h.ring) (h2 : e2 ∈ h.ring) (heq : e1.rid = e2.rid) : e1 = e2 :=
  List.inj_on_of_nodup_map (ringOk_parts h hR).1 h1 h2 heq

/-- The inner `while` loop of consolidation, started on an unregistered
tree: it merges away registered trees of matching degree until the
current tree's degree bucket is free, preserving the core and bucket
invariants and the untouched (unregistered) suffix of the ring. -/
theorem consolidate_while_spec : ∀ (fuel : Nat) (h : FibHeap)
    (buckets : List (Option Nat)) (A B U : List RingNode) (currE : RingNode)
    (cnd : Node) (degree : Nat),
    CoreInv h → BInv h buckets →
    h.ring = A ++ currE :: (B ++ U) →
    (∀ e ∈ A, Bucketed h buckets e) →
    (∀ e ∈ B, Bucketed h buckets e) →
    (∀ e ∈ U, Unbucketed buckets e.rid) →
    Unbucketed buckets currE.rid →
    alook h.nodes currE.root = some cnd →
    cnd.numChildren = (degree : Int) →
    A.length + B.length < fuel →
    ∃ h' buckets' A' B' currE' cnd' degree',
      h.consolidate_while buckets currE.rid degree fuel =
        .ok (h', buckets', currE'.rid, degree') ∧
      CoreInv h' ∧ BInv h' buckets' ∧
      h'.ring = A' ++ currE' :: (B' ++ U) ∧
      (∀ e ∈ A', Bucketed h' buckets' e) ∧
      (∀ e ∈ B', Bucketed h' buckets' e) ∧
      (∀ e ∈ U, Unbucketed buckets' e.rid) ∧
      Unbucketed buckets' currE'.rid ∧
      alook h'.nodes currE'.root = some cnd' ∧
      cnd'.numChildren = (degree' : Int) ∧
      buckets'.get? degree' = some none ∧
      h'.ring.length + A.length + B.length =
        h.ring.length + A'.length + B'.length ∧
      (h'.ring.length < h.ring.length ∨ (A' = A ∧ B' = B)) ∧
      h'.valueMap = h.valueMap ∧ h'.numElems = h.numElems ∧
      h'.nextId = h.nextId ∧ h'.nextRid = h.nextRid ∧
      h'.minRid = h.minRid ∧ h'.nodes.length = h.nodes.length := by
  intro fuel
  induction fuel with
  | zero =>
    intro h buckets A B U currE cnd degree _ _ _ _ _ _ _ _ _ hfuel
    omega
  | succ f ih =>
    intro h buckets A B U currE cnd degree hCI hB hring hbA hbB hbU hbC
      hcnd hdeg hfuel
    have hmemC : currE ∈ h.ring := by
      rw [hring]
      exact List.mem_append.2 (Or.inr (List.mem_cons_self _ _))
    have hLc := hCI.2.2.2.2.1 (currE.root, cnd) (alook_mem _ _ _ hcnd)
    have hdegle : degree ≤ h.maxDegree := by
      have hnc := localOk_numChildren h currE.root cnd hLc
      have hfl : (cnd.children.filter (fun c => c.isSome)).length ≤
          cnd.children.length := List.length_filter_le _ _
      have hdl := localOk_degree_le h currE.root cnd hLc
      rw [hdeg] at hnc
      have : degree = (cnd.children.filter (fun c => c.isSome)).length := by
        exact_mod_cast hnc
      omega
    have hdeglt : degree < buckets.length := by
      rw [hB.1]
      omega
    cases hsv : buckets.get? degree with
    | none =>
      exfalso
      rw [List.get?_eq_none] at hsv
      omega
    | some slotv =>
      cases slotv with
      | none =>
        -- the bucket is free: the loop exits at once
        refine ⟨h, buckets, A, B, currE, cnd, degree, ?_, hCI, hB, hring,
          hbA, hbB, hbU, hbC, hcnd, hdeg, hsv, rfl, Or.inr ⟨rfl, rfl⟩,
          rfl, rfl, rfl, rfl, rfl, rfl⟩
        simp only [FibHeap.consolidate_while]
        rw [bucketGet_ok buckets degree none hsv]
        simp only [eok_bind]
        rfl
      | some b =>
        have hbne : b ≠ currE.rid := by
          intro hc
          exact hbC degree (by rw [← hc]; exact hsv)
        obtain ⟨eB, ndB, hmemB, hridB, haB, hdegB⟩ := hB.2 degree b hsv
        have hne2 : currE.rid ≠ eB.rid := by
          rw [hridB]
          exact fun hc => hbne hc.symm
        have hBneC : eB ≠ currE := fun hc => hne2 (by rw [hc])
        have hndr : h.ring.Nodup :=
          List.Nodup.of_map _ (ringOk_parts h hCI.2.1).1
        have hndr2 : (A ++ currE :: (B ++ U)).Nodup := by
          rw [← hring]
          exact hndr
        have hcA : currE ∉ A := by
          intro hc
          have := (List.nodup_append.1 hndr2).2.2
          exact (this hc) (List.mem_cons_self _ _)
        have hdisjCU : currE ∉ B ++ U := by
          have := (List.nodup_append.1 hndr2).2.1
          rw [List.nodup_cons] at this
          exact this.1
        have hmemAB : eB ∈ A ∨ eB ∈ B := by
          rw [hring] at hmemB
          cases List.mem_append.1 hmemB with
          | inl h9 => exact Or.inl h9
          | inr h9 =>
            cases h9 with
            | head => exact absurd rfl hBneC
            | tail _ h9 =>
              cases List.mem_append.1 h9 with
              | inl h9 => exact Or.inr h9
              | inr h9 =>
                exfalso
                exact hbU eB h9 degree (by rw [hridB]; exact hsv)
        obtain ⟨h2, eW, eL, tW, tL, hrunM, hCI2, hWL, hordWL, hringM, haW2,
          hother2, hmax2, hmr2, hnum2, hid2, hnrid2, hvm2, hlen2⟩ :=
          merge_trees_spec h currE eB cnd ndB hCI hmemC hmemB hne2 hcnd haB
        -- the winner and loser are these two entries, in some order
        have hWset : (eW = currE ∧ eL = eB) ∨ (eW = eB ∧ eL = currE) := by
          cases hWL with
          | inl h9 => exact Or.inl ⟨h9.1, h9.2.1⟩
          | inr h9 => exact Or.inr ⟨h9.1, h9.2.1⟩
        have htWdeg : tW.numChildren = (degree : Int) := by
          cases hWL with
          | inl h9 => rw [h9.2.2.1]; exact hdeg
          | inr h9 => rw [h9.2.2.1]; exact hdegB
        have htWle : tW.children.length ≤ h.maxDegree := by
          cases hWL with
          | inl h9 =>
            rw [h9.2.2.1]
            exact localOk_degree_le h currE.root cnd hLc
          | inr h9 =>
            rw [h9.2.2.1]
            exact localOk_degree_le h eB.root ndB
              (hCI.2.2.2.2.1 (eB.root, ndB) (alook_mem _ _ _ haB))
        -- shape of the ring after the merge
        have hshape2 : ∃ A2 B2, h2.ring = A2 ++ eW :: (B2 ++ U) ∧
            (∀ e ∈ A2, (e ∈ A ∨ e ∈ B) ∧ e ≠ eB ∧ e ≠ currE) ∧
            (∀ e ∈ B2, (e ∈ A ∨ e ∈ B) ∧ e ≠ eB ∧ e ≠ currE) ∧
            A2.length + B2.length + 1 = A.length + B.length ∧
            h2.ring.length + 1 = h.ring.length := by
          cases hWset with
          | inl hW1 =>
            obtain ⟨hWc, hLb⟩ := hW1
            cases hmemAB with
            | inl hinA =>
              obtain ⟨A1, A2x, hAd⟩ := List.append_of_mem hinA
              have hr2 : h2.ring = A1 ++ (A2x ++ currE :: (B ++ U)) := by
                refine hringM A1 (A2x ++ currE :: (B ++ U)) ?_
                rw [hring, hAd, hLb]
                simp [List.append_assoc]
              have hndA : (A1 ++ eB :: A2x).Nodup := by
                rw [← hAd]
                exact (List.nodup_append.1 hndr2).1
              refine ⟨A1 ++ A2x, B, ?_, ?_, ?_, ?_, ?_⟩
              · rw [hr2, hWc]
                simp [List.append_assoc]
              · intro e he
                have heA : e ∈ A := by
                  rw [hAd]
                  cases List.mem_append.1 he with
                  | inl h9 => exact List.mem_append.2 (Or.inl h9)
                  | inr h9 =>
                    exact List.mem_append.2 (Or.inr (List.mem_cons_of_mem _ h9))
                refine ⟨Or.inl heA, ?_, fun hc => hcA (hc ▸ heA)⟩
                intro hc
                subst hc
                cases List.mem_append.1 he with
                | inl h9 =>
                  exact ((List.nodup_append.1 hndA).2.2 h9)
                    (List.mem_cons_self _ _)
                | inr h9 =>
                  have := (List.nodup_append.1 hndA).2.1
                  rw [List.nodup_cons] at this
                  exact this.1 h9
              · intro e he
                have hnB : e ≠ eB := by
                  intro hc
                  subst hc
                  have := (List.nodup_append.1 hndr2).2.2
                  exact this hinA (List.mem_cons_of_mem _ (List.mem_append.2 (Or.inl he)))
                refine ⟨Or.inr he, hnB, ?_⟩
                intro hc
                subst hc
                exact hdisjCU (List.mem_append.2 (Or.inl he))
              · rw [hAd]
                simp only [List.length_append, List.length_cons]
                omega
              · rw [hr2, hring, hAd]
                simp only [List.length_append, List.length_cons]
                omega
            | inr hinB =>
              obtain ⟨B1, B2x, hBd⟩ := List.append_of_mem hinB
              have hr2 : h2.ring = (A ++ currE :: B1) ++ (B2x ++ U) := by
                refine hringM (A ++ currE :: B1) (B2x ++ U) ?_
                rw [hring, hBd, hLb]
                simp [List.append_assoc]
              have hndB9 : (B1 ++ eB :: B2x).Nodup := by
                rw [← hBd]
                have := (List.nodup_append.1 hndr2).2.1
                rw [List.nodup_cons] at this
                exact (List.nodup_append.1 this.2).1
              refine ⟨A, B1 ++ B2x, ?_, ?_, ?_, ?_, ?_⟩
              · rw [hr2, hWc]
                simp [List.append_assoc]
              · intro e he
                refine ⟨Or.inl he, ?_, fun hc => hcA (hc ▸ he)⟩
                intro hc
                subst hc
                have := (List.nodup_append.1 hndr2).2.2
                exact this he
                  (List.mem_cons_of_mem _ (List.mem_append.2 (Or.inl hinB)))
              · intro e he
                have heB : e ∈ B := by
                  rw [hBd]
                  cases List.mem_append.1 he with
                  | inl h9 => exact List.mem_append.2 (Or.inl h9)
                  | inr h9 =>
                    exact List.mem_append.2 (Or.inr (List.mem_cons_of_mem _ h9))
                refine ⟨Or.inr heB, ?_, ?_⟩
                · intro hc
                  subst hc
                  cases List.mem_append.1 he with
                  | inl h9 =>
                    exact ((List.nodup_append.1 hndB9).2.2 h9)
                      (List.mem_cons_self _ _)
                  | inr h9 =>
                    have := (List.nodup_append.1 hndB9).2.1
                    rw [List.nodup_cons] at this
                    exact this.1 h9
                · intro hc
                  subst hc
                  exact hdisjCU (List.mem_append.2 (Or.inl heB))
              · rw [hBd]
                simp only [List.length_append, List.length_cons]
                omega
              · rw [hr2, hring, hBd]
                simp only [List.length_append, List.length_cons]
                omega
          | inr hW2 =>
            obtain ⟨hWb, hLc9⟩ := hW2
            have hr2 : h2.ring = A ++ (B ++ U) := by
              refine hringM A (B ++ U) ?_
              rw [hring, hLc9]
            cases hmemAB with
            | inl hinA =>
              obtain ⟨A1, A2x, hAd⟩ := List.append_of_mem hinA
              have hndA : (A1 ++ eB :: A2x).Nodup := by
                rw [← hAd]
                exact (List.nodup_append.1 hndr2).1
              refine ⟨A1, A2x ++ B, ?_, ?_, ?_, ?_, ?_⟩
              · rw [hr2, hAd, hWb]
                simp [List.append_assoc]
              · intro e he
                have heA : e ∈ A := by
                  rw [hAd]
                  exact List.mem_append.2 (Or.inl he)
                refine ⟨Or.inl heA, ?_, fun hc => hcA (hc ▸ heA)⟩
                intro hc
                subst hc
                exact ((List.nodup_append.1 hndA).2.2 he) (List.mem_cons_self _ _)
              · intro e he
                cases List.mem_append.1 he with
                | inl h9 =>
                  have heA : e ∈ A := by
                    rw [hAd]
                    exact List.mem_append.2
                      (Or.inr (List.mem_cons_of_mem _ h9))
                  refine ⟨Or.inl heA, ?_, fun hc => hcA (hc ▸ heA)⟩
                  intro hc
                  subst hc
                  have := (List.nodup_append.1 hndA).2.1
                  rw [List.nodup_cons] at this
                  exact this.1 h9
                | inr h9 =>
                  have hnB : e ≠ eB := by
                    intro hc
                    subst hc
                    have := (List.nodup_append.1 hndr2).2.2
                    exact this hinA
                      (List.mem_cons_of_mem _ (List.mem_append.2 (Or.inl h9)))
                  refine ⟨Or.inr h9, hnB, ?_⟩
                  intro hc
                  subst hc
                  exact hdisjCU (List.mem_append.2 (Or.inl h9))
              · rw [hAd]
                simp only [List.length_append, List.length_cons]
                omega
              · rw [hr2, hring]
                simp only [List.length_append, List.length_cons]
                omega
            | inr hinB =>
              obtain ⟨B1, B2x, hBd⟩ := List.append_of_mem hinB
              have hndB9 : (B1 ++ eB :: B2x).Nodup := by
                rw [← hBd]
                have := (List.nodup_append.1 hndr2).2.1
                rw [List.nodup_cons] at this
                exact (List.nodup_append.1 this.2).1
              refine ⟨A ++ B1, B2x, ?_, ?_, ?_, ?_, ?_⟩
              · rw [hr2, hBd, hWb]
                simp [List.append_assoc]
              · intro e he
                cases List.mem_append.1 he with
                | inl h9 =>
                  refine ⟨Or.inl h9, ?_, fun hc => hcA (hc ▸ h9)⟩
                  intro hc
                  subst hc
                  have := (List.nodup_append.1 hndr2).2.2
                  exact this h9
                    (List.mem_cons_of_mem _ (List.mem_append.2 (Or.inl hinB)))
                | inr h9 =>
                  have heB : e ∈ B := by
                    rw [hBd]
                    exact List.mem_append.2 (Or.inl h9)
                  refine ⟨Or.inr heB, ?_, ?_⟩
                  · intro hc
                    subst hc
                    exact ((List.nodup_append.1 hndB9).2.2 h9)
                      (List.mem_cons_self _ _)
                  · intro hc
                    subst hc
                    exact hdisjCU (List.mem_append.2 (Or.inl heB))
              · intro e he
                have heB : e ∈ B := by
                  rw [hBd]
                  exact List.mem_append.2 (Or.inr (List.mem_cons_of_mem _ he))
                refine ⟨Or.inr heB, ?_, ?_⟩
                · intro hc
                  subst hc
                  have := (List.nodup_append.1 hndB9).2.1
                  rw [List.nodup_cons] at this
                  exact this.1 he
                · intro hc
                  subst hc
                  exact hdisjCU (List.mem_append.2 (Or.inl heB))
              · rw [hBd]
                simp only [List.length_append, List.length_cons]
                omega
              · rw [hr2, hring]
                simp only [List.length_append, List.length_cons]
                omega
        obtain ⟨A2, B2, hring2, hmemA2, hmemB2, hlenAB2, hlenR2⟩ := hshape2
        -- the loser decomposes the old ring somewhere; membership transport
        have hsurv : ∀ e, e ∈ h.ring → e ≠ eB → e ≠ currE → e ∈ h2.ring := by
          intro e he hnb hnc
          have hne9 : e ≠ eL := by
            cases hWset with
            | inl h9 => rw [h9.2]; exact hnb
            | inr h9 => rw [h9.2]; exact hnc
          have hmemL : eL ∈ h.ring := by
            cases hWset with
            | inl h9 => rw [h9.2]; exact hmemB
            | inr h9 => rw [h9.2]; exact hmemC
          obtain ⟨Z0, W0, hZW0⟩ := List.append_of_mem hmemL
          rw [hringM Z0 W0 hZW0]
          refine mem_remove_middle Z0 W0 eL e ?_ hne9
          rw [← hZW0]
          exact he
        have hroots_keep : ∀ e, e ∈ h.ring → e ≠ eB → e ≠ currE →
            alook h2.nodes e.root = alook h.nodes e.root := by
          intro e he hnb hnc
          refine hother2 e.root ?_ ?_
          · intro hc
            have heW : e = eW := by
              refine ring_root_inj h hCI.2.1 e eW he ?_ hc
              cases hWset with
              | inl h9 => rw [h9.1]; exact hmemC
              | inr h9 => rw [h9.1]; exact hmemB
            cases hWset with
            | inl h9 => exact hnc (by rw [heW, h9.1])
            | inr h9 => exact hnb (by rw [heW, h9.1])
          · intro hc
            have heL : e = eL := by
              refine ring_root_inj h hCI.2.1 e eL he ?_ hc
              cases hWset with
              | inl h9 => rw [h9.2]; exact hmemB
              | inr h9 => rw [h9.2]; exact hmemC
            cases hWset with
            | inl h9 => exact hnb (by rw [heL, h9.2])
            | inr h9 => exact hnc (by rw [heL, h9.2])
        -- old occupied slots other than `degree` name neither merged tree
        have hexcl : ∀ j r, buckets.get? j = some (some r) → j ≠ degree →
            r ≠ eB.rid ∧ r ≠ currE.rid := by
          intro j r hjr hjd
          constructor
          · intro hc
            obtain ⟨e9, nd9, hmem9, hrid9, ha9, hdeg9⟩ := hB.2 j r hjr
            have he9 : e9 = eB := by
              refine ring_rid_inj h hCI.2.1 e9 eB hmem9 hmemB ?_
              rw [hrid9, hc]
            rw [he9, haB] at ha9
            have hnd9 := Option.some_inj.1 ha9
            rw [← hnd9] at hdeg9
            rw [hdegB] at hdeg9
            have : degree = j := by exact_mod_cast hdeg9
            omega
          · intro hc
            exact hbC j (by rw [← hc]; exact hjr)
        -- the updated bucket vector
        have hbext : h.maxDegree ≤ h2.maxDegree ∧
            h2.maxDegree ≤ h.maxDegree + 1 := by
          rw [hmax2]
          constructor
          · exact le_max_left _ _
          · exact max_le (by omega) (by omega)
        have hlen2B :
            (if h2.maxDegree ≥ buckets.length then buckets ++ [none]
              else buckets).length = h2.maxDegree + 1 := by
          by_cases hext : h2.maxDegree ≥ buckets.length
          · rw [if_pos hext]
            rw [List.length_append, List.length_singleton, hB.1]
            have := hB.1
            omega
          · rw [if_neg hext]
            rw [hB.1]
            rw [hB.1] at hext
            omega
        have hget2kept : ∀ j, j < buckets.length →
            (if h2.maxDegree ≥ buckets.length then buckets ++ [none]
              else buckets).get? j = buckets.get? j := by
          intro j hj
          by_cases hext : h2.maxDegree ≥ buckets.length
          · rw [if_pos hext]
            exact get?_append_left _ _ _ hj
          · rw [if_neg hext]
        have hsl2 : ∀ j r,
            (if h2.maxDegree ≥ buckets.length then buckets ++ [none]
              else buckets).get? j = some (some r) →
            buckets.get? j = some (some r) := by
          intro j r hjr
          by_cases hj : j < buckets.length
          · rw [hget2kept j hj] at hjr
            exact hjr
          · exfalso
            by_cases hext : h2.maxDegree ≥ buckets.length
            · rw [if_pos hext] at hjr
              by_cases hje : j = buckets.length
              · rw [hje, get?_append_last] at hjr
                cases Option.some_inj.1 hjr
              · have : (buckets ++ [none]).length ≤ j := by
                  rw [List.length_append, List.length_singleton]
                  omega
                rw [List.get?_eq_none.2 this] at hjr
                cases hjr
            · rw [if_neg hext] at hjr
              rw [List.get?_eq_none.2 (by omega)] at hjr
              cases hjr
        have hlt2 : degree <
            (if h2.maxDegree ≥ buckets.length then buckets ++ [none]
              else buckets).length := by
          rw [hlen2B]
          omega
        -- facts about the final bucket vector of this step
        have hsl3 : ∀ j r,
            ((if h2.maxDegree ≥ buckets.length then buckets ++ [none]
              else buckets).set degree none).get? j = some (some r) →
            buckets.get? j = some (some r) ∧ j ≠ degree := by
          intro j r hjr
          by_cases hjd : j = degree
          · rw [hjd, get?_set_self' _ _ _ hlt2] at hjr
            cases Option.some_inj.1 hjr
          · rw [get?_set_ne' _ _ _ _ (fun hc => hjd hc.symm)] at hjr
            exact ⟨hsl2 j r hjr, hjd⟩
        have hkeepB : ∀ e, (e ∈ A ∨ e ∈ B) → e ≠ eB → e ≠ currE →
            Bucketed h2
              ((if h2.maxDegree ≥ buckets.length then buckets ++ [none]
                else buckets).set degree none) e := by
          intro e heAB hnb hnc
          have hbk : Bucketed h buckets e := by
            cases heAB with
            | inl h9 => exact hbA e h9
            | inr h9 => exact hbB e h9
          obtain ⟨nde, hae, hnn, hslot⟩ := hbk
          have hmem9 : e ∈ h.ring := by
            rw [hring]
            cases heAB with
            | inl h9 => exact List.mem_append.2 (Or.inl h9)
            | inr h9 =>
              exact List.mem_append.2 (Or.inr (List.mem_cons_of_mem _
                (List.mem_append.2 (Or.inl h9))))
          have hde : nde.numChildren.toNat ≠ degree := by
            intro hc
            rw [hc] at hslot
            have : e.rid = b := by
              rw [hslot] at hsv
              exact (Option.some_inj.1 (Option.some_inj.1 hsv.symm)).symm
            exact hnb (ring_rid_inj h hCI.2.1 e eB hmem9 hmemB
              (by rw [this, hridB]))
          have hdlt : nde.numChildren.toNat < buckets.length :=
            (List.get?_eq_some.1 hslot).1
          refine ⟨nde, ?_, hnn, ?_⟩
          · rw [hroots_keep e hmem9 hnb hnc]
            exact hae
          · rw [get?_set_ne' _ _ _ _ (fun hc => hde hc.symm),
              hget2kept _ hdlt]
            exact hslot
        have hunb3 : ∀ r, Unbucketed buckets r →
            Unbucketed
              ((if h2.maxDegree ≥ buckets.length then buckets ++ [none]
                else buckets).set degree none) r := by
          intro r hur j hj
          exact hur j (hsl3 j r hj).1
        have hBI3 : BInv h2
            ((if h2.maxDegree ≥ buckets.length then buckets ++ [none]
              else buckets).set degree none) := by
          constructor
          · rw [List.length_set, hlen2B]
          · intro j r hjr
            obtain ⟨hold, hjd⟩ := hsl3 j r hjr
            obtain ⟨e9, nd9, hmem9, hrid9, ha9, hdeg9⟩ := hB.2 j r hold
            have hexc := hexcl j r hold hjd
            have hnb9 : e9 ≠ eB := by
              intro hc
              exact hexc.1 (by rw [← hc, hrid9])
            have hnc9 : e9 ≠ currE := by
              intro hc
              exact hexc.2 (by rw [← hc, hrid9])
            refine ⟨e9, nd9, hsurv e9 hmem9 hnb9 hnc9, hrid9, ?_, hdeg9⟩
            rw [hroots_keep e9 hmem9 hnb9 hnc9]
            exact ha9
        -- the updated node of the surviving tree
        have hdeg2 : ({ tW with children := tW.children ++ [some eL.root], numChildren := tW.numChildren + 1 } : Node).numChildren = ((degree + 1 : Nat) : Int) := by
          show tW.numChildren + 1 = ((degree + 1 : Nat) : Int)
          rw [htWdeg]
          push_cast
          ring
        have hunbW : Unbucketed
            ((if h2.maxDegree ≥ buckets.length then buckets ++ [none]
              else buckets).set degree none) eW.rid := by
          intro j hj
          obtain ⟨hold, hjd⟩ := hsl3 j eW.rid hj
          have hexc := hexcl j eW.rid hold hjd
          cases hWset with
          | inl h9 => exact hexc.2 (by rw [h9.1])
          | inr h9 => exact hexc.1 (by rw [h9.1])
        have hbA2 : ∀ e ∈ A2,
            Bucketed h2
              ((if h2.maxDegree ≥ buckets.length then buckets ++ [none]
                else buckets).set degree none) e := by
          intro e he
          obtain ⟨hAB, hnb, hnc⟩ := hmemA2 e he
          exact hkeepB e hAB hnb hnc
        have hbB2 : ∀ e ∈ B2,
            Bucketed h2
              ((if h2.maxDegree ≥ buckets.length then buckets ++ [none]
                else buckets).set degree none) e := by
          intro e he
          obtain ⟨hAB, hnb, hnc⟩ := hmemB2 e he
          exact hkeepB e hAB hnb hnc
        have hbU2 : ∀ e ∈ U,
            Unbucketed
              ((if h2.maxDegree ≥ buckets.length then buckets ++ [none]
                else buckets).set degree none) e.rid := by
          intro e he
          exact hunb3 e.rid (hbU e he)
        have hfuel2 : A2.length + B2.length < f := by
          omega
        obtain ⟨h', buckets', A', B', currE', cnd', degree', ihrun, ihCI,
          ihBI, ihring, ihbA, ihbB, ihbU, ihbC, ihcnd, ihdeg, ihslot, ihmeas,
          ihstep, ihvm, ihnum, ihid, ihnrid, ihmr, ihlen⟩ :=
          ih h2
            ((if h2.maxDegree ≥ buckets.length then buckets ++ [none]
              else buckets).set degree none)
            A2 B2 U eW
            { tW with children := tW.children ++ [some eL.root], numChildren := tW.numChildren + 1 }
            (degree + 1) hCI2 hBI3 hring2 hbA2 hbB2 hbU2 hunbW haW2 hdeg2
            hfuel2
        refine ⟨h', buckets', A', B', currE', cnd', degree', ?_, ihCI, ihBI,
          ihring, ihbA, ihbB, ihbU, ihbC, ihcnd, ihdeg, ihslot, ?_, ?_,
          ?_, ?_, ?_, ?_, ?_, ?_⟩
        · simp only [FibHeap.consolidate_while]
          rw [bucketGet_ok buckets degree (some b) hsv]
          simp only [eok_bind]
          rw [if_neg (by simp only [beq_iff_eq]; exact hbne)]
          rw [← hridB, hrunM]
          simp only [eok_bind]
          rw [bucketSet_ok _ degree none hlt2]
          simp only [eok_bind]
          exact ihrun
        · omega
        · refine Or.inl ?_
          cases ihstep with
          | inl h9 => omega
          | inr h9 =>
            obtain ⟨hA9, hB9⟩ := h9
            rw [hA9, hB9] at ihmeas
            omega
        · rw [ihvm, hvm2]
        · rw [ihnum, hnum2]
        · rw [ihid, hid2]
        · rw [ihnrid, hnrid2]
        · rw [ihmr, hmr2]
        · rw [ihlen, hlen2]

theorem consolidate_while_noop (h : FibHeap) (buckets : List (Option Nat))
    (curr degree : Nat) (fuel : Nat) (hfz : fuel ≠ 0)
    (hslot : buckets.get? degree = some (some curr)) :
    h.consolidate_while buckets curr degree fuel =
      .ok (h, buckets, curr, degree) := by
  cases fuel with
  | zero => exact absurd rfl hfz
  | succ f =>
    simp only [FibHeap.consolidate_while]
    rw [bucketGet_ok buckets degree (some curr) hslot]
    simp only [eok_bind]
    rw [if_pos (by simp)]
    rfl

theorem cyclicNextRid_eq (rg : List RingNode) (rid : Nat) (i : Nat)
    (e : RingNode)
    (hidx : rg.findIdx? (fun en => en.rid == rid) = some i)
    (hget : rg.get? ((i + 1) % rg.length) = some e) :
    FibHeap.cyclicNextRid rg rid = .ok e.rid := by
  simp only [FibHeap.cyclicNextRid, hidx, hget]

/-- The outer `for` loop of consolidation: walking the ring from the
current entry, it registers every tree in its degree bucket (merging
away equal degrees), and stops when the walk returns to `front`; at that
point every surviving root tree sits in its own bucket. -/
theorem consolidate_for_spec : ∀ (fuel : Nat) (L : Nat) (h : FibHeap)
    (buckets : List (Option Nat)) (A B U : List RingNode) (currE : RingNode),
    CoreInv h → BInv h buckets →
    h.ring = A ++ currE :: (B ++ U) →
    (∀ e ∈ A, Bucketed h buckets e) →
    (∀ e ∈ B, Bucketed h buckets e) →
    (∀ e ∈ U, Unbucketed buckets e.rid) →
    (Bucketed h buckets currE ∨ (Unbucketed buckets currE.rid ∧ B = [])) →
    h.ring.length ≤ L →
    h.ring.length * (L + 2) + (B ++ U).length < fuel →
    ∃ h' bk2,
      h.consolidate_for buckets currE.rid fuel = .ok h' ∧
      CoreInv h' ∧ BInv h' bk2 ∧
      (∀ e ∈ h'.ring, Bucketed h' bk2 e) ∧
      h'.ring ≠ [] ∧
      h'.valueMap = h.valueMap ∧ h'.numElems = h.numElems ∧
      h'.nextId = h.nextId ∧ h'.nextRid = h.nextRid ∧
      h'.minRid = h.minRid ∧ h'.nodes.length = h.nodes.length := by
  intro fuel
  induction fuel with
  | zero =>
    intro L h buckets A B U currE _ _ _ _ _ _ _ _ hfuel
    omega
  | succ f ih =>
    intro L h buckets A B U currE hCI hB hring hbA hbB hbU hcurr hL hfuel
    have hmemC : currE ∈ h.ring := by
      rw [hring]
      exact List.mem_append.2 (Or.inr (List.mem_cons_self _ _))
    have hndrid : (h.ring.map (fun e => e.rid)).Nodup :=
      (ringOk_parts h hCI.2.1).1
    have hfind : h.ring.find? (fun en => en.rid == currE.rid) = some currE := by
      rw [hring]
      refine rid_find_decomp A (B ++ U) currE ?_
      rw [← hring]
      exact hndrid
    obtain ⟨cnd, hcnd, hcpar⟩ := (ringOk_parts h hCI.2.1).2.2.1 currE hmemC
    have hLc := hCI.2.2.2.2.1 (currE.root, cnd) (alook_mem _ _ _ hcnd)
    have hd0 : 0 ≤ cnd.numChildren := by
      rw [localOk_numChildren h currE.root cnd hLc]
      positivity
    have hdegEq : cnd.numChildren = (cnd.numChildren.toNat : Int) :=
      (Int.toNat_of_nonneg hd0).symm
    have hdegrun : FibHeap.degreeIdx cnd.numChildren =
        .ok cnd.numChildren.toNat := by
      unfold FibHeap.degreeIdx
      rw [if_neg (not_lt.2 hd0)]
    have hlenring : h.ring.length = A.length + 1 + (B ++ U).length := by
      rw [hring]
      simp only [List.length_append, List.length_cons]
      omega
    -- run the while loop (either a no-op on an already-registered tree,
    -- or the merging loop on a fresh one), then absorb the bucket write
    have hcommon : ∃ (h2 : FibHeap) (buckets2 : List (Option Nat))
        (A2 B2 : List RingNode) (currE2 : RingNode) (cnd2 : Node)
        (degree2 : Nat),
        h.consolidate_while buckets currE.rid cnd.numChildren.toNat
          (h.ring.length + 1) = .ok (h2, buckets2, currE2.rid, degree2) ∧
        CoreInv h2 ∧
        h2.ring = A2 ++ currE2 :: (B2 ++ U) ∧
        degree2 < buckets2.length ∧
        BInv h2 (buckets2.set degree2 (some currE2.rid)) ∧
        (∀ e, e ∈ A2 ∨ e ∈ B2 →
          Bucketed h2 (buckets2.set degree2 (some currE2.rid)) e) ∧
        (∀ e ∈ U, Unbucketed (buckets2.set degree2 (some currE2.rid)) e.rid) ∧
        Bucketed h2 (buckets2.set degree2 (some currE2.rid)) currE2 ∧
        h2.ring.length ≤ h.ring.length ∧
        h2.ring.length * (L + 2) + (B2 ++ U).length ≤
          h.ring.length * (L + 2) + (B ++ U).length ∧
        h2.valueMap = h.valueMap ∧ h2.numElems = h.numElems ∧
        h2.nextId = h.nextId ∧ h2.nextRid = h.nextRid ∧
        h2.minRid = h.minRid ∧ h2.nodes.length = h.nodes.length := by
      cases hcurr with
      | inl hbkC =>
        -- already registered: the while loop exits at once
        obtain ⟨nd0, ha0, hnn0, hslot0⟩ := hbkC
        rw [hcnd] at ha0
        have hnd0 := Option.some_inj.1 ha0
        rw [← hnd0] at hslot0
        have hslotC : buckets.get? cnd.numChildren.toNat =
            some (some currE.rid) := hslot0
        have hltC : cnd.numChildren.toNat < buckets.length :=
          (List.get?_eq_some.1 hslotC).1
        have hgetEq : ∀ j,
            (buckets.set cnd.numChildren.toNat (some currE.rid)).get? j =
            buckets.get? j := by
          intro j
          by_cases hj : j = cnd.numChildren.toNat
          · rw [hj, get?_set_self' _ _ _ hltC, hslotC]
          · rw [get?_set_ne' _ _ _ _ (fun hc => hj hc.symm)]
        refine ⟨h, buckets, A, B, currE, cnd, cnd.numChildren.toNat,
          consolidate_while_noop h buckets currE.rid cnd.numChildren.toNat
            (h.ring.length + 1) (by omega) hslotC,
          hCI, hring, hltC, ?_, ?_, ?_, ?_, le_refl _, le_refl _,
          rfl, rfl, rfl, rfl, rfl, rfl⟩
        · constructor
          · rw [List.length_set]
            exact hB.1
          · intro j r hjr
            rw [hgetEq] at hjr
            exact hB.2 j r hjr
        · intro e he
          have hbk : Bucketed h buckets e := by
            cases he with
            | inl h9 => exact hbA e h9
            | inr h9 => exact hbB e h9
          obtain ⟨nde, hae, hnn, hsl⟩ := hbk
          exact ⟨nde, hae, hnn, by rw [hgetEq]; exact hsl⟩
        · intro e he j hj
          rw [hgetEq] at hj
          exact hbU e he j hj
        · exact ⟨cnd, hcnd, hd0, by rw [hgetEq]; exact hslotC⟩
      | inr hunbC =>
        obtain ⟨hunb, hB0⟩ := hunbC
        subst hB0
        obtain ⟨h2, buckets2, A2, B2, currE2, cnd2, degree2, wrun, wCI, wBI,
          wring, wbA, wbB, wbU, wbC, wcnd, wdeg, wslot, wmeas, wstep, wvm,
          wnum, wid, wnrid, wmr, wlen⟩ :=
          consolidate_while_spec (h.ring.length + 1) h buckets A [] U currE
            cnd cnd.numChildren.toNat hCI hB hring hbA
            (fun e he => absurd he (List.not_mem_nil e))
            hbU hunb hcnd hdegEq (by simp only [List.length_nil]; omega)
        have hlt2 : degree2 < buckets2.length :=
          (List.get?_eq_some.1 wslot).1
        have hget3 : ∀ j, j ≠ degree2 →
            (buckets2.set degree2 (some currE2.rid)).get? j =
            buckets2.get? j := by
          intro j hj
          rw [get?_set_ne' _ _ _ _ (fun hc => hj hc.symm)]
        have hget3d : (buckets2.set degree2 (some currE2.rid)).get? degree2 =
            some (some currE2.rid) := get?_set_self' _ _ _ hlt2
        have hmemC2 : currE2 ∈ h2.ring := by
          rw [wring]
          exact List.mem_append.2 (Or.inr (List.mem_cons_self _ _))
        have hndrid2 : (h2.ring.map (fun e => e.rid)).Nodup :=
          (ringOk_parts h2 wCI.2.1).1
        have hlen2ring : h2.ring.length = A2.length + 1 + (B2 ++ U).length := by
          rw [wring]
          simp only [List.length_append, List.length_cons]
          omega
        refine ⟨h2, buckets2, A2, B2, currE2, cnd2, degree2, wrun, wCI,
          wring, hlt2, ?_, ?_, ?_, ?_, ?_, ?_, wvm, wnum, wid, wnrid, wmr,
          wlen⟩
        · constructor
          · rw [List.length_set]
            exact wBI.1
          · intro j r hjr
            by_cases hj : j = degree2
            · rw [hj, hget3d] at hjr
              have hr9 := Option.some_inj.1 (Option.some_inj.1 hjr)
              refine ⟨currE2, cnd2, hmemC2, hr9, wcnd, ?_⟩
              rw [wdeg, ← hj]
            · rw [hget3 j hj] at hjr
              exact wBI.2 j r hjr
        · intro e he
          have hbk : Bucketed h2 buckets2 e := by
            cases he with
            | inl h9 => exact wbA e h9
            | inr h9 => exact wbB e h9
          obtain ⟨nde, hae, hnn, hsl⟩ := hbk
          have hde : nde.numChildren.toNat ≠ degree2 := by
            intro hc
            rw [hc, wslot] at hsl
            cases Option.some_inj.1 hsl
          exact ⟨nde, hae, hnn, by rw [hget3 _ hde]; exact hsl⟩
        · intro e he j hj
          by_cases hjd : j = degree2
          · rw [hjd, hget3d] at hj
            have : e.rid = currE2.rid :=
              (Option.some_inj.1 (Option.some_inj.1 hj)).symm
            -- an unregistered suffix entry cannot be the current tree
            have hmemU2 : e ∈ h2.ring := by
              rw [wring]
              exact List.mem_append.2 (Or.inr (List.mem_cons_of_mem _
                (List.mem_append.2 (Or.inr he))))
            have heq2 : e = currE2 :=
              ring_rid_inj h2 wCI.2.1 e currE2 hmemU2 hmemC2 this
            have hnd2 : (A2 ++ currE2 :: (B2 ++ U)).Nodup := by
              rw [← wring]
              exact List.Nodup.of_map _ hndrid2
            have := (List.nodup_append.1 hnd2).2.1
            rw [List.nodup_cons] at this
            exact this.1 (by rw [← heq2]; exact List.mem_append.2 (Or.inr he))
          · rw [hget3 j hjd] at hj
            exact wbU e he j hj
        · refine ⟨cnd2, wcnd, by rw [wdeg]; positivity, ?_⟩
          rw [wdeg, Int.toNat_natCast]
          exact hget3d
        · simp only [List.length_nil] at wmeas
          cases wstep with
          | inl h9 => omega
          | inr h9 =>
            obtain ⟨hA9, hB9⟩ := h9
            have hB9L : B2.length = 0 := by rw [hB9]; rfl
            have hA9L : A2.length = A.length := by rw [hA9]
            omega
        · simp only [List.length_nil] at wmeas
          cases wstep with
          | inl h9 =>
            have hUle : (B2 ++ U).length = B2.length + U.length := by
              simp
            have hU0 : (([] : List RingNode) ++ U).length = U.length := by
              simp
            rw [hUle, hU0]
            have hyU : ([] ++ U : List RingNode).length = U.length := by simp
            rw [hyU] at hlenring
            have hB2L2 : B2.length ≤ L + 2 := by omega
            calc h2.ring.length * (L + 2) + (B2.length + U.length)
                ≤ h2.ring.length * (L + 2) + ((L + 2) + U.length) :=
                  Nat.add_le_add_left (Nat.add_le_add_right hB2L2 U.length) _
              _ = (h2.ring.length + 1) * (L + 2) + U.length := by ring
              _ ≤ h.ring.length * (L + 2) + U.length :=
                  Nat.add_le_add_right
                    (Nat.mul_le_mul_right (L + 2) (Nat.succ_le_of_lt h9)) _
          | inr h9 =>
            obtain ⟨hA9, hB9⟩ := h9
            have hB9L : B2.length = 0 := by rw [hB9]; rfl
            have hA9L : A2.length = A.length := by rw [hA9]
            have hb9 : h2.ring.length = h.ring.length := by omega
            rw [hb9, hB9]
  -- continue from the post-while state
    obtain ⟨h2, buckets2, A2, B2, currE2, cnd2, degree2, hrunW, hCI2, hring2,
      hlt32, hBI3, hBall, hbU3, hbC3, hm1, hm2, hvm2, hnum2, hid2, hnrid2,
      hmr2, hlen22⟩ := hcommon
    have hndrid2 : (h2.ring.map (fun e => e.rid)).Nodup :=
      (ringOk_parts h2 hCI2.2.1).1
    have hidx2 : h2.ring.findIdx? (fun en => en.rid == currE2.rid) =
        some A2.length := by
      rw [hring2]
      refine rid_findIdx_decomp A2 (B2 ++ U) currE2 ?_
      rw [← hring2]
      exact hndrid2
    have hlen2ring : h2.ring.length = A2.length + 1 + (B2 ++ U).length := by
      rw [hring2]
      simp only [List.length_append, List.length_cons]
      omega
    cases hBU2 : B2 ++ U with
    | nil =>
      -- the walk has returned to the front: every root is registered
      have hring2' : h2.ring = A2 ++ [currE2] := by
        rw [hring2, hBU2]
      have hlen2' : h2.ring.length = A2.length + 1 := by
        rw [hring2']
        simp
      have hmod : (A2.length + 1) % h2.ring.length = 0 := by
        rw [hlen2']
        exact Nat.mod_self _
      -- the front entry
      have hfr : ∃ fr, h2.ring.head? = some fr ∧
          h2.ring.get? 0 = some fr := by
        cases hA2c : A2 with
        | nil =>
          refine ⟨currE2, ?_, ?_⟩
          · rw [hring2', hA2c]
            rfl
          · rw [hring2', hA2c]
            rfl
        | cons a0 t0 =>
          refine ⟨a0, ?_, ?_⟩
          · rw [hring2', hA2c]
            rfl
          · rw [hring2', hA2c]
            rfl
      obtain ⟨fr, hfr1, hfr2⟩ := hfr
      have hnext : FibHeap.cyclicNextRid h2.ring currE2.rid = .ok fr.rid := by
        refine cyclicNextRid_eq h2.ring currE2.rid A2.length fr hidx2 ?_
        rw [hmod]
        exact hfr2
      refine ⟨h2, buckets2.set degree2 (some currE2.rid), ?_, hCI2, hBI3,
        ?_, ?_, hvm2, hnum2, hid2, hnrid2, hmr2, hlen22⟩
      · simp only [FibHeap.consolidate_for]
        rw [getRing_eq_ok h currE.rid currE hfind]
        simp only [eok_bind]
        rw [getNode_eq_ok h currE.root cnd hcnd]
        simp only [eok_bind]
        rw [hdegrun]
        simp only [eok_bind]
        rw [hrunW]
        simp only [eok_bind]
        rw [bucketSet_ok buckets2 degree2 (some currE2.rid) hlt32]
        simp only [eok_bind]
        rw [hnext]
        simp only [eok_bind]
        rw [hfr1]
        simp only []
        rw [if_pos (by simp)]
        rfl
      · intro e he
        rw [hring2'] at he
        cases List.mem_append.1 he with
        | inl h9 => exact hBall e (Or.inl h9)
        | inr h9 =>
          cases h9 with
          | head => exact hbC3
          | tail _ h9 => cases h9
      · rw [hring2']
        intro hc
        cases List.append_eq_nil.1 hc with
        | intro h9 h10 => cases h10
    | cons eN RT =>
      -- the walk continues with the next unprocessed entry
      have hmod : (A2.length + 1) % h2.ring.length = A2.length + 1 := by
        refine Nat.mod_eq_of_lt ?_
        rw [hlen2ring, hBU2]
        simp
      have hgetN : h2.ring.get? (A2.length + 1) = some eN := by
        rw [hring2]
        rw [List.get?_append_right (by omega)]
        have : A2.length + 1 - A2.length = 1 := by omega
        rw [this]
        show (B2 ++ U).get? 0 = some eN
        rw [hBU2]
        rfl
      have hnext : FibHeap.cyclicNextRid h2.ring currE2.rid = .ok eN.rid := by
        refine cyclicNextRid_eq h2.ring currE2.rid A2.length eN hidx2 ?_
        rw [hmod]
        exact hgetN
      have hnd2 : (A2 ++ currE2 :: (B2 ++ U)).Nodup := by
        rw [← hring2]
        exact List.Nodup.of_map _ hndrid2
      have hmemN : eN ∈ B2 ++ U := by
        rw [hBU2]
        exact List.mem_cons_self _ _
      -- the next entry is not the front
      have hfr : ∃ fr, h2.ring.head? = some fr ∧ eN.rid ≠ fr.rid := by
        cases hA2c : A2 with
        | nil =>
          refine ⟨currE2, ?_, ?_⟩
          · rw [hring2, hA2c]
            rfl
          · intro hc
            have hmemN2 : eN ∈ h2.ring := by
              rw [hring2]
              exact List.mem_append.2
                (Or.inr (List.mem_cons_of_mem _ hmemN))
            have hmemC2 : currE2 ∈ h2.ring := by
              rw [hring2]
              exact List.mem_append.2 (Or.inr (List.mem_cons_self _ _))
            have heq2 := ring_rid_inj h2 hCI2.2.1 eN currE2 hmemN2 hmemC2 hc
            have := (List.nodup_append.1 hnd2).2.1
            rw [List.nodup_cons] at this
            exact this.1 (by rw [← heq2]; exact hmemN)
        | cons a0 t0 =>
          refine ⟨a0, ?_, ?_⟩
          · rw [hring2, hA2c]
            rfl
          · intro hc
            have hmemN2 : eN ∈ h2.ring := by
              rw [hring2]
              exact List.mem_append.2
                (Or.inr (List.mem_cons_of_mem _ hmemN))
            have hmema0 : a0 ∈ h2.ring := by
              rw [hring2, hA2c]
              exact List.mem_append.2 (Or.inl (List.mem_cons_self _ _))
            have heq2 := ring_rid_inj h2 hCI2.2.1 eN a0 hmemN2 hmema0 hc
            have hdisj := (List.nodup_append.1 hnd2).2.2
            refine hdisj (a := a0) ?_ ?_
            · rw [hA2c]
              exact List.mem_cons_self _ _
            · rw [← heq2]
              exact List.mem_cons_of_mem _ hmemN
      obtain ⟨fr, hfr1, hfrne⟩ := hfr
      -- apply the induction hypothesis to the advanced state
      have hnextstep : ∃ A3 B3 U3, h2.ring = A3 ++ eN :: (B3 ++ U3) ∧
          (∀ e ∈ A3, Bucketed h2 (buckets2.set degree2 (some currE2.rid)) e) ∧
          (∀ e ∈ B3, Bucketed h2 (buckets2.set degree2 (some currE2.rid)) e) ∧
          (∀ e ∈ U3, Unbucketed (buckets2.set degree2 (some currE2.rid)) e.rid) ∧
          (Bucketed h2 (buckets2.set degree2 (some currE2.rid)) eN ∨
            (Unbucketed (buckets2.set degree2 (some currE2.rid)) eN.rid ∧
              B3 = [])) ∧
          (B3 ++ U3).length + 1 = (B2 ++ U).length := by
        cases hB2c : B2 with
        | nil =>
          rw [hB2c] at hBU2
          simp only [List.nil_append] at hBU2
          refine ⟨A2 ++ [currE2], [], RT, ?_, ?_, ?_, ?_, ?_, ?_⟩
          · rw [hring2, hB2c, hBU2]
            simp [List.append_assoc]
          · intro e he
            cases List.mem_append.1 he with
            | inl h9 => exact hBall e (Or.inl h9)
            | inr h9 =>
              cases h9 with
              | head => exact hbC3
              | tail _ h9 => cases h9
          · intro e he
            cases he
          · intro e he
            refine hbU3 e ?_
            rw [hBU2]
            exact List.mem_cons_of_mem _ he
          · refine Or.inr ⟨?_, rfl⟩
            refine hbU3 eN ?_
            rw [hBU2]
            exact List.mem_cons_self _ _
          · rw [hBU2]
            simp
        | cons b0 Bt =>
          have hb0 : b0 = eN := by
            rw [hB2c] at hBU2
            exact (List.cons_eq_cons.1 hBU2).1
          refine ⟨A2 ++ [currE2], Bt, U, ?_, ?_, ?_, hbU3, ?_, ?_⟩
          · rw [hring2, hB2c, hb0]
            simp [List.append_assoc]
          · intro e he
            cases List.mem_append.1 he with
            | inl h9 => exact hBall e (Or.inl h9)
            | inr h9 =>
              cases h9 with
              | head => exact hbC3
              | tail _ h9 => cases h9
          · intro e he
            refine hBall e (Or.inr ?_)
            rw [hB2c]
            exact List.mem_cons_of_mem _ he
          · refine Or.inl ?_
            refine hBall eN (Or.inr ?_)
            rw [hB2c, hb0]
            exact List.mem_cons_self _ _
          · simp only [List.length_append, List.length_cons]
            omega
      obtain ⟨A3, B3, U3, hring3, hbA3, hbB3, hbU33, hcurr3, hlen3⟩ :=
        hnextstep
      obtain ⟨h', bk2, ihrun, ihCI, ihBI, ihall, ihne, ihvm, ihnum, ihid,
        ihnrid, ihmr, ihlen⟩ :=
        ih L h2 (buckets2.set degree2 (some currE2.rid)) A3 B3 U3 eN hCI2
          hBI3 hring3 hbA3 hbB3 hbU33 hcurr3 (le_trans hm1 hL)
          (by omega)
      refine ⟨h', bk2, ?_, ihCI, ihBI, ihall, ihne, ?_, ?_, ?_, ?_, ?_, ?_⟩
      · simp only [FibHeap.consolidate_for]
        rw [getRing_eq_ok h currE.rid currE hfind]
        simp only [eok_bind]
        rw [getNode_eq_ok h currE.root cnd hcnd]
        simp only [eok_bind]
        rw [hdegrun]
        simp only [eok_bind]
        rw [hrunW]
        simp only [eok_bind]
        rw [bucketSet_ok buckets2 degree2 (some currE2.rid) hlt32]
        simp only [eok_bind]
        rw [hnext]
        simp only [eok_bind]
        rw [hfr1]
        simp only []
        rw [if_neg (by simp only [beq_iff_eq]; exact hfrne)]
        exact ihrun
      · rw [ihvm, hvm2]
      · rw [ihnum, hnum2]
      · rw [ihid, hid2]
      · rw [ihnrid, hnrid2]
      · rw [ihmr, hmr2]
      · rw [ihlen, hlen22]

/-- The final scan of `remove_min`: walking the remaining ring entries,
it returns the id of an entry whose root value is a lower bound of the
root values of the current candidate and all scanned entries. -/
theorem min_scan_go_spec : ∀ (rest : List RingNode) (h : FibHeap)
    (cur : RingNode) (cnd : Node),
    alook h.nodes cur.root = some cnd →
    (∀ e ∈ rest, ∃ nd, alook h.nodes e.root = some nd) →
    ∃ eM ndM, h.min_scan_go cur rest = .ok eM.rid ∧
      (eM = cur ∨ eM ∈ rest) ∧
      alook h.nodes eM.root = some ndM ∧
      ndM.value ≤ cnd.value ∧
      (∀ e nd, e ∈ rest → alook h.nodes e.root = some nd →
        ndM.value ≤ nd.value) := by
  intro rest
  induction rest with
  | nil =>
    intro h cur cnd hc hall
    refine ⟨cur, cnd, rfl, Or.inl rfl, hc, le_refl _, ?_⟩
    intro e nd he
    cases he
  | cons e0 rt ih =>
    intro h cur cnd hc hall
    obtain ⟨nd0, hnd0⟩ := hall e0 (List.mem_cons_self _ _)
    have hallrt : ∀ e ∈ rt, ∃ nd, alook h.nodes e.root = some nd :=
      fun e he => hall e (List.mem_cons_of_mem _ he)
    by_cases hlt : nd0.value < cnd.value
    · obtain ⟨eM, ndM, hrun, hmem, haM, hleM, hallM⟩ := ih h e0 nd0 hnd0 hallrt
      refine ⟨eM, ndM, ?_, ?_, haM, le_trans hleM (le_of_lt hlt), ?_⟩
      · simp only [FibHeap.min_scan_go]
        rw [getNode_eq_ok h e0.root nd0 hnd0, getNode_eq_ok h cur.root cnd hc]
        simp only [eok_bind]
        rw [if_pos hlt]
        exact hrun
      · cases hmem with
        | inl h9 => exact Or.inr (by rw [h9]; exact List.mem_cons_self _ _)
        | inr h9 => exact Or.inr (List.mem_cons_of_mem _ h9)
      · intro e nd he hae
        cases he with
        | head =>
          rw [hnd0] at hae
          rw [← Option.some_inj.1 hae]
          exact hleM
        | tail _ h9 => exact hallM e nd h9 hae
    · obtain ⟨eM, ndM, hrun, hmem, haM, hleM, hallM⟩ := ih h cur cnd hc hallrt
      refine ⟨eM, ndM, ?_, ?_, haM, hleM, ?_⟩
      · simp only [FibHeap.min_scan_go]
        rw [getNode_eq_ok h e0.root nd0 hnd0, getNode_eq_ok h cur.root cnd hc]
        simp only [eok_bind]
        rw [if_neg hlt]
        exact hrun
      · cases hmem with
        | inl h9 => exact Or.inl h9
        | inr h9 => exact Or.inr (List.mem_cons_of_mem _ h9)
      · intro e nd he hae
        cases he with
        | head =>
          rw [hnd0] at hae
          rw [← Option.some_inj.1 hae]
          exact le_trans hleM (not_lt.1 hlt)
        | tail _ h9 => exact hallM e nd h9 hae

theorem alook_map_snd {α β : Type} (f : α → β) (l : List (Nat × α)) (k : Nat) :
    alook (l.map (fun p => (p.1, f p.2))) k = (alook l k).map f := by
  induction l with
  | nil => rfl
  | cons p rest ih =>
    show alook ((p.1, f p.2) :: rest.map _) k = _
    rw [alook_cons, alook_cons]
    by_cases hk : p.1 = k
    · rw [if_pos hk, if_pos hk]
      rfl
    · rw [if_neg hk, if_neg hk]
      exact ih

theorem mapErase_map_snd {α β : Type} (f : α → β) (l : List (Nat × α))
    (k : Nat) :
    mapErase (l.map (fun p => (p.1, f p.2))) k =
      (mapErase l k).map (fun p => (p.1, f p.2)) := by
  unfold mapErase
  induction l with
  | nil => rfl
  | cons p rest ih =>
    show List.filter _ ((p.1, f p.2) :: rest.map _) = _
    rw [List.filter_cons, List.filter_cons]
    cases hbk : (p.1 != k) with
    | false =>
      rw [if_neg (by simp), if_neg (by simp)]
      exact ih
    | true =>
      rw [if_pos rfl, if_pos rfl]
      rw [List.map_cons]
      exact congrArg _ ih

theorem two_mem_length {α : Type} (l : List α) (a b : α) (ha : a ∈ l)
    (hb : b ∈ l) (hne : a ≠ b) : 2 ≤ l.length := by
  cases l with
  | nil => cases ha
  | cons x t =>
    cases t with
    | nil =>
      cases ha with
      | head =>
        cases hb with
        | head => exact absurd rfl hne
        | tail _ h9 => cases h9
      | tail _ h9 => cases h9
    | cons y t2 =>
      simp only [List.length_cons]
      omega

/-- In a promoted state whose extracted minimum has no remaining children,
every other live node lies under some other ring root. -/
theorem promcore_root_other (h1 : FibHeap) (m : Nat) (hP : PromCore h1 m)
    (hnopar : ∀ x xnd, alook h1.nodes x = some xnd → xnd.parent ≠ some m) :
    ∀ k knd, alook h1.nodes k = some knd → k ≠ m →
      ∃ e ∈ h1.ring, e.root ≠ m := by
  have hmain : ∀ d k knd,
      h1.chainDepth (h1.nodes.length + 1) k = some d →
      alook h1.nodes k = some knd → k ≠ m →
      ∃ e ∈ h1.ring, e.root ≠ m := by
    intro d
    induction d using Nat.strong_induction_on with
    | _ d ih =>
      intro k knd hd ha hkm
      cases hp : knd.parent with
      | none =>
        obtain ⟨-, e, he, her⟩ :=
          localOk_root h1 k knd (hP.2.2.2.2.1 (k, knd) (alook_mem _ _ _ ha) hkm) hp
        refine ⟨e, he, ?_⟩
        rw [her]
        exact hkm
      | some p =>
        have hpm : p ≠ m := by
          intro hc
          exact hnopar k knd ha (by rw [hp, hc])
        obtain ⟨pn, hpn, -, -⟩ :=
          localOk_parent h1 k knd p
            (hP.2.2.2.2.1 (k, knd) (alook_mem _ _ _ ha) hkm) hp
        have hstep := chainDepth_succ_parent h1 h1.nodes.length k knd p ha hp
        rw [hd] at hstep
        cases hdp : h1.chainDepth h1.nodes.length p with
        | none =>
          rw [hdp] at hstep
          cases hstep
        | some dp =>
          rw [hdp] at hstep
          have hdd : d = dp + 1 := by simpa using hstep
          have hdp2 : h1.chainDepth (h1.nodes.length + 1) p = some dp :=
            chainDepth_mono h1 h1.nodes.length (h1.nodes.length + 1) p dp hdp
              (by omega)
          exact ih dp (by omega) p pn hdp2 hpn hpm
  intro k knd ha hkm
  have hs := hP.2.2.2.2.2 (k, knd) (alook_mem _ _ _ ha)
  cases hd : h1.chainDepth (h1.nodes.length + 1) k with
  | none => rw [hd] at hs; cases hs
  | some d => exact hmain d k knd hd ha hkm

/-- Relocating `min` after consolidation: the final ring scan finds an
entry whose root value bounds every live value, and installing it as the
new `min` restores the full invariant. -/
theorem relocate_spec (h4 : FibHeap) (hCI4 : CoreInv h4) (hne4 : h4.ring ≠ []) :
    ∃ fr2 eM ndM, h4.ring.head? = some fr2 ∧
      h4.min_scan_go fr2 h4.ring.tail = .ok eM.rid ∧
      eM ∈ h4.ring ∧ alook h4.nodes eM.root = some ndM ∧
      (∀ p ∈ h4.nodes, ndM.value ≤ p.2.value) ∧
      ({ h4 with minRid := some eM.rid } : FibHeap).MInv = true ∧
      ({ h4 with minRid := some eM.rid } : FibHeap).get_min = .ok ndM.value := by
  obtain ⟨r0, rt, hr4⟩ : ∃ r0 rt, h4.ring = r0 :: rt := by
    cases h9 : h4.ring with
    | nil => exact absurd h9 hne4
    | cons a b => exact ⟨a, b, rfl⟩
  · have hmem0 : r0 ∈ h4.ring := by
      rw [hr4]
      exact List.mem_cons_self _ _
    obtain ⟨nd0, hnd0, -⟩ := (ringOk_parts h4 hCI4.2.1).2.2.1 r0 hmem0
    have htail : ∀ e ∈ rt, ∃ nd, alook h4.nodes e.root = some nd := by
      intro e he
      obtain ⟨nd, hnd, -⟩ := (ringOk_parts h4 hCI4.2.1).2.2.1 e
        (by rw [hr4]; exact List.mem_cons_of_mem _ he)
      exact ⟨nd, hnd⟩
    obtain ⟨eM, ndM, hrun, hmem, haM, hle0, hleT⟩ :=
      min_scan_go_spec rt h4 r0 nd0 hnd0 htail
    have hmemM : eM ∈ h4.ring := by
      rw [hr4]
      cases hmem with
      | inl h9 =>
        rw [h9]
        exact List.mem_cons_self _ _
      | inr h9 => exact List.mem_cons_of_mem _ h9
    have hring_lb : ∀ e ∈ h4.ring, ∀ nd, alook h4.nodes e.root = some nd →
        ndM.value ≤ nd.value := by
      intro e he nd hnd
      rw [hr4] at he
      cases he with
      | head =>
        rw [hnd0] at hnd
        rw [← Option.some_inj.1 hnd]
        exact hle0
      | tail _ h9 => exact hleT e nd h9 hnd
    have hlball : ∀ p ∈ h4.nodes, ndM.value ≤ p.2.value := by
      intro p hp
      obtain ⟨e, he, rnd, hrnd, hrle, -⟩ := chain_to_root_core h4 hCI4 p.1 p.2
        (alook_of_mem_nodup _ _ _ (core_nodup h4 hCI4) hp)
      exact le_trans (hring_lb e he rnd hrnd) hrle
    have hfindM : h4.ring.find? (fun en => en.rid == eM.rid) = some eM := by
      obtain ⟨X0, Y0, hXY⟩ := List.append_of_mem hmemM
      rw [hXY]
      refine rid_find_decomp X0 Y0 eM ?_
      rw [← hXY]
      exact (ringOk_parts h4 hCI4.2.1).1
    have hgm5 : ({ h4 with minRid := some eM.rid } : FibHeap).get_min =
        .ok ndM.value := by
      refine (get_min_ok_iff _ ndM.value).2 ?_
      exact ⟨hne4, eM.rid, eM, ndM, rfl, hfindM, haM, rfl⟩
    have hI5 : ({ h4 with minRid := some eM.rid } : FibHeap).Inv = true := by
      refine inv_intro _ hCI4.1 hCI4.2.1 ?_ hCI4.2.2.1 hCI4.2.2.2.1
        hCI4.2.2.2.2.1 ?_
      · exact minPresentOk_intro_nonempty _ eM.rid eM hne4 rfl hmemM rfl
      · intro p hp
        rw [← chainDepth_congr_parent h4 { h4 with minRid := some eM.rid }
          (fun k9 => rfl) _ p.1]
        exact hCI4.2.2.2.2.2 p hp
    have hM5 : ({ h4 with minRid := some eM.rid } : FibHeap).MInv = true := by
      refine minVal_intro _ hI5 ?_
      intro _
      exact ⟨ndM.value, hgm5, hlball⟩
    refine ⟨r0, eM, ndM, by rw [hr4]; rfl, ?_, hmemM, haM, hlball, hM5, hgm5⟩
    rw [hr4]
    exact hrun

theorem valueMap_mapErase (l : List (Nat × Node)) (k : Nat) :
    (mapErase l k).map (fun p => (p.1, p.2.value)) =
      mapErase (l.map (fun p => (p.1, p.2.value))) k :=
  (mapErase_map_snd (fun nd : Node => nd.value) l k).symm

theorem alook_valueMap (l : List (Nat × Node)) (k : Nat) :
    alook (l.map (fun p => (p.1, p.2.value))) k =
      (alook l k).map (fun nd => nd.value) :=
  alook_map_snd (fun nd : Node => nd.value) l k

set_option maxHeartbeats 2000000

/-- Full specification of `FibHeap::remove_min` on a non-empty heap
satisfying the invariant: it returns the recorded minimum, decrements the
count, erases exactly the minimum node from the value map, restores the
invariant, and (when elements remain) leaves a root ring with pairwise
distinct tree degrees. -/
theorem remove_min_spec (h : FibHeap) (hM : h.MInv = true)
    (hne : h.ring ≠ []) :
    ∃ h' v m, h.remove_min = .ok (h', v) ∧
      h.get_min = .ok v ∧
      h'.MInv = true ∧
      h'.numElems = h.numElems - 1 ∧
      alook h.valueMap m = some v ∧
      h'.valueMap = mapErase h.valueMap m ∧
      (∀ p ∈ h.nodes, v ≤ p.2.value) ∧
      h'.nextId = h.nextId ∧
      (h'.ring ≠ [] → h'.ringDegrees.Nodup) := by
  have hI := (minv_parts h hM).1
  have hCI := coreInv_of_inv h hI
  obtain ⟨hA, hR, hO, hS, hL, hCh⟩ := hCI
  have hCI' : CoreInv h := ⟨hA, hR, hO, hS, hL, hCh⟩
  obtain ⟨mv, hgm, hble⟩ := minVal_parts h hM hne
  obtain ⟨-, mrid, me, mnd, hmr, hfme, hamnd, hmv⟩ := (get_min_ok_iff h mv).1 hgm
  have hmemME : me ∈ h.ring := List.mem_of_find?_eq_some hfme
  have hmerid0 : me.rid = mrid := by
    have := List.find?_some hfme
    simpa using this
  obtain ⟨nd9, hnd9, hmparent⟩ := (ringOk_parts h hR).2.2.1 me hmemME
  rw [hamnd] at hnd9
  rw [← Option.some_inj.1 hnd9] at hmparent
  clear hnd9
  obtain ⟨r0x, rtx, hr0x⟩ : ∃ a b, h.ring = a :: b := by
    cases h9 : h.ring with
    | nil => exact absurd h9 hne
    | cons a b => exact ⟨a, b, rfl⟩
  have hEmp : ¬(h.isEmpty = true) := by
    show ¬(h.ring.isEmpty = true)
    rw [hr0x]
    simp
  -- promote the children of the minimum
  have hProm : PromCore h me.root := ⟨hA, hR, hO, hS, fun p hp _ => hL p hp, hCh⟩
  have hLm := hL (me.root, mnd) (alook_mem _ _ _ hamnd)
  have hslots : ∀ c, some c ∈ mnd.children →
      ∃ cnd, alook h.nodes c = some cnd ∧ cnd.parent = some me.root := by
    intro c hc
    obtain ⟨i, hi⟩ := List.get?_of_mem hc
    obtain ⟨cnd, hcnd, hcp, -, -⟩ := localOk_child h me.root mnd hLm i c hi
    exact ⟨cnd, hcnd, hcp⟩
  have hsub : ∀ x xnd, alook h.nodes x = some xnd →
      xnd.parent = some me.root → some x ∈ mnd.children := by
    intro x xnd hax hpx
    obtain ⟨pn, hpn, -, hslot⟩ := localOk_parent h x xnd me.root
      (hL (x, xnd) (alook_mem _ _ _ hax)) hpx
    rw [hamnd] at hpn
    rw [← Option.some_inj.1 hpn] at hslot
    exact List.get?_mem hslot
  have hinj := localOk_slot_inj h me.root mnd hLm
  obtain ⟨h1, hrun1, hP1, hm1, hmr1, hfme1, hgm1, hble1, hnopar1, hvm1,
    hnum1, hid1, hlen1, hmax1, hringsub1⟩ :=
    promote_children_spec mnd.children h me.root mnd mrid me mv hProm hamnd
      hmparent hmr hfme hgm hble hslots hsub hinj
  obtain ⟨hA1, hR1, hO1, hS1, hL1, hCh1⟩ := hP1
  have hP1' : PromCore h1 me.root := ⟨hA1, hR1, hO1, hS1, hL1, hCh1⟩
  have hmemME1 : me ∈ h1.ring := List.mem_of_find?_eq_some hfme1
  obtain ⟨X1, Y1, hXY1⟩ := List.append_of_mem hmemME1
  have hnodup1 : (h1.nodes.map (fun p => p.1)).Nodup := (allocOk_parts h1 hA1).1
  obtain ⟨hrid1, hbnd1, hr31, hr41⟩ := ringOk_parts h1 hR1
  -- unlink the ring node of the minimum
  obtain ⟨h2, hrun2, hroots2, hnodes2, hnum2, hid2b, hnrid2, hmax2, hcase2⟩ :=
    remove_ringnode_spec (FibHeap.mk h1.nodes h1.nextId h1.ring h1.nextRid
      h1.minRid (h1.numElems - 1) h1.maxDegree h1.roots) X1 Y1 me hXY1 hrid1
  rw [hmerid0] at hrun2
  have hO1' : (∀ q ∈ h1.nodes, ∀ p9, q.2.parent = some p9 →
      alook h1.roots q.1 = none) ∧ ∀ q ∈ h1.roots, q.1 < h1.nextId := by
    have hO19 := hO1
    simp only [FibHeap.rootsOk, Bool.and_eq_true, List.all_eq_true,
      decide_eq_true_eq] at hO19
    constructor
    · intro q hq p9 hp9
      have := hO19.1 q hq
      rw [hp9] at this
      simpa using this
    · exact hO19.2
  have hamnd1 : alook h1.nodes me.root = some mnd := hm1
  by_cases hone : h.nodes.length = 1
  · -- the heap held a single element: it empties completely
    have hsingle : h1.nodes = [(me.root, mnd)] := by
      cases hn1 : h1.nodes with
      | nil =>
        rw [hn1] at hamnd1
        cases hamnd1
      | cons p rest =>
        cases rest with
        | nil =>
          rw [hn1, alook_cons] at hamnd1
          by_cases hpk : p.1 = me.root
          · rw [if_pos hpk] at hamnd1
            have hp2 := Option.some_inj.1 hamnd1
            have : p = (me.root, mnd) := by
              cases p
              simp only at hpk hp2
              rw [hpk, hp2]
            rw [this]
          · rw [if_neg hpk] at hamnd1
            cases hamnd1
        | cons p2 rest2 =>
          exfalso
          have := hlen1
          rw [hn1] at this
          simp only [List.length_cons] at this
          omega
    have hring1single : h1.ring = [me] := by
      have hall : ∀ e ∈ h1.ring, e = me := by
        intro e he
        obtain ⟨nd, hnd, -⟩ := hr31 e he
        have hroot : e.root = me.root := by
          rw [hsingle, alook_cons] at hnd
          by_cases hpk : me.root = e.root
          · exact hpk.symm
          · rw [if_neg hpk] at hnd
            cases hnd
        exact ring_root_inj h1 hR1 e me he hmemME1 hroot
      have hnd : h1.ring.Nodup := List.Nodup.of_map _ hrid1
      rw [hXY1] at hnd hall ⊢
      cases hX : X1 with
      | cons x xs =>
        exfalso
        rw [hX] at hnd hall
        have hx : x = me := hall x (List.mem_cons_self _ _)
        rw [List.cons_append, List.nodup_cons] at hnd
        exact hnd.1 (by
          rw [hx]
          exact List.mem_append.2 (Or.inr (List.mem_cons_self _ _)))
      | nil =>
        rw [hX] at hnd hall
        cases hY : Y1 with
        | nil => rfl
        | cons y ys =>
          exfalso
          rw [hY] at hnd hall
          have hy : y = me := hall y (by
            exact List.mem_cons_of_mem _ (List.mem_cons_self _ _))
          simp only [List.nil_append, List.nodup_cons] at hnd
          exact hnd.1 (by rw [← hy]; exact List.mem_cons_self _ _)
    obtain ⟨hlen1ring, hring2nil, hmr2⟩ :=
      hcase2.resolve_right (fun hc => hc.1 (by
        show h1.ring.length = 1
        rw [hring1single]
        rfl))
    have hS1' : h1.numElems = (1 : Int) := by
      rw [hS1, hlen1, hone]
      rfl
    -- the erased arena is empty
    have hnodes3 : mapErase h2.nodes me.root = [] := by
      rw [hnodes2]
      show mapErase h1.nodes me.root = []
      rw [hsingle]
      show List.filter _ [(me.root, mnd)] = []
      rw [List.filter_cons]
      rw [if_neg (by simp)]
      rfl
    have hnum3z : h2.numElems = 0 := by
      rw [hnum2]
      show h1.numElems - 1 = 0
      rw [hS1']
      rfl
    -- the final state and its invariant
    have hmemnil : ∀ p : Nat × Node, p ∈ mapErase h2.nodes me.root → False := by
      intro p hp
      rw [hnodes3] at hp
      cases hp
    refine ⟨{ h2 with nodes := mapErase h2.nodes me.root, ring := [], minRid := none }, mv, me.root, ?_, hgm, ?_, ?_, ?_, ?_, hble, ?_, ?_⟩
    · -- operational run
      simp only [FibHeap.remove_min]
      rw [if_neg hEmp]
      rw [hgm]
      simp only [eok_bind]
      simp only [hmr, eok_bind, epure_def]
      rw [getRing_eq_ok h mrid me hfme]
      simp only [eok_bind]
      rw [getNode_eq_ok h me.root mnd hamnd]
      simp only [eok_bind]
      rw [hrun1]
      simp only [eok_bind]
      rw [hrun2]
      simp only [eok_bind]
      rw [if_pos (by
        show (({ h2 with nodes := mapErase h2.nodes me.root } :
          FibHeap).numElems == 0) = true
        show (h2.numElems == 0) = true
        rw [hnum3z]
        rfl)]
    · -- the empty heap satisfies the invariant
      refine minVal_intro _ ?_ ?_
      · refine inv_intro _ ?_ ?_ ?_ ?_ ?_ ?_ ?_
        · refine allocOk_intro _ ?_ ?_
          · show ((mapErase h2.nodes me.root).map (fun p => p.1)).Nodup
            rw [hnodes3]
            exact List.nodup_nil
          · intro p hp
            exact (hmemnil p hp).elim
        · refine ringOk_intro _ ?_ ?_ ?_ ?_
          · exact List.nodup_nil
          · intro e he
            cases he
          · intro e he
            cases he
          · intro e he
            cases he
        · exact minPresentOk_intro_empty _ rfl rfl
        · refine rootsOk_intro _ ?_ ?_
          · intro q hq
            exact (hmemnil q hq).elim
          · intro q hq
            have hq2 : q ∈ h1.roots := by
              have hq3 : q ∈ mapErase h1.roots me.root := by
                have hq4 : q ∈ h2.roots := hq
                rw [hroots2] at hq4
                exact hq4
              exact (mem_mapErase _ _ _ hq3).1
            show q.1 < h2.nextId
            rw [hid2b]
            exact hO1'.2 q hq2
        · show h2.numElems = ((mapErase h2.nodes me.root).length : Int)
          rw [hnum3z, hnodes3]
          rfl
        · intro p hp
          exact (hmemnil p hp).elim
        · intro p hp
          exact (hmemnil p hp).elim
      · intro hc
        exact absurd rfl hc
    · show h2.numElems = h.numElems - 1
      rw [hnum2]
      show h1.numElems - 1 = h.numElems - 1
      rw [hnum1]
    · show alook (h.nodes.map (fun p => (p.1, p.2.value))) me.root = some mv
      rw [alook_valueMap, hamnd]
      show some mnd.value = some mv
      rw [hmv]
    · show (mapErase h2.nodes me.root).map (fun p => (p.1, p.2.value)) =
        mapErase (h.nodes.map (fun p => (p.1, p.2.value))) me.root
      have hE1 : mapErase h1.nodes me.root = [] := by
        have h9 := hnodes3
        rw [hnodes2] at h9
        exact h9
      have hvm1' : h1.nodes.map (fun p => (p.1, p.2.value)) =
          h.nodes.map (fun p => (p.1, p.2.value)) := hvm1
      rw [hnodes3, ← hvm1', ← valueMap_mapErase, hE1]
    · show h2.nextId = h.nextId
      rw [hid2b]
      show h1.nextId = h.nextId
      exact hid1
    · intro hc
      exact absurd rfl hc
  · -- elements remain: consolidate and relocate the minimum
    have hlen1ge : 2 ≤ h.nodes.length := by
      have h0 : 0 < h.nodes.length :=
        List.length_pos_of_mem (alook_mem _ _ _ hamnd)
      omega
    obtain ⟨q0, hq0mem, hq0ne⟩ : ∃ q0, q0 ∈ h1.nodes ∧ q0.1 ≠ me.root := by
      have hlen9 : (mapErase h1.nodes me.root).length + 1 = h1.nodes.length :=
        length_mapErase_present h1.nodes me.root mnd hnodup1 hamnd1
      have h19 : 1 ≤ (mapErase h1.nodes me.root).length := by omega
      cases hE : mapErase h1.nodes me.root with
      | nil =>
        rw [hE] at h19
        cases h19
      | cons a b =>
        have ha : a ∈ mapErase h1.nodes me.root := by
          rw [hE]
          exact List.mem_cons_self _ _
        obtain ⟨h9, h10⟩ := mem_mapErase _ _ _ ha
        exact ⟨a, h9, h10⟩
    obtain ⟨e2, he2mem, he2root⟩ := promcore_root_other h1 me.root hP1' hnopar1
      q0.1 q0.2 (alook_of_mem_nodup _ _ _ hnodup1 hq0mem) hq0ne
    have he2ne : e2 ≠ me := fun hc => he2root (by rw [hc])
    have hring1ge : 2 ≤ h1.ring.length :=
      two_mem_length _ e2 me he2mem hmemME1 he2ne
    obtain ⟨hlenne1, hring2, hmr2x⟩ := hcase2.resolve_left (fun hc => by
      have h9 : h1.ring.length = 1 := hc.1
      omega)
    -- facts about the erased arena
    have hEq_nodes : ({ h2 with nodes := mapErase h2.nodes me.root } :
        FibHeap).nodes = mapErase h1.nodes me.root := by
      show mapErase h2.nodes me.root = _
      rw [hnodes2]
    have ha3 : ∀ k, k ≠ me.root →
        alook (mapErase h1.nodes me.root) k = alook h1.nodes k :=
      fun k hk => alook_mapErase_ne _ _ _ hk
    have hnodup3 : ((mapErase h1.nodes me.root).map (fun p => p.1)).Nodup :=
      List.Nodup.sublist ((mapErase_sublist _ _).map _) hnodup1
    have hlen3n : (mapErase h1.nodes me.root).length + 1 = h1.nodes.length :=
      length_mapErase_present h1.nodes me.root mnd hnodup1 hamnd1
    have hndr1 : h1.ring.Nodup := List.Nodup.of_map _ hrid1
    have hsubring : ∀ e ∈ X1 ++ Y1, e ∈ h1.ring ∧ e ≠ me := by
      intro e he
      have hmem9 : e ∈ h1.ring := by
        rw [hXY1]
        cases List.mem_append.1 he with
        | inl h9 => exact List.mem_append.2 (Or.inl h9)
        | inr h9 => exact List.mem_append.2 (Or.inr (List.mem_cons_of_mem _ h9))
      refine ⟨hmem9, ?_⟩
      intro hc
      subst hc
      have hnd9 : (X1 ++ e :: Y1).Nodup := by
        rw [← hXY1]
        exact hndr1
      cases List.mem_append.1 he with
      | inl h9 =>
        exact ((List.nodup_append.1 hnd9).2.2 h9) (List.mem_cons_self _ _)
      | inr h9 =>
        have := (List.nodup_append.1 hnd9).2.1
        rw [List.nodup_cons] at this
        exact this.1 h9
    have hrootne3 : ∀ e ∈ X1 ++ Y1, e.root ≠ me.root := by
      intro e he hc
      exact (hsubring e he).2
        (ring_root_inj h1 hR1 e me (hsubring e he).1 hmemME1 hc)
    have hrid3 : ((X1 ++ Y1).map (fun e => e.rid)).Nodup := by
      have hsub : (X1 ++ Y1).Sublist (X1 ++ me :: Y1) :=
        List.Sublist.append_left (List.sublist_cons_self _ _) X1
      refine List.Nodup.sublist (hsub.map _) ?_
      rw [← hXY1]
      exact hrid1
    have hnopar1' : ∀ k nd, alook h1.nodes k = some nd → nd.parent ≠ some me.root :=
      fun k nd ha => hnopar1 k nd ha
    -- the core invariant of the erased state
    have hCI3 : CoreInv ({ h2 with nodes := mapErase h2.nodes me.root } :
        FibHeap) := by
      refine ⟨?_, ?_, ?_, ?_, ?_, ?_⟩
      · refine allocOk_intro _ ?_ ?_
        · rw [hEq_nodes]
          exact hnodup3
        · intro p hp
          rw [hEq_nodes] at hp
          show p.1 < h2.nextId
          rw [hid2b]
          exact (allocOk_parts h1 hA1).2 p (mem_mapErase _ _ _ hp).1
      · refine ringOk_intro _ ?_ ?_ ?_ ?_
        · show ((h2.ring).map (fun e => e.rid)).Nodup
          rw [hring2]
          exact hrid3
        · intro e he
          have he2 : e ∈ X1 ++ Y1 := by
            rw [show ({ h2 with nodes := mapErase h2.nodes me.root } :
              FibHeap).ring = h2.ring from rfl, hring2] at he
            exact he
          show e.rid < h2.nextRid
          rw [hnrid2]
          exact hbnd1 e (hsubring e he2).1
        · intro e he
          have he2 : e ∈ X1 ++ Y1 := by
            rw [show ({ h2 with nodes := mapErase h2.nodes me.root } :
              FibHeap).ring = h2.ring from rfl, hring2] at he
            exact he
          obtain ⟨nd, hnd, hpar⟩ := hr31 e (hsubring e he2).1
          refine ⟨nd, ?_, hpar⟩
          rw [hEq_nodes, ha3 _ (hrootne3 e he2)]
          exact hnd
        · intro e he
          have he2 : e ∈ X1 ++ Y1 := by
            rw [show ({ h2 with nodes := mapErase h2.nodes me.root } :
              FibHeap).ring = h2.ring from rfl, hring2] at he
            exact he
          show alook h2.roots e.root = some (some e.rid)
          rw [hroots2]
          show alook (mapErase h1.roots me.root) e.root = _
          rw [alook_mapErase_ne _ _ _ (hrootne3 e he2)]
          exact hr41 e (hsubring e he2).1
      · refine rootsOk_intro _ ?_ ?_
        · intro q hq p9 hp9
          rw [hEq_nodes] at hq
          obtain ⟨hq1, hqne⟩ := mem_mapErase _ _ _ hq
          show alook h2.roots q.1 = none
          rw [hroots2]
          show alook (mapErase h1.roots me.root) q.1 = none
          rw [alook_mapErase_ne _ _ _ hqne]
          exact hO1'.1 q hq1 p9 hp9
        · intro q hq
          have hq2 : q ∈ mapErase h1.roots me.root := by
            have hq3 : q ∈ h2.roots := hq
            rw [hroots2] at hq3
            exact hq3
          show q.1 < h2.nextId
          rw [hid2b]
          exact hO1'.2 q (mem_mapErase _ _ _ hq2).1
      · show h2.numElems = (((mapErase h2.nodes me.root)).length : Int)
        rw [hnum2, hnodes2]
        show h1.numElems - 1 = ((mapErase h1.nodes me.root).length : Int)
        rw [hS1]
        have h99 := hlen3n
        push_cast
        omega
      · intro q hq
        rw [hEq_nodes] at hq
        obtain ⟨hq1, hqne⟩ := mem_mapErase _ _ _ hq
        have hLq := hL1 q hq1 hqne
        have haq1 : alook h1.nodes q.1 = some q.2 :=
          alook_of_mem_nodup _ _ _ hnodup1 hq1
        refine nodeLocalOk_intro _ q.1 q.2 ?_ (localOk_numChildren h1 q.1 q.2 hLq)
          ?_ ?_ ?_
        · intro i c hslot
          obtain ⟨cnd, hcnd, hcp, hci, hcv⟩ := localOk_child h1 q.1 q.2 hLq i c hslot
          have hcne : c ≠ me.root := by
            intro hc
            rw [hc, hamnd1] at hcnd
            rw [← Option.some_inj.1 hcnd, hmparent] at hcp
            cases hcp
          refine ⟨cnd, ?_, hcp, hci, hcv⟩
          rw [hEq_nodes, ha3 c hcne]
          exact hcnd
        · show q.2.children.length ≤ h2.maxDegree
          rw [hmax2]
          exact localOk_degree_le h1 q.1 q.2 hLq
        · intro hp9
          obtain ⟨hci9, e, he, her⟩ := localOk_root h1 q.1 q.2 hLq hp9
          have hene : e ≠ me := by
            intro hc
            rw [hc] at her
            exact hqne her.symm
          refine ⟨hci9, e, ?_, her⟩
          show e ∈ h2.ring
          rw [hring2]
          refine mem_remove_middle X1 Y1 me e ?_ hene
          rw [← hXY1]
          exact he
        · intro pk hpk
          obtain ⟨pn, hpn, hci9, hslot9⟩ := localOk_parent h1 q.1 q.2 pk hLq hpk
          have hpkne : pk ≠ me.root := by
            intro hc
            exact hnopar1' q.1 q.2 haq1 (by rw [hpk, hc])
          refine ⟨pn, ?_, hci9, hslot9⟩
          rw [hEq_nodes, ha3 pk hpkne]
          exact hpn
      · have hcut9 : ∀ k nd2 p9,
            alook ({ h2 with nodes := mapErase h2.nodes me.root} :
              FibHeap).nodes k = some nd2 → nd2.parent = some p9 →
            ∃ nd1, alook h1.nodes k = some nd1 ∧ nd1.parent = some p9 ∧
              (alook ({ h2 with nodes := mapErase h2.nodes me.root} :
                FibHeap).nodes p9).isSome := by
          intro k nd2 p9 hak hap
          rw [hEq_nodes] at hak
          by_cases hkm : k = me.root
          · rw [hkm, alook_mapErase_self] at hak
            cases hak
          · rw [ha3 k hkm] at hak
            have hp9ne : p9 ≠ me.root := by
              intro hc
              exact hnopar1' k nd2 hak (by rw [hap, hc])
            refine ⟨nd2, hak, hap, ?_⟩
            obtain ⟨pn, hpn, -, -⟩ := localOk_parent h1 k nd2 p9
              (hL1 (k, nd2) (alook_mem _ _ _ hak) hkm) hap
            rw [hEq_nodes, ha3 p9 hp9ne, hpn]
            rfl
        intro q hq
        rw [hEq_nodes] at hq
        obtain ⟨hq1, hqne⟩ := mem_mapErase _ _ _ hq
        have hds := hCh1 q hq1
        cases hd : h1.chainDepth (h1.nodes.length + 1) q.1 with
        | none =>
          rw [hd] at hds
          cases hds
        | some d =>
          have hsome9 : (alook ({ h2 with nodes := mapErase h2.nodes me.root} :
              FibHeap).nodes q.1).isSome := by
            rw [hEq_nodes, ha3 q.1 hqne, alook_of_mem_nodup _ _ _ hnodup1 hq1]
            rfl
          obtain ⟨d2, -, hc2⟩ := chainDepth_parent_cut h1
            ({ h2 with nodes := mapErase h2.nodes me.root } : FibHeap) hcut9
            (h1.nodes.length + 1) q.1 d hd hsome9
          refine chainDepth_norm _ q.1 ?_ (h1.nodes.length + 1) d2 hc2
          rw [hEq_nodes]
          exact hnodup3
    -- the surviving ring is nonempty
    have hlenr3 : (X1 ++ Y1).length + 1 = h1.ring.length := by
      rw [hXY1]
      simp only [List.length_append, List.length_cons]
      omega
    obtain ⟨f0, ft, hring3c⟩ : ∃ a b, X1 ++ Y1 = a :: b := by
      cases h9 : X1 ++ Y1 with
      | nil =>
        exfalso
        rw [h9] at hlenr3
        simp only [List.length_nil] at hlenr3
        omega
      | cons a b => exact ⟨a, b, rfl⟩
    have hne3 : ({ h2 with nodes := mapErase h2.nodes me.root } :
        FibHeap).ring ≠ [] := by
      show h2.ring ≠ []
      rw [hring2, hring3c]
      exact List.cons_ne_nil _ _
    have hheadLIT : h2.ring.head? = some f0 := by
      rw [hring2, hring3c]
      rfl
    have hmemf0 : f0 ∈ ({ h2 with nodes := mapErase h2.nodes me.root } :
        FibHeap).ring := by
      show f0 ∈ h2.ring
      rw [hring2, hring3c]
      exact List.mem_cons_self _ _
    obtain ⟨f0nd, haf0, hf0par⟩ := (ringOk_parts _ hCI3.2.1).2.2.1 f0 hmemf0
    have hLf0 := hCI3.2.2.2.2.1 (f0.root, f0nd) (alook_mem _ _ _ haf0)
    have hd0nn : 0 ≤ f0nd.numChildren := by
      rw [localOk_numChildren _ f0.root f0nd hLf0]
      positivity
    have hdegrun : FibHeap.degreeIdx f0nd.numChildren =
        .ok f0nd.numChildren.toNat := by
      unfold FibHeap.degreeIdx
      rw [if_neg (not_lt.2 hd0nn)]
    have hd0lt : f0nd.numChildren.toNat < h2.maxDegree + 1 := by
      have h9 : f0nd.numChildren.toNat =
          (f0nd.children.filter (fun c => c.isSome)).length := by
        rw [localOk_numChildren _ f0.root f0nd hLf0]
        exact Int.toNat_natCast _
      have h10 : (f0nd.children.filter (fun c => c.isSome)).length ≤
          f0nd.children.length := List.length_filter_le _ _
      have h11 : f0nd.children.length ≤ h2.maxDegree :=
        localOk_degree_le ({ h2 with nodes := mapErase h2.nodes me.root} :
          FibHeap) f0.root f0nd hLf0
      omega
    have hbrun : FibHeap.bucketSet (List.replicate (h2.maxDegree + 1) none)
        f0nd.numChildren.toNat (some f0.rid) =
        .ok ((List.replicate (h2.maxDegree + 1) none).set
          f0nd.numChildren.toNat (some f0.rid)) :=
      bucketSet_ok _ _ _ (by rw [List.length_replicate]; exact hd0lt)
    have hidx0 : h2.ring.findIdx? (fun en => en.rid == f0.rid) = some 0 := by
      rw [hring2, hring3c]
      have h9 := rid_findIdx_decomp [] ft f0 (by
        show (((f0 :: ft)).map (fun e => e.rid)).Nodup
        rw [← hring3c]
        exact hrid3)
      exact h9
    have hnz : ¬((h2.numElems == 0) = true) := by
      simp only [beq_iff_eq]
      have h9 : h2.numElems = (h1.nodes.length : Int) - 1 := by
        rw [hnum2]
        show h1.numElems - 1 = _
        rw [hS1]
      rw [h9, hlen1]
      intro hc
      omega
    -- the value-map conclusion, shared by both endgame branches
    have hvmfinal : ({ h2 with nodes := mapErase h2.nodes me.root} :
        FibHeap).valueMap = mapErase (h.nodes.map (fun p => (p.1, p.2.value)))
          me.root := by
      show (mapErase h2.nodes me.root).map (fun p => (p.1, p.2.value)) = _
      rw [hnodes2, valueMap_mapErase]
      have hvm1' : h1.nodes.map (fun p => (p.1, p.2.value)) =
          h.nodes.map (fun p => (p.1, p.2.value)) := hvm1
      rw [hvm1']
    have havm : alook (h.nodes.map (fun p => (p.1, p.2.value))) me.root =
        some mv := by
      rw [alook_valueMap, hamnd]
      show some mnd.value = some mv
      rw [hmv]
    have hnumfinal : ({ h2 with nodes := mapErase h2.nodes me.root} :
        FibHeap).numElems = h.numElems - 1 := by
      show h2.numElems = _
      rw [hnum2]
      show h1.numElems - 1 = _
      rw [hnum1]
    have hidfinal : ({ h2 with nodes := mapErase h2.nodes me.root} :
        FibHeap).nextId = h.nextId := by
      show h2.nextId = _
      rw [hid2b]
      exact hid1
    cases hft : ft with
    | nil =>
      -- a single root remains: the consolidation loop is skipped
      have hget0 : h2.ring.get? ((0 + 1) % h2.ring.length) = some f0 := by
        rw [hring2, hring3c, hft]
        have h9 : (0 + 1) % [f0].length = 0 := by simp
        rw [h9]
        rfl
      have hnext : FibHeap.cyclicNextRid h2.ring f0.rid = .ok f0.rid :=
        cyclicNextRid_eq h2.ring f0.rid 0 f0 hidx0 hget0
      obtain ⟨fr2, eM, ndM, hhead4, hscan, hmemM, haM, hlb, hM5, hgm5⟩ :=
        relocate_spec ({ h2 with nodes := mapErase h2.nodes me.root} : FibHeap)
          hCI3 hne3
      refine ⟨_, mv, me.root, ?_, hgm, hM5, hnumfinal, havm, hvmfinal, hble,
        hidfinal, ?_⟩
      · -- operational run
        simp only [FibHeap.remove_min]
        rw [if_neg hEmp]
        rw [hgm]
        simp only [eok_bind]
        simp only [hmr, eok_bind, epure_def]
        rw [getRing_eq_ok h mrid me hfme]
        simp only [eok_bind]
        rw [getNode_eq_ok h me.root mnd hamnd]
        simp only [eok_bind]
        rw [hrun1]
        simp only [eok_bind]
        rw [hrun2]
        simp only [eok_bind]
        rw [if_neg hnz]
        simp only [hheadLIT, eok_bind, epure_def]
        rw [getNode_eq_ok ({ h2 with nodes := mapErase h2.nodes me.root} :
          FibHeap) f0.root f0nd haf0]
        simp only [eok_bind]
        rw [hdegrun]
        simp only [eok_bind]
        rw [hbrun]
        simp only [eok_bind]
        rw [hnext]
        simp only [eok_bind]
        rw [if_pos (by simp)]
        have hfr2eq : fr2 = f0 := by
          have h9 := hhead4
          rw [show ({ h2 with nodes := mapErase h2.nodes me.root} :
            FibHeap).ring.head? = h2.ring.head? from rfl, hheadLIT] at h9
          exact (Option.some_inj.1 h9).symm
        rw [← hfr2eq]
        rw [show h2.ring.tail = ({ h2 with nodes := mapErase h2.nodes me.root} :
          FibHeap).ring.tail from rfl]
        rw [hscan]
        simp only [eok_bind]
      · -- a single root: the degree list is trivially duplicate-free
        intro hne5
        show ((({ h2 with nodes := mapErase h2.nodes me.root} :
          FibHeap).ring).map _).Nodup
        rw [hring2, hring3c, hft]
        simp
    | cons e1 ft2 =>
      -- at least two roots: the consolidation loop runs
      have hlen23 : h2.ring.length = ft2.length + 2 := by
        rw [hring2, hring3c, hft]
        simp only [List.length_cons]
      have hget1 : h2.ring.get? ((0 + 1) % h2.ring.length) = some e1 := by
        rw [hring2, hring3c, hft]
        have h9 : (0 + 1) % (f0 :: e1 :: ft2).length = 1 := by
          refine Nat.mod_eq_of_lt ?_
          simp only [List.length_cons]
          omega
        rw [show (f0 :: e1 :: ft2).length = (h2.ring).length from by
          rw [hring2, hring3c, hft], hlen23]
        have h10 : (0 + 1) % (ft2.length + 2) = 1 := Nat.mod_eq_of_lt (by omega)
        rw [h10]
        rfl
      have hnext : FibHeap.cyclicNextRid h2.ring f0.rid = .ok e1.rid :=
        cyclicNextRid_eq h2.ring f0.rid 0 e1 hidx0 hget1
      have hrid3c : ((f0 :: e1 :: ft2).map (fun e => e.rid)).Nodup := by
        rw [← hft, ← hring3c]
        exact hrid3
      have hne10 : e1.rid ≠ f0.rid := by
        intro hc
        rw [List.map_cons, List.nodup_cons] at hrid3c
        exact hrid3c.1 (by
          rw [← hc]
          exact List.mem_map.2 ⟨e1, List.mem_cons_self _ _, rfl⟩)
      -- the consolidation loop invariant holds at entry
      have hBI1 : BInv ({ h2 with nodes := mapErase h2.nodes me.root} : FibHeap)
          ((List.replicate (h2.maxDegree + 1) none).set
            f0nd.numChildren.toNat (some f0.rid)) := by
        constructor
        · rw [List.length_set, List.length_replicate]
        · intro d r hdr
          by_cases hd : d = f0nd.numChildren.toNat
          · rw [hd, get?_set_self' _ _ _ (by
              rw [List.length_replicate]
              exact hd0lt)] at hdr
            have hr9 := Option.some_inj.1 (Option.some_inj.1 hdr)
            refine ⟨f0, f0nd, hmemf0, hr9, haf0, ?_⟩
            rw [hd]
            exact (Int.toNat_of_nonneg hd0nn).symm
          · rw [get?_set_ne' _ _ _ _ (fun hc => hd hc.symm)] at hdr
            exfalso
            by_cases hdl : d < h2.maxDegree + 1
            · rw [List.get?_eq_get (by rw [List.length_replicate]; exact hdl)] at hdr
              have := Option.some_inj.1 hdr
              rw [List.get_replicate] at this
              cases this
            · rw [List.get?_eq_none.2 (by rw [List.length_replicate]; omega)] at hdr
              cases hdr
      have hslotonly : ∀ d r, ((List.replicate (h2.maxDegree + 1) none).set
          f0nd.numChildren.toNat (some f0.rid)).get? d = some (some r) →
          r = f0.rid := by
        intro d r hdr
        by_cases hd : d = f0nd.numChildren.toNat
        · rw [hd, get?_set_self' _ _ _ (by
            rw [List.length_replicate]
            exact hd0lt)] at hdr
          exact (Option.some_inj.1 (Option.some_inj.1 hdr)).symm
        · rw [get?_set_ne' _ _ _ _ (fun hc => hd hc.symm)] at hdr
          exfalso
          by_cases hdl : d < h2.maxDegree + 1
          · rw [List.get?_eq_get (by rw [List.length_replicate]; exact hdl)] at hdr
            have := Option.some_inj.1 hdr
            rw [List.get_replicate] at this
            cases this
          · rw [List.get?_eq_none.2 (by rw [List.length_replicate]; omega)] at hdr
            cases hdr
      have hbuckf0 : Bucketed ({ h2 with nodes := mapErase h2.nodes me.root} :
          FibHeap) ((List.replicate (h2.maxDegree + 1) none).set
            f0nd.numChildren.toNat (some f0.rid)) f0 := by
        refine ⟨f0nd, haf0, hd0nn, ?_⟩
        exact get?_set_self' _ _ _ (by rw [List.length_replicate]; exact hd0lt)
      have hrung : ({ h2 with nodes := mapErase h2.nodes me.root} :
          FibHeap).ring = [f0] ++ e1 :: ([] ++ ft2) := by
        show h2.ring = _
        rw [hring2, hring3c, hft]
        rfl
      have hunbU : ∀ e ∈ ft2, Unbucketed ((List.replicate (h2.maxDegree + 1)
          none).set f0nd.numChildren.toNat (some f0.rid)) e.rid := by
        intro e he d hd
        have hr9 := hslotonly d e.rid hd
        rw [List.map_cons, List.nodup_cons] at hrid3c
        exact hrid3c.1 (by
          rw [← hr9]
          exact List.mem_map.2 ⟨e, List.mem_cons_of_mem _ he, rfl⟩)
      have hunbE1 : Unbucketed ((List.replicate (h2.maxDegree + 1)
          none).set f0nd.numChildren.toNat (some f0.rid)) e1.rid := by
        intro d hd
        exact hne10 (hslotonly d e1.rid hd)
      have hfuelOK : ({ h2 with nodes := mapErase h2.nodes me.root} :
          FibHeap).ring.length * (h2.ring.length + 2) + ([] ++ ft2).length <
          (h2.ring.length + 1) * (h2.ring.length + 2) := by
        show h2.ring.length * (h2.ring.length + 2) + ([] ++ ft2).length < _
        have hexp : (h2.ring.length + 1) * (h2.ring.length + 2) =
            h2.ring.length * (h2.ring.length + 2) + (h2.ring.length + 2) := by
          ring
        rw [hexp]
        refine Nat.add_lt_add_left ?_ _
        simp only [List.nil_append]
        omega
      obtain ⟨h4, bk2, ihrun, ihCI, ihBI, ihall, ihne, ihvm, ihnum, ihid,
        ihnrid, ihmr, ihlen⟩ :=
        consolidate_for_spec ((h2.ring.length + 1) * (h2.ring.length + 2))
          h2.ring.length ({ h2 with nodes := mapErase h2.nodes me.root} :
            FibHeap)
          ((List.replicate (h2.maxDegree + 1) none).set
            f0nd.numChildren.toNat (some f0.rid))
          [f0] [] ft2 e1 hCI3 hBI1 hrung
          (by
            intro e he
            cases he with
            | head => exact hbuckf0
            | tail _ h9 => cases h9)
          (fun e he => absurd he (List.not_mem_nil e))
          hunbU (Or.inr ⟨hunbE1, rfl⟩) (le_refl _) hfuelOK
      obtain ⟨fr2, eM, ndM, hhead4, hscan, hmemM, haM, hlb, hM5, hgm5⟩ :=
        relocate_spec h4 ihCI ihne
      refine ⟨_, mv, me.root, ?_, hgm, hM5, ?_, havm, ?_, hble, ?_, ?_⟩
      · -- operational run
        simp only [FibHeap.remove_min]
        rw [if_neg hEmp]
        rw [hgm]
        simp only [eok_bind]
        simp only [hmr, eok_bind, epure_def]
        rw [getRing_eq_ok h mrid me hfme]
        simp only [eok_bind]
        rw [getNode_eq_ok h me.root mnd hamnd]
        simp only [eok_bind]
        rw [hrun1]
        simp only [eok_bind]
        rw [hrun2]
        simp only [eok_bind]
        rw [if_neg hnz]
        simp only [hheadLIT, eok_bind, epure_def]
        rw [getNode_eq_ok ({ h2 with nodes := mapErase h2.nodes me.root} :
          FibHeap) f0.root f0nd haf0]
        simp only [eok_bind]
        rw [hdegrun]
        simp only [eok_bind]
        rw [hbrun]
        simp only [eok_bind]
        rw [hnext]
        simp only [eok_bind]
        rw [if_neg (by simp only [beq_iff_eq]; exact hne10)]
        rw [ihrun]
        simp only [eok_bind]
        simp only [hhead4, eok_bind, epure_def]
        rw [hscan]
        simp only [eok_bind, epure_def]
      · show h4.numElems = _
        rw [ihnum]
        exact hnumfinal
      · show h4.valueMap = _
        rw [ihvm]
        exact hvmfinal
      · show h4.nextId = _
        rw [ihid]
        exact hidfinal
      · -- distinct root degrees from the bucket registration
        intro hne5
        show ((h4.ring).map (fun e =>
          (alook h4.nodes e.root).map (fun nd => nd.numChildren))).Nodup
        refine List.Nodup.map_on ?_
          (List.Nodup.of_map _ (ringOk_parts h4 ihCI.2.1).1)
        intro x hx y hy hfxy
        obtain ⟨ndx, hax, hnnx, hsx⟩ := ihall x hx
        obtain ⟨ndy, hay, hnny, hsy⟩ := ihall y hy
        rw [hax, hay] at hfxy
        have hnn : ndx.numChildren = ndy.numChildren := by
          simpa using hfxy
        have hsame : ndx.numChildren.toNat = ndy.numChildren.toNat := by
          rw [hnn]
        rw [hsame, hsy] at hsx
        have hr9 : y.rid = x.rid :=
          Option.some_inj.1 (Option.some_inj.1 hsx)
        exact (ring_rid_inj h4 ihCI.2.1 y x hy hx hr9).symm

/-! ### Insertion, deletion and the traversal claims -/


set_option maxHeartbeats 1000000

/-- Specification of `insert` on a heap satisfying the full invariant: it
succeeds, preserves
the invariant, appends the new (handle, value) pair to the value map, and
increments the size and allocator counters. -/
theorem insert_MInv (h : FibHeap) (v : ElemType) (hM : h.MInv = true) :
    ∃ h', h.insert v = .ok (h', h.nextId) ∧ h'.MInv = true ∧
      h'.valueMap = h.valueMap ++ [(h.nextId, v)] ∧
      h'.numElems = h.numElems + 1 ∧
      h'.nextId = h.nextId + 1 ∧
      h'.nodes.length = h.nodes.length + 1 := by
  obtain ⟨hI, -⟩ := minv_parts h hM
  have hC := coreInv_of_inv h hI
  have hfresh : ∀ p ∈ h.nodes, p.1 < h.nextId := (allocOk_parts h hC.1).2
  have hab : alook h.nodes h.nextId = none :=
    alook_eq_none _ _ (fun p hp => Nat.ne_of_lt (hfresh p hp))
  have hRparts := ringOk_parts h hC.2.1
  have hrid : ∀ en ∈ h.ring, en.rid ≠ h.nextRid :=
    fun en he => Nat.ne_of_lt (hRparts.2.1 en he)
  have hnodup := core_nodup h hC
  set nd0 : Node := ({ value := v, loser := false, parent := none, childIndex := -1, children := [], numChildren := 0 } : Node) with hnd0
  set h1 : FibHeap := ({ h with nodes := h.nodes ++ [(h.nextId, nd0)], nextId := h.nextId + 1 } : FibHeap) with hh1
  set newE : RingNode := ({ rid := h.nextRid, root := h.nextId } : RingNode) with hnewE
  have hn1eq : h1.nodes = h.nodes ++ [(h.nextId, nd0)] := rfl
  have hnd1 : alook h1.nodes h.nextId = some nd0 := by
    rw [hn1eq, alook_append, hab]
    simp [alook_cons]
  have hnodup1 : (h1.nodes.map (fun p => p.1)).Nodup := by
    rw [hn1eq, List.map_append]
    simp only [List.map_cons, List.map_nil]
    rw [List.nodup_append]
    refine ⟨hnodup, List.nodup_singleton _, ?_⟩
    intro a ha hb
    rw [List.mem_singleton] at hb
    obtain ⟨p, hp, hpa⟩ := List.mem_map.1 ha
    exact Nat.ne_of_lt (hfresh p hp) (hpa.trans hb)
  have hlookOld : ∀ k nd', alook h.nodes k = some nd' → alook h1.nodes k = some nd' := by
    intro k nd' ha
    rw [hn1eq, alook_append_of_isSome _ _ _ (by simp [ha])]
    exact ha
  have hgmOld : h.ring ≠ [] → ∃ mv, h.get_min = .ok mv ∧ h1.get_min = .ok mv ∧
      ∀ p ∈ h.nodes, mv ≤ p.2.value := by
    intro hne
    obtain ⟨mv, hgm, hble⟩ := minVal_parts h hM hne
    obtain ⟨-, m, e, ndm, hm, hf, hn, hv⟩ := (get_min_ok_iff h mv).1 hgm
    exact ⟨mv, hgm,
      (get_min_ok_iff h1 mv).2 ⟨hne, m, e, ndm, hm, hf, hlookOld _ _ hn, hv⟩, hble⟩
  have hmin1 : h1.ring = [] ∨ ∃ mv, h1.get_min = .ok mv := by
    by_cases hr : h.ring = []
    · exact Or.inl hr
    · obtain ⟨mv, -, hgm1, -⟩ := hgmOld hr
      exact Or.inr ⟨mv, hgm1⟩
  obtain ⟨h2, hrun, hn2, hid2, hnum2, hmax2, hnr2, hroots2, hring2⟩ :=
    add_root_spec h1 h.nextId nd0 hnd1 hrid hmin1
  have hndX : ({ nd0 with loser := false, parent := none, childIndex := -1 } : Node)
      = nd0 := rfl
  rw [hndX] at hn2
  have hn2' : h2.nodes = h1.nodes := by
    rw [hn2]
    exact aset_identity _ _ _ hnodup1 hnd1
  set g : FibHeap := ({ h2 with numElems := h2.numElems + 1 } : FibHeap) with hg
  have hgnodes : g.nodes = h1.nodes := hn2'
  have hglook : ∀ k nd', alook h.nodes k = some nd' → alook g.nodes k = some nd' := by
    intro k nd' ha
    rw [hgnodes]
    exact hlookOld k nd' ha
  have hglookN : alook g.nodes h.nextId = some nd0 := by
    rw [hgnodes]
    exact hnd1
  have hgmax : g.maxDegree = h.maxDegree := hmax2
  have hgnrid : g.nextRid = h.nextRid + 1 := hnr2
  have hgnid : g.nextId = h.nextId + 1 := hid2
  have hgroots : g.roots = mapInsert h.roots h.nextId (some h.nextRid) := hroots2
  have hring2' : (h.ring = [] ∧ g.ring = [newE] ∧ g.minRid = some h.nextRid) ∨
      (∃ j mv, h.get_min = .ok mv ∧ (∀ p ∈ h.nodes, mv ≤ p.2.value) ∧
        g.ring = h.ring.take j ++ newE :: h.ring.drop j ∧
        g.minRid = if nd0.value < mv then some h.nextRid else h.minRid) := by
    cases hring2 with
    | inl hc => exact Or.inl ⟨hc.1, hc.2.1, hc.2.2⟩
    | inr hc =>
      obtain ⟨j, mv, hj1, hjle, hsp, hgm1, hmr⟩ := hc
      have hne : h.ring ≠ [] := by
        intro hz
        rw [show h1.ring = h.ring from rfl, hz] at hjle
        simp at hjle
        omega
      obtain ⟨mv0, hgm0, hgm1', hble⟩ := hgmOld hne
      rw [hgm1] at hgm1'
      have hmveq : mv = mv0 := Except.ok.inj hgm1'
      refine Or.inr ⟨j, mv, ?_, ?_, hsp, hmr⟩
      · rw [hmveq]; exact hgm0
      · rw [hmveq]; exact hble
  have hmemg : ∀ e ∈ h.ring, e ∈ g.ring := by
    cases hring2' with
    | inl hc =>
      intro e he
      rw [hc.1] at he
      cases he
    | inr hc =>
      obtain ⟨j, mv, -, -, hrg, -⟩ := hc
      intro e he
      rw [hrg]
      have h0 : e ∈ h.ring.take j ++ h.ring.drop j := by
        rw [List.take_append_drop]
        exact he
      rcases List.mem_append.1 h0 with hx | hx
      · exact List.mem_append.2 (Or.inl hx)
      · exact List.mem_append.2 (Or.inr (List.mem_cons_of_mem _ hx))
  have hnewEg : newE ∈ g.ring := by
    cases hring2' with
    | inl hc =>
      rw [hc.2.1]
      exact List.mem_singleton.2 rfl
    | inr hc =>
      obtain ⟨j, mv, -, -, hrg, -⟩ := hc
      rw [hrg]
      exact List.mem_append.2 (Or.inr (List.mem_cons_self _ _))
  have hgne : g.ring ≠ [] := by
    intro hz
    rw [hz] at hnewEg
    cases hnewEg
  have hmemg' : ∀ e ∈ g.ring, e ∈ h.ring ∨ e = newE := by
    cases hring2' with
    | inl hc =>
      intro e he
      rw [hc.2.1] at he
      exact Or.inr (List.mem_singleton.1 he)
    | inr hc =>
      obtain ⟨j, mv, -, -, hrg, -⟩ := hc
      intro e he
      rw [hrg] at he
      rcases List.mem_append.1 he with hx | hx
      · exact Or.inl (List.take_subset _ _ hx)
      · rcases List.mem_cons.1 hx with hx2 | hx2
        · exact Or.inr hx2
        · exact Or.inl (List.drop_subset _ _ hx2)
  have hper : List.Perm (g.ring.map (fun e => e.rid))
      (newE.rid :: h.ring.map (fun e => e.rid)) := by
    cases hring2' with
    | inl hc =>
      rw [hc.1, hc.2.1]
      exact List.Perm.refl _
    | inr hc =>
      obtain ⟨j, mv, -, -, hrg, -⟩ := hc
      rw [hrg, List.map_append, List.map_cons]
      have hp1 : List.Perm
          ((h.ring.take j).map (fun e => e.rid)
            ++ newE.rid :: (h.ring.drop j).map (fun e => e.rid))
          (newE.rid :: ((h.ring.take j).map (fun e => e.rid)
            ++ (h.ring.drop j).map (fun e => e.rid))) :=
        @List.perm_middle _ newE.rid ((h.ring.take j).map (fun e => e.rid))
          ((h.ring.drop j).map (fun e => e.rid))
      have hp2 : (h.ring.take j).map (fun e => e.rid)
          ++ (h.ring.drop j).map (fun e => e.rid) = h.ring.map (fun e => e.rid) := by
        rw [← List.map_append, List.take_append_drop]
      rw [hp2] at hp1
      exact hp1
  have hridnodupg : (g.ring.map (fun e => e.rid)).Nodup := by
    rw [hper.nodup_iff, List.nodup_cons]
    refine ⟨?_, hRparts.1⟩
    intro hmem
    obtain ⟨e, he, heq⟩ := List.mem_map.1 hmem
    exact hrid e he heq
  have hmemnodes : ∀ p, p ∈ g.nodes → p ∈ h.nodes ∨ p = (h.nextId, nd0) := by
    intro p hp
    have hpp : p ∈ h.nodes ++ [(h.nextId, nd0)] := by
      rw [← hn1eq, ← hgnodes]
      exact hp
    rcases List.mem_append.1 hpp with hx | hx
    · exact Or.inl hx
    · exact Or.inr (List.mem_singleton.1 hx)
  have hROparts : (∀ q ∈ h.nodes, ∀ p, q.2.parent = some p →
      (alook h.roots q.1).isNone = true) ∧ ∀ q ∈ h.roots, q.1 < h.nextId := by
    have hRO := hC.2.2.1
    simp only [FibHeap.rootsOk, Bool.and_eq_true, List.all_eq_true,
      decide_eq_true_eq] at hRO
    refine ⟨?_, hRO.2⟩
    intro q hq p hp
    have hmq := hRO.1 q hq
    rw [hp] at hmq
    exact hmq
  have hrootsabs : alook h.roots h.nextId = none :=
    alook_eq_none _ _ (fun p hp => Nat.ne_of_lt (hROparts.2 p hp))
  have hringokg : g.ringOk = true := by
    refine ringOk_intro g hridnodupg ?_ ?_ ?_
    · intro e he
      rw [hgnrid]
      rcases hmemg' e he with hx | hx
      · exact Nat.lt_succ_of_lt (hRparts.2.1 e hx)
      · rw [hx]
        exact Nat.lt_succ_self _
    · intro e he
      rcases hmemg' e he with hx | hx
      · obtain ⟨nde, hnde, hpe⟩ := hRparts.2.2.1 e hx
        exact ⟨nde, hglook _ _ hnde, hpe⟩
      · rw [hx]
        exact ⟨nd0, hglookN, rfl⟩
    · intro e he
      rw [hgroots]
      rcases hmemg' e he with hx | hx
      · obtain ⟨nde, hnde, -⟩ := hRparts.2.2.1 e hx
        have hlt : e.root < h.nextId := hfresh _ (alook_mem _ _ _ hnde)
        rw [alook_mapInsert_ne _ _ _ _ (Nat.ne_of_gt hlt)]
        exact hRparts.2.2.2 e hx
      · rw [hx]
        exact alook_mapInsert_self_of_absent _ _ _ hrootsabs
  have hminpresg : g.minPresentOk = true := by
    cases hring2' with
    | inl hc =>
      exact minPresentOk_intro_nonempty g h.nextRid newE hgne hc.2.2 hnewEg rfl
    | inr hc =>
      obtain ⟨j, mv, hgm0, -, -, hmg⟩ := hc
      by_cases hlt : nd0.value < mv
      · rw [if_pos hlt] at hmg
        exact minPresentOk_intro_nonempty g h.nextRid newE hgne hmg hnewEg rfl
      · rw [if_neg hlt] at hmg
        obtain ⟨-, m, e, ndm, hm, hf, hn, hv'⟩ := (get_min_ok_iff h mv).1 hgm0
        have hem : e.rid = m := by
          have hps := List.find?_some hf
          simpa using hps
        exact minPresentOk_intro_nonempty g m e hgne (by rw [hmg]; exact hm)
          (hmemg e (List.mem_of_find?_eq_some hf)) hem
  have hrootsokg : g.rootsOk = true := by
    refine rootsOk_intro g ?_ ?_
    · intro q hq p hp
      rcases hmemnodes q hq with hx | hx
      · have hn0 : alook h.roots q.1 = none :=
          Option.isNone_iff_eq_none.1 (hROparts.1 q hx p hp)
        rw [hgroots, alook_mapInsert_ne _ _ _ _ (Nat.ne_of_gt (hfresh q hx))]
        exact hn0
      · rw [hx] at hp
        cases hp
    · intro q hq
      rw [hgroots] at hq
      rw [hgnid]
      rcases mem_mapInsert _ _ _ _ hq with hx | hx
      · exact Nat.lt_succ_of_lt (hROparts.2 q hx)
      · rw [hx]
        exact Nat.lt_succ_self _
  have hallocg : g.allocOk = true := by
    refine allocOk_intro g ?_ ?_
    · rw [hgnodes]
      exact hnodup1
    · intro p hp
      rw [hgnid]
      rcases hmemnodes p hp with hx | hx
      · exact Nat.lt_succ_of_lt (hfresh p hx)
      · rw [hx]
        exact Nat.lt_succ_self _
  have hgnum : g.numElems = h.numElems + 1 := by
    show h2.numElems + 1 = h.numElems + 1
    rw [hnum2]
  have hglen : g.nodes.length = h.nodes.length + 1 := by
    rw [hgnodes, hn1eq, List.length_append]
    rfl
  have hnumg : g.numElems = (g.nodes.length : Int) := by
    rw [hgnum, hglen, hC.2.2.2.1]
    omega
  have hlocg : ∀ p ∈ g.nodes, g.nodeLocalOk p.1 p.2 = true := by
    intro p hp
    rcases hmemnodes p hp with hx | hx
    · exact nodeLocalOk_mono h g p.1 p.2 hglook hmemg (le_of_eq hgmax.symm)
        (hC.2.2.2.2.1 p hx)
    · rw [hx]
      show g.nodeLocalOk h.nextId nd0 = true
      refine nodeLocalOk_intro g h.nextId nd0 ?_ ?_ ?_ ?_ ?_
      · intro i c hc
        simp [hnd0] at hc
      · simp [hnd0]
      · exact Nat.zero_le _
      · intro _
        exact ⟨rfl, newE, hnewEg, rfl⟩
      · intro p2 hp2
        simp [hnd0] at hp2
  have hchg : ∀ p ∈ g.nodes, (g.chainDepth (g.nodes.length + 1) p.1).isSome = true := by
    intro p hp
    rcases hmemnodes p hp with hx | hx
    · have hs := hC.2.2.2.2.2 p hx
      cases hd : h.chainDepth (h.nodes.length + 1) p.1 with
      | none =>
        rw [hd] at hs
        cases hs
      | some d =>
        have hg1 := chainDepth_congr h g hglook (h.nodes.length + 1) p.1 d hd
        have hg2 := chainDepth_mono g (h.nodes.length + 1) (g.nodes.length + 1) p.1 d
          hg1 (by rw [hglen]; omega)
        rw [hg2]
        rfl
    · rw [hx]
      show (g.chainDepth (g.nodes.length + 1) h.nextId).isSome = true
      have hlen1 : g.nodes.length + 1 = (h.nodes.length + 1) + 1 := by rw [hglen]
      rw [hlen1, chainDepth_succ_root g (h.nodes.length + 1) h.nextId nd0 hglookN rfl]
      rfl
  have hInvg : g.Inv = true :=
    inv_intro g hallocg hringokg hminpresg hrootsokg hnumg hlocg hchg
  have hMg : g.MInv = true := by
    refine minVal_intro g hInvg ?_
    intro _
    cases hring2' with
    | inl hc =>
      have hnodesnil : h.nodes = [] := nodes_nil_of_ring_nil h hI hc.1
      refine ⟨v, (get_min_ok_iff g v).2 ⟨hgne, h.nextRid, newE, nd0, hc.2.2, ?_,
        hglookN, rfl⟩, ?_⟩
      · rw [hc.2.1, List.find?_cons_of_pos _ (by simp [hnewE])]
      · intro p hp
        rcases hmemnodes p hp with hx | hx
        · rw [hnodesnil] at hx
          cases hx
        · rw [hx]
    | inr hc =>
      obtain ⟨j, mv, hgm0, hble, hrg, hmg⟩ := hc
      by_cases hlt : nd0.value < mv
      · rw [if_pos hlt] at hmg
        have hfind : g.ring.find? (fun en => en.rid == h.nextRid) = some newE := by
          have hnone : (h.ring.take j).find? (fun en => en.rid == h.nextRid) = none := by
            refine List.find?_eq_none.2 ?_
            intro a ha
            simpa using hrid a (List.take_subset _ _ ha)
          rw [hrg, List.find?_append, hnone, List.find?_cons_of_pos _ (by simp [hnewE])]
          rfl
        refine ⟨v, (get_min_ok_iff g v).2 ⟨hgne, h.nextRid, newE, nd0, hmg, hfind,
          hglookN, rfl⟩, ?_⟩
        intro p hp
        have hltv : v < mv := hlt
        rcases hmemnodes p hp with hx | hx
        · exact le_of_lt (lt_of_lt_of_le hltv (hble p hx))
        · rw [hx]
      · rw [if_neg hlt] at hmg
        obtain ⟨-, m, e, ndm, hm, hf, hn, hv'⟩ := (get_min_ok_iff h mv).1 hgm0
        have hem : e.rid = m := by
          have hps := List.find?_some hf
          simpa using hps
        have hmR : m ≠ h.nextRid := by
          rw [← hem]
          exact hrid e (List.mem_of_find?_eq_some hf)
        have hxf : (newE.rid == m) = false := by
          simp only [hnewE, beq_eq_false_iff_ne]
          exact Ne.symm hmR
        have hfind : g.ring.find? (fun en => en.rid == m)
            = h.ring.find? (fun en => en.rid == m) := by
          rw [hrg]
          exact find?_splice _ _ _ _ hxf
        refine ⟨mv, (get_min_ok_iff g mv).2 ⟨hgne, m, e, ndm, by rw [hmg]; exact hm,
          by rw [hfind]; exact hf, hglook _ _ hn, hv'⟩, ?_⟩
        intro p hp
        rcases hmemnodes p hp with hx | hx
        · exact hble p hx
        · rw [hx]
          exact le_of_not_lt hlt
  have hins : h.insert v = .ok (g, h.nextId) := by
    show (do
      let (hh, root) := h.newNode v
      let hh ← hh.add_root root
      pure ({ hh with numElems := hh.numElems + 1 }, root)) = _
    rw [show h.newNode v = (h1, h.nextId) from rfl]
    dsimp only
    rw [hrun]
    rfl
  refine ⟨g, hins, hMg, ?_, hgnum, hgnid, hglen⟩
  show g.nodes.map (fun p => (p.1, p.2.value)) = h.valueMap ++ [(h.nextId, v)]
  rw [hgnodes, hn1eq, List.map_append]
  rfl

/-- Erasing a present key from an association list removes exactly one
copy of its value from the multiset of values (stated as a permutation of
the value lists). -/
theorem map_snd_perm_erase {α : Type} (l : List (Nat × α)) (m : Nat) (v : α)
    (hnd : (l.map (fun p => p.1)).Nodup) (ha : alook l m = some v) :
    List.Perm (l.map (fun p => p.2)) (v :: (mapErase l m).map (fun p => p.2)) := by
  induction l with
  | nil => cases ha
  | cons p rest ih =>
    rw [List.map_cons, List.nodup_cons] at hnd
    rw [alook_cons] at ha
    by_cases hk : p.1 = m
    · rw [if_pos hk] at ha
      have hv : p.2 = v := Option.some_inj.1 ha
      have hrest : mapErase (p :: rest) m = rest := by
        show List.filter _ (p :: rest) = rest
        rw [List.filter_cons, if_neg (by simp [hk])]
        refine List.filter_eq_self.2 ?_
        intro q hq
        have hqm : q.1 ≠ m := by
          intro hc
          exact hnd.1 (List.mem_map.2 ⟨q, hq, by rw [hc, hk]⟩)
        simpa using hqm
      rw [List.map_cons, hrest, hv]
    · rw [if_neg hk] at ha
      have hrest : mapErase (p :: rest) m = p :: mapErase rest m := by
        show List.filter _ (p :: rest) = _
        rw [List.filter_cons, if_pos (by simp [hk])]
        rfl
      rw [List.map_cons, hrest, List.map_cons]
      have hih := ih hnd.2 ha
      exact (hih.cons p.2).trans (List.Perm.swap v p.2 _)

/-- The values of the value map are the values of the arena. -/
theorem valueMap_map_snd (h : FibHeap) :
    h.valueMap.map (fun p => p.2) = h.nodes.map (fun p => p.2.value) := by
  show (h.nodes.map (fun p => (p.1, p.2.value))).map (fun p => p.2) = _
  rw [List.map_map]
  rfl

/-- The keys of the value map are the keys of the arena. -/
theorem valueMap_map_fst (h : FibHeap) :
    h.valueMap.map (fun p => p.1) = h.nodes.map (fun p => p.1) := by
  show (h.nodes.map (fun p => (p.1, p.2.value))).map (fun p => p.1) = _
  rw [List.map_map]
  rfl

/-- Value-map surgery lifted to the value multiset: removing the node
`m` (holding `v`) splits off exactly one copy of `v`. -/
theorem vals_perm_of_erase (h h' : FibHeap) (m : Nat) (v : ElemType)
    (hnd : (h.nodes.map (fun p => p.1)).Nodup)
    (ha : alook h.valueMap m = some v)
    (hvm : h'.valueMap = mapErase h.valueMap m) :
    h.vals = v ::ₘ h'.vals := by
  have hndv : (h.valueMap.map (fun p => p.1)).Nodup := by
    rw [valueMap_map_fst h]
    exact hnd
  have hperm := map_snd_perm_erase h.valueMap m v hndv ha
  rw [← hvm] at hperm
  show ((h.nodes.map (fun p => p.2.value) : List ElemType) : Multiset ElemType)
      = v ::ₘ ((h'.nodes.map (fun p => p.2.value) : List ElemType) : Multiset ElemType)
  rw [← valueMap_map_snd h, ← valueMap_map_snd h', Multiset.cons_coe]
  exact Multiset.coe_eq_coe.2 hperm

/-- Bulk insertion from any invariant-satisfying heap: the invariant is
preserved, and the value multiset grows by exactly the inserted list. -/
theorem insertAll_MInv : ∀ (vs : List ElemType) (h : FibHeap), h.MInv = true →
    ∃ h', h.insertAll vs = .ok h' ∧ h'.MInv = true ∧
      h'.vals = h.vals + (vs : Multiset ElemType) ∧
      h'.nodes.length = h.nodes.length + vs.length := by
  intro vs
  induction vs with
  | nil =>
    intro h hM
    exact ⟨h, rfl, hM, by simp, by simp⟩
  | cons v rest ih =>
    intro h hM
    obtain ⟨h1, hins, hM1, hvm1, hnum1, hnid1, hlen1⟩ := insert_MInv h v hM
    obtain ⟨h', hall, hM', hvals', hlen'⟩ := ih h1 hM1
    have h1vals : h1.vals = h.vals + ({v} : Multiset ElemType) := by
      show ((h1.nodes.map (fun p => p.2.value) : List ElemType) : Multiset ElemType) = _
      rw [← valueMap_map_snd h1, hvm1, List.map_append]
      show ((h.valueMap.map (fun p => p.2) ++ [v] : List ElemType) : Multiset ElemType) = _
      rw [← Multiset.coe_add, valueMap_map_snd h]
      rfl
    refine ⟨h', ?_, hM', ?_, ?_⟩
    · show (do
        let (hh, _) ← h.insert v
        hh.insertAll rest) = .ok h'
      rw [hins]
      simp only [eok_bind]
      exact hall
    · rw [hvals', h1vals, add_assoc]
      congr 1
    · rw [hlen', hlen1, List.length_cons]
      omega

/-- Draining an invariant-satisfying heap with enough fuel: every
`remove_min` call succeeds, the extracted list is sorted and carries
exactly the heap's value multiset. -/
theorem extractAll_spec : ∀ (fuel : Nat) (h : FibHeap), h.MInv = true →
    h.nodes.length < fuel →
    ∃ l, h.extractAll fuel = .ok l ∧ l.Sorted (· ≤ ·) ∧
      (l : Multiset ElemType) = h.vals := by
  intro fuel
  induction fuel with
  | zero =>
    intro h hM hlt
    omega
  | succ fuel ih =>
    intro h hM hlt
    by_cases he : h.isEmpty = true
    · have hringnil : h.ring = [] := by
        simpa [FibHeap.isEmpty, List.isEmpty_iff] using he
      have hnodesnil : h.nodes = [] :=
        nodes_nil_of_ring_nil h (minv_parts h hM).1 hringnil
      refine ⟨[], ?_, List.sorted_nil, ?_⟩
      · unfold FibHeap.extractAll
        rw [if_pos he]
        rfl
      · show ((([] : List ElemType)) : Multiset ElemType) = h.vals
        simp [FibHeap.vals, hnodesnil]
    · have hringne : h.ring ≠ [] := by
        simpa [FibHeap.isEmpty, List.isEmpty_iff] using he
      obtain ⟨h', v, m, hrm, hgm, hM', hnum', ham, hvm', hble, hnid', hdeg'⟩ :=
        remove_min_spec h hM hringne
      have hnd := core_nodup h (coreInv_of_inv h (minv_parts h hM).1)
      have hvals : h.vals = v ::ₘ h'.vals := vals_perm_of_erase h h' m v hnd ham hvm'
      have hlen' : h'.nodes.length < fuel := by
        have hndv : (h.valueMap.map (fun p => p.1)).Nodup := by
          rw [valueMap_map_fst h]
          exact hnd
        have hm1 : h'.valueMap.length + 1 = h.valueMap.length := by
          rw [hvm']
          exact length_mapErase_present _ _ _ hndv ham
        simp only [FibHeap.valueMap, List.length_map] at hm1
        omega
      obtain ⟨l, hrest, hsort, hmult⟩ := ih h' hM' hlen'
      refine ⟨v :: l, ?_, ?_, ?_⟩
      · unfold FibHeap.extractAll
        rw [if_neg he]
        rw [hrm]
        simp only [eok_bind]
        rw [hrest]
        simp only [eok_bind, epure_def]
      · refine List.sorted_cons.2 ⟨?_, hsort⟩
        intro b hb
        have hbv : b ∈ h'.vals := by
          rw [← hmult]
          exact Multiset.mem_coe.2 hb
        have hbh : b ∈ h.vals := by
          rw [hvals]
          exact Multiset.mem_cons_of_mem hbv
        have hbl : b ∈ h.nodes.map (fun p => p.2.value) := Multiset.mem_coe.1 hbh
        obtain ⟨p, hp, hpb⟩ := List.mem_map.1 hbl
        rw [← hpb]
        exact hble p hp
      · show (((v :: l : List ElemType)) : Multiset ElemType) = h.vals
        rw [hvals, ← hmult]
        rfl

/-- Updating the entry at `k` and then erasing `k` is the same as erasing
`k` directly. -/
theorem mapErase_aset {α : Type} (l : List (Nat × α)) (k : Nat) (v : α) :
    mapErase (aset l k v) k = mapErase l k := by
  induction l with
  | nil => rfl
  | cons p rest ih =>
    show List.filter _ ((if p.1 == k then (k, v) else p) :: aset rest k v)
      = List.filter _ (p :: rest)
    by_cases hk : p.1 = k
    · rw [if_pos (by simpa using hk), List.filter_cons, List.filter_cons]
      rw [if_neg (by simp), if_neg (by simp [hk])]
      exact ih
    · rw [if_neg (by simpa using hk), List.filter_cons, List.filter_cons]
      rw [if_pos (by simp [hk]), if_pos (by simp [hk])]
      exact congrArg _ ih

/-- Behaviour of `delete_elem` on a valid handle: it runs the decrease-to-sentinel /
extract-min pipeline, both stages succeed, the invariant is preserved,
the count drops by one and exactly the addressed node leaves the value
map. -/
theorem delete_elem_spec (h : FibHeap) (n : Nat) (nd : Node)
    (hM : h.MInv = true) (ha : alook h.nodes n = some nd) :
    ∃ h' mv h1 w, h.get_min = .ok mv ∧
      h.decrease_val (some n) (mv - 1) = .ok h1 ∧
      h1.remove_min = .ok (h', w) ∧
      h.delete_elem (some n) = .ok h' ∧
      h'.MInv = true ∧
      h'.numElems = h.numElems - 1 ∧
      h'.valueMap = mapErase h.valueMap n ∧
      h'.nodes.length + 1 = h.nodes.length := by
  have hI := (minv_parts h hM).1
  have hC := coreInv_of_inv h hI
  have hnodup := core_nodup h hC
  have hne : h.ring ≠ [] := ring_ne_nil_core h hC (by
    intro hc
    rw [hc] at ha
    cases ha)
  obtain ⟨mv, hgm, hble⟩ := minVal_parts h hM hne
  have havm : alook h.valueMap n = some nd.value := by
    show alook (h.nodes.map (fun p => (p.1, p.2.value))) n = _
    rw [alook_valueMap, ha]
    rfl
  have hlt : mv - 1 < nd.value := by
    have hlev : mv ≤ nd.value := hble (n, nd) (alook_mem _ _ _ ha)
    exact lt_of_lt_of_le (sub_one_lt mv) hlev
  obtain ⟨h1, hdec, hM1, hvm1, hnum1, hnid1, hlen1, hmax1⟩ :=
    decrease_val_spec h n nd (mv - 1) hM ha hlt
  have hC1 := coreInv_of_inv h1 (minv_parts h1 hM1).1
  have hn1 : alook h1.valueMap n = some (mv - 1) := by
    rw [hvm1]
    refine alook_aset_self _ _ _ ?_
    rw [havm]
    rfl
  have hnodes1n : ∃ nd1, alook h1.nodes n = some nd1 ∧ nd1.value = mv - 1 := by
    have hq : alook (h1.nodes.map (fun p => (p.1, p.2.value))) n = some (mv - 1) := hn1
    rw [alook_valueMap] at hq
    obtain ⟨nd1, hnd1, hv1⟩ := Option.map_eq_some'.1 hq
    exact ⟨nd1, hnd1, hv1⟩
  obtain ⟨nd1, hand1, hvnd1⟩ := hnodes1n
  have hne1 : h1.ring ≠ [] := ring_ne_nil_core h1 hC1 (by
    intro hc
    rw [hc] at hand1
    cases hand1)
  obtain ⟨h2, w, m, hrm, hgm1, hM2, hnum2, ham2, hvm2, hble2, hnid2, hdeg2⟩ :=
    remove_min_spec h1 hM1 hne1
  have hmn : m = n := by
    by_contra hmn
    have hw : alook h.valueMap m = some w := by
      have ham2' := ham2
      rw [hvm1, alook_aset_ne _ _ _ _ (fun hc => hmn hc.symm)] at ham2'
      exact ham2'
    have hq : alook (h.nodes.map (fun p => (p.1, p.2.value))) m = some w := hw
    rw [alook_valueMap] at hq
    obtain ⟨ndm, hndm, hvwm⟩ := Option.map_eq_some'.1 hq
    have hwlow : mv ≤ w := by
      have hq1 := hble (m, ndm) (alook_mem _ _ _ hndm)
      rw [hvwm] at hq1
      exact hq1
    have hwhigh : w ≤ mv - 1 := by
      have hq2 := hble2 (n, nd1) (alook_mem _ _ _ hand1)
      rw [hvnd1] at hq2
      exact hq2
    exact absurd (le_trans hwlow hwhigh) (not_le.2 (sub_one_lt mv))
  have hvm2' : h2.valueMap = mapErase h.valueMap n := by
    rw [hvm2, hmn, hvm1, mapErase_aset]
  have hop : h.delete_elem (some n) = .ok h2 := by
    show (do
      let mv9 ← h.get_min
      let h9 ← h.decrease_val (some n) (mv9 - 1)
      let (h9, _) ← h9.remove_min
      pure h9) = .ok h2
    rw [hgm]
    simp only [eok_bind]
    rw [hdec]
    simp only [eok_bind]
    rw [hrm]
    simp only [eok_bind, epure_def]
  refine ⟨h2, mv, h1, w, hgm, hdec, hrm, hop, hM2, ?_, hvm2', ?_⟩
  · rw [hnum2, hnum1]
  · have h9 : h2.valueMap.length + 1 = h.valueMap.length := by
      rw [hvm2']
      refine length_mapErase_present _ _ nd.value ?_ havm
      rw [valueMap_map_fst h]
      exact hnodup
    simp only [FibHeap.valueMap, List.length_map] at h9
    exact h9

/-- Invariant preservation of `change_val` on a valid handle, in each of
its three branches (decrease, delete-and-reinsert, no-op). -/
theorem change_val_MInv (h : FibHeap) (n : Nat) (nd : Node) (v : ElemType)
    (hM : h.MInv = true) (ha : alook h.nodes n = some nd) :
    ∃ h' r, h.change_val (some n) v = .ok (h', r) ∧ h'.MInv = true := by
  by_cases hlt : v < nd.value
  · obtain ⟨h1, hdec, hM1, -, -, -, -, -⟩ := decrease_val_spec h n nd v hM ha hlt
    refine ⟨h1, some n, ?_, hM1⟩
    show (do
      let n9 ←
        match (some n : Option Nat) with
        | some n9 => pure n9
        | none => throw Err.ub
      let nd9 ← h.getNode n9
      if v < nd9.value then do
        let h9 ← h.decrease_val (some n9) v
        pure (h9, some n)
      else if v > nd9.value then do
        let h9 ← h.delete_elem (some n9)
        let (h9, newAddr) ← h9.insert v
        pure (h9, some newAddr)
      else pure (h, some n)) = .ok (h1, some n)
    simp only [epure_def, eok_bind]
    rw [getNode_eq_ok h n nd ha]
    simp only [eok_bind]
    rw [if_pos hlt, hdec]
    simp only [eok_bind, epure_def]
  · by_cases hgt : v > nd.value
    · obtain ⟨h1, mv, hmid, w, hgm, hdec, hrm, hdel, hM1, -, -, -⟩ :=
        delete_elem_spec h n nd hM ha
      obtain ⟨h2, hins, hM2, -, -, -, -⟩ := insert_MInv h1 v hM1
      refine ⟨h2, some h1.nextId, ?_, hM2⟩
      show (do
        let n9 ←
          match (some n : Option Nat) with
          | some n9 => pure n9
          | none => throw Err.ub
        let nd9 ← h.getNode n9
        if v < nd9.value then do
          let h9 ← h.decrease_val (some n9) v
          pure (h9, some n)
        else if v > nd9.value then do
          let h9 ← h.delete_elem (some n9)
          let (h9, newAddr) ← h9.insert v
          pure (h9, some newAddr)
        else pure (h, some n)) = .ok (h2, some h1.nextId)
      simp only [epure_def, eok_bind]
      rw [getNode_eq_ok h n nd ha]
      simp only [eok_bind]
      rw [if_neg hlt, if_pos hgt, hdel]
      simp only [eok_bind]
      rw [hins]
      simp only [eok_bind, epure_def]
    · refine ⟨h, some n, ?_, hM⟩
      show (do
        let n9 ←
          match (some n : Option Nat) with
          | some n9 => pure n9
          | none => throw Err.ub
        let nd9 ← h.getNode n9
        if v < nd9.value then do
          let h9 ← h.decrease_val (some n9) v
          pure (h9, some n)
        else if v > nd9.value then do
          let h9 ← h.delete_elem (some n9)
          let (h9, newAddr) ← h9.insert v
          pure (h9, some newAddr)
        else pure (h, some n)) = .ok (h, some n)
      simp only [epure_def, eok_bind]
      rw [getNode_eq_ok h n nd ha]
      simp only [eok_bind]
      rw [if_neg hlt, if_neg hgt]

/-- Heap order follows from the full invariant. -/
theorem heapOrder_of_minv (h : FibHeap) (hM : h.MInv = true) :
    h.heapOrderOk = true :=
  heapOrder_of_core h (coreInv_of_inv h (minv_parts h hM).1)

/-- On a non-empty invariant-satisfying heap, `min` names a live ring
entry whose root holds a globally smallest value. -/
theorem min_entry_of_minv (h : FibHeap) (hM : h.MInv = true) (hne : h.ring ≠ []) :
    ∃ m e ndm, h.minRid = some m ∧ e ∈ h.ring ∧ e.rid = m ∧
      alook h.nodes e.root = some ndm ∧ ∀ p ∈ h.nodes, ndm.value ≤ p.2.value := by
  obtain ⟨mv, hgm, hble⟩ := minVal_parts h hM hne
  obtain ⟨-, m, e, ndm, hm, hf, hn, hv⟩ := (get_min_ok_iff h mv).1 hgm
  have hem : e.rid = m := by
    have hps := List.find?_some hf
    simpa using hps
  refine ⟨m, e, ndm, hm, List.mem_of_find?_eq_some hf, hem, hn, ?_⟩
  intro p hp
  rw [hv]
  exact hble p hp

/-- C1: inserting any finite list of values into a fresh empty heap and
then repeatedly extracting the minimum until the heap is empty succeeds,
returns exactly that multiset of values in non-decreasing order, and each
individual call returns a minimum of the currently live values while
decrementing the size by one. -/
theorem C1_extract_sorted :
    (∀ vs : List ElemType, ∃ h l, FibHeap.mk0.insertAll vs = .ok h ∧
      h.extractAll (vs.length + 1) = .ok l ∧
      l.Sorted (· ≤ ·) ∧ (l : Multiset ElemType) = (vs : Multiset ElemType)) ∧
    (∀ g : FibHeap, g.MInv = true → g.ring ≠ [] →
      ∃ g' v, g.remove_min = .ok (g', v) ∧ g.get_min = .ok v ∧
        (∀ p ∈ g.nodes, v ≤ p.2.value) ∧ g'.numElems = g.numElems - 1) := by
  constructor
  · intro vs
    have hM0 : FibHeap.mk0.MInv = true := by decide
    obtain ⟨h, hall, hM, hvals, hlen⟩ := insertAll_MInv vs FibHeap.mk0 hM0
    have hlen0 : FibHeap.mk0.nodes.length = 0 := rfl
    have hlen2 : h.nodes.length < vs.length + 1 := by
      rw [hlen, hlen0]
      omega
    obtain ⟨l, hext, hsort, hmult⟩ := extractAll_spec (vs.length + 1) h hM hlen2
    refine ⟨h, l, hall, hext, hsort, ?_⟩
    rw [hmult, hvals]
    have hz : FibHeap.mk0.vals = 0 := rfl
    rw [hz, zero_add]
  · intro g hMg hne
    obtain ⟨g', v, m, hrm, hgm, -, hnum', -, -, hble, -, -⟩ :=
      remove_min_spec g hMg hne
    exact ⟨g', v, hrm, hgm, hble, hnum'⟩

/-- C2: after each mutating operation — insert, extract-min,
decrease-key, delete, change and merge (both heaps) — every live node
with a parent has a value at least its parent's (heap order). -/
theorem C2_heap_order_mutators :
    (∀ (h : FibHeap) (v : ElemType), h.MInv = true →
      ∃ h', h.insert v = .ok (h', h.nextId) ∧ h'.heapOrderOk = true) ∧
    (∀ h : FibHeap, h.MInv = true → h.ring ≠ [] →
      ∃ h' v, h.remove_min = .ok (h', v) ∧ h'.heapOrderOk = true) ∧
    (∀ (h : FibHeap) (n : Nat) (nd : Node) (v : ElemType), h.MInv = true →
      alook h.nodes n = some nd → v < nd.value →
      ∃ h', h.decrease_val (some n) v = .ok h' ∧ h'.heapOrderOk = true) ∧
    (∀ (h : FibHeap) (n : Nat) (nd : Node), h.MInv = true →
      alook h.nodes n = some nd →
      ∃ h', h.delete_elem (some n) = .ok h' ∧ h'.heapOrderOk = true) ∧
    (∀ (h : FibHeap) (n : Nat) (nd : Node) (v : ElemType), h.MInv = true →
      alook h.nodes n = some nd →
      ∃ h' r, h.change_val (some n) v = .ok (h', r) ∧ h'.heapOrderOk = true) ∧
    (∀ A B : FibHeap, A.Inv = true → B.Inv = true →
      (∀ k ∈ A.nodes.map (fun p => p.1) ++ A.roots.map (fun p => p.1),
        k ∉ B.nodes.map (fun p => p.1) ++ B.roots.map (fun p => p.1)) →
      (∀ r ∈ A.ring.map (fun e => e.rid), r ∉ B.ring.map (fun e => e.rid)) →
      (A.merge B).1.heapOrderOk = true ∧ (A.merge B).2.heapOrderOk = true) := by
  refine ⟨?_, ?_, ?_, ?_, ?_, ?_⟩
  · intro h v hM
    obtain ⟨h', hins, hM', -, -, -, -⟩ := insert_MInv h v hM
    exact ⟨h', hins, heapOrder_of_minv h' hM'⟩
  · intro h hM hne
    obtain ⟨h', v, m, hrm, -, hM', -, -, -, -, -, -⟩ := remove_min_spec h hM hne
    exact ⟨h', v, hrm, heapOrder_of_minv h' hM'⟩
  · intro h n nd v hM ha hlt
    obtain ⟨h', hdec, hM', -, -, -, -, -⟩ := decrease_val_spec h n nd v hM ha hlt
    exact ⟨h', hdec, heapOrder_of_minv h' hM'⟩
  · intro h n nd hM ha
    obtain ⟨h', mv, h1, w, -, -, -, hop, hM', -, -, -⟩ := delete_elem_spec h n nd hM ha
    exact ⟨h', hop, heapOrder_of_minv h' hM'⟩
  · intro h n nd v hM ha
    obtain ⟨h', r, hop, hM'⟩ := change_val_MInv h n nd v hM ha
    exact ⟨h', r, hop, heapOrder_of_minv h' hM'⟩
  · intro A B hIA hIB hdN0 hdR
    have hdN : ∀ k, (k ∈ A.nodes.map (fun p => p.1) ∨ k ∈ A.roots.map (fun p => p.1)) →
        k ∉ B.nodes.map (fun p => p.1) :=
      fun k hk hc => hdN0 k (List.mem_append.2 hk) (List.mem_append.2 (Or.inl hc))
    have hdN2 : ∀ k ∈ A.nodes.map (fun p => p.1), k ∉ B.roots.map (fun p => p.1) :=
      fun k hk hc => hdN0 k (List.mem_append.2 (Or.inl hk))
        (List.mem_append.2 (Or.inr hc))
    obtain ⟨hA, hB, -, -, -, -⟩ := merge_spec A B hIA hIB hdN hdN2 hdR
    exact ⟨heapOrder_of_core _ (coreInv_of_inv _ hA),
      heapOrder_of_core _ (coreInv_of_inv _ hB)⟩

/-- C3: extract-min on a heap that keeps at least one element afterwards
leaves a root ring whose tree degrees are pairwise distinct, with `min`
naming the ring entry of a root holding a globally smallest live value. -/
theorem C3_post_extract_degrees (h : FibHeap) (hM : h.MInv = true)
    (h2 : 2 ≤ h.nodes.length) :
    ∃ h' v, h.remove_min = .ok (h', v) ∧
      h'.ringDegrees.Nodup ∧
      (∃ m e ndm, h'.minRid = some m ∧ e ∈ h'.ring ∧ e.rid = m ∧
        alook h'.nodes e.root = some ndm ∧
        ∀ p ∈ h'.nodes, ndm.value ≤ p.2.value) := by
  have hI := (minv_parts h hM).1
  have hC := coreInv_of_inv h hI
  have hne : h.ring ≠ [] := ring_ne_nil_core h hC (by
    intro hc
    rw [hc] at h2
    simp at h2)
  obtain ⟨h', v, m, hrm, hgm, hM', hnum', ham, hvm', hble, hnid', hdeg'⟩ :=
    remove_min_spec h hM hne
  have hndv : (h.valueMap.map (fun p => p.1)).Nodup := by
    rw [valueMap_map_fst h]
    exact core_nodup h hC
  have hm1 : h'.valueMap.length + 1 = h.valueMap.length := by
    rw [hvm']
    exact length_mapErase_present _ _ _ hndv ham
  simp only [FibHeap.valueMap, List.length_map] at hm1
  have hne' : h'.ring ≠ [] := by
    refine ring_ne_nil_core h' (coreInv_of_inv h' (minv_parts h' hM').1) ?_
    intro hc
    rw [hc] at hm1
    simp only [List.length_nil] at hm1
    omega
  exact ⟨h', v, hrm, hdeg' hne', min_entry_of_minv h' hM' hne'⟩

/-- C9: `delete` on a valid handle runs decrease-to-a-sentinel (one below
the current minimum) followed by extract-min; the size drops by one, the
addressed node disappears while all other entries keep their values, and
when the deleted value was unique a subsequent `find` reports
not-found. -/
theorem C9_delete_behaviour (h : FibHeap) (n : Nat) (nd : Node)
    (hM : h.MInv = true) (ha : alook h.nodes n = some nd) :
    ∃ h' mv h1 w, h.get_min = .ok mv ∧ mv - 1 < mv ∧
      h.decrease_val (some n) (mv - 1) = .ok h1 ∧
      h1.remove_min = .ok (h', w) ∧
      h.delete_elem (some n) = .ok h' ∧
      h'.numElems = h.numElems - 1 ∧
      alook h'.nodes n = none ∧
      (∀ k, k ≠ n → alook h'.valueMap k = alook h.valueMap k) ∧
      ((∀ p ∈ h.nodes, p.2.value = nd.value → p.1 = n) →
        h'.get_address nd.value = .ok none) := by
  obtain ⟨h', mv, h1, w, hgm, hdec, hrm, hop, hM', hnum', hvm', hlen'⟩ :=
    delete_elem_spec h n nd hM ha
  have hvmn : alook h'.valueMap n = none := by
    rw [hvm']
    exact alook_mapErase_self _ _
  have hnodesn : alook h'.nodes n = none := by
    have hq : alook (h'.nodes.map (fun p => (p.1, p.2.value))) n = none := hvmn
    rw [alook_valueMap] at hq
    exact Option.map_eq_none'.1 hq
  refine ⟨h', mv, h1, w, hgm, sub_one_lt mv, hdec, hrm, hop, hnum', hnodesn, ?_, ?_⟩
  · intro k hk
    rw [hvm']
    exact alook_mapErase_ne _ _ _ hk
  · intro huniq
    obtain ⟨r, hr, hsound, hcomp⟩ :=
      get_address_spec h' (minv_parts h' hM').1 nd.value
    cases r with
    | none => exact hr
    | some x =>
      exfalso
      obtain ⟨ndx, hndx, hvx⟩ := hsound x rfl
      have hxv : alook h'.valueMap x = some nd.value := by
        show alook (h'.nodes.map (fun p => (p.1, p.2.value))) x = _
        rw [alook_valueMap, hndx]
        simp [hvx]
      by_cases hxn : x = n
      · rw [hxn, hvmn] at hxv
        cases hxv
      · rw [hvm', alook_mapErase_ne _ _ _ hxn] at hxv
        have hq : alook (h.nodes.map (fun p => (p.1, p.2.value))) x
            = some nd.value := hxv
        rw [alook_valueMap] at hq
        obtain ⟨ndh, hndh, hvh⟩ := Option.map_eq_some'.1 hq
        exact hxn (huniq (x, ndh) (alook_mem _ _ _ hndh) hvh)

/-- The two-element heap {6, 2} used as C1's evaluation point. -/
def heapW1 : FibHeap :=
  match FibHeap.fromList [6, 2] with
  | .ok hh => hh
  | .error _ => FibHeap.mk0

/-- Witness for C1: the concrete build [3, 1, 2] and one concrete
extract-min call. -/
theorem C1_witness :
    (∃ h l, FibHeap.mk0.insertAll [3, 1, 2] = .ok h ∧
      h.extractAll ([3, 1, 2].length + 1) = .ok l ∧
      l.Sorted (· ≤ ·) ∧
      (l : Multiset ElemType) = (([3, 1, 2] : List ElemType) : Multiset ElemType)) ∧
    (∃ g' v, heapW1.remove_min = .ok (g', v) ∧ heapW1.get_min = .ok v ∧
      (∀ p ∈ heapW1.nodes, v ≤ p.2.value) ∧ g'.numElems = heapW1.numElems - 1) :=
  ⟨C1_extract_sorted.1 [3, 1, 2],
   C1_extract_sorted.2 heapW1 (by decide) (by decide)⟩

/-- The singleton heap {5} used as C2's evaluation point. -/
def heapW2 : FibHeap :=
  match FibHeap.fromList [5] with
  | .ok hh => hh
  | .error _ => FibHeap.mk0

/-- The singleton heap {9} in a disjoint allocator range, C2's merge
donor. -/
def heapW2b : FibHeap :=
  match (do
    let (h1, _) ← (FibHeap.mkAt 50 50).insert 9
    pure h1 : Except Err FibHeap) with
  | .ok hh => hh
  | .error _ => FibHeap.mk0

/-- Witness for C2: each of the six mutators applied at a concrete
heap. -/
theorem C2_witness :
    (∃ h', heapW2.insert 7 = .ok (h', heapW2.nextId) ∧ h'.heapOrderOk = true) ∧
    (∃ h' v, heapW2.remove_min = .ok (h', v) ∧ h'.heapOrderOk = true) ∧
    (∃ h', heapW2.decrease_val (some 0) 3 = .ok h' ∧ h'.heapOrderOk = true) ∧
    (∃ h', heapW2.delete_elem (some 0) = .ok h' ∧ h'.heapOrderOk = true) ∧
    (∃ h' r, heapW2.change_val (some 0) 8 = .ok (h', r) ∧ h'.heapOrderOk = true) ∧
    ((heapW2.merge heapW2b).1.heapOrderOk = true ∧
      (heapW2.merge heapW2b).2.heapOrderOk = true) :=
  ⟨C2_heap_order_mutators.1 heapW2 7 (by decide),
   C2_heap_order_mutators.2.1 heapW2 (by decide) (by decide),
   C2_heap_order_mutators.2.2.1 heapW2 0
     { value := 5, loser := false, parent := none, childIndex := -1,
       children := [], numChildren := 0 } 3 (by decide) (by decide) (by decide),
   C2_heap_order_mutators.2.2.2.1 heapW2 0
     { value := 5, loser := false, parent := none, childIndex := -1,
       children := [], numChildren := 0 } (by decide) (by decide),
   C2_heap_order_mutators.2.2.2.2.1 heapW2 0
     { value := 5, loser := false, parent := none, childIndex := -1,
       children := [], numChildren := 0 } 8 (by decide) (by decide),
   C2_heap_order_mutators.2.2.2.2.2 heapW2 heapW2b (by decide) (by decide)
     (by decide) (by decide)⟩

/-- The two-element heap {10, 4} used as C3's evaluation point. -/
def heapW3 : FibHeap :=
  match FibHeap.fromList [10, 4] with
  | .ok hh => hh
  | .error _ => FibHeap.mk0

/-- Witness for C3 at a concrete two-element heap. -/
theorem C3_witness :
    ∃ h' v, heapW3.remove_min = .ok (h', v) ∧
      h'.ringDegrees.Nodup ∧
      (∃ m e ndm, h'.minRid = some m ∧ e ∈ h'.ring ∧ e.rid = m ∧
        alook h'.nodes e.root = some ndm ∧
        ∀ p ∈ h'.nodes, ndm.value ≤ p.2.value) :=
  C3_post_extract_degrees heapW3 (by decide) (by decide)

/-- The two-element heap {3, 8} used as C9's evaluation point. -/
def heapW9 : FibHeap :=
  match FibHeap.fromList [3, 8] with
  | .ok hh => hh
  | .error _ => FibHeap.mk0

/-- Witness for C9: deleting the handle of 3 from {3, 8}. -/
theorem C9_witness :
    ∃ h' mv h1 w, heapW9.get_min = .ok mv ∧ mv - 1 < mv ∧
      heapW9.decrease_val (some 0) (mv - 1) = .ok h1 ∧
      h1.remove_min = .ok (h', w) ∧
      heapW9.delete_elem (some 0) = .ok h' ∧
      h'.numElems = heapW9.numElems - 1 ∧
      alook h'.nodes 0 = none ∧
      (∀ k, k ≠ 0 → alook h'.valueMap k = alook heapW9.valueMap k) ∧
      ((∀ p ∈ heapW9.nodes, p.2.value = 3 → p.1 = 0) →
        h'.get_address 3 = .ok none) :=
  C9_delete_behaviour heapW9 0
    { value := 3, loser := false, parent := none, childIndex := -1,
      children := [], numChildren := 0 } (by decide) (by decide)

end FibSpec
